import Mathlib

/-!
# DataStructuresLib: a verification development

Shallow embedding of `source/ternary_search_tree.h` (namespace `util`), the
set of strings stored in a ternary search tree, and of `source/hash_map.h`,
`source/min_stack.h`, `source/min_queue.h`, `source/two_three_heap.h` and
`source/bounded_pq.h`, together with the properties proved of them.

Modelling conventions.

* A string (`std::basic_string<Ch, Traits>`) is a `List Ch`.  The alphabet `Ch`
  carries one linear order: `std::char_traits<Ch>::lt`, which `CharComparator`
  uses for the child maps and which, for the default `Traits`, is also the
  order in which strings compare character by character.  Strings are compared
  lexicographically (`<` on `List Ch`).
* `std::map<Ch, Node*, CharComparator>` is an association list kept sorted by
  key (`mapFind`, `mapUpperBound`, `mapAssign`, `mapErase`).
* A `Node` owns its children, so the node graph is a finite tree.  A `Node*`
  is modelled by the address of the node inside that tree: the list of map
  keys followed from the root (`[]` is the root).  `NULL` is `none`.
  `mParent` always points at the owner (`new Node(str[i], curr, false)` is
  stored in `curr->mEqual`), so the parent of address `p` is `p.dropLast`.
  Loops that walk up through `mParent` take the address last key first, so
  that the parent's address is its tail.
* Reading through a pointer is `Node.deref`, writing through one is
  `Node.update`.  Undefined behaviour (a dangling pointer, `back()` of an
  empty deque, dereferencing `begin()` of an empty map) is the result `none`.
* `mSize` is a `Nat`: a tree cannot hold `2^64` distinct words.  A loop index
  of type `size_t` is a natural number (a string has fewer than `2^64`
  characters).  The `int backtrack` of `lower_bound` has 32 bits: its
  initialisation from a `size_t` is `backtrackPasses`.
* Each tree object carries its own tree of nodes as a value, so two objects
  never share a node by construction.  Where sharing is the question (the copy
  constructor), `cloneTree` is translated a second time over a free store of
  cells (`Cell`, `cloneTreeOn`), in which a `Node*` is an index, `new Node`
  appends a cell and the child maps and `mParent` hold pointers;
  `storeHolds` relates a pointer in the store to the tree it is the root of.
* The loops of `std::equal` and `std::lexicographical_compare` inside the
  comparison operators, and the recursion of `cloneTreeOn`, are bounded by a
  number of passes; the theorems show that `size()` passes (a large enough
  number) give the result.

* `insert` is translated a second time with a budget of successful
  allocations (`insertAlloc`): when the budget is used up `new Node` throws
  `std::bad_alloc`, and the result records the fields of the object as the
  exception leaves them.
* A `hash_map` is its vector of buckets (a list of lists of pairs), an iterator
  is a bucket index with a position in the bucket, and a `throw` is the error
  of `Except`.  The key equality and the hash function are fields of the map.
* The deque of a `min_stack` is a list, bottom first; a comparator is a
  function to `Bool`.  `min_queue::front` returns the queue as well, because
  it moves elements between the `mutable` stacks.
* In `two_three_heap` a `size_t` has 64 bits: sums, differences and products
  of indices are taken modulo `2^64` (`addSize`, `subSize`, `mulSize`), and the
  theorems show that they never wrap for sizes up to `kMaxSize`.  `mLeafLevel`
  and the loop variable `row` are integers, and `mElems.max_size()` is a
  parameter.  A read outside `kRowIndices` or outside the vector, and a failed
  `assert`, give `none`.
* A `BoundedPQueue` (declared outside the namespace `util`) is the list of the
  pairs of its multimap in iteration order, with the comparator object of the
  multimap; a call of the comparator on two keys (`double`) converts them to
  the type of its parameters first.

The file has three parts: the operations of the classes, translated function
by function; the vocabulary of the specification (the invariants, the ordered
list of words, the recursive descriptions `insertNode` and `eraseNode` of what
the two mutating loops compute); and the theorems.
-/

set_option linter.unusedSectionVars false

namespace util

/-! ## `std::map<Ch, V, CharComparator>` -/

section CharMap

variable {Ch : Type} [LinearOrder Ch] {V : Type}

/-- The call `m.find(k)`: the mapped value, with `none` for `m.end()`. -/
def mapFind : List (Ch × V) → Ch → Option V
  | [], _ => none
  | (k', v) :: rest, k => if k' = k then some v else mapFind rest k

/-- The call `m.upper_bound(k)`: the first entry whose key is strictly greater
than `k`, with `none` for `m.end()`. -/
def mapUpperBound : List (Ch × V) → Ch → Option (Ch × V)
  | [], _ => none
  | (k', v) :: rest, k => if k < k' then some (k', v) else mapUpperBound rest k

/-- The assignment `m[k] = v`: replaces the value stored under `k`, or inserts
a new entry at its place in key order. -/
def mapAssign : List (Ch × V) → Ch → V → List (Ch × V)
  | [], k, v => [(k, v)]
  | (k', v') :: rest, k, v =>
    if k < k' then (k, v) :: (k', v') :: rest
    else if k' < k then (k', v') :: mapAssign rest k v
    else (k', v) :: rest

/-- The call `m.erase(k)`. -/
def mapErase : List (Ch × V) → Ch → List (Ch × V)
  | [], _ => []
  | (k', v') :: rest, k => if k' = k then rest else (k', v') :: mapErase rest k

end CharMap

/-! ## Nodes, trees and cursors -/

/-- The struct `Node`: `mLetter`, `mIsWord` and the child map `mEqual`
(`mParent` is the owner, see the header). -/
inductive Node (Ch : Type) where
  | mk (mLetter : Ch) (mIsWord : Bool) (mEqual : List (Ch × Node Ch)) : Node Ch

namespace Node

variable {Ch : Type}

/-- Field `mLetter`. -/
def mLetter : Node Ch → Ch
  | mk l _ _ => l

/-- Field `mIsWord`. -/
def mIsWord : Node Ch → Bool
  | mk _ w _ => w

/-- Field `mEqual`. -/
def mEqual : Node Ch → List (Ch × Node Ch)
  | mk _ _ eq => eq

end Node

/-- The class `ternary_search_tree`: `mRoot` (`none` is `NULL`) and `mSize`. -/
structure ternary_search_tree (Ch : Type) where
  mRoot : Option (Node Ch)
  mSize : Nat

/-- The class `const_iterator`: the stack `mTrace` of node pointers (bottom
first) and the cached string `mString`.  The field `mTST` is not modelled: all
cursors compared in this development belong to the tree under consideration. -/
structure const_iterator (Ch : Type) where
  mTrace : List (List Ch)
  mString : List Ch

section Operations

variable {Ch : Type} [LinearOrder Ch]

/-- The node reached from `n` by following the keys of `p`. -/
def Node.deref : Node Ch → List Ch → Option (Node Ch)
  | n, [] => some n
  | Node.mk _ _ eq, c :: cs =>
    match mapFind eq c with
    | none => none
    | some ch => Node.deref ch cs

/-- Reading the node a pointer designates. -/
def ternary_search_tree.deref (t : ternary_search_tree Ch) (p : List Ch) : Option (Node Ch) :=
  match t.mRoot with
  | none => none
  | some root => root.deref p

/-- The field `mParent` of the node at address `p`. -/
def mParent (p : List Ch) : Option (List Ch) :=
  if p = [] then none else some p.dropLast

/-- Second loop of `const_iterator(tst, where)`: appends `mTrace[i]->mLetter`
for each given frame. -/
def lettersOf (t : ternary_search_tree Ch) : List (List Ch) → Option (List Ch)
  | [] => some []
  | p :: ps =>
    match t.deref p, lettersOf t ps with
    | some n, some s => some (n.mLetter :: s)
    | _, _ => none

/-- First loop of `const_iterator(tst, where)`:
`for (curr = where; curr != NULL; curr = curr->mParent) mTrace.push_front(curr);`.
The address of `curr` is given last key first, so that its tail is the address
of `curr->mParent`; the second argument is the deque built so far. -/
def pushFrontLoop : List Ch → List (List Ch) → List (List Ch)
  | [], acc => [] :: acc
  | c :: prev, acc => pushFrontLoop prev ((c :: prev).reverse :: acc)

/-- The constructor `const_iterator(tst, where)`: the trace is filled by
walking up from `where`, and the string is built from the letters of every
frame but the first (the root). -/
def const_iterator.make (t : ternary_search_tree Ch) :
    Option (List Ch) → Option (const_iterator Ch)
  | none => some ⟨[], []⟩
  | some p =>
    match lettersOf t (pushFrontLoop p.reverse []).tail with
    | none => none
    | some s => some ⟨pushFrontLoop p.reverse [], s⟩

/-- Member `operator==` of `const_iterator`: the traces are compared. -/
def const_iterator.eq (a b : const_iterator Ch) : Bool :=
  decide (a.mTrace = b.mTrace)

/-- Member `operator*` of `const_iterator`. -/
def const_iterator.star (a : const_iterator Ch) : List Ch :=
  a.mString

/-- The default constructor. -/
def ternary_search_tree.empty : ternary_search_tree Ch :=
  ⟨none, 0⟩

/-- Member `end()`: `const_iterator(this, NULL)`. -/
def ternary_search_tree.end_ (_t : ternary_search_tree Ch) : const_iterator Ch :=
  ⟨[], []⟩

/-- Member `size()`. -/
def ternary_search_tree.size (t : ternary_search_tree Ch) : Nat :=
  t.mSize

/-- The loop of `firstWordIn`, started at the node `n` whose address is `p`:
takes the first child until a word is reached. -/
def firstWordLoop : Node Ch → List Ch → Option (List Ch)
  | Node.mk _ w eq, p =>
    if w then some p
    else
      match eq with
      | [] => none
      | (k, ch) :: _ => firstWordLoop ch (p ++ [k])

/-- Static member `firstWordIn(Node* root)`. -/
def ternary_search_tree.firstWordIn (t : ternary_search_tree Ch) :
    Option (List Ch) → Option (Option (List Ch))
  | none => some none
  | some p =>
    match t.deref p with
    | none => none
    | some n =>
      match firstWordLoop n p with
      | none => none
      | some q => some (some q)

/-- The pointer `mRoot`. -/
def ternary_search_tree.rootPtr (t : ternary_search_tree Ch) : Option (List Ch) :=
  match t.mRoot with
  | none => none
  | some _ => some []

/-- Member `begin()`. -/
def ternary_search_tree.begin (t : ternary_search_tree Ch) : Option (const_iterator Ch) :=
  match t.firstWordIn t.rootPtr with
  | none => none
  | some w => const_iterator.make t w

/-- The loop of `find`: `curr` is the current node pointer, the last argument
the characters still to read. -/
def findLoop (t : ternary_search_tree Ch) : List Ch → List Ch → Option (const_iterator Ch)
  | curr, [] =>
    match t.deref curr with
    | none => none
    | some n => if n.mIsWord then const_iterator.make t (some curr) else some t.end_
  | curr, c :: rest =>
    match t.deref curr with
    | none => none
    | some n =>
      match mapFind n.mEqual c with
      | none => some t.end_
      | some _ => findLoop t (curr ++ [c]) rest

/-- Member `find(str)`. -/
def ternary_search_tree.find (t : ternary_search_tree Ch) (str : List Ch) :
    Option (const_iterator Ch) :=
  match t.mRoot with
  | none => some t.end_
  | some _ => findLoop t [] str

/-- The final loop of `operator++`: while the top frame is not a word, push
its first child (the node `n` is the top frame, `back` its address). -/
def descendLoop : Node Ch → List Ch → List (List Ch) → List Ch →
    Option (List (List Ch) × List Ch)
  | Node.mk _ w eq, back, tr, s =>
    if w then some (tr, s)
    else
      match eq with
      | [] => none
      | (k, ch) :: _ => descendLoop ch (back ++ [k]) (tr ++ [back ++ [k]]) (s ++ [k])

/-- The final loop of `operator++` run on a cursor. -/
def descend (t : ternary_search_tree Ch) (tr : List (List Ch)) (s : List Ch) :
    Option (const_iterator Ch) :=
  match tr.getLast? with
  | none => none
  | some back =>
    match t.deref back with
    | none => none
    | some n =>
      match descendLoop n back tr s with
      | none => none
      | some r => some ⟨r.1, r.2⟩

/-- The `while (true)` loop of `operator++`, on the stack given top first.
Each pass reads the letter of the top frame and pops it; an emptied stack
ends the traversal (`true`), otherwise the last character of the string is
dropped and the next sibling is looked up in the new top frame. -/
def unwindLoop (t : ternary_search_tree Ch) : List (List Ch) → List Ch →
    Option (List (List Ch) × List Ch × Bool)
  | [], _ => none
  | top :: below, s =>
    match t.deref top with
    | none => none
    | some n =>
      let lastChar := n.mLetter
      match below with
      | [] => some ([], s, true)
      | back :: _ =>
        match t.deref back with
        | none => none
        | some m =>
          match mapUpperBound m.mEqual lastChar with
          | some (k, _) => some ((back ++ [k]) :: below, s.dropLast ++ [k], false)
          | none => unwindLoop t below s.dropLast

/-- Member `operator++` (prefix) of `const_iterator`. -/
def ternary_search_tree.increment (t : ternary_search_tree Ch) (it : const_iterator Ch) :
    Option (const_iterator Ch) :=
  match it.mTrace.getLast? with
  | none => none
  | some back =>
    match t.deref back with
    | none => none
    | some n =>
      match n.mEqual with
      | (k, _) :: _ => descend t (it.mTrace ++ [back ++ [k]]) (it.mString ++ [k])
      | [] =>
        match unwindLoop t it.mTrace.reverse it.mString with
        | none => none
        | some (tr, s, true) => some ⟨tr.reverse, s⟩
        | some (tr, s, false) => descend t tr.reverse s

/-- Writing through a pointer: the tree in which the node at address `p` has
been replaced by `f` of it.  The map entry that owns the node stays in place,
only the node it points to changes.  Nothing changes when no node has the
address. -/
def Node.update : Node Ch → List Ch → (Node Ch → Node Ch) → Node Ch
  | n, [], f => f n
  | Node.mk l w eq, c :: cs, f =>
    match mapFind eq c with
    | none => Node.mk l w eq
    | some ch => Node.mk l w (mapAssign eq c (Node.update ch cs f))

/-- One pass of the `for` loop of `insert`, as the change made to the node
`curr`: `next = curr->mEqual[c]`, and when that is null
`curr->mEqual[c] = new Node(c, curr, false)`. -/
def stepInto (c : Ch) (n : Node Ch) : Node Ch :=
  match mapFind n.mEqual c with
  | some _ => n
  | none => Node.mk n.mLetter n.mIsWord (mapAssign n.mEqual c (Node.mk c false []))

/-- The `for` loop of `insert`: `root` is the tree, `curr` the current node
pointer, the last argument the characters still to read.  Each pass makes
sure the child exists and moves into it (`curr = next`).  Returns the tree
and the final `curr`. -/
def insertLoop : Node Ch → List Ch → List Ch → Node Ch × List Ch
  | root, curr, [] => (root, curr)
  | root, curr, c :: rest => insertLoop (root.update curr (stepInto c)) (curr ++ [c]) rest

/-- The statement `if (!mRoot) mRoot = new Node(Ch(), NULL, false);` of
`insert`: the root node afterwards. -/
def ternary_search_tree.ensureRoot [Inhabited Ch] (t : ternary_search_tree Ch) : Node Ch :=
  match t.mRoot with
  | none => Node.mk default false []
  | some r => r

/-- Member `insert(str)`: after the loop, `if (curr->mIsWord)` the cursor of
`curr` is returned with `false`; otherwise `curr->mIsWord = true`, `++mSize`,
and the cursor of `curr` is returned with `true`. -/
def ternary_search_tree.insert [Inhabited Ch] (t : ternary_search_tree Ch) (str : List Ch) :
    Option ((const_iterator Ch × Bool) × ternary_search_tree Ch) :=
  let r := insertLoop t.ensureRoot [] str
  match r.1.deref r.2 with
  | none => none
  | some n =>
    if n.mIsWord then
      match const_iterator.make ⟨some r.1, t.mSize⟩ (some r.2) with
      | none => none
      | some it => some ((it, false), ⟨some r.1, t.mSize⟩)
    else
      let t' : ternary_search_tree Ch :=
        ⟨some (r.1.update r.2 (fun m => Node.mk m.mLetter true m.mEqual)), t.mSize + 1⟩
      match const_iterator.make t' (some r.2) with
      | none => none
      | some it => some ((it, true), t')

/-- The cleanup loop of `erase(const_iterator)`:
`while (curr && curr->mEqual.empty() && !curr->mIsWord)`.  The address of
`curr` is given last key first, so that its tail is the address of
`curr->mParent`.  A pass removes `curr` from the tree: `mRoot = NULL` when it
has no parent, `curr->mParent->mEqual.erase(curr->mLetter)` otherwise; then
`curr = curr->mParent`.  The result is the new `mRoot`. -/
def cleanupLoop : Node Ch → List Ch → Option (Option (Node Ch))
  | root, [] =>
    if root.mEqual.isEmpty && !root.mIsWord then some none else some (some root)
  | root, c :: prev =>
    match root.deref (c :: prev).reverse with
    | none => none
    | some n =>
      if n.mEqual.isEmpty && !n.mIsWord then
        cleanupLoop
          (root.update prev.reverse
            (fun par => Node.mk par.mLetter par.mIsWord (mapErase par.mEqual n.mLetter)))
          prev
      else some (some root)

/-- Member `erase(const_iterator where)`: `curr = where.mTrace.back()`,
`++where`, `--mSize`, `curr->mIsWord = false`, the cleanup loop, and the
advanced cursor is returned. -/
def ternary_search_tree.eraseAt (t : ternary_search_tree Ch) (it : const_iterator Ch) :
    Option (const_iterator Ch × ternary_search_tree Ch) :=
  match it.mTrace.getLast? with
  | none => none
  | some curr =>
    match t.increment it with
    | none => none
    | some next =>
      match t.mRoot with
      | none => none
      | some root =>
        match root.deref curr with
        | none => none
        | some _ =>
          match cleanupLoop (root.update curr (fun n => Node.mk n.mLetter false n.mEqual))
              curr.reverse with
          | none => none
          | some root' => some (next, ⟨root', t.mSize - 1⟩)

/-- Member `erase(const value_type& str)`. -/
def ternary_search_tree.erase (t : ternary_search_tree Ch) (str : List Ch) :
    Option (Bool × ternary_search_tree Ch) :=
  match t.find str with
  | none => none
  | some toErase =>
    if toErase.eq t.end_ then some (false, t)
    else
      match t.eraseAt toErase with
      | none => none
      | some r => some (true, r.2)

/-- The initialisation `int backtrack = i` of the backtracking loop of
`lower_bound` together with its test `backtrack >= 0`, as the number of passes
the loop can make: the `size_t` value `i` is converted to an `int` of 32 bits
(reduced modulo `2^32` and read as a two's complement number); the loop makes
at most `backtrack + 1` passes when that number is not negative, and none when
it is negative. -/
def backtrackPasses (i : Nat) : Nat :=
  if i % 2 ^ 32 < 2 ^ 31 then i % 2 ^ 32 + 1 else 0

/-- The backtracking loop of `lower_bound`; the number counts the passes
left, so that `backtrack` is one less. -/
def backtrackLoop (t : ternary_search_tree Ch) (str : List Ch) :
    Option (List Ch) → Nat → Option (const_iterator Ch)
  | _, 0 => some t.end_
  | none, _ + 1 => none
  | some curr, b + 1 =>
    match t.deref curr, str.get? b with
    | some n, some c =>
      match mapUpperBound n.mEqual c with
      | some (k, _) =>
        match t.firstWordIn (some (curr ++ [k])) with
        | none => none
        | some w => const_iterator.make t w
      | none => backtrackLoop t str (mParent curr) b
    | _, _ => none

/-- The main loop of `lower_bound`: `curr` is the current node, `i` the loop
index, the last argument the characters from index `i` on. -/
def lowerBoundLoop (t : ternary_search_tree Ch) (str : List Ch) :
    List Ch → Nat → List Ch → Option (const_iterator Ch)
  | curr, _, [] =>
    match t.firstWordIn (some curr) with
    | none => none
    | some w => const_iterator.make t w
  | curr, i, c :: rest =>
    match t.deref curr with
    | none => none
    | some n =>
      match mapFind n.mEqual c with
      | some _ => lowerBoundLoop t str (curr ++ [c]) (i + 1) rest
      | none => backtrackLoop t str (some curr) (backtrackPasses i)

/-- Member `lower_bound(str)`. -/
def ternary_search_tree.lower_bound (t : ternary_search_tree Ch) (str : List Ch) :
    Option (const_iterator Ch) :=
  match t.mRoot with
  | none => some t.end_
  | some _ =>
    if str = [] then t.begin
    else lowerBoundLoop t str [] 0 str

/-- Member `upper_bound(str)`. -/
def ternary_search_tree.upper_bound (t : ternary_search_tree Ch) (str : List Ch) :
    Option (const_iterator Ch) :=
  match t.lower_bound str with
  | none => none
  | some result =>
    if result.eq t.end_ then some result
    else if result.star = str then t.increment result
    else some result

/-- The caller's loop `for (it = begin(); it != end(); ++it)`, collecting `*it`;
the number bounds the passes, and running out of passes is the result `none`. -/
def traverseLoop (t : ternary_search_tree Ch) : Nat → Option (const_iterator Ch) →
    Option (List (List Ch))
  | _, none => none
  | 0, some it => if it.eq t.end_ then some [] else none
  | n + 1, some it =>
    if it.eq t.end_ then some []
    else
      match traverseLoop t n (t.increment it) with
      | none => none
      | some l => some (it.star :: l)

/-- The strings visited from `begin()` to `end()`. -/
def ternary_search_tree.traverse (t : ternary_search_tree Ch) (n : Nat) :
    Option (List (List Ch)) :=
  traverseLoop t n t.begin

/-- Member `empty()`: whether `size()` is zero.  (The name `empty` is taken by
the default constructor.) -/
def ternary_search_tree.isEmpty (t : ternary_search_tree Ch) : Bool :=
  decide (t.size = 0)

/-- Member `equal_range(str)`: the pair of `lower_bound(str)` and
`upper_bound(str)`. -/
def ternary_search_tree.equal_range (t : ternary_search_tree Ch) (str : List Ch) :
    Option (const_iterator Ch × const_iterator Ch) :=
  match t.lower_bound str, t.upper_bound str with
  | some lo, some hi => some (lo, hi)
  | _, _ => none

/-- Member `swap(other)`: `std::swap(mSize, other.mSize)`, then
`std::swap(mRoot, other.mRoot)`.  Returns the two objects afterwards, `this`
first. -/
def ternary_search_tree.swap (t other : ternary_search_tree Ch) :
    ternary_search_tree Ch × ternary_search_tree Ch :=
  let t1 : ternary_search_tree Ch := ⟨t.mRoot, other.mSize⟩
  let o1 : ternary_search_tree Ch := ⟨other.mRoot, t.mSize⟩
  (⟨o1.mRoot, t1.mSize⟩, ⟨t1.mRoot, o1.mSize⟩)

mutual
/-- Static member `cloneTree(root, parent)` for a non-null `root`: a new node
with the letter and the flag of `root`, whose children are the clones of the
children of `root`.  (The parent pointer of the new node is its owner, see the
header.) -/
def cloneTree : Node Ch → Node Ch
  | Node.mk l w eq => Node.mk l w (cloneKids eq [])
/-- The loop of `cloneTree` over the children of `root`:
`result->mEqual[itr->first] = cloneTree(itr->second, result)`.  The second
argument is `result->mEqual` as built so far. -/
def cloneKids : List (Ch × Node Ch) → List (Ch × Node Ch) → List (Ch × Node Ch)
  | [], acc => acc
  | (k, ch) :: rest, acc => cloneKids rest (mapAssign acc k (cloneTree ch))
end

/-- The copy constructor: `mSize = rhs.mSize; mRoot = cloneTree(rhs.mRoot, NULL);`
(the clone of a null root is null). -/
def ternary_search_tree.copy (rhs : ternary_search_tree Ch) : ternary_search_tree Ch :=
  match rhs.mRoot with
  | none => ⟨none, rhs.mSize⟩
  | some r => ⟨some (cloneTree r), rhs.mSize⟩

/-- Member `operator=`: `ternary_search_tree copy = rhs; swap(copy); return *this;`.
The result is `*this` afterwards. -/
def ternary_search_tree.assign (t rhs : ternary_search_tree Ch) : ternary_search_tree Ch :=
  (t.swap rhs.copy).1

/-- The loop of `std::equal(first1, last1, first2)` run on cursors of the trees
`a` and `b`: `for (; first1 != last1; ++first1, ++first2)
if (!(*first1 == *first2)) return false; return true;`.  The number bounds the
passes, and running out of passes is the result `none`. -/
def equalLoop (a b : ternary_search_tree Ch) :
    Nat → Option (const_iterator Ch) → Option (const_iterator Ch) → Option Bool
  | _, none, _ => none
  | _, some _, none => none
  | 0, some i1, some _ => if i1.eq a.end_ then some true else none
  | n + 1, some i1, some i2 =>
    if i1.eq a.end_ then some true
    else if i2.eq b.end_ then none
    else if i1.star = i2.star then equalLoop a b n (a.increment i1) (b.increment i2)
    else some false

/-- The function `operator==`:
`lhs.size() == rhs.size() && std::equal(lhs.begin(), lhs.end(), rhs.begin())`. -/
def operator_eq (n : Nat) (lhs rhs : ternary_search_tree Ch) : Option Bool :=
  if lhs.size = rhs.size then equalLoop lhs rhs n lhs.begin rhs.begin else some false

/-- The function `operator!=`: `!(lhs == rhs)`. -/
def operator_ne (n : Nat) (lhs rhs : ternary_search_tree Ch) : Option Bool :=
  match operator_eq n lhs rhs with
  | none => none
  | some r => some (!r)

/-- The loop of `std::lexicographical_compare(first1, last1, first2, last2)` run
on cursors of the trees `a` and `b`:
`for (; first1 != last1 && first2 != last2; ++first1, ++first2)
{ if (*first1 < *first2) return true; if (*first2 < *first1) return false; }
return first1 == last1 && first2 != last2;`.  The number bounds the passes. -/
def lexLoop (a b : ternary_search_tree Ch) :
    Nat → Option (const_iterator Ch) → Option (const_iterator Ch) → Option Bool
  | _, none, _ => none
  | _, some _, none => none
  | 0, some i1, some i2 =>
    if i1.eq a.end_ || i2.eq b.end_ then some (i1.eq a.end_ && !i2.eq b.end_) else none
  | n + 1, some i1, some i2 =>
    if i1.eq a.end_ || i2.eq b.end_ then some (i1.eq a.end_ && !i2.eq b.end_)
    else if i1.star < i2.star then some true
    else if i2.star < i1.star then some false
    else lexLoop a b n (a.increment i1) (b.increment i2)

/-- The function `operator<`: `std::lexicographical_compare(lhs.begin(),
lhs.end(), rhs.begin(), rhs.end())`. -/
def operator_lt (n : Nat) (lhs rhs : ternary_search_tree Ch) : Option Bool :=
  lexLoop lhs rhs n lhs.begin rhs.begin

/-- The function `operator<=`: `!(rhs < lhs)`. -/
def operator_le (n : Nat) (lhs rhs : ternary_search_tree Ch) : Option Bool :=
  match operator_lt n rhs lhs with
  | none => none
  | some r => some (!r)

/-- The function `operator>=`: `!(lhs < rhs)`. -/
def operator_ge (n : Nat) (lhs rhs : ternary_search_tree Ch) : Option Bool :=
  match operator_lt n lhs rhs with
  | none => none
  | some r => some (!r)

/-- The function `operator>`: `rhs < lhs`. -/
def operator_gt (n : Nat) (lhs rhs : ternary_search_tree Ch) : Option Bool :=
  operator_lt n rhs lhs

/-- A `Node` object in the free store: the fields of `struct Node`, the child
map holding pointers.  A pointer is an index into the store (a list of cells),
and `new Node(...)` appends a cell to it. -/
structure Cell (Ch : Type) where
  mLetter : Ch
  mIsWord : Bool
  mEqual : List (Ch × Nat)
  mParent : Option Nat

/-- The assignment `result->mEqual[k] = p` in the store `h`. -/
def assignChild (h : List (Cell Ch)) (result : Nat) (k : Ch) (p : Nat) :
    Option (List (Cell Ch)) :=
  match h[result]? with
  | none => none
  | some c => some (h.set result ⟨c.mLetter, c.mIsWord, mapAssign c.mEqual k p, c.mParent⟩)

/-- The loop of `cloneTree` in the store, over the entries of `root->mEqual`:
`result->mEqual[itr->first] = cloneTree(itr->second, result)`.  The first
argument is the recursive call. -/
def cloneLoopOn (clone : List (Cell Ch) → Nat → Option Nat → Option (Nat × List (Cell Ch)))
    (result : Nat) : List (Ch × Nat) → List (Cell Ch) → Option (List (Cell Ch))
  | [], h => some h
  | (k, ch) :: rest, h =>
    match clone h ch (some result) with
    | none => none
    | some (p, h1) =>
      match assignChild h1 result k p with
      | none => none
      | some h2 => cloneLoopOn clone result rest h2

/-- Static member `cloneTree(root, parent)` for a non-null `root`, run in the
store `h`: `new Node(root->mLetter, parent, root->mIsWord)` appends the cell
of `result`, the loop fills its child map, and the pointer `result` is
returned with the store afterwards.  The number bounds the depth of the
recursion, and a dangling pointer is the result `none`. -/
def cloneTreeOn : Nat → List (Cell Ch) → Nat → Option Nat → Option (Nat × List (Cell Ch))
  | 0, _, _, _ => none
  | fuel + 1, h, root, parent =>
    match h[root]? with
    | none => none
    | some c =>
      match cloneLoopOn (cloneTreeOn fuel) h.length c.mEqual
          (h ++ [⟨c.mLetter, c.mIsWord, [], parent⟩]) with
      | none => none
      | some h1 => some (h.length, h1)

/-- The call `cloneTree(rhs.mRoot, NULL)` of the copy constructor, run in the
store: the clone of a null root is null. -/
def cloneRootOn (fuel : Nat) (h : List (Cell Ch)) (root : Option Nat) :
    Option (Option Nat × List (Cell Ch)) :=
  match root with
  | none => some (none, h)
  | some a =>
    match cloneTreeOn fuel h a none with
    | none => none
    | some (r, h1) => some (some r, h1)

/-- How the `for` loop of `insert` ends when memory can run out: it runs to its
end (`done`, with the tree and the final `curr`), or `new Node` throws
`std::bad_alloc` (`threw`, with the tree at that moment, the node `curr` and the
character `c` whose map entry `curr->mEqual[c]` the lookup had just created
and which still holds `NULL`). -/
inductive InsertLoopEnd (Ch : Type) where
  | done (root : Node Ch) (curr : List Ch)
  | threw (root : Node Ch) (curr : List Ch) (c : Ch)

/-- The tree as `insert` leaves it when `std::bad_alloc` escapes: `mRoot` and
`mSize` at that moment, and the map entry that holds `NULL` (the address of its
node and its key; `none` when it was the root node that could not be
allocated, in which case no entry was created). -/
structure InsertThrown (Ch : Type) where
  mRoot : Option (Node Ch)
  mSize : Nat
  nullEntry : Option (List Ch × Ch)

/-- The `for` loop of `insert` when only the next `allocs` calls of `new Node`
succeed and the one after them throws.  A pass reads `next = curr->mEqual[c]`;
when that is null it calls `new Node(c, curr, false)`, which throws when
`allocs` is used up, and otherwise stores the new node in the entry.  A
dangling `curr` is the result `none`. -/
def insertLoopAlloc : Nat → Node Ch → List Ch → List Ch → Option (InsertLoopEnd Ch)
  | _, root, curr, [] => some (InsertLoopEnd.done root curr)
  | allocs, root, curr, c :: rest =>
    match root.deref curr with
    | none => none
    | some n =>
      match mapFind n.mEqual c with
      | some _ => insertLoopAlloc allocs (root.update curr (stepInto c)) (curr ++ [c]) rest
      | none =>
        match allocs with
        | 0 => some (InsertLoopEnd.threw root curr c)
        | a + 1 => insertLoopAlloc a (root.update curr (stepInto c)) (curr ++ [c]) rest

/-- Member `insert(str)` when only the next `allocs` calls of `new Node` succeed:
`Except.ok` is a normal return (the result of `insert` and the tree
afterwards), `Except.error` the state in which `std::bad_alloc` leaves the
tree.  There is no `try` block in `insert`, so nothing is undone. -/
def ternary_search_tree.insertAlloc [Inhabited Ch] (t : ternary_search_tree Ch) (allocs : Nat)
    (str : List Ch) :
    Option (Except (InsertThrown Ch)
      ((const_iterator Ch × Bool) × ternary_search_tree Ch)) :=
  let start : Option (Node Ch × Nat) :=
    match t.mRoot with
    | some r => some (r, allocs)
    | none =>
      match allocs with
      | 0 => none
      | a + 1 => some (Node.mk default false [], a)
  match start with
  | none => some (Except.error ⟨none, t.mSize, none⟩)
  | some (root, a) =>
    match insertLoopAlloc a root [] str with
    | none => none
    | some (InsertLoopEnd.threw root1 curr c) =>
      some (Except.error ⟨some root1, t.mSize, some (curr, c)⟩)
    | some (InsertLoopEnd.done root1 curr) =>
      match root1.deref curr with
      | none => none
      | some n =>
        if n.mIsWord then
          match const_iterator.make ⟨some root1, t.mSize⟩ (some curr) with
          | none => none
          | some it => some (Except.ok ((it, false), ⟨some root1, t.mSize⟩))
        else
          let t1 : ternary_search_tree Ch :=
            ⟨some (root1.update curr (fun m => Node.mk m.mLetter true m.mEqual)), t.mSize + 1⟩
          match const_iterator.make t1 (some curr) with
          | none => none
          | some it => some (Except.ok ((it, true), t1))

end Operations

/-! ## Specification vocabulary -/

section Vocabulary

variable {Ch : Type} [LinearOrder Ch]

/-- The keys of a map are strictly increasing. -/
def keysSorted {V : Type} (m : List (Ch × V)) : Prop :=
  m.Pairwise (fun a b => a.1 < b.1)

/-- A node is a dead end: no word ends here and it has no children. -/
def Node.isDead (n : Node Ch) : Bool :=
  !n.mIsWord && n.mEqual.isEmpty

/-- Whether the address `p` below `n` holds a node marked as a word. -/
def Node.isWordAt (n : Node Ch) (p : List Ch) : Bool :=
  match n.deref p with
  | none => false
  | some m => m.mIsWord

/-- What a single node must satisfy: its child map is sorted by key, each child
carries its key as `mLetter`, and no child is a dead end. -/
def Node.Local (n : Node Ch) : Prop :=
  keysSorted n.mEqual ∧
    ∀ k ch, mapFind n.mEqual k = some ch → ch.mLetter = k ∧ ch.isDead = false

/-- Every node below `n` is locally well formed. -/
def Node.WF (n : Node Ch) : Prop :=
  ∀ p m, n.deref p = some m → m.Local

/-- What `insert(str)` does to the subtree below `n`, described by recursion
on the string read from `n` on: the missing nodes are created along the path
and `mIsWord` is set at its end; the flag tells whether the word was new. -/
def insertNode : Node Ch → List Ch → Node Ch × Bool
  | Node.mk l w eq, [] => if w then (Node.mk l w eq, false) else (Node.mk l true eq, true)
  | Node.mk l w eq, c :: cs =>
    match mapFind eq c with
    | some ch =>
      let r := insertNode ch cs
      (Node.mk l w (mapAssign eq c r.1), r.2)
    | none =>
      let r := insertNode (Node.mk c false []) cs
      (Node.mk l w (mapAssign eq c r.1), r.2)

/-- What `erase` of the word at address `p` does to the subtree below `n`,
described by recursion on `p`: `mIsWord` is cleared at the end of the path,
and on the way back every node left without children and without a word is
removed from its parent.  The inner result `none` says that `n` itself is
removed; the outer `none` that no node has the address. -/
def eraseNode : Node Ch → List Ch → Option (Option (Node Ch))
  | Node.mk l _ eq, [] =>
    match eq with
    | [] => some none
    | _ :: _ => some (some (Node.mk l false eq))
  | Node.mk l w eq, c :: cs =>
    match mapFind eq c with
    | none => none
    | some ch =>
      match eraseNode ch cs with
      | none => none
      | some (some ch') => some (some (Node.mk l w (mapAssign eq c ch')))
      | some none =>
        match mapErase eq ch.mLetter, w with
        | [], false => some none
        | eq', _ => some (some (Node.mk l w eq'))

mutual
/-- The words below a node, in traversal order (relative to the node). -/
def Node.words : Node Ch → List (List Ch)
  | Node.mk _ w eq => (if w then [[]] else []) ++ kidsWords eq
/-- The words below the children of a node, in traversal order. -/
def kidsWords : List (Ch × Node Ch) → List (List Ch)
  | [] => []
  | (k, ch) :: rest => (Node.words ch).map (fun w => k :: w) ++ kidsWords rest
end

mutual
/-- The number of nodes below `n` (itself included) with `mIsWord` set. -/
def Node.countTerminal : Node Ch → Nat
  | Node.mk _ w eq => (if w then 1 else 0) + kidsCountTerminal eq
/-- The number of nodes with `mIsWord` set below the children of a node. -/
def kidsCountTerminal : List (Ch × Node Ch) → Nat
  | [] => 0
  | (_, ch) :: rest => Node.countTerminal ch + kidsCountTerminal rest
end

/-- The number of terminal nodes of a tree. -/
def ternary_search_tree.countTerminal (t : ternary_search_tree Ch) : Nat :=
  match t.mRoot with
  | none => 0
  | some r => r.countTerminal

/-- The members of a tree in increasing order. -/
def ternary_search_tree.words (t : ternary_search_tree Ch) : List (List Ch) :=
  match t.mRoot with
  | none => []
  | some r => r.words

/-- The string `s` is a member: `find(s) != end()`. -/
def ternary_search_tree.contains (t : ternary_search_tree Ch) (s : List Ch) : Prop :=
  ∃ it, t.find s = some it ∧ it.eq t.end_ = false

/-- The search shared by the unwinding loop of `operator++` and the
backtracking loop of `lower_bound`, on an address given last key first: leave
the node for its parent and look up the first sibling after the key just left;
repeat until a sibling is found (its address is the result) or the root has
been left. -/
def climbRev (root : Node Ch) : List Ch → Option (List Ch)
  | [] => none
  | c :: qrev =>
    match root.deref qrev.reverse with
    | none => none
    | some n =>
      match mapUpperBound n.mEqual c with
      | some (k, _) => some (qrev.reverse ++ [k])
      | none => climbRev root qrev

/-- The search `climbRev` on an address given root first. -/
def climb (root : Node Ch) (pos : List Ch) : Option (List Ch) :=
  climbRev root pos.reverse

/-- The cursor that designates the node at address `p`. -/
def cursorAt (p : List Ch) : const_iterator Ch :=
  ⟨p.inits, p⟩

/-- The representation invariant of a tree. -/
def ternary_search_tree.Inv (t : ternary_search_tree Ch) : Prop :=
  match t.mRoot with
  | none => t.mSize = 0
  | some r => r.WF ∧ r.isDead = false ∧ t.mSize = r.countTerminal

/-- The trees reachable from the empty tree by `insert`, `erase(key)` and
`erase(cursor)` on a cursor that designates a member. -/
inductive Reachable [Inhabited Ch] : ternary_search_tree Ch → Prop where
  | empty : Reachable ternary_search_tree.empty
  | insert {t : ternary_search_tree Ch} {s : List Ch}
      {r : (const_iterator Ch × Bool) × ternary_search_tree Ch} :
      Reachable t → t.insert s = some r → Reachable r.2
  | erase {t : ternary_search_tree Ch} {s : List Ch} {r : Bool × ternary_search_tree Ch} :
      Reachable t → t.erase s = some r → Reachable r.2
  | eraseAt {t : ternary_search_tree Ch} {s : List Ch} {it : const_iterator Ch}
      {r : const_iterator Ch × ternary_search_tree Ch} :
      Reachable t → t.find s = some it → it.eq t.end_ = false →
      t.eraseAt it = some r → Reachable r.2

/-- The cursor at the front of what is left of a traversal: the cursor of the
first string, or `end()` when nothing is left. -/
def cursorOf (l : List (List Ch)) : const_iterator Ch :=
  match l with
  | [] => ⟨[], []⟩
  | m :: _ => cursorAt m

mutual
/-- The store `h` holds the tree `n` at the pointer `a`: the cell at `a` has the
letter and the flag of `n` and the parent pointer `p`, its child map has the
keys of `n.mEqual` in the same order, each child pointer holds the
corresponding child with parent pointer `a`, and every cell of the tree is at a
pointer `lo` or above. -/
def storeHolds (lo : Nat) (h : List (Cell Ch)) : Nat → Option Nat → Node Ch → Bool
  | a, p, Node.mk l w eq =>
    match h[a]? with
    | none => false
    | some c =>
      decide (lo ≤ a) && decide (c.mLetter = l) && decide (c.mIsWord = w) &&
        decide (c.mParent = p) && storeHoldsKids lo h a c.mEqual eq
/-- The child pointers `ps` of the cell at `a` hold the children `ns`. -/
def storeHoldsKids (lo : Nat) (h : List (Cell Ch)) :
    Nat → List (Ch × Nat) → List (Ch × Node Ch) → Bool
  | _, [], [] => true
  | _, _ :: _, [] => false
  | a, ps, (k, n) :: ns =>
    match ps with
    | [] => false
    | (k', x) :: ps' =>
      decide (k' = k) && storeHolds lo h x (some a) n && storeHoldsKids lo h a ps' ns
end

/-- The root pointer `ptr` holds the tree of `mRoot`: both are null, or the
pointer holds the root node, whose parent pointer is null. -/
def storeHoldsRoot (lo : Nat) (h : List (Cell Ch)) :
    Option Nat → Option (Node Ch) → Bool
  | none, none => true
  | some a, some n => storeHolds lo h a none n
  | _, _ => false

/-- What cloning in the store achieves for the tree `n`, wherever the store
holds it: with enough passes `cloneTreeOn` returns the first unused pointer of
the store, the store afterwards is the old one extended by new cells, and the
returned pointer holds `cloneTree n` in cells that are all new. -/
def CloneSpec (n : Node Ch) : Prop :=
  ∀ (h : List (Cell Ch)) (a : Nat) (p q : Option Nat), storeHolds 0 h a p n = true →
    ∃ N e, storeHolds h.length (h ++ e) h.length q (cloneTree n) = true ∧
      ∀ fuel, N ≤ fuel → cloneTreeOn fuel h a q = some (h.length, h ++ e)

end Vocabulary

/-- The caller's loop `for (s : strs) t.insert(s);`. -/
def insertAll {Ch : Type} [LinearOrder Ch] [Inhabited Ch] :
    ternary_search_tree Ch → List (List Ch) → Option (ternary_search_tree Ch)
  | t, [] => some t
  | t, s :: rest =>
    match t.insert s with
    | none => none
    | some r => insertAll r.2 rest

/-- A call made on a tree: `insert(str)` or `erase(str)`. -/
inductive Op (Ch : Type) where
  | insert (s : List Ch) : Op Ch
  | erase (s : List Ch) : Op Ch

/-- Running a sequence of calls, in order, on a tree. -/
def runOps {Ch : Type} [LinearOrder Ch] [Inhabited Ch] :
    ternary_search_tree Ch → List (Op Ch) → Option (ternary_search_tree Ch)
  | t, [] => some t
  | t, Op.insert s :: rest =>
    match t.insert s with
    | none => none
    | some r => runOps r.2 rest
  | t, Op.erase s :: rest =>
    match t.erase s with
    | none => none
    | some r => runOps r.2 rest

/-- The strings of `live` together with those inserted and not subsequently
erased by a sequence of calls. -/
def liveStrings {Ch : Type} [LinearOrder Ch] :
    Finset (List Ch) → List (Op Ch) → Finset (List Ch)
  | live, [] => live
  | live, Op.insert s :: rest => liveStrings (insert s live) rest
  | live, Op.erase s :: rest => liveStrings (live.erase s) rest

/-- A concrete tree over the alphabet `Nat`, holding the words `[2]`, `[2, 1]`
and `[3]`. -/
def sampleTree : ternary_search_tree Nat :=
  ⟨some (Node.mk 0 false [(2, Node.mk 2 true [(1, Node.mk 1 true [])]), (3, Node.mk 3 true [])]),
    3⟩

/-- A store that holds the tree of `sampleTree` at the pointer 0. -/
def sampleStore : List (Cell Nat) :=
  [⟨0, false, [(2, 1), (3, 3)], none⟩, ⟨2, true, [(1, 2)], some 0⟩, ⟨1, true, [], some 1⟩,
    ⟨3, true, [], some 0⟩]

/-! ## The class `hash_map` (`source/hash_map.h`)

A `std::vector<std::list<value_type>>` is a list of lists of pairs.  An
iterator of the map is the index of a bucket together with a position in the
list of that bucket; the position past the last element is the `end()` of the
list.  The pointer `mHashmap` of an iterator is not modelled: all iterators
compared belong to the map under consideration.  An exception thrown is the
result `Except.error`, undefined behaviour (indexing past the end of the
vector, a remainder by zero) is the result `none`.  The `max_size()` of the
bucket vector and the success of its allocation are arguments of the
constructor. -/

/-- The exceptions that the code and the standard containers it uses throw. -/
inductive std_exception where
  | invalid_argument
  | length_error
  | bad_alloc

section HashMap

variable {Key T : Type}

/-- The class `hash_map<Key, T, KeyEqual, Hash>`: the buckets, `mSize`, and the
two function objects `mEqual` and `mHash`. -/
structure hash_map (Key T : Type) where
  mBuckets : List (List (Key × T))
  mSize : Nat
  mEqual : Key → Key → Bool
  mHash : Key → Nat

/-- The class `hash_map_iterator`: `mBucketIndex` and `mListIterator`. -/
structure hash_map_iterator where
  mBucketIndex : Nat
  mListIterator : Nat

/-- Member `operator==` of the iterators: the bucket indices and the list
iterators are equal. -/
def hash_map_iterator.eq (a b : hash_map_iterator) : Bool :=
  decide (a.mBucketIndex = b.mBucketIndex) && decide (a.mListIterator = b.mListIterator)

/-- The constructor `hash_map(equal, numBuckets, hash)`.  The initializer
`mBuckets(numBuckets)` comes first: `std::vector(n)` throws `std::length_error`
when `n` exceeds `mBuckets.max_size()` (the argument `vecMax`, a value of
`size_type`, so below `2^64`), and `std::bad_alloc` when the storage for `n`
buckets cannot be allocated (`alloc n` tells whether it can; nothing is
allocated for `n = 0`).  Then `mSize = 0`, and the body throws
`std::invalid_argument` when `numBuckets == 0`. -/
def hash_map.construct (vecMax : Nat) (alloc : Nat → Bool) (equal : Key → Key → Bool)
    (numBuckets : Nat) (hash : Key → Nat) : Except std_exception (hash_map Key T) :=
  if vecMax < numBuckets then Except.error std_exception.length_error
  else if numBuckets ≠ 0 ∧ alloc numBuckets = false then Except.error std_exception.bad_alloc
  else if numBuckets = 0 then Except.error std_exception.invalid_argument
  else Except.ok ⟨List.replicate numBuckets [], 0, equal, hash⟩

/-- Member `size()`. -/
def hash_map.size (m : hash_map Key T) : Nat :=
  m.mSize

/-- Member `empty()`. -/
def hash_map.isEmpty (m : hash_map Key T) : Bool :=
  decide (m.mSize = 0)

/-- Member `bucket_count()`. -/
def hash_map.bucket_count (m : hash_map Key T) : Nat :=
  m.mBuckets.length

/-- The call `find_if(begin(bucket), end(bucket), pred)`: the position of the
first element that satisfies `pred`, the length of the list if there is
none. -/
def findIf (pred : Key × T → Bool) : List (Key × T) → Nat
  | [] => 0
  | e :: rest => if pred e then 0 else findIf pred rest + 1

/-- Member `findElement(k)`: the bucket is `mHash(k) % mBuckets.size()`, the
iterator the result of `find_if` in that bucket with the predicate
`mEqual(element.first, k)`. -/
def hash_map.findElement (m : hash_map Key T) (k : Key) : Option (Nat × Nat) :=
  if m.mBuckets.length = 0 then none
  else
    match m.mBuckets[m.mHash k % m.mBuckets.length]? with
    | none => none
    | some b => some (findIf (fun element => m.mEqual element.1 k) b,
        m.mHash k % m.mBuckets.length)

/-- Member `end()`: the `end()` of the list of the last bucket. -/
def hash_map.end_ (m : hash_map Key T) : Option hash_map_iterator :=
  if m.mBuckets.length = 0 then none
  else
    match m.mBuckets[m.mBuckets.length - 1]? with
    | none => none
    | some b => some ⟨m.mBuckets.length - 1, b.length⟩

/-- Member `find(k)`. -/
def hash_map.find (m : hash_map Key T) (k : Key) : Option hash_map_iterator :=
  match m.findElement k with
  | none => none
  | some (it, bucket) =>
    match m.mBuckets[bucket]? with
    | none => none
    | some b => if it = b.length then m.end_ else some ⟨bucket, it⟩

/-- Member `operator*` of an iterator of the map `m`. -/
def hash_map.star (m : hash_map Key T) (it : hash_map_iterator) : Option (Key × T) :=
  match m.mBuckets[it.mBucketIndex]? with
  | none => none
  | some b => b[it.mListIterator]?

/-- Member `insert(x)`: when `findElement` finds no element,
`mBuckets[bucket].insert(it, x)` puts `x` at the end of the bucket and `mSize`
grows; the iterator of the element and the flag are returned, with the map
afterwards. -/
def hash_map.insert (m : hash_map Key T) (x : Key × T) :
    Option ((hash_map_iterator × Bool) × hash_map Key T) :=
  match m.findElement x.1 with
  | none => none
  | some (it, bucket) =>
    match m.mBuckets[bucket]? with
    | none => none
    | some b =>
      if it = b.length then
        some ((⟨bucket, b.length⟩, true),
          ⟨m.mBuckets.set bucket (b ++ [x]), m.mSize + 1, m.mEqual, m.mHash⟩)
      else some ((⟨bucket, it⟩, false), m)

/-- Member `erase(k)`: the element `findElement` finds is erased from its
bucket and `mSize` shrinks; returns the number of elements erased, with the map
afterwards. -/
def hash_map.erase (m : hash_map Key T) (k : Key) : Option (Nat × hash_map Key T) :=
  match m.findElement k with
  | none => none
  | some (it, bucket) =>
    match m.mBuckets[bucket]? with
    | none => none
    | some b =>
      if it = b.length then some (0, m)
      else some (1, ⟨m.mBuckets.set bucket (b.eraseIdx it), m.mSize - 1, m.mEqual, m.mHash⟩)

/-- Member `clear()`. -/
def hash_map.clear (m : hash_map Key T) : hash_map Key T :=
  ⟨m.mBuckets.map (fun _ => []), 0, m.mEqual, m.mHash⟩

/-- A pair with a key equal to `k` is stored in the map. -/
def hash_map.present (m : hash_map Key T) (k : Key) : Prop :=
  ∃ b e, b ∈ m.mBuckets ∧ e ∈ b ∧ m.mEqual e.1 k = true

/-- The representation invariant of `hash_map`: there is a bucket, every pair
is stored in the bucket of its key, and `mSize` is the number of pairs. -/
def hash_map.Inv (m : hash_map Key T) : Prop :=
  m.mBuckets ≠ [] ∧
    (∀ i b, m.mBuckets[i]? = some b → ∀ e, e ∈ b → m.mHash e.1 % m.mBuckets.length = i) ∧
    m.mSize = (m.mBuckets.map List.length).sum

/-- The maps that the constructor, `insert`, `erase` and `clear` produce, with
the function objects `equal` and `hash`. -/
inductive hash_map.Reachable (equal : Key → Key → Bool) (hash : Key → Nat) :
    hash_map Key T → Prop where
  | construct (vecMax : Nat) (alloc : Nat → Bool) (n : Nat) {m : hash_map Key T} :
      hash_map.construct vecMax alloc equal n hash = Except.ok m →
      hash_map.Reachable equal hash m
  | insert {m : hash_map Key T} {x : Key × T}
      {r : (hash_map_iterator × Bool) × hash_map Key T} :
      hash_map.Reachable equal hash m → m.insert x = some r → hash_map.Reachable equal hash r.2
  | erase {m : hash_map Key T} {k : Key} {r : Nat × hash_map Key T} :
      hash_map.Reachable equal hash m → m.erase k = some r → hash_map.Reachable equal hash r.2
  | clear {m : hash_map Key T} :
      hash_map.Reachable equal hash m → hash_map.Reachable equal hash m.clear

end HashMap

/-! ## The classes `min_stack` and `min_queue` (`source/min_stack.h`, `source/min_queue.h`)

A `std::deque` is a list, bottom first: `push_back` appends, `back()` is the
last element, `pop_back()` drops it, and `mStack[i]` is the element at position
`i`.  The comparator is a function into `Bool`.  Undefined behaviour (`back()`
or `pop_back()` of an empty deque, an index past the end) is the result
`none`. -/

section MinStack

variable {T : Type}

/-- The class `min_stack<T, Comparator>`: each entry of `mStack` is a pair of an
element and the index of the minimum element at or below it. -/
structure min_stack (T : Type) where
  mStack : List (T × Nat)
  mComp : T → T → Bool

/-- The constructor `min_stack(Comparator c)`. -/
def min_stack.construct (c : T → T → Bool) : min_stack T :=
  ⟨[], c⟩

/-- Member `size()`. -/
def min_stack.size (s : min_stack T) : Nat :=
  s.mStack.length

/-- Member `empty()`. -/
def min_stack.isEmpty (s : min_stack T) : Bool :=
  s.mStack.isEmpty

/-- Member `top()`: `mStack.back().first`. -/
def min_stack.top (s : min_stack T) : Option T :=
  match s.mStack.getLast? with
  | none => none
  | some e => some e.1

/-- Member `min()`: `mStack[mStack.back().second].first`. -/
def min_stack.min (s : min_stack T) : Option T :=
  match s.mStack.getLast? with
  | none => none
  | some e =>
    match s.mStack[e.2]? with
    | none => none
    | some x => some x.1

/-- Member `push(elem)`: on an empty stack the pair `(elem, 0)` is pushed;
otherwise `smallestIndex = mStack.back().second`, replaced by `mStack.size()`
when `mComp(elem, min())`, and the pair `(elem, smallestIndex)` is pushed. -/
def min_stack.push (s : min_stack T) (elem : T) : Option (min_stack T) :=
  if s.isEmpty then some ⟨s.mStack ++ [(elem, 0)], s.mComp⟩
  else
    match s.mStack.getLast?, s.min with
    | some e, some m =>
      some ⟨s.mStack ++ [(elem, if s.mComp elem m then s.mStack.length else e.2)], s.mComp⟩
    | _, _ => none

/-- Member `pop()`: `mStack.pop_back()`. -/
def min_stack.pop (s : min_stack T) : Option (min_stack T) :=
  if s.mStack.isEmpty then none else some ⟨s.mStack.dropLast, s.mComp⟩

/-- The class `min_queue<T, Comparator>`: the two stacks and the comparator. -/
structure min_queue (T : Type) where
  mNew : min_stack T
  mOld : min_stack T
  mComp : T → T → Bool

/-- The constructor `min_queue(Comparator c)`. -/
def min_queue.construct (c : T → T → Bool) : min_queue T :=
  ⟨min_stack.construct c, min_stack.construct c, c⟩

/-- Member `size()`. -/
def min_queue.size (q : min_queue T) : Nat :=
  q.mNew.size + q.mOld.size

/-- Member `empty()`. -/
def min_queue.isEmpty (q : min_queue T) : Bool :=
  q.mNew.isEmpty && q.mOld.isEmpty

/-- The loop of `moveIfNecessary`:
`while (!mNew.empty()) { mOld.push(mNew.top()); mNew.pop(); }`, on the two
stacks.  The number bounds the passes; each pass pops one element of `mNew`. -/
def moveLoop : Nat → min_stack T → min_stack T → Option (min_stack T × min_stack T)
  | 0, mNew, mOld => if mNew.isEmpty then some (mNew, mOld) else none
  | n + 1, mNew, mOld =>
    if mNew.isEmpty then some (mNew, mOld)
    else
      match mNew.top with
      | none => none
      | some x =>
        match mOld.push x, mNew.pop with
        | some mOld1, some mNew1 => moveLoop n mNew1 mOld1
        | _, _ => none

/-- Member `moveIfNecessary()`: nothing when `mOld` is not empty, the loop
otherwise (which ends within `mNew.size()` passes). -/
def min_queue.moveIfNecessary (q : min_queue T) : Option (min_queue T) :=
  if !q.mOld.isEmpty then some q
  else
    match moveLoop q.mNew.size q.mNew q.mOld with
    | none => none
    | some (mNew1, mOld1) => some ⟨mNew1, mOld1, q.mComp⟩

/-- Member `front()`: `moveIfNecessary(); return mOld.top();`.  The stacks are
`mutable`, so the queue afterwards is returned with the element. -/
def min_queue.front (q : min_queue T) : Option (T × min_queue T) :=
  match q.moveIfNecessary with
  | none => none
  | some q1 =>
    match q1.mOld.top with
    | none => none
    | some x => some (x, q1)

/-- Member `dequeue()`: `moveIfNecessary(); mOld.pop();`. -/
def min_queue.dequeue (q : min_queue T) : Option (min_queue T) :=
  match q.moveIfNecessary with
  | none => none
  | some q1 =>
    match q1.mOld.pop with
    | none => none
    | some mOld1 => some ⟨q1.mNew, mOld1, q1.mComp⟩

/-- Member `enqueue(elem)`: `mNew.push(elem)`. -/
def min_queue.enqueue (q : min_queue T) (elem : T) : Option (min_queue T) :=
  match q.mNew.push elem with
  | none => none
  | some mNew1 => some ⟨mNew1, q.mOld, q.mComp⟩

/-- Member `min()` of the queue. -/
def min_queue.min (q : min_queue T) : Option T :=
  if !q.mNew.isEmpty && !q.mOld.isEmpty then
    match q.mOld.min, q.mNew.min with
    | some o, some n => some (if q.mComp o n then o else n)
    | _, _ => none
  else if !q.mNew.isEmpty then q.mNew.min
  else q.mOld.min

/-- A call made on a `min_stack`. -/
inductive StackOp (T : Type) where
  | push (v : T)
  | pop

/-- A sequence of calls made on a stack, one after the other. -/
def runStack : min_stack T → List (StackOp T) → Option (min_stack T)
  | s, [] => some s
  | s, StackOp.push v :: rest =>
    match s.push v with
    | none => none
    | some s1 => runStack s1 rest
  | s, StackOp.pop :: rest =>
    match s.pop with
    | none => none
    | some s1 => runStack s1 rest

/-- The stack as a list of elements, bottom first, after a sequence of calls:
`push` appends, `pop` drops the last element and is not allowed on an empty
stack. -/
def stackModel : List T → List (StackOp T) → Option (List T)
  | l, [] => some l
  | l, StackOp.push v :: rest => stackModel (l ++ [v]) rest
  | l, StackOp.pop :: rest => if l.isEmpty then none else stackModel l.dropLast rest

/-- A call made on a `min_queue`. -/
inductive QueueOp (T : Type) where
  | enqueue (v : T)
  | dequeue
  | front

/-- A sequence of calls made on a queue, one after the other (the element
that `front` returns is dropped). -/
def runQueue : min_queue T → List (QueueOp T) → Option (min_queue T)
  | q, [] => some q
  | q, QueueOp.enqueue v :: rest =>
    match q.enqueue v with
    | none => none
    | some q1 => runQueue q1 rest
  | q, QueueOp.dequeue :: rest =>
    match q.dequeue with
    | none => none
    | some q1 => runQueue q1 rest
  | q, QueueOp.front :: rest =>
    match q.front with
    | none => none
    | some r => runQueue r.2 rest

/-- The first-in first-out queue as a list of elements, oldest first, after a
sequence of calls: `enqueue` appends, `dequeue` drops the first element, and
`dequeue` and `front` are not allowed on an empty queue. -/
def fifoModel : List T → List (QueueOp T) → Option (List T)
  | l, [] => some l
  | l, QueueOp.enqueue v :: rest => fifoModel (l ++ [v]) rest
  | l, QueueOp.dequeue :: rest => if l.isEmpty then none else fifoModel l.tail rest
  | l, QueueOp.front :: rest => if l.isEmpty then none else fifoModel l rest

/-- The number of `enqueue` calls in a sequence of calls. -/
def countEnqueue : List (QueueOp T) → Nat
  | [] => 0
  | QueueOp.enqueue _ :: rest => countEnqueue rest + 1
  | _ :: rest => countEnqueue rest

/-- The number of `dequeue` calls in a sequence of calls. -/
def countDequeue : List (QueueOp T) → Nat
  | [] => 0
  | QueueOp.dequeue :: rest => countDequeue rest + 1
  | _ :: rest => countDequeue rest

/-- The requirement on a comparator: a strict weak ordering. -/
structure StrictWeakOrder (c : T → T → Bool) : Prop where
  irrefl : ∀ a, c a a = false
  trans : ∀ a b d, c a b = true → c b d = true → c a d = true
  incomp : ∀ a b d, c a b = false → c b d = false → c a d = false

/-- The invariant of `mStack`: the index stored with the entry at position `k`
is a position at or below `k`, the element there is not greater than any
element at or below `k`, and it is smaller than every element below it (it is
the lowest of the minimal elements). -/
def StackInv (c : T → T → Bool) (stk : List (T × Nat)) : Prop :=
  ∀ (k : Nat) (e : T × Nat), stk[k]? = some e →
    e.2 ≤ k ∧ ∃ x : T × Nat, stk[e.2]? = some x ∧
      (∀ (j : Nat) (y : T × Nat), j ≤ k → stk[j]? = some y → c y.1 x.1 = false) ∧
      (∀ (j : Nat) (y : T × Nat), j < e.2 → stk[j]? = some y → c x.1 y.1 = true)

/-- The part of the invariant of `mStack` that does not depend on the
comparator: the index stored with an entry is a position at or below it. -/
def StackIdxInv (stk : List (T × Nat)) : Prop :=
  ∀ (k : Nat) (e : T × Nat), stk[k]? = some e → e.2 ≤ k

/-- A property of `mStack` that holds of the empty deque and that `pop` and
`push` (which then returns) preserve. -/
def StackClosed (c : T → T → Bool) (P : List (T × Nat) → Prop) : Prop :=
  P [] ∧ (∀ stk, P stk → P stk.dropLast) ∧
    ∀ stk v, P stk → ∃ i, (⟨stk, c⟩ : min_stack T).push v = some ⟨stk ++ [(v, i)], c⟩ ∧
      P (stk ++ [(v, i)])

/-- The two stacks of a queue use the comparator `c` and have the property
`P`. -/
def QueueInv (c : T → T → Bool) (P : List (T × Nat) → Prop) (q : min_queue T) : Prop :=
  q.mComp = c ∧ q.mNew.mComp = c ∧ q.mOld.mComp = c ∧ P q.mNew.mStack ∧ P q.mOld.mStack

/-- The elements of a queue, oldest first: the old stack from its top down,
then the new stack from its bottom up. -/
def min_queue.toList (q : min_queue T) : List T :=
  (q.mOld.mStack.reverse ++ q.mNew.mStack).map Prod.fst

/-- The comparator that orders pairs of numbers by their first component. -/
def byFirst (a b : Nat × Nat) : Bool :=
  decide (a.1 < b.1)

end MinStack

/-! ## The class `two_three_heap` (`source/two_three_heap.h`)

A `std::vector` is a list, `mElems[i]` the element at position `i`.  The type
`size_t` is that of a 64-bit machine: sums, differences and products of
indices are taken modulo `2 ^ 64` (`addSize`, `subSize`, `mulSize`).  The levels
(`int`) are integers.  `mElems.max_size()` depends on the allocator and is a
parameter of the operations that use it.  A failing `assert`, an array or
vector access outside the bounds and `front()` of an empty vector are the
result `none`; the exception thrown by `push` is the result `Except.error`.
The loops are bounded by a number of passes (the size of the vector). -/

section TwoThreeHeap

variable {T : Type}

/-- The array `kRowIndices`: the index of the first element of each level of the
tree, and the sentinel. -/
def kRowIndices : List Nat :=
  [0, 1, 3, 9, 27, 81, 189, 513, 1485, 4401, 10233, 27729, 80217, 237681, 552609, 1497393,
    4331745, 12834801, 29840913, 80859249, 233914257, 693079281, 1611409329]

/-- The constant `kMaxSize`. -/
def kMaxSize : Nat :=
  1611409329 - 1

/-- The sum of two values of type `size_t`. -/
def addSize (a b : Nat) : Nat :=
  (a + b) % 2 ^ 64

/-- The difference of two values of type `size_t`. -/
def subSize (a b : Nat) : Nat :=
  (a + 2 ^ 64 - b % 2 ^ 64) % 2 ^ 64

/-- The product of two values of type `size_t`. -/
def mulSize (a b : Nat) : Nat :=
  (a * b) % 2 ^ 64

/-- The array access `kRowIndices[level]`. -/
def rowIndexAt (level : Int) : Option Nat :=
  if 0 ≤ level then kRowIndices[level.toNat]? else none

/-- The function `BranchingFactorForLevel(level)`: `assert (level >= 0)`, then
`level % 4 == 0? 2 : 3`. -/
def BranchingFactorForLevel (level : Int) : Option Nat :=
  if 0 ≤ level then some (if level % 4 = 0 then 2 else 3) else none

/-- The function `ParentIndex(index, level)`: `assert (level > 0)`,
`rowIndex = index - kRowIndices[level]`,
`parentRowIndex = rowIndex / BranchingFactorForLevel(level - 1)`, and the result
`kRowIndices[level - 1] + parentRowIndex`. -/
def ParentIndex (index : Nat) (level : Int) : Option Nat :=
  if 0 < level then
    match rowIndexAt level, BranchingFactorForLevel (level - 1), rowIndexAt (level - 1) with
    | some r, some bf, some rp => some (addSize rp (subSize index r / bf))
    | _, _, _ => none
  else none

/-- The function `ChildrenOf(index, level)`: `assert (level >= 0)`,
`rowIndex = index - kRowIndices[level]`,
`firstChild = kRowIndices[level + 1] + rowIndex * branchingFactor`, and the
result `(firstChild, firstChild + branchingFactor)`. -/
def ChildrenOf (index : Nat) (level : Int) : Option (Nat × Nat) :=
  if 0 ≤ level then
    match rowIndexAt level, BranchingFactorForLevel level, rowIndexAt (level + 1) with
    | some r, some bf, some rn =>
      some (addSize rn (mulSize (subSize index r) bf),
        addSize (addSize rn (mulSize (subSize index r) bf)) bf)
    | _, _, _ => none
  else none

/-- The class `two_three_heap<T, Comparator, Allocator>`. -/
structure two_three_heap (T : Type) where
  mElems : List T
  mLeafLevel : Int
  mComp : T → T → Bool

/-- The constructor: `mLeafLevel(-1), mComp(comp)`. -/
def two_three_heap.construct (comp : T → T → Bool) : two_three_heap T :=
  ⟨[], -1, comp⟩

/-- Member `max_size()`: `std::min(mElems.max_size(), kMaxSize)`; the first
argument is `mElems.max_size()`. -/
def two_three_heap.max_size (vecMax : Nat) (_h : two_three_heap T) : Nat :=
  min vecMax kMaxSize

/-- Member `size()`. -/
def two_three_heap.size (h : two_three_heap T) : Nat :=
  h.mElems.length

/-- Member `empty()`. -/
def two_three_heap.isEmpty (h : two_three_heap T) : Bool :=
  h.mElems.isEmpty

/-- Member `top()`: `mElems.front()`. -/
def two_three_heap.top (h : two_three_heap T) : Option T :=
  h.mElems.head?

/-- The call `std::swap(elems[i], elems[j])`. -/
def swapAt (elems : List T) (i j : Nat) : Option (List T) :=
  match elems[i]?, elems[j]? with
  | some a, some b => some ((elems.set i b).set j a)
  | _, _ => none

/-- The loop of `push`: `for (size_t index = mElems.size() - 1; index != 0; --row)`,
from the pass that starts at `index` in the row `row`.  A pass computes the
parent, leaves the loop when `!mComp(mElems[parent], mElems[index])`, and
otherwise swaps the two elements and continues at the parent. -/
def bubbleUp (comp : T → T → Bool) : Nat → List T → Nat → Int → Option (List T)
  | 0, elems, index, _ => if index = 0 then some elems else none
  | fuel + 1, elems, index, row =>
    if index = 0 then some elems
    else
      match ParentIndex index row with
      | none => none
      | some parent =>
        match elems[parent]?, elems[index]? with
        | some a, some b =>
          if !comp a b then some elems
          else
            match swapAt elems parent index with
            | none => none
            | some elems1 => bubbleUp comp fuel elems1 parent (row - 1)
        | _, _ => none

/-- Member `push(value)`, with `mElems.max_size()` as first argument:
`std::length_error` when `size() == max_size()`; otherwise the value is
appended, `mLeafLevel` is incremented when `size() - 1 == kRowIndices[mLeafLevel + 1]`,
and the value is bubbled up from the last position. -/
def two_three_heap.push (vecMax : Nat) (h : two_three_heap T) (value : T) :
    Option (Except std_exception (two_three_heap T)) :=
  if h.size = h.max_size vecMax then some (Except.error std_exception.length_error)
  else
    match rowIndexAt (h.mLeafLevel + 1) with
    | none => none
    | some r =>
      match bubbleUp h.mComp (h.mElems ++ [value]).length (h.mElems ++ [value])
          ((h.mElems ++ [value]).length - 1)
          (if (h.mElems ++ [value]).length - 1 = r then h.mLeafLevel + 1 else h.mLeafLevel) with
      | none => none
      | some elems1 =>
        some (Except.ok ⟨elems1,
          if (h.mElems ++ [value]).length - 1 = r then h.mLeafLevel + 1 else h.mLeafLevel,
          h.mComp⟩)

/-- The loop of `std::max_element(first, last, comp)` on positions of `elems`:
`for (; first != last; ++first) if (comp(*largest, *first)) largest = first;`.
The first argument is the number of passes left, then `largest` and `first`. -/
def maxElementLoop (comp : T → T → Bool) (elems : List T) : Nat → Nat → Nat → Option Nat
  | 0, largest, _ => some largest
  | n + 1, largest, i =>
    match elems[largest]?, elems[i]? with
    | some a, some b => maxElementLoop comp elems n (if comp a b then i else largest) (i + 1)
    | _, _ => none

/-- The call `std::max_element(mElems.begin() + first, mElems.begin() + last, comp)
- mElems.begin()`: `last` for an empty range, otherwise the result of the loop
started with `largest = first`. -/
def maxElement (comp : T → T → Bool) (elems : List T) (first last : Nat) : Option Nat :=
  if first = last then some last
  else maxElementLoop comp elems (last - (first + 1)) first (first + 1)

/-- The loop of `pop`: `for (size_t index = 0; index < size(); ++row)`, from the
pass that starts at `index` in the row `row`.  A pass returns when the node has
no children, finds the largest child, leaves the loop when
`!mComp(mElems[index], mElems[maxChildIndex])`, and otherwise swaps the two
elements and continues at that child. -/
def bubbleDown (comp : T → T → Bool) : Nat → List T → Nat → Int → Option (List T)
  | 0, elems, index, _ => if index < elems.length then none else some elems
  | fuel + 1, elems, index, row =>
    if index < elems.length then
      match ChildrenOf index row with
      | none => none
      | some (first, second) =>
        if elems.length ≤ first then some elems
        else
          match maxElement comp elems first (min second elems.length) with
          | none => none
          | some maxChildIndex =>
            match elems[index]?, elems[maxChildIndex]? with
            | some a, some b =>
              if !comp a b then some elems
              else
                match swapAt elems index maxChildIndex with
                | none => none
                | some elems1 => bubbleDown comp fuel elems1 maxChildIndex (row + 1)
            | _, _ => none
    else some elems

/-- Member `pop()`: the first and the last element are swapped and the last
is removed; an empty heap gets `mLeafLevel = -1`; otherwise `mLeafLevel` is
decremented when `kRowIndices[mLeafLevel] == size()`, and the first element is
bubbled down. -/
def two_three_heap.pop (h : two_three_heap T) : Option (two_three_heap T) :=
  match swapAt h.mElems 0 (h.mElems.length - 1) with
  | none => none
  | some e1 =>
    if e1.dropLast.isEmpty then some ⟨e1.dropLast, -1, h.mComp⟩
    else
      match rowIndexAt h.mLeafLevel with
      | none => none
      | some r =>
        match bubbleDown h.mComp e1.dropLast.length e1.dropLast 0 0 with
        | none => none
        | some elems1 =>
          some ⟨elems1, if r = e1.dropLast.length then h.mLeafLevel - 1 else h.mLeafLevel,
            h.mComp⟩

/-- The index `i` lies in the row `l` of the tree:
`kRowIndices[l] <= i < kRowIndices[l + 1]`. -/
def InRow (l i : Nat) : Prop :=
  ∃ r r1, kRowIndices[l]? = some r ∧ kRowIndices[l + 1]? = some r1 ∧ r ≤ i ∧ i < r1

/-- The index `p` is the parent of the index `i`: `i` lies in a row `l > 0` and
`ParentIndex(i, l)` is `p`. -/
def IsParent (p i : Nat) : Prop :=
  ∃ l : Nat, 1 ≤ l ∧ InRow l i ∧ ParentIndex i l = some p

/-- The heap order: no element is smaller than one of its children. -/
def HeapOrdered (comp : T → T → Bool) (elems : List T) : Prop :=
  ∀ p i a b, IsParent p i → elems[p]? = some a → elems[i]? = some b → comp a b = false

/-- The shape invariant of the heap: at most `max_size()` elements, and
`mLeafLevel` is the row of the last element (-1 when there is none). -/
def two_three_heap.Shape (vecMax : Nat) (h : two_three_heap T) : Prop :=
  h.mElems.length ≤ h.max_size vecMax ∧ (h.mElems = [] → h.mLeafLevel = -1) ∧
    (h.mElems ≠ [] → ∃ l : Nat, h.mLeafLevel = l ∧ InRow l (h.mElems.length - 1))

/-- The heaps that the constructor, `push` (when it returns) and `pop`
produce, with the comparator `comp` and with `mElems.max_size()` equal to
`vecMax`. -/
inductive two_three_heap.Reachable (vecMax : Nat) (comp : T → T → Bool) :
    two_three_heap T → Prop where
  | construct : two_three_heap.Reachable vecMax comp (two_three_heap.construct comp)
  | push {h h1 : two_three_heap T} {v : T} :
      two_three_heap.Reachable vecMax comp h → h.push vecMax v = some (Except.ok h1) →
      two_three_heap.Reachable vecMax comp h1
  | pop {h h1 : two_three_heap T} :
      two_three_heap.Reachable vecMax comp h → h.pop = some h1 →
      two_three_heap.Reachable vecMax comp h1

/-- The caller's loop `for (v : vs) h.push(v);` (no push throws). -/
def pushAll (vecMax : Nat) : two_three_heap T → List T → Option (two_three_heap T)
  | h, [] => some h
  | h, v :: rest =>
    match h.push vecMax v with
    | some (Except.ok h1) => pushAll vecMax h1 rest
    | _ => none

/-- The caller's loop `while (!h.empty()) { out.push_back(h.top()); h.pop(); }`,
bounded by a number of passes. -/
def drain : Nat → two_three_heap T → Option (List T)
  | 0, h => if h.isEmpty then some [] else none
  | n + 1, h =>
    if h.isEmpty then some []
    else
      match h.top, h.pop with
      | some x, some h1 =>
        match drain n h1 with
        | none => none
        | some l => some (x :: l)
      | _, _ => none

/-- The heap after `push(5)`, `push(3)`, `push(9)` on a new heap of numbers
with the comparator `<`. -/
def sampleHeap : two_three_heap Nat :=
  ⟨[9, 3, 5], 1, fun a b => decide (a < b)⟩

end TwoThreeHeap

end util

/-! ## The class `BoundedPQueue` (`source/bounded_pq.h`)

The class is declared outside the namespace `util`.  A
`std::multimap<double, T, Comparator>` is the list of its pairs in iteration
order, together with its comparator object.  The keys have the type `P`
(`double` in the source: its finite values are rational numbers, and in the
run of `BoundedPQueue<int>` below `P` is `ℚ`), with a value for
`std::numeric_limits<double>::infinity()` that is passed to the functions that
use it.  The comparator object takes arguments of a type `A` (`T` for the
default `Comparator = std::less<T>`); a call of it on two keys converts both
keys to `A` first, by the conversion `conv` that is passed to the functions
that compare keys.  Undefined behaviour (`begin()->second` of an empty map,
`--end()` on an empty map) is the result `none`. -/

section BoundedPQ

variable {P A T : Type}

/-- The call `elems.insert(make_pair(priority, value))`, with `less a b` for the
call of the comparator of the map on the keys `a` and `b`: the pair is placed
before the first pair with a greater key, that is after the pairs with an
equivalent key. -/
def multimapInsert (less : P → P → Bool) (x : P × T) : List (P × T) → List (P × T)
  | [] => [x]
  | e :: rest => if less x.1 e.1 then x :: e :: rest else e :: multimapInsert less x rest

/-- The class `BoundedPQueue<T, Comparator>`: the multimap `elems` (its pairs
and its comparator object `comp`, of the type `Comparator`) and
`maximumSize`. -/
structure BoundedPQueue (P A T : Type) where
  elems : List (P × T)
  comp : A → A → Bool
  maximumSize : Nat

/-- The constructor `BoundedPQueue(maxSize, comp)`. -/
def BoundedPQueue.construct (maxSize : Nat) (comp : A → A → Bool) : BoundedPQueue P A T :=
  ⟨[], comp, maxSize⟩

/-- The call `elems.key_comp()(a, b)` on two keys: the comparator object is
called with the two keys, which are converted to the type of its parameters. -/
def BoundedPQueue.key_comp (conv : P → A) (q : BoundedPQueue P A T) (a b : P) : Bool :=
  q.comp (conv a) (conv b)

/-- Member `size()`. -/
def BoundedPQueue.size (q : BoundedPQueue P A T) : Nat :=
  q.elems.length

/-- Member `empty()`. -/
def BoundedPQueue.isEmpty (q : BoundedPQueue P A T) : Bool :=
  q.elems.isEmpty

/-- Member `maxSize()`. -/
def BoundedPQueue.maxSize (q : BoundedPQueue P A T) : Nat :=
  q.maximumSize

/-- Member `best()`: `empty()? infinity : elems.begin()->first`. -/
def BoundedPQueue.best (infinity : P) (q : BoundedPQueue P A T) : P :=
  match q.elems with
  | [] => infinity
  | e :: _ => e.1

/-- Member `worst()`: `empty()? infinity : elems.rbegin()->first`. -/
def BoundedPQueue.worst (infinity : P) (q : BoundedPQueue P A T) : P :=
  match q.elems.getLast? with
  | none => infinity
  | some e => e.1

/-- Member `enqueue(value, priority)`: returns at once
`if (size() == maxSize() && elems.key_comp()(worst(), priority))`; otherwise
inserts the pair and, `if (size() > maxSize())`, erases the last pair of the
map (`last = elems.end(); --last; elems.erase(last);`). -/
def BoundedPQueue.enqueue (conv : P → A) (infinity : P) (q : BoundedPQueue P A T) (value : T)
    (priority : P) : Option (BoundedPQueue P A T) :=
  if q.size = q.maxSize && q.key_comp conv (q.worst infinity) priority then some q
  else
    let q1 : BoundedPQueue P A T :=
      ⟨multimapInsert (q.key_comp conv) (priority, value) q.elems, q.comp, q.maximumSize⟩
    if q1.maxSize < q1.size then
      match q1.elems.getLast? with
      | none => none
      | some _ => some ⟨q1.elems.dropLast, q1.comp, q1.maximumSize⟩
    else some q1

/-- Member `dequeueMin()`: `result = elems.begin()->second`,
`elems.erase(elems.begin())`, and `result` is returned. -/
def BoundedPQueue.dequeueMin (q : BoundedPQueue P A T) : Option (T × BoundedPQueue P A T) :=
  match q.elems with
  | [] => none
  | e :: rest => some (e.2, ⟨rest, q.comp, q.maximumSize⟩)

/-- The queues produced by the constructor `BoundedPQueue(maxSize, comp)`
followed by calls of `enqueue` and `dequeueMin`. -/
inductive BoundedPQueue.Reachable (conv : P → A) (infinity : P) (maxSize : Nat)
    (comp : A → A → Bool) : BoundedPQueue P A T → Prop where
  | construct : BoundedPQueue.Reachable conv infinity maxSize comp
      (BoundedPQueue.construct maxSize comp)
  | enqueue {q r : BoundedPQueue P A T} (value : T) (priority : P) :
      BoundedPQueue.Reachable conv infinity maxSize comp q →
      q.enqueue conv infinity value priority = some r →
      BoundedPQueue.Reachable conv infinity maxSize comp r
  | dequeueMin {q : BoundedPQueue P A T} {r : T × BoundedPQueue P A T} :
      BoundedPQueue.Reachable conv infinity maxSize comp q → q.dequeueMin = some r →
      BoundedPQueue.Reachable conv infinity maxSize comp r.2

/-- The pairs of the multimap are in the order of their keys under the
comparator: no pair has a key that compares smaller than the key of a pair
before it. -/
def BoundedPQueue.Sorted (conv : P → A) (q : BoundedPQueue P A T) : Prop :=
  q.elems.Pairwise (fun a b => q.key_comp conv b.1 a.1 = false)

/-- The conversion of a `double` to `int`, on the finite values: the fraction
is discarded (rounding toward zero).  The conversion is undefined for a value
whose integer part is not an `int`. -/
def doubleToInt (x : ℚ) : Int :=
  x.num.tdiv x.den

/-- The comparator `std::less<int>`, the default `Comparator` of
`BoundedPQueue<int>`. -/
def lessInt (a b : Int) : Bool :=
  decide (a < b)

end BoundedPQ

namespace util

/-! ## Association lists -/

section MapLemmas

variable {Ch : Type} [LinearOrder Ch] {V : Type}

theorem mapFind_mapAssign_self (m : List (Ch × V)) (k : Ch) (v : V) :
    mapFind (mapAssign m k v) k = some v := by
  induction m with
  | nil => simp [mapAssign, mapFind]
  | cons a rest ih =>
    obtain ⟨k', v'⟩ := a
    unfold mapAssign
    by_cases h1 : k < k'
    · simp [h1, mapFind]
    · by_cases h2 : k' < k
      · simp [h1, h2, mapFind, ih, ne_of_lt h2]
      · have : k' = k := le_antisymm (not_lt.mp h1) (not_lt.mp h2)
        simp [h1, h2, mapFind, this]

theorem mapFind_mapAssign_of_ne (m : List (Ch × V)) {k k2 : Ch} (v : V) (h : k2 ≠ k) :
    mapFind (mapAssign m k v) k2 = mapFind m k2 := by
  induction m with
  | nil => simp [mapAssign, mapFind, Ne.symm h]
  | cons a rest ih =>
    obtain ⟨k', v'⟩ := a
    unfold mapAssign
    by_cases h1 : k < k'
    · simp [h1, mapFind, Ne.symm h]
    · by_cases h2 : k' < k
      · simp [h1, h2, mapFind, ih]
      · have e : k' = k := le_antisymm (not_lt.mp h1) (not_lt.mp h2)
        simp [h1, h2, mapFind, e, Ne.symm h]

theorem mapFind_mapAssign (m : List (Ch × V)) (k k2 : Ch) (v : V) :
    mapFind (mapAssign m k v) k2 = if k2 = k then some v else mapFind m k2 := by
  by_cases h : k2 = k
  · subst h; simp [mapFind_mapAssign_self]
  · simp [h, mapFind_mapAssign_of_ne m v h]

theorem mapFind_some_mem {m : List (Ch × V)} {k : Ch} {v : V} (h : mapFind m k = some v) :
    (k, v) ∈ m := by
  induction m with
  | nil => simp [mapFind] at h
  | cons a rest ih =>
    obtain ⟨k', v'⟩ := a
    unfold mapFind at h
    by_cases e : k' = k
    · simp [e] at h; simp [e, h]
    · simp [e] at h; exact List.mem_cons_of_mem _ (ih h)

theorem mapFind_of_mem {m : List (Ch × V)} (hs : keysSorted m) {k : Ch} {v : V}
    (h : (k, v) ∈ m) : mapFind m k = some v := by
  induction m with
  | nil => simp at h
  | cons a rest ih =>
    obtain ⟨k', v'⟩ := a
    have hs' := List.pairwise_cons.mp hs
    rcases List.mem_cons.mp h with h | h
    · cases h; simp [mapFind]
    · have : k' < k := hs'.1 _ h
      simp [mapFind, ne_of_lt this, ih hs'.2 h]

theorem keysSorted_tail {a : Ch × V} {m : List (Ch × V)} (hs : keysSorted (a :: m)) :
    keysSorted m :=
  (List.pairwise_cons.mp hs).2

theorem mem_mapAssign {m : List (Ch × V)} {k : Ch} {v : V} {a : Ch × V}
    (h : a ∈ mapAssign m k v) : a = (k, v) ∨ a ∈ m := by
  induction m with
  | nil => simp [mapAssign] at h; exact Or.inl h
  | cons b rest ih =>
    obtain ⟨k', v'⟩ := b
    unfold mapAssign at h
    by_cases h1 : k < k'
    · simp [h1] at h; rcases h with h | h | h
      · exact Or.inl h
      · exact Or.inr (by simp [h])
      · exact Or.inr (List.mem_cons_of_mem _ h)
    · by_cases h2 : k' < k
      · simp [h1, h2] at h
        rcases h with h | h
        · exact Or.inr (by simp [h])
        · rcases ih h with h | h
          · exact Or.inl h
          · exact Or.inr (List.mem_cons_of_mem _ h)
      · have e : k' = k := le_antisymm (not_lt.mp h1) (not_lt.mp h2)
        simp [h1, h2] at h
        rcases h with h | h
        · exact Or.inl (by rw [h, e])
        · exact Or.inr (List.mem_cons_of_mem _ h)

theorem keysSorted_mapAssign {m : List (Ch × V)} (hs : keysSorted m) (k : Ch) (v : V) :
    keysSorted (mapAssign m k v) := by
  induction m with
  | nil => simp [mapAssign, keysSorted]
  | cons b rest ih =>
    obtain ⟨k', v'⟩ := b
    have hs' := List.pairwise_cons.mp hs
    unfold mapAssign
    by_cases h1 : k < k'
    · simp only [h1, if_true]
      refine List.pairwise_cons.mpr ⟨?_, hs⟩
      intro a ha
      rcases List.mem_cons.mp ha with ha | ha
      · rw [ha]; exact h1
      · exact lt_trans h1 (hs'.1 a ha)
    · by_cases h2 : k' < k
      · simp only [h1, h2, if_true, if_false]
        refine List.pairwise_cons.mpr ⟨?_, ih hs'.2⟩
        intro a ha
        rcases mem_mapAssign ha with ha | ha
        · rw [ha]; exact h2
        · exact hs'.1 a ha
      · simp only [h1, h2, if_false]
        exact List.pairwise_cons.mpr ⟨hs'.1, hs'.2⟩

theorem mapAssign_of_find {m : List (Ch × V)} (hs : keysSorted m) {k : Ch} {v : V}
    (h : mapFind m k = some v) : mapAssign m k v = m := by
  induction m with
  | nil => simp [mapFind] at h
  | cons b rest ih =>
    obtain ⟨k', v'⟩ := b
    have hs' := List.pairwise_cons.mp hs
    unfold mapFind at h
    unfold mapAssign
    by_cases e : k' = k
    · simp [e] at h; subst e; subst h; simp
    · simp [e] at h
      have hlt : k' < k := hs'.1 _ (mapFind_some_mem h)
      simp [not_lt_of_lt hlt, hlt, ih hs'.2 h]

theorem mem_mapErase {m : List (Ch × V)} {k : Ch} {a : Ch × V}
    (h : a ∈ mapErase m k) : a ∈ m := by
  induction m with
  | nil => simp [mapErase] at h
  | cons b rest ih =>
    obtain ⟨k', v'⟩ := b
    unfold mapErase at h
    by_cases e : k' = k
    · simp [e] at h; exact List.mem_cons_of_mem _ h
    · simp [e] at h
      rcases h with h | h
      · simp [h]
      · exact List.mem_cons_of_mem _ (ih h)

theorem keysSorted_mapErase {m : List (Ch × V)} (hs : keysSorted m) (k : Ch) :
    keysSorted (mapErase m k) := by
  induction m with
  | nil => simp [mapErase, keysSorted]
  | cons b rest ih =>
    obtain ⟨k', v'⟩ := b
    have hs' := List.pairwise_cons.mp hs
    unfold mapErase
    by_cases e : k' = k
    · simp [e]; exact hs'.2
    · simp only [e, if_false]
      exact List.pairwise_cons.mpr ⟨fun a ha => hs'.1 a (mem_mapErase ha), ih hs'.2⟩

theorem mapFind_mapErase {m : List (Ch × V)} (hs : keysSorted m) (k k2 : Ch) :
    mapFind (mapErase m k) k2 = if k2 = k then none else mapFind m k2 := by
  induction m with
  | nil => simp [mapErase, mapFind]
  | cons b rest ih =>
    obtain ⟨k', v'⟩ := b
    have hs' := List.pairwise_cons.mp hs
    unfold mapErase
    by_cases e : k' = k
    · subst e
      simp only [if_true]
      by_cases e2 : k2 = k'
      · subst e2
        simp only [if_true]
        cases hf : mapFind rest k2 with
        | none => rfl
        | some v => exact absurd (hs'.1 _ (mapFind_some_mem hf)) (lt_irrefl _)
      · simp [e2, mapFind, Ne.symm e2]
    · simp only [e, if_false, mapFind, ih hs'.2]
      by_cases e2 : k2 = k
      · subst e2; simp [e]
      · simp [e2]

theorem mapErase_eq_nil {m : List (Ch × V)} (hs : keysSorted m) {k k2 : Ch} {v : V}
    (he : mapErase m k = []) (hf : mapFind m k2 = some v) : k2 = k := by
  by_contra hne
  have := mapFind_mapErase hs k k2
  rw [he] at this
  simp [hne, mapFind, hf] at this

theorem mapUpperBound_some {m : List (Ch × V)} (hs : keysSorted m) {c k : Ch} {v : V}
    (h : mapUpperBound m c = some (k, v)) :
    c < k ∧ mapFind m k = some v ∧ ∀ k' v', mapFind m k' = some v' → c < k' → k ≤ k' := by
  induction m with
  | nil => simp [mapUpperBound] at h
  | cons b rest ih =>
    obtain ⟨k1, v1⟩ := b
    have hs' := List.pairwise_cons.mp hs
    unfold mapUpperBound at h
    by_cases hc : c < k1
    · simp [hc] at h
      obtain ⟨rfl, rfl⟩ := h
      refine ⟨hc, by simp [mapFind], ?_⟩
      intro k' v' hf _
      rcases List.mem_cons.mp (mapFind_some_mem hf) with hm | hm
      · cases hm; exact le_refl _
      · exact le_of_lt (hs'.1 _ hm)
    · simp [hc] at h
      obtain ⟨h1, h2, h3⟩ := ih hs'.2 h
      have hne : k1 ≠ k := fun e => hc (e ▸ h1)
      refine ⟨h1, by simp [mapFind, hne, h2], ?_⟩
      intro k' v' hf hlt
      have hne' : k1 ≠ k' := fun e => hc (e ▸ hlt)
      simp [mapFind, hne'] at hf
      exact h3 k' v' hf hlt

theorem mapUpperBound_none {m : List (Ch × V)} {c : Ch}
    (h : mapUpperBound m c = none) : ∀ k' v', mapFind m k' = some v' → k' ≤ c := by
  induction m with
  | nil => intro k' v' hf; simp [mapFind] at hf
  | cons b rest ih =>
    obtain ⟨k1, v1⟩ := b
    unfold mapUpperBound at h
    by_cases hc : c < k1
    · simp [hc] at h
    · simp [hc] at h
      intro k' v' hf
      unfold mapFind at hf
      by_cases e : k1 = k'
      · subst e; exact not_lt.mp hc
      · simp [e] at hf; exact ih h k' v' hf

theorem mapFind_head_le {k : Ch} {v : V} {rest : List (Ch × V)}
    (hs : keysSorted ((k, v) :: rest)) {k' : Ch} {v' : V}
    (hf : mapFind ((k, v) :: rest) k' = some v') : k ≤ k' := by
  rcases List.mem_cons.mp (mapFind_some_mem hf) with hm | hm
  · cases hm; exact le_refl _
  · exact le_of_lt ((List.pairwise_cons.mp hs).1 _ hm)

end MapLemmas

/-! ## Nodes and addresses -/

section NodeLemmas

variable {Ch : Type} [LinearOrder Ch]

@[simp]
theorem Node.mLetter_mk (l : Ch) (w : Bool) (eq : List (Ch × Node Ch)) :
    (Node.mk l w eq).mLetter = l := rfl

@[simp]
theorem Node.mIsWord_mk (l : Ch) (w : Bool) (eq : List (Ch × Node Ch)) :
    (Node.mk l w eq).mIsWord = w := rfl

@[simp]
theorem Node.mEqual_mk (l : Ch) (w : Bool) (eq : List (Ch × Node Ch)) :
    (Node.mk l w eq).mEqual = eq := rfl

theorem Node.sizeOf_child_lt {l : Ch} {w : Bool} {eq : List (Ch × Node Ch)} {k : Ch}
    {ch : Node Ch} (h : (k, ch) ∈ eq) : sizeOf ch < sizeOf (Node.mk l w eq) := by
  have h1 := List.sizeOf_lt_of_mem h
  simp only [Node.mk.sizeOf_spec, Prod.mk.sizeOf_spec] at *
  omega

/-- Induction over nodes: a property holds of a node once it holds of all its
children. -/
theorem Node.induct {P : Node Ch → Prop}
    (h : ∀ l w eq, (∀ k ch, (k, ch) ∈ eq → P ch) → P (Node.mk l w eq)) : ∀ n, P n := by
  intro n
  generalize hn : sizeOf n = m
  induction m using Nat.strong_induction_on generalizing n with
  | _ m ih =>
    cases n with
    | mk l w eq =>
      apply h
      intro k ch hmem
      exact ih _ (hn ▸ Node.sizeOf_child_lt hmem) ch rfl

theorem Node.eta (n : Node Ch) : Node.mk n.mLetter n.mIsWord n.mEqual = n := by
  cases n; rfl

theorem Node.deref_nil (n : Node Ch) : n.deref [] = some n := by
  cases n; rfl

theorem Node.deref_cons (n : Node Ch) (c : Ch) (cs : List Ch) :
    n.deref (c :: cs) = (mapFind n.mEqual c).bind (fun ch => ch.deref cs) := by
  cases n with
  | mk l w eq =>
    simp only [Node.deref, Node.mEqual_mk]
    cases mapFind eq c <;> rfl

theorem Node.deref_append (n : Node Ch) (p q : List Ch) :
    n.deref (p ++ q) = (n.deref p).bind (fun m => m.deref q) := by
  induction p generalizing n with
  | nil => simp [Node.deref_nil]
  | cons c cs ih =>
    rw [List.cons_append, Node.deref_cons, Node.deref_cons]
    cases mapFind n.mEqual c with
    | none => rfl
    | some ch => simp [ih]

theorem Node.deref_snoc (n : Node Ch) (p : List Ch) (c : Ch) :
    n.deref (p ++ [c]) = (n.deref p).bind (fun m => mapFind m.mEqual c) := by
  rw [Node.deref_append]
  cases n.deref p with
  | none => rfl
  | some m =>
    simp only [Option.some_bind, Node.deref_cons]
    cases mapFind m.mEqual c with
    | none => rfl
    | some ch => simp [Node.deref_nil]

theorem Node.isWordAt_nil (n : Node Ch) : n.isWordAt [] = n.mIsWord := by
  simp [Node.isWordAt, Node.deref_nil]

theorem Node.isWordAt_cons (n : Node Ch) (c : Ch) (cs : List Ch) :
    n.isWordAt (c :: cs) =
      match mapFind n.mEqual c with
      | none => false
      | some ch => ch.isWordAt cs := by
  simp only [Node.isWordAt, Node.deref_cons]
  cases mapFind n.mEqual c <;> rfl

theorem Node.isWordAt_append (n : Node Ch) (p q : List Ch) :
    n.isWordAt (p ++ q) =
      match n.deref p with
      | none => false
      | some m => m.isWordAt q := by
  simp only [Node.isWordAt, Node.deref_append]
  cases n.deref p <;> rfl

theorem Node.deref_of_isWordAt {n : Node Ch} {p q : List Ch}
    (h : n.isWordAt (p ++ q) = true) : ∃ m, n.deref p = some m ∧ m.isWordAt q = true := by
  rw [Node.isWordAt_append] at h
  cases hd : n.deref p with
  | none => simp [hd] at h
  | some m => exact ⟨m, rfl, by simpa [hd] using h⟩

theorem Node.WF.local {n : Node Ch} (h : n.WF) : n.Local :=
  h [] n (Node.deref_nil n)

theorem Node.WF.deref {n : Node Ch} (h : n.WF) {p : List Ch} {m : Node Ch}
    (hd : n.deref p = some m) : m.WF := by
  intro q m' hq
  refine h (p ++ q) m' ?_
  rw [Node.deref_append, hd]
  exact hq

theorem Node.WF.child {n : Node Ch} (h : n.WF) {k : Ch} {ch : Node Ch}
    (hf : mapFind n.mEqual k = some ch) : ch.WF := by
  refine h.deref (p := [k]) ?_
  rw [Node.deref_cons, hf]
  simp [Node.deref_nil]

theorem Node.WF.child_mem {n : Node Ch} (h : n.WF) {k : Ch} {ch : Node Ch}
    (hm : (k, ch) ∈ n.mEqual) : ch.WF :=
  h.child (mapFind_of_mem h.local.1 hm)

theorem Node.WF_of_children {n : Node Ch} (hl : n.Local)
    (hc : ∀ k ch, mapFind n.mEqual k = some ch → ch.WF) : n.WF := by
  intro p m hd
  cases p with
  | nil =>
    rw [Node.deref_nil] at hd
    cases hd
    exact hl
  | cons c cs =>
    rw [Node.deref_cons] at hd
    cases hf : mapFind n.mEqual c with
    | none => simp [hf] at hd
    | some ch =>
      rw [hf] at hd
      exact hc c ch hf cs m hd

theorem Node.WF_leaf (c : Ch) (w : Bool) : (Node.mk c w []).WF := by
  refine Node.WF_of_children ⟨List.Pairwise.nil, ?_⟩ ?_
  · intro k ch hf; simp [mapFind] at hf
  · intro k ch hf; simp [mapFind] at hf

theorem Node.isWordAt_leaf (c : Ch) (w : List Ch) : (Node.mk c false []).isWordAt w = false := by
  cases w with
  | nil => simp [Node.isWordAt_nil]
  | cons a as => simp [Node.isWordAt_cons, mapFind]

/-- The child a step of `insert` moves into: the existing one, or a new node. -/
theorem insertNode_nil (n : Node Ch) :
    insertNode n [] =
      if n.mIsWord then (n, false) else (Node.mk n.mLetter true n.mEqual, true) := by
  cases n with
  | mk l w eq => simp only [insertNode, Node.mIsWord_mk, Node.mLetter_mk, Node.mEqual_mk]

theorem insertNode_cons (n : Node Ch) (c : Ch) (cs : List Ch) :
    insertNode n (c :: cs) =
      (Node.mk n.mLetter n.mIsWord
          (mapAssign n.mEqual c
            (insertNode ((mapFind n.mEqual c).getD (Node.mk c false [])) cs).1),
        (insertNode ((mapFind n.mEqual c).getD (Node.mk c false [])) cs).2) := by
  cases n with
  | mk l w eq =>
    simp only [insertNode, Node.mIsWord_mk, Node.mLetter_mk, Node.mEqual_mk]
    cases mapFind eq c <;> rfl

theorem insertNode_mLetter (n : Node Ch) (s : List Ch) :
    (insertNode n s).1.mLetter = n.mLetter := by
  cases s with
  | nil =>
    rw [insertNode_nil]
    split <;> rfl
  | cons c cs => rw [insertNode_cons]; rfl

theorem mapAssign_ne_nil {V : Type} (m : List (Ch × V)) (k : Ch) (v : V) :
    mapAssign m k v ≠ [] := by
  intro h
  have := mapFind_mapAssign_self m k v
  rw [h] at this
  simp [mapFind] at this

theorem insertNode_isDead (n : Node Ch) (s : List Ch) :
    (insertNode n s).1.isDead = false := by
  cases s with
  | nil =>
    rw [insertNode_nil]
    by_cases h : n.mIsWord = true
    · simp [h, Node.isDead]
    · simp [h, Node.isDead]
  | cons c cs =>
    rw [insertNode_cons]
    simp only [Node.isDead, Node.mEqual_mk]
    cases h : mapAssign n.mEqual c
        (insertNode ((mapFind n.mEqual c).getD (Node.mk c false [])) cs).1 with
    | nil => exact absurd h (mapAssign_ne_nil _ _ _)
    | cons a b => simp

theorem insertNode_isWordAt (n : Node Ch) (s w : List Ch) :
    (insertNode n s).1.isWordAt w = (decide (w = s) || n.isWordAt w) := by
  induction s generalizing n w with
  | nil =>
    rw [insertNode_nil]
    cases w with
    | nil =>
      by_cases h : n.mIsWord = true
      · simp [h, Node.isWordAt_nil]
      · simp [h, Node.isWordAt_nil]
    | cons a as =>
      by_cases h : n.mIsWord = true
      · simp [h]
      · simp [h, Node.isWordAt_cons]
  | cons c cs ih =>
    rw [insertNode_cons]
    cases w with
    | nil => simp [Node.isWordAt_nil]
    | cons a as =>
      simp only [Node.isWordAt_cons, Node.mEqual_mk, mapFind_mapAssign]
      by_cases e : a = c
      · subst e
        simp only [if_true, ih]
        cases hf : mapFind n.mEqual a with
        | none => simp [Node.isWordAt_leaf]
        | some ch => simp
      · simp [e]

theorem insertNode_flag (n : Node Ch) (s : List Ch) :
    (insertNode n s).2 = !n.isWordAt s := by
  induction s generalizing n with
  | nil =>
    rw [insertNode_nil]
    by_cases h : n.mIsWord = true
    · simp [h, Node.isWordAt_nil]
    · simp [h, Node.isWordAt_nil]
  | cons c cs ih =>
    rw [insertNode_cons]
    simp only [ih, Node.isWordAt_cons]
    cases hf : mapFind n.mEqual c with
    | none => simp [Node.isWordAt_leaf]
    | some ch => simp

theorem insertNode_WF {n : Node Ch} (h : n.WF) (s : List Ch) : (insertNode n s).1.WF := by
  induction s generalizing n with
  | nil =>
    rw [insertNode_nil]
    by_cases hw : n.mIsWord = true
    · simpa [hw] using h
    · simp only [hw]
      exact Node.WF_of_children h.local (fun k ch hf => h.child hf)
  | cons c cs ih =>
    rw [insertNode_cons]
    have h0 : ((mapFind n.mEqual c).getD (Node.mk c false [])).WF := by
      cases hf : mapFind n.mEqual c with
      | none => exact Node.WF_leaf c false
      | some ch => exact h.child hf
    have hl0 : ((mapFind n.mEqual c).getD (Node.mk c false [])).mLetter = c := by
      cases hf : mapFind n.mEqual c with
      | none => rfl
      | some ch => exact (h.local.2 c ch hf).1
    refine Node.WF_of_children ⟨keysSorted_mapAssign h.local.1 _ _, ?_⟩ ?_
    · intro k ch hf
      simp only [Node.mEqual_mk, mapFind_mapAssign] at hf
      by_cases e : k = c
      · subst e
        simp only [if_true, Option.some.injEq] at hf
        subst hf
        exact ⟨by rw [insertNode_mLetter, hl0], insertNode_isDead _ _⟩
      · simp only [e, if_false] at hf
        exact h.local.2 k ch hf
    · intro k ch hf
      simp only [Node.mEqual_mk, mapFind_mapAssign] at hf
      by_cases e : k = c
      · subst e
        simp only [if_true, Option.some.injEq] at hf
        subst hf
        exact ih h0
      · simp only [e, if_false] at hf
        exact h.child hf

theorem insertNode_of_isWordAt {n : Node Ch} (h : n.WF) {s : List Ch}
    (hw : n.isWordAt s = true) : (insertNode n s).1 = n := by
  induction s generalizing n with
  | nil =>
    rw [insertNode_nil]
    rw [Node.isWordAt_nil] at hw
    simp [hw]
  | cons c cs ih =>
    rw [insertNode_cons]
    rw [Node.isWordAt_cons] at hw
    cases hf : mapFind n.mEqual c with
    | none => simp [hf] at hw
    | some ch =>
      simp only [hf] at hw
      simp only [Option.getD_some, ih (h.child hf) hw,
        mapAssign_of_find h.local.1 hf, Node.eta]

end NodeLemmas

/-! ## The cleanup of `erase` -/

section EraseLemmas

variable {Ch : Type} [LinearOrder Ch]

theorem Node.Local_of_mEqual {n m : Node Ch} (h : n.Local) (e : m.mEqual = n.mEqual) :
    m.Local := by
  unfold Node.Local at *
  rw [e]
  exact h

theorem eraseNode_isSome {n : Node Ch} {s : List Ch} {m : Node Ch}
    (hd : n.deref s = some m) : ∃ r, eraseNode n s = some r := by
  induction s generalizing n with
  | nil =>
    cases n with
    | mk l w eq =>
      cases eq with
      | nil => exact ⟨none, by simp [eraseNode]⟩
      | cons a rest => simp only [eraseNode]; exact ⟨_, rfl⟩
  | cons c cs ih =>
    cases n with
    | mk l w eq =>
      rw [Node.deref_cons] at hd
      simp only [Node.mEqual_mk] at hd
      cases hf : mapFind eq c with
      | none => simp [hf] at hd
      | some ch =>
        rw [hf] at hd
        obtain ⟨r, hr⟩ := ih (n := ch) hd
        simp only [eraseNode, hf, hr]
        cases r with
        | some ch' => exact ⟨_, rfl⟩
        | none =>
          simp only
          cases mapErase eq ch.mLetter with
          | nil => cases w <;> exact ⟨_, rfl⟩
          | cons a b => exact ⟨_, rfl⟩

theorem eraseNode_spec {n : Node Ch} (h : n.WF) {s : List Ch} {r : Option (Node Ch)}
    (he : eraseNode n s = some r) :
    (r = none → ∀ w, n.isWordAt w = true → w = s) ∧
    (∀ n', r = some n' → n'.WF ∧ n'.mLetter = n.mLetter ∧ n'.isDead = false ∧
      ∀ w, n'.isWordAt w = (n.isWordAt w && decide (w ≠ s))) := by
  induction s generalizing n r with
  | nil =>
    cases n with
    | mk l w eq =>
      cases eq with
      | nil =>
        simp only [eraseNode, Option.some.injEq] at he
        subst he
        refine ⟨?_, by intro n' hn; cases hn⟩
        intro _ w' hw'
        cases w' with
        | nil => rfl
        | cons a as => simp [Node.isWordAt_cons, mapFind] at hw'
      | cons a rest =>
        simp only [eraseNode, Option.some.injEq] at he
        subst he
        refine ⟨(by intro hn; cases hn), ?_⟩
        intro n' hn
        cases hn
        refine ⟨?_, rfl, by simp [Node.isDead], ?_⟩
        · exact Node.WF_of_children (Node.Local_of_mEqual h.local rfl)
            (fun k ch hf => h.child hf)
        · intro w'
          cases w' with
          | nil => simp [Node.isWordAt_nil]
          | cons b bs => simp [Node.isWordAt_cons]
  | cons c cs ih =>
    cases n with
    | mk l w eq =>
      simp only [eraseNode] at he
      cases hf : mapFind eq c with
      | none => simp [hf] at he
      | some ch =>
        have hch : ch.WF := h.child (n := Node.mk l w eq) hf
        have hloc := h.local
        have hlet : ch.mLetter = c := (hloc.2 c ch hf).1
        simp only [hf] at he
        cases hr : eraseNode ch cs with
        | none => simp [hr] at he
        | some r' =>
          obtain ⟨ih1, ih2⟩ := ih hch hr
          cases r' with
          | some ch' =>
            simp only [hr, Option.some.injEq] at he
            subst he
            obtain ⟨hwf', hlet', hdead', hmem'⟩ := ih2 ch' rfl
            refine ⟨(by intro hn; cases hn), ?_⟩
            intro n' hn
            cases hn
            refine ⟨?_, rfl, ?_, ?_⟩
            · refine Node.WF_of_children ⟨keysSorted_mapAssign hloc.1 _ _, ?_⟩ ?_
              · intro k x hx
                simp only [Node.mEqual_mk, mapFind_mapAssign] at hx
                by_cases e : k = c
                · subst e
                  simp only [if_true, Option.some.injEq] at hx
                  subst hx
                  exact ⟨by rw [hlet', hlet], hdead'⟩
                · simp only [e, if_false] at hx
                  exact hloc.2 k x hx
              · intro k x hx
                simp only [Node.mEqual_mk, mapFind_mapAssign] at hx
                by_cases e : k = c
                · subst e
                  simp only [if_true, Option.some.injEq] at hx
                  subst hx
                  exact hwf'
                · simp only [e, if_false] at hx
                  exact h.child (n := Node.mk l w eq) hx
            · simp only [Node.isDead, Node.mEqual_mk]
              cases hm : mapAssign eq c ch' with
              | nil => exact absurd hm (mapAssign_ne_nil _ _ _)
              | cons a b => simp
            · intro w'
              cases w' with
              | nil => simp [Node.isWordAt_nil]
              | cons a as =>
                simp only [Node.isWordAt_cons, Node.mEqual_mk, mapFind_mapAssign]
                by_cases e : a = c
                · subst e
                  simp [hf, hmem']
                · simp [e]
          | none =>
            simp only [hr, hlet] at he
            have hE := mapFind_mapErase hloc.1 c
            simp only [Node.mEqual_mk] at hE hloc
            have hkeep : ∀ eq', mapErase eq c = eq' → (eq' ≠ [] ∨ w = true) →
                ∀ n', Node.mk l w eq' = n' → n'.WF ∧ n'.mLetter = l ∧ n'.isDead = false ∧
                  ∀ w', n'.isWordAt w' =
                    ((Node.mk l w eq).isWordAt w' && decide (w' ≠ c :: cs)) := by
              intro eq' heq hne n' hn
              subst hn
              refine ⟨?_, rfl, ?_, ?_⟩
              · refine Node.WF_of_children ⟨?_, ?_⟩ ?_
                · rw [Node.mEqual_mk, ← heq]; exact keysSorted_mapErase hloc.1 _
                · intro k x hx
                  rw [Node.mEqual_mk, ← heq, hE] at hx
                  by_cases e : k = c
                  · simp [e] at hx
                  · simp only [e, if_false] at hx
                    exact hloc.2 k x hx
                · intro k x hx
                  rw [Node.mEqual_mk, ← heq, hE] at hx
                  by_cases e : k = c
                  · simp [e] at hx
                  · simp only [e, if_false] at hx
                    exact h.child (n := Node.mk l w eq) hx
              · simp only [Node.isDead, Node.mIsWord_mk, Node.mEqual_mk]
                rcases hne with hne | hne
                · cases eq' with
                  | nil => exact absurd rfl hne
                  | cons a b => simp
                · simp [hne]
              · intro w'
                cases w' with
                | nil => simp [Node.isWordAt_nil]
                | cons a as =>
                  simp only [Node.isWordAt_cons, Node.mEqual_mk, ← heq, hE]
                  by_cases e : a = c
                  · subst e
                    simp only [if_true, hf]
                    cases hw : ch.isWordAt as with
                    | false => simp
                    | true => simp [ih1 rfl as hw]
                  · simp [e]
            cases hm : mapErase eq c with
            | nil =>
              cases w with
              | false =>
                simp only [hm, Option.some.injEq] at he
                subst he
                refine ⟨?_, by intro n' hn; cases hn⟩
                intro _ w' hw'
                cases w' with
                | nil => simp [Node.isWordAt_nil] at hw'
                | cons a as =>
                  rw [Node.isWordAt_cons] at hw'
                  simp only [Node.mEqual_mk] at hw'
                  cases hfa : mapFind eq a with
                  | none => simp [hfa] at hw'
                  | some x =>
                    have e : a = c := mapErase_eq_nil hloc.1 hm hfa
                    subst e
                    rw [hf] at hfa
                    cases hfa
                    simp only [hf] at hw'
                    rw [ih1 rfl as hw']
              | true =>
                simp only [hm, Option.some.injEq] at he
                subst he
                refine ⟨(by intro hn; cases hn), ?_⟩
                intro n' hn
                cases hn
                exact hkeep [] hm (Or.inr rfl) _ rfl
            | cons a b =>
              simp only [hm, Option.some.injEq] at he
              subst he
              refine ⟨(by intro hn; cases hn), ?_⟩
              intro n' hn
              cases hn
              exact hkeep (a :: b) hm (Or.inl (by simp)) _ rfl

end EraseLemmas

/-! ## Lexicographic order on strings -/

section StringOrder

variable {Ch : Type} [LinearOrder Ch]

theorem str_lt_cons_iff {a b : Ch} {x y : List Ch} :
    a :: x < b :: y ↔ a < b ∨ (a = b ∧ x < y) := by
  constructor
  · intro h
    cases h with
    | cons h => exact Or.inr ⟨rfl, h⟩
    | rel h => exact Or.inl h
  · rintro (h | ⟨rfl, h⟩)
    · exact List.Lex.rel h
    · exact List.Lex.cons h

theorem str_nil_lt_cons (a : Ch) (x : List Ch) : ([] : List Ch) < a :: x :=
  List.Lex.nil

theorem str_not_lt_nil (x : List Ch) : ¬ x < [] := by
  intro h
  cases h

theorem str_le_cons_iff {a b : Ch} {x y : List Ch} :
    a :: x ≤ b :: y ↔ a < b ∨ (a = b ∧ x ≤ y) := by
  rw [le_iff_lt_or_eq, str_lt_cons_iff, le_iff_lt_or_eq]
  constructor
  · rintro ((h | ⟨e, h⟩) | h)
    · exact Or.inl h
    · exact Or.inr ⟨e, Or.inl h⟩
    · cases h; exact Or.inr ⟨rfl, Or.inr rfl⟩
  · rintro (h | ⟨e, h | h⟩)
    · exact Or.inl (Or.inl h)
    · exact Or.inl (Or.inr ⟨e, h⟩)
    · subst e; subst h; exact Or.inr rfl

theorem str_append_lt_append {p x y : List Ch} : p ++ x < p ++ y ↔ x < y := by
  induction p with
  | nil => simp
  | cons a as ih =>
    rw [List.cons_append, List.cons_append, str_lt_cons_iff]
    simp [ih]

theorem str_append_le_append {p x y : List Ch} : p ++ x ≤ p ++ y ↔ x ≤ y := by
  rw [le_iff_lt_or_eq, le_iff_lt_or_eq, str_append_lt_append]
  simp

theorem str_lt_append_cons (p : List Ch) (a : Ch) (x : List Ch) : p < p ++ a :: x := by
  have := (str_append_lt_append (p := p) (x := []) (y := a :: x)).mpr (str_nil_lt_cons a x)
  simpa using this

end StringOrder

/-! ## The ordered list of words -/

section WordsLemmas

variable {Ch : Type} [LinearOrder Ch]

theorem Node.words_mk (l : Ch) (w : Bool) (eq : List (Ch × Node Ch)) :
    (Node.mk l w eq).words = (if w then [[]] else []) ++ kidsWords eq := by
  rw [Node.words]

theorem kidsWords_nil : kidsWords ([] : List (Ch × Node Ch)) = [] := by
  rw [kidsWords]

theorem kidsWords_cons (k : Ch) (ch : Node Ch) (rest : List (Ch × Node Ch)) :
    kidsWords ((k, ch) :: rest) = ch.words.map (fun w => k :: w) ++ kidsWords rest := by
  rw [kidsWords]

theorem Node.words_eq (n : Node Ch) :
    n.words = (if n.mIsWord then [[]] else []) ++ kidsWords n.mEqual := by
  cases n; exact Node.words_mk _ _ _

theorem mem_kidsWords {eq : List (Ch × Node Ch)} {w : List Ch} :
    w ∈ kidsWords eq ↔ ∃ k ch w', (k, ch) ∈ eq ∧ w' ∈ ch.words ∧ w = k :: w' := by
  induction eq with
  | nil => simp [kidsWords_nil]
  | cons a rest ih =>
    obtain ⟨k0, ch0⟩ := a
    rw [kidsWords_cons, List.mem_append, ih]
    constructor
    · rintro (h | ⟨k, ch, w', hm, hw, e⟩)
      · obtain ⟨w', hw, e⟩ := List.mem_map.mp h
        exact ⟨k0, ch0, w', List.mem_cons_self _ _, hw, e.symm⟩
      · exact ⟨k, ch, w', List.mem_cons_of_mem _ hm, hw, e⟩
    · rintro ⟨k, ch, w', hm, hw, e⟩
      rcases List.mem_cons.mp hm with hm | hm
      · cases hm
        exact Or.inl (List.mem_map.mpr ⟨w', hw, e.symm⟩)
      · exact Or.inr ⟨k, ch, w', hm, hw, e⟩

theorem Node.mem_words_iff {n : Node Ch} (h : n.WF) {w : List Ch} :
    w ∈ n.words ↔ n.isWordAt w = true := by
  induction w generalizing n with
  | nil =>
    rw [Node.words_eq, Node.isWordAt_nil, List.mem_append]
    constructor
    · rintro (h1 | h1)
      · by_cases hw : n.mIsWord = true
        · exact hw
        · simp [hw] at h1
      · obtain ⟨k, ch, w', _, _, e⟩ := mem_kidsWords.mp h1
        cases e
    · intro hw
      exact Or.inl (by simp [hw])
  | cons c cs ih =>
    rw [Node.words_eq, Node.isWordAt_cons, List.mem_append]
    constructor
    · rintro (h1 | h1)
      · by_cases hw : n.mIsWord = true
        · simp [hw] at h1
        · simp [hw] at h1
      · obtain ⟨k, ch, w', hm, hw', e⟩ := mem_kidsWords.mp h1
        cases e
        have hf := mapFind_of_mem h.local.1 hm
        simp only [hf]
        exact (ih (h.child hf)).mp hw'
    · intro hw
      cases hf : mapFind n.mEqual c with
      | none => simp [hf] at hw
      | some ch =>
        simp only [hf] at hw
        exact Or.inr (mem_kidsWords.mpr
          ⟨c, ch, cs, mapFind_some_mem hf, (ih (h.child hf)).mpr hw, rfl⟩)

theorem kidsWords_sorted {eq : List (Ch × Node Ch)} (hs : keysSorted eq)
    (hc : ∀ k ch, (k, ch) ∈ eq → ch.words.Pairwise (· < ·)) :
    (kidsWords eq).Pairwise (· < ·) := by
  induction eq with
  | nil => simp [kidsWords_nil]
  | cons a rest ih =>
    obtain ⟨k0, ch0⟩ := a
    have hs' := List.pairwise_cons.mp hs
    rw [kidsWords_cons, List.pairwise_append]
    refine ⟨?_, ih hs'.2 (fun k ch hm => hc k ch (List.mem_cons_of_mem _ hm)), ?_⟩
    · rw [List.pairwise_map]
      refine (hc k0 ch0 (List.mem_cons_self _ _)).imp ?_
      intro x y hxy
      exact str_lt_cons_iff.mpr (Or.inr ⟨rfl, hxy⟩)
    · intro x hx y hy
      obtain ⟨x', _, rfl⟩ := List.mem_map.mp hx
      obtain ⟨k, ch, y', hm, _, rfl⟩ := mem_kidsWords.mp hy
      exact str_lt_cons_iff.mpr (Or.inl (hs'.1 _ hm))

theorem Node.words_sorted : ∀ (n : Node Ch), n.WF → n.words.Pairwise (· < ·) := by
  intro n
  induction n using Node.induct with
  | h l w eq ih =>
    intro h
    rw [Node.words_mk, List.pairwise_append]
    refine ⟨?_, ?_, ?_⟩
    · cases w <;> simp
    · exact kidsWords_sorted h.local.1
        (fun k ch hm => ih k ch hm (h.child_mem (n := Node.mk l w eq) hm))
    · intro x hx y hy
      obtain ⟨k, ch, y', _, _, rfl⟩ := mem_kidsWords.mp hy
      cases w with
      | false => simp at hx
      | true =>
        simp at hx
        subst hx
        exact str_nil_lt_cons _ _

theorem kidsCountTerminal_eq {eq : List (Ch × Node Ch)}
    (hc : ∀ k ch, (k, ch) ∈ eq → ch.countTerminal = ch.words.length) :
    kidsCountTerminal eq = (kidsWords eq).length := by
  induction eq with
  | nil => rw [kidsCountTerminal, kidsWords_nil]; rfl
  | cons a rest ih =>
    obtain ⟨k0, ch0⟩ := a
    rw [kidsCountTerminal, kidsWords_cons, List.length_append, List.length_map,
      hc k0 ch0 (List.mem_cons_self _ _),
      ih (fun k ch hm => hc k ch (List.mem_cons_of_mem _ hm))]

theorem Node.countTerminal_eq (n : Node Ch) : n.countTerminal = n.words.length := by
  induction n using Node.induct with
  | h l w eq ih =>
    rw [Node.countTerminal, Node.words_mk, List.length_append, kidsCountTerminal_eq ih]
    cases w <;> simp

end WordsLemmas

/-! ## Cursors and `find` -/

section FindLemmas

variable {Ch : Type} [LinearOrder Ch]

theorem inits_snoc (p : List Ch) (c : Ch) : (p ++ [c]).inits = p.inits ++ [p ++ [c]] := by
  rw [List.inits_append]
  simp

theorem inits_ne_nil (p : List Ch) : p.inits ≠ [] := by
  cases p <;> simp

theorem getLast?_inits (p : List Ch) : p.inits.getLast? = some p := by
  induction p using List.reverseRecOn with
  | nil => rfl
  | append_singleton q c _ => rw [inits_snoc, List.getLast?_concat]

theorem lettersOf_append (t : ternary_search_tree Ch) (a b : List (List Ch)) :
    lettersOf t (a ++ b) =
      match lettersOf t a, lettersOf t b with
      | some x, some y => some (x ++ y)
      | _, _ => none := by
  induction a with
  | nil =>
    simp only [List.nil_append, lettersOf]
    cases lettersOf t b <;> rfl
  | cons p ps ih =>
    have e : lettersOf t (p :: (ps ++ b)) =
        match t.deref p, lettersOf t (ps ++ b) with
        | some n, some s => some (n.mLetter :: s)
        | _, _ => none := rfl
    have e2 : lettersOf t (p :: ps) =
        match t.deref p, lettersOf t ps with
        | some n, some s => some (n.mLetter :: s)
        | _, _ => none := rfl
    rw [List.cons_append, e, e2, ih]
    cases t.deref p <;> cases lettersOf t ps <;> cases lettersOf t b <;> rfl

theorem ternary_search_tree.deref_of_root {t : ternary_search_tree Ch} {root : Node Ch}
    (hr : t.mRoot = some root) (p : List Ch) : t.deref p = root.deref p := by
  simp [ternary_search_tree.deref, hr]

theorem lettersOf_inits {t : ternary_search_tree Ch} {root : Node Ch}
    (hr : t.mRoot = some root) (hwf : root.WF) :
    ∀ (p : List Ch) (m : Node Ch), root.deref p = some m →
      lettersOf t p.inits.tail = some p := by
  intro p
  induction p using List.reverseRecOn with
  | nil => intro m _; rfl
  | append_singleton q c ih =>
    intro m hd
    rw [Node.deref_snoc] at hd
    cases hq : root.deref q with
    | none => simp [hq] at hd
    | some n =>
      simp only [hq, Option.some_bind] at hd
      have hlet : m.mLetter = c := ((hwf q n hq).2 c m hd).1
      have hd' : t.deref (q ++ [c]) = some m := by
        rw [ternary_search_tree.deref_of_root hr, Node.deref_snoc, hq]
        exact hd
      rw [inits_snoc, List.tail_append_of_ne_nil (inits_ne_nil q), lettersOf_append,
        ih n hq]
      simp [lettersOf, hd', hlet]

/-- Walking up the parent pointers from the node at address `p` collects the
addresses of its ancestors, root first. -/
theorem pushFrontLoop_eq (p : List Ch) : ∀ acc : List (List Ch),
    pushFrontLoop p.reverse acc = p.inits ++ acc := by
  induction p using List.reverseRecOn with
  | nil => intro acc; rfl
  | append_singleton q c ih =>
    intro acc
    have e : (q ++ [c]).reverse = c :: q.reverse := by simp
    rw [e, pushFrontLoop, ih, inits_snoc]
    simp

theorem make_some {t : ternary_search_tree Ch} {root : Node Ch}
    (hr : t.mRoot = some root) (hwf : root.WF) {p : List Ch} {m : Node Ch}
    (hd : root.deref p = some m) : const_iterator.make t (some p) = some (cursorAt p) := by
  simp [const_iterator.make, pushFrontLoop_eq, lettersOf_inits hr hwf p m hd, cursorAt]

theorem make_none (t : ternary_search_tree Ch) : const_iterator.make t none = some t.end_ :=
  rfl

theorem cursorAt_ne_end (t : ternary_search_tree Ch) (p : List Ch) :
    (cursorAt p).eq t.end_ = false := by
  simp [const_iterator.eq, cursorAt, ternary_search_tree.end_, inits_ne_nil]

theorem end_eq_end (t : ternary_search_tree Ch) : t.end_.eq t.end_ = true := by
  simp [const_iterator.eq]

theorem findLoop_eq {t : ternary_search_tree Ch} {root : Node Ch}
    (hr : t.mRoot = some root) (hwf : root.WF) (curr rest : List Ch) {n : Node Ch}
    (hd : root.deref curr = some n) :
    findLoop t curr rest =
      some (if root.isWordAt (curr ++ rest) then cursorAt (curr ++ rest) else t.end_) := by
  induction rest generalizing curr n with
  | nil =>
    simp only [findLoop, ternary_search_tree.deref_of_root hr, hd, List.append_nil,
      Node.isWordAt]
    by_cases hw : n.mIsWord = true
    · simp [hw, make_some hr hwf hd]
    · simp [hw]
  | cons c cs ih =>
    simp only [findLoop, ternary_search_tree.deref_of_root hr, hd]
    have hsnoc := Node.deref_snoc root curr c
    rw [hd] at hsnoc
    simp only [Option.some_bind] at hsnoc
    have happ : curr ++ c :: cs = (curr ++ [c]) ++ cs := by simp
    cases hf : mapFind n.mEqual c with
    | none =>
      rw [hf] at hsnoc
      simp only [happ, Node.isWordAt_append, hsnoc]
      simp
    | some ch =>
      rw [hf] at hsnoc
      simp only [happ]
      exact ih (curr ++ [c]) hsnoc

theorem find_eq {t : ternary_search_tree Ch} {root : Node Ch}
    (hr : t.mRoot = some root) (hwf : root.WF) (s : List Ch) :
    t.find s = some (if root.isWordAt s then cursorAt s else t.end_) := by
  simp only [ternary_search_tree.find, hr]
  exact findLoop_eq hr hwf [] s (Node.deref_nil root)

theorem find_of_no_root {t : ternary_search_tree Ch} (hr : t.mRoot = none) (s : List Ch) :
    t.find s = some t.end_ := by
  simp [ternary_search_tree.find, hr]

theorem contains_iff {t : ternary_search_tree Ch} {root : Node Ch}
    (hr : t.mRoot = some root) (hwf : root.WF) (s : List Ch) :
    t.contains s ↔ root.isWordAt s = true := by
  unfold ternary_search_tree.contains
  rw [find_eq hr hwf]
  constructor
  · rintro ⟨it, h1, h2⟩
    by_cases hw : root.isWordAt s = true
    · exact hw
    · simp only [hw, Option.some.injEq] at h1
      subst h1
      simp [end_eq_end] at h2
  · intro hw
    exact ⟨cursorAt s, by simp [hw], cursorAt_ne_end t s⟩

theorem not_contains_of_no_root {t : ternary_search_tree Ch} (hr : t.mRoot = none)
    (s : List Ch) : ¬ t.contains s := by
  rintro ⟨it, h1, h2⟩
  rw [find_of_no_root hr] at h1
  cases h1
  rw [end_eq_end] at h2
  cases h2

end FindLemmas

/-! ## Writing through pointers -/

section PointerLemmas

variable {Ch : Type} [LinearOrder Ch]

theorem Node.update_nil (n : Node Ch) (f : Node Ch → Node Ch) : n.update [] f = f n := by
  cases n; rfl

theorem Node.update_cons (n : Node Ch) (c : Ch) (cs : List Ch) (f : Node Ch → Node Ch) :
    n.update (c :: cs) f =
      match mapFind n.mEqual c with
      | none => n
      | some ch => Node.mk n.mLetter n.mIsWord (mapAssign n.mEqual c (ch.update cs f)) := by
  cases n with
  | mk l w eq =>
    simp only [Node.update, Node.mEqual_mk, Node.mLetter_mk, Node.mIsWord_mk]

theorem mapAssign_mapAssign {V : Type} (m : List (Ch × V)) (k : Ch) (v v' : V) :
    mapAssign (mapAssign m k v) k v' = mapAssign m k v' := by
  induction m with
  | nil => simp [mapAssign]
  | cons a rest ih =>
    obtain ⟨k', v0⟩ := a
    by_cases h1 : k < k'
    · simp [mapAssign, h1]
    · by_cases h2 : k' < k
      · simp [mapAssign, h1, h2, ih]
      · have e : k' = k := le_antisymm (not_lt.mp h1) (not_lt.mp h2)
        subst e
        simp [mapAssign]

theorem mapErase_mapAssign {V : Type} {m : List (Ch × V)} (hs : keysSorted m) {k : Ch}
    {v0 : V} (hf : mapFind m k = some v0) (v : V) :
    mapErase (mapAssign m k v) k = mapErase m k := by
  induction m with
  | nil => simp [mapFind] at hf
  | cons a rest ih =>
    obtain ⟨k', v1⟩ := a
    have hs' := List.pairwise_cons.mp hs
    by_cases e : k' = k
    · subst e
      simp [mapAssign, mapErase]
    · simp only [mapFind, e, if_false] at hf
      have hlt : k' < k := hs'.1 _ (mapFind_some_mem hf)
      simp [mapAssign, mapErase, not_lt_of_lt hlt, hlt, e, ih hs'.2 hf]

theorem Node.update_mLetter (n : Node Ch) (p : List Ch) (f : Node Ch → Node Ch)
    (hf : ∀ m, (f m).mLetter = m.mLetter) : (n.update p f).mLetter = n.mLetter := by
  cases p with
  | nil => rw [Node.update_nil, hf]
  | cons c cs =>
    rw [Node.update_cons]
    cases mapFind n.mEqual c <;> rfl

theorem Node.deref_update_append (n : Node Ch) (p q : List Ch) (f : Node Ch → Node Ch) :
    (n.update p f).deref (p ++ q) = (n.deref p).bind (fun m => (f m).deref q) := by
  induction p generalizing n with
  | nil => simp [Node.update_nil, Node.deref_nil]
  | cons c cs ih =>
    rw [Node.update_cons, List.cons_append, Node.deref_cons (n := n)]
    cases hf : mapFind n.mEqual c with
    | none => simp [Node.deref_cons, hf]
    | some ch => simp [Node.deref_cons, mapFind_mapAssign_self, ih]

theorem Node.update_update_append (n : Node Ch) (p q : List Ch) (f g : Node Ch → Node Ch) :
    (n.update p f).update (p ++ q) g = n.update p (fun m => (f m).update q g) := by
  induction p generalizing n with
  | nil => simp [Node.update_nil]
  | cons c cs ih =>
    rw [Node.update_cons, Node.update_cons (n := n)]
    cases hf : mapFind n.mEqual c with
    | none => simp [Node.update_cons, hf]
    | some ch =>
      simp only [List.cons_append]
      rw [Node.update_cons]
      simp [mapFind_mapAssign_self, mapAssign_mapAssign, ih]

theorem Node.update_congr (n : Node Ch) (p : List Ch) (f g : Node Ch → Node Ch)
    (h : ∀ m, n.deref p = some m → f m = g m) : n.update p f = n.update p g := by
  induction p generalizing n with
  | nil => simp [Node.update_nil, h n (Node.deref_nil n)]
  | cons c cs ih =>
    rw [Node.update_cons, Node.update_cons]
    cases hf : mapFind n.mEqual c with
    | none => rfl
    | some ch =>
      simp only
      rw [ih ch]
      intro m hm
      exact h m (by rw [Node.deref_cons, hf]; exact hm)

theorem Node.update_id {n : Node Ch} (hwf : n.WF) (p : List Ch) (f : Node Ch → Node Ch)
    (h : ∀ m, n.deref p = some m → f m = m) : n.update p f = n := by
  induction p generalizing n with
  | nil => rw [Node.update_nil, h n (Node.deref_nil n)]
  | cons c cs ih =>
    rw [Node.update_cons]
    cases hf : mapFind n.mEqual c with
    | none => rfl
    | some ch =>
      simp only
      rw [ih (hwf.child hf) (fun m hm => h m (by rw [Node.deref_cons, hf]; exact hm)),
        mapAssign_of_find hwf.local.1 hf, Node.eta]

/-! ### The loop of `insert` -/

theorem insertLoop_snd (rest : List Ch) (root : Node Ch) (curr : List Ch) :
    (insertLoop root curr rest).2 = curr ++ rest := by
  induction rest generalizing root curr with
  | nil => simp [insertLoop]
  | cons c rest' ih => simp [insertLoop, ih]

theorem stepInto_deref (c : Ch) (n : Node Ch) :
    (stepInto c n).deref [c] = some ((mapFind n.mEqual c).getD (Node.mk c false [])) := by
  unfold stepInto
  cases hf : mapFind n.mEqual c with
  | none => simp [Node.deref_cons, mapFind_mapAssign_self, Node.deref_nil]
  | some ch => simp [Node.deref_cons, hf, Node.deref_nil]

theorem stepInto_update (c : Ch) (n : Node Ch) (g : Node Ch → Node Ch) :
    (stepInto c n).update [c] g =
      Node.mk n.mLetter n.mIsWord
        (mapAssign n.mEqual c (g ((mapFind n.mEqual c).getD (Node.mk c false [])))) := by
  unfold stepInto
  cases hf : mapFind n.mEqual c with
  | none =>
    simp [Node.update_cons, mapFind_mapAssign_self, Node.update_nil, mapAssign_mapAssign]
  | some ch => simp [Node.update_cons, hf, Node.update_nil]

/-- Setting `mIsWord` at the node the loop of `insert` ends at gives the tree
described by `insertNode`. -/
theorem insertLoop_mark (rest : List Ch) (root : Node Ch) (curr : List Ch) :
    (insertLoop root curr rest).1.update (curr ++ rest)
        (fun m => Node.mk m.mLetter true m.mEqual) =
      root.update curr (fun n => (insertNode n rest).1) := by
  induction rest generalizing root curr with
  | nil =>
    simp only [insertLoop, List.append_nil]
    apply Node.update_congr
    intro m _
    rw [insertNode_nil]
    by_cases hw : m.mIsWord = true
    · simp only [hw, if_true]
      rw [← hw, Node.eta]
    · simp [hw]
  | cons c rest' ih =>
    have e : curr ++ c :: rest' = (curr ++ [c]) ++ rest' := by simp
    simp only [insertLoop]
    rw [e, ih, Node.update_update_append]
    apply Node.update_congr
    intro m _
    rw [stepInto_update, insertNode_cons]

theorem insertLoop_deref (rest : List Ch) (root : Node Ch) (curr : List Ch) (n : Node Ch)
    (hd : root.deref curr = some n) :
    ∃ m, (insertLoop root curr rest).1.deref (curr ++ rest) = some m ∧
      m.mIsWord = n.isWordAt rest := by
  induction rest generalizing root curr n with
  | nil => exact ⟨n, by simpa [insertLoop] using hd, by rw [Node.isWordAt_nil]⟩
  | cons c rest' ih =>
    have e : curr ++ c :: rest' = (curr ++ [c]) ++ rest' := by simp
    have hd' : (root.update curr (stepInto c)).deref (curr ++ [c]) =
        some ((mapFind n.mEqual c).getD (Node.mk c false [])) := by
      rw [Node.deref_update_append, hd]
      exact stepInto_deref c n
    obtain ⟨m, hm1, hm2⟩ := ih _ _ _ hd'
    refine ⟨m, ?_, ?_⟩
    · simp only [insertLoop]
      rw [e]
      exact hm1
    · rw [hm2, Node.isWordAt_cons]
      cases hf : mapFind n.mEqual c with
      | none => simp [Node.isWordAt_leaf]
      | some ch => simp

theorem insertLoop_of_word {root : Node Ch} (hwf : root.WF) (rest : List Ch) (curr : List Ch)
    (n : Node Ch) (hd : root.deref curr = some n) (hw : n.isWordAt rest = true) :
    (insertLoop root curr rest).1 = root := by
  induction rest generalizing curr n with
  | nil => rfl
  | cons c rest' ih =>
    rw [Node.isWordAt_cons] at hw
    cases hf : mapFind n.mEqual c with
    | none => simp [hf] at hw
    | some ch =>
      simp only [hf] at hw
      have hid : root.update curr (stepInto c) = root := by
        apply Node.update_id hwf
        intro m hm
        rw [hd] at hm
        cases hm
        simp [stepInto, hf]
      simp only [insertLoop, hid]
      refine ih (curr ++ [c]) ch ?_ hw
      rw [Node.deref_snoc, hd]
      exact hf

/-! ### The cleanup loop of `erase` -/

theorem cleanupLoop_nil (root : Node Ch) :
    cleanupLoop root [] = if root.isDead then some none else some (some root) := by
  simp only [cleanupLoop, Node.isDead, Bool.and_comm]

theorem cleanupLoop_cons (root : Node Ch) (c : Ch) (prev : List Ch) :
    cleanupLoop root (c :: prev) =
      match root.deref (prev.reverse ++ [c]) with
      | none => none
      | some n =>
        if n.isDead then
          cleanupLoop
            (root.update prev.reverse
              (fun par => Node.mk par.mLetter par.mIsWord (mapErase par.mEqual n.mLetter)))
            prev
        else some (some root) := by
  simp only [cleanupLoop, Node.isDead, Bool.and_comm, List.reverse_cons]

/-- The cleanup loop started below the child `ch` of `root`: it first runs
inside `ch`; when it removes `ch` it goes on with `root`. -/
theorem cleanupLoop_child : ∀ (cs : List Ch) (root : Node Ch) (c : Ch) (ch : Node Ch),
    keysSorted root.mEqual → mapFind root.mEqual c = some ch → ch.mLetter = c →
    cleanupLoop root (cs.reverse ++ [c]) =
      match cleanupLoop ch cs.reverse with
      | none => none
      | some (some ch') =>
        some (some (Node.mk root.mLetter root.mIsWord (mapAssign root.mEqual c ch')))
      | some none =>
        match mapErase root.mEqual c, root.mIsWord with
        | [], false => some none
        | eq', _ => some (some (Node.mk root.mLetter root.mIsWord eq')) := by
  intro cs
  induction cs using List.reverseRecOn with
  | nil =>
    intro root c ch hs hf hlet
    have hd : root.deref [c] = some ch := by
      rw [Node.deref_cons, hf]; simp [Node.deref_nil]
    simp only [List.reverse_nil, List.nil_append, cleanupLoop_cons, hd, cleanupLoop_nil]
    by_cases hdead : ch.isDead = true
    · simp only [hdead, if_true, Node.update_nil, hlet, List.reverse_nil]
      cases mapErase root.mEqual c with
      | nil => cases root.mIsWord <;> simp [Node.isDead]
      | cons a b => cases root.mIsWord <;> simp [Node.isDead]
    · simp only [hdead, Bool.false_eq_true, if_false]
      rw [mapAssign_of_find hs hf, Node.eta]
  | append_singleton cs' d ih =>
    intro root c ch hs hf hlet
    have e1 : (cs' ++ [d]).reverse = d :: cs'.reverse := by simp
    have e2 : d :: cs'.reverse ++ [c] = d :: (cs'.reverse ++ [c]) := rfl
    have hd : root.deref ((cs'.reverse ++ [c]).reverse ++ [d]) = ch.deref (cs' ++ [d]) := by
      simp only [List.reverse_append, List.reverse_cons, List.reverse_nil, List.nil_append,
        List.reverse_reverse, List.singleton_append, List.cons_append]
      rw [Node.deref_cons, hf]
      rfl
    rw [e1, e2, cleanupLoop_cons, cleanupLoop_cons, hd, List.reverse_reverse]
    cases hn : ch.deref (cs' ++ [d]) with
    | none => rfl
    | some n =>
      simp only
      by_cases hdead : n.isDead = true
      · simp only [hdead, if_true]
        have hup : root.update (cs'.reverse ++ [c]).reverse
            (fun par => Node.mk par.mLetter par.mIsWord (mapErase par.mEqual n.mLetter)) =
            Node.mk root.mLetter root.mIsWord (mapAssign root.mEqual c
              (ch.update cs'
                (fun par => Node.mk par.mLetter par.mIsWord
                  (mapErase par.mEqual n.mLetter)))) := by
          simp only [List.reverse_append, List.reverse_cons, List.reverse_nil,
            List.nil_append, List.reverse_reverse, List.singleton_append]
          rw [Node.update_cons, hf]
        rw [hup]
        obtain ⟨ch1, hch1⟩ : ∃ x, x = ch.update cs'
            (fun par => Node.mk par.mLetter par.mIsWord (mapErase par.mEqual n.mLetter)) :=
          ⟨_, rfl⟩
        have hl1 : ch1.mLetter = c := by
          rw [hch1]
          refine (Node.update_mLetter ch cs'
            (fun par => Node.mk par.mLetter par.mIsWord (mapErase par.mEqual n.mLetter))
            ?_).trans hlet
          intro m
          rfl
        rw [← hch1]
        rw [ih (Node.mk root.mLetter root.mIsWord (mapAssign root.mEqual c ch1)) c ch1
          (keysSorted_mapAssign hs c ch1) (mapFind_mapAssign_self _ _ _) hl1]
        simp only [Node.mLetter_mk, Node.mIsWord_mk, Node.mEqual_mk, mapAssign_mapAssign,
          mapErase_mapAssign hs hf]
      · simp only [hdead, Bool.false_eq_true, if_false]
        rw [mapAssign_of_find hs hf, Node.eta]

/-- The pointer-level `erase` (clear `mIsWord`, then the cleanup loop) computes
the tree described by `eraseNode`. -/
theorem cleanupLoop_eq_eraseNode : ∀ (s : List Ch) (root : Node Ch), root.WF →
    (∃ n, root.deref s = some n) →
    cleanupLoop (root.update s (fun n => Node.mk n.mLetter false n.mEqual)) s.reverse =
      eraseNode root s := by
  intro s
  induction s with
  | nil =>
    intro root _ _
    cases root with
    | mk l w eq =>
      simp only [Node.update_nil, List.reverse_nil, cleanupLoop_nil, Node.mLetter_mk,
        Node.mEqual_mk, Node.isDead, Node.mIsWord_mk, eraseNode]
      cases eq <;> rfl
  | cons c cs ih =>
    intro root hwf hex
    obtain ⟨n, hn⟩ := hex
    rw [Node.deref_cons] at hn
    cases hf : mapFind root.mEqual c with
    | none => simp [hf] at hn
    | some ch =>
      simp only [hf, Option.some_bind] at hn
      have hlet : ch.mLetter = c := (hwf.local.2 c ch hf).1
      have hs := hwf.local.1
      rw [Node.update_cons, hf]
      simp only [List.reverse_cons]
      obtain ⟨ch1, hch1⟩ : ∃ x, x = ch.update cs
          (fun n => Node.mk n.mLetter false n.mEqual) := ⟨_, rfl⟩
      have hl1 : ch1.mLetter = c := by
        rw [hch1]
        refine (Node.update_mLetter ch cs (fun n => Node.mk n.mLetter false n.mEqual)
          ?_).trans hlet
        intro m
        rfl
      have hc1 : cleanupLoop ch1 cs.reverse = eraseNode ch cs := by
        rw [hch1]; exact ih ch (hwf.child hf) ⟨n, hn⟩
      rw [← hch1]
      rw [cleanupLoop_child cs (Node.mk root.mLetter root.mIsWord (mapAssign root.mEqual c ch1))
        c ch1 (keysSorted_mapAssign hs c ch1) (mapFind_mapAssign_self _ _ _) hl1, hc1]
      cases root with
      | mk l w eq =>
        simp only [Node.mEqual_mk] at hf hs
        simp only [Node.mLetter_mk, Node.mIsWord_mk, Node.mEqual_mk, mapAssign_mapAssign,
          mapErase_mapAssign hs hf, eraseNode, hf, hlet]

end PointerLemmas

/-! ## The representation invariant -/

section InvLemmas

variable {Ch : Type} [LinearOrder Ch]

theorem Node.words_nodup {n : Node Ch} (h : n.WF) : n.words.Nodup :=
  (Node.words_sorted n h).imp (fun hlt => ne_of_lt hlt)

theorem Node.countTerminal_eq_card {n : Node Ch} (h : n.WF) :
    n.countTerminal = n.words.toFinset.card := by
  rw [Node.countTerminal_eq, List.toFinset_card_of_nodup (Node.words_nodup h)]

theorem count_insert {n n' : Node Ch} (h : n.WF) (h' : n'.WF) {s : List Ch}
    (hmem : ∀ w, n'.isWordAt w = (decide (w = s) || n.isWordAt w)) :
    n'.countTerminal = if n.isWordAt s then n.countTerminal else n.countTerminal + 1 := by
  rw [Node.countTerminal_eq_card h, Node.countTerminal_eq_card h']
  have e : n'.words.toFinset = insert s n.words.toFinset := by
    ext w
    simp only [List.mem_toFinset, Finset.mem_insert, Node.mem_words_iff h,
      Node.mem_words_iff h', hmem]
    simp
  rw [e]
  by_cases hs : n.isWordAt s = true
  · simp only [hs, if_true]
    rw [Finset.insert_eq_of_mem]
    simpa [Node.mem_words_iff h] using hs
  · simp only [hs]
    rw [Finset.card_insert_of_not_mem]
    · simp
    · simpa [Node.mem_words_iff h] using hs

theorem count_erase {n n' : Node Ch} (h : n.WF) (h' : n'.WF) {s : List Ch}
    (hmem : ∀ w, n'.isWordAt w = (n.isWordAt w && decide (w ≠ s)))
    (hs : n.isWordAt s = true) : n'.countTerminal + 1 = n.countTerminal := by
  rw [Node.countTerminal_eq_card h, Node.countTerminal_eq_card h']
  have e : n'.words.toFinset = n.words.toFinset.erase s := by
    ext w
    simp only [List.mem_toFinset, Finset.mem_erase, Node.mem_words_iff h,
      Node.mem_words_iff h', hmem]
    simp [and_comm]
  rw [e]
  have hm : s ∈ n.words.toFinset := by simpa [Node.mem_words_iff h] using hs
  rw [Finset.card_erase_of_mem hm]
  have : 0 < n.words.toFinset.card := Finset.card_pos.mpr ⟨s, hm⟩
  omega

theorem count_single {n : Node Ch} (h : n.WF) {s : List Ch}
    (hall : ∀ w, n.isWordAt w = true → w = s) (hs : n.isWordAt s = true) :
    n.countTerminal = 1 := by
  rw [Node.countTerminal_eq_card h]
  have e : n.words.toFinset = {s} := by
    ext w
    simp only [List.mem_toFinset, Finset.mem_singleton, Node.mem_words_iff h]
    constructor
    · exact hall w
    · intro hw; rw [hw]; exact hs
  rw [e]
  rfl

theorem ensureRoot_WF [Inhabited Ch] {t : ternary_search_tree Ch} (h : t.Inv) :
    t.ensureRoot.WF := by
  unfold ternary_search_tree.ensureRoot
  unfold ternary_search_tree.Inv at h
  cases hr : t.mRoot with
  | none => exact Node.WF_leaf _ _
  | some r =>
    rw [hr] at h
    exact h.1

theorem ensureRoot_count [Inhabited Ch] {t : ternary_search_tree Ch} (h : t.Inv) :
    t.mSize = t.ensureRoot.countTerminal := by
  unfold ternary_search_tree.ensureRoot
  unfold ternary_search_tree.Inv at h
  cases hr : t.mRoot with
  | none =>
    rw [hr] at h
    simp only [h, Node.countTerminal, kidsCountTerminal]
    rfl
  | some r =>
    rw [hr] at h
    exact h.2.2

theorem ensureRoot_isWordAt [Inhabited Ch] {t : ternary_search_tree Ch} (h : t.Inv)
    (s : List Ch) : t.ensureRoot.isWordAt s = true ↔ t.contains s := by
  unfold ternary_search_tree.ensureRoot
  unfold ternary_search_tree.Inv at h
  cases hr : t.mRoot with
  | none =>
    simp only [Node.isWordAt_leaf]
    constructor
    · intro hf; cases hf
    · intro hc; exact absurd hc (not_contains_of_no_root hr s)
  | some r =>
    rw [hr] at h
    exact (contains_iff hr h.1 s).symm

/-- What `insert` returns, in closed form. -/
theorem insert_eq [Inhabited Ch] {t : ternary_search_tree Ch} (h : t.Inv) (s : List Ch) :
    t.insert s = some ((cursorAt s, !t.ensureRoot.isWordAt s),
      ⟨some (insertNode t.ensureRoot s).1,
        if t.ensureRoot.isWordAt s then t.mSize else t.mSize + 1⟩) := by
  have hwf := insertNode_WF (ensureRoot_WF h) s
  have hw : (insertNode t.ensureRoot s).1.isWordAt s = true := by
    rw [insertNode_isWordAt]; simp
  obtain ⟨m, hd, _⟩ := Node.deref_of_isWordAt (p := s) (q := []) (by simpa using hw)
  have hroot := ensureRoot_WF h
  obtain ⟨n, hn1, hn2⟩ := insertLoop_deref s t.ensureRoot [] t.ensureRoot
    (Node.deref_nil _)
  have hmark := insertLoop_mark s t.ensureRoot []
  simp only [List.nil_append, Node.update_nil] at hn1 hmark
  unfold ternary_search_tree.insert
  simp only [insertLoop_snd, List.nil_append, hn1, hn2]
  by_cases hs : t.ensureRoot.isWordAt s = true
  · have e1 := insertLoop_of_word hroot s [] t.ensureRoot (Node.deref_nil _) hs
    have e2 := insertNode_of_isWordAt hroot hs
    rw [e2] at hd
    simp only [hs, if_true, e1, e2]
    rw [make_some (t := ⟨some t.ensureRoot, t.mSize⟩) rfl hroot hd]
    rfl
  · simp only [hs, Bool.false_eq_true, if_false, hmark]
    rw [make_some (t := ⟨some (insertNode t.ensureRoot s).1, t.mSize + 1⟩) rfl hwf hd]
    rfl

theorem Inv_insert [Inhabited Ch] {t : ternary_search_tree Ch} (h : t.Inv) {s : List Ch}
    {r : (const_iterator Ch × Bool) × ternary_search_tree Ch} (hi : t.insert s = some r) :
    r.2.Inv := by
  rw [insert_eq h] at hi
  cases hi
  unfold ternary_search_tree.Inv
  refine ⟨insertNode_WF (ensureRoot_WF h) s, insertNode_isDead _ _, ?_⟩
  rw [count_insert (ensureRoot_WF h) (insertNode_WF (ensureRoot_WF h) s)
    (insertNode_isWordAt _ _), ← ensureRoot_count h]

theorem Inv_eraseNode {t : ternary_search_tree Ch} {root : Node Ch} (hr : t.mRoot = some root)
    (h : t.Inv) {s : List Ch} (hs : root.isWordAt s = true) {root' : Option (Node Ch)}
    (he : eraseNode root s = some root') :
    ternary_search_tree.Inv ⟨root', t.mSize - 1⟩ := by
  unfold ternary_search_tree.Inv at h
  rw [hr] at h
  obtain ⟨h1, h2⟩ := eraseNode_spec h.1 he
  unfold ternary_search_tree.Inv
  cases root' with
  | none =>
    simp only
    rw [h.2.2, count_single h.1 (h1 rfl) hs]
  | some n' =>
    obtain ⟨hwf', _, hdead', hmem'⟩ := h2 n' rfl
    refine ⟨hwf', hdead', ?_⟩
    have := count_erase h.1 hwf' hmem' hs
    simp only
    omega

theorem eraseAt_tree {t : ternary_search_tree Ch} {root : Node Ch} (hr : t.mRoot = some root)
    (hwf : root.WF) {s : List Ch} {r : const_iterator Ch × ternary_search_tree Ch}
    (he : t.eraseAt (cursorAt s) = some r) :
    ∃ root', eraseNode root s = some root' ∧ r.2 = ⟨root', t.mSize - 1⟩ := by
  unfold ternary_search_tree.eraseAt at he
  simp only [cursorAt, getLast?_inits, hr] at he
  cases hinc : t.increment ⟨s.inits, s⟩ with
  | none => simp [hinc] at he
  | some next =>
    simp only [hinc] at he
    cases hd : root.deref s with
    | none => simp [hd] at he
    | some n =>
      simp only [hd, cleanupLoop_eq_eraseNode s root hwf ⟨n, hd⟩] at he
      cases hen : eraseNode root s with
      | none => simp [hen] at he
      | some root' =>
        simp only [hen, Option.some.injEq] at he
        subst he
        exact ⟨root', rfl, rfl⟩

theorem Inv_eraseAt {t : ternary_search_tree Ch} (h : t.Inv) {s : List Ch}
    {it : const_iterator Ch} (hf : t.find s = some it) (hne : it.eq t.end_ = false)
    {r : const_iterator Ch × ternary_search_tree Ch} (he : t.eraseAt it = some r) :
    r.2.Inv := by
  cases hr : t.mRoot with
  | none =>
    rw [find_of_no_root hr] at hf
    cases hf
    simp [end_eq_end] at hne
  | some root =>
    have hwf : root.WF := by
      unfold ternary_search_tree.Inv at h
      rw [hr] at h
      exact h.1
    rw [find_eq hr hwf] at hf
    by_cases hw : root.isWordAt s = true
    · simp only [hw, if_true, Option.some.injEq] at hf
      subst hf
      obtain ⟨root', hen, hr2⟩ := eraseAt_tree hr hwf he
      rw [hr2]
      exact Inv_eraseNode hr h hw hen
    · simp only [hw, Option.some.injEq] at hf
      subst hf
      simp [end_eq_end] at hne

theorem Inv_erase {t : ternary_search_tree Ch} (h : t.Inv) {s : List Ch}
    {r : Bool × ternary_search_tree Ch} (he : t.erase s = some r) : r.2.Inv := by
  unfold ternary_search_tree.erase at he
  cases hf : t.find s with
  | none => simp [hf] at he
  | some it =>
    simp only [hf] at he
    by_cases hne : it.eq t.end_ = true
    · simp only [hne, if_true, Option.some.injEq] at he
      subst he
      exact h
    · simp only [hne] at he
      cases hea : t.eraseAt it with
      | none => simp [hea] at he
      | some r' =>
        simp only [hea, Bool.false_eq_true, if_false, Option.some.injEq] at he
        subst he
        exact Inv_eraseAt h hf (by simpa using hne) hea

theorem Reachable.inv [Inhabited Ch] {t : ternary_search_tree Ch} (h : Reachable t) :
    t.Inv := by
  induction h with
  | empty => rfl
  | insert _ hi ih => exact Inv_insert ih hi
  | erase _ he ih => exact Inv_erase ih he
  | eraseAt _ hf hne he ih => exact Inv_eraseAt ih hf hne he

end InvLemmas

/-! ## Insertion -/

section InsertClaims

variable {Ch : Type} [LinearOrder Ch] [Inhabited Ch]

theorem sampleTree_reachable : Reachable sampleTree := by
  have h1 : Reachable (⟨some (Node.mk 0 false [(2, Node.mk 2 false [(1, Node.mk 1 true [])])]),
      1⟩ : ternary_search_tree Nat) :=
    Reachable.insert (s := [2, 1]) (r := ((cursorAt [2, 1], true), _)) Reachable.empty rfl
  have h2 : Reachable (⟨some (Node.mk 0 false [(2, Node.mk 2 true [(1, Node.mk 1 true [])])]),
      2⟩ : ternary_search_tree Nat) :=
    Reachable.insert (s := [2]) (r := ((cursorAt [2], true), _)) h1 rfl
  exact Reachable.insert (s := [3]) (r := ((cursorAt [3], true), _)) h2 rfl

/-- C1: on every tree reachable from the empty tree by insert and erase, and for
every string `s`, `insert(s)` returns, and `find(s)` on the resulting tree
returns a cursor different from `end()` whose dereference equals `s`. -/
theorem C1_find_after_insert (t : ternary_search_tree Ch) (s : List Ch) (h : Reachable t) :
    ∃ r, t.insert s = some r ∧
      ∃ it, r.2.find s = some it ∧ it.eq r.2.end_ = false ∧ it.star = s := by
  have hinv := h.inv
  refine ⟨_, insert_eq hinv s, ?_⟩
  have hwf := insertNode_WF (ensureRoot_WF hinv) s
  refine ⟨cursorAt s, ?_, cursorAt_ne_end _ _, rfl⟩
  rw [find_eq (t := ⟨some (insertNode t.ensureRoot s).1, _⟩) rfl hwf, insertNode_isWordAt]
  simp

theorem C1_find_after_insert_witness :
    Reachable sampleTree ∧
      ∃ r, sampleTree.insert [2, 5] = some r ∧
        ∃ it, r.2.find [2, 5] = some it ∧ it.eq r.2.end_ = false ∧ it.star = [2, 5] :=
  ⟨sampleTree_reachable, C1_find_after_insert sampleTree [2, 5] sampleTree_reachable⟩

/-- C7: on every reachable tree, inserting `s` a second time right after
inserting it reports `inserted = false`, leaves `size()` unchanged and leaves
the tree structurally identical (no node is created or destroyed). -/
theorem C7_insert_twice (t : ternary_search_tree Ch) (s : List Ch) (h : Reachable t) :
    ∃ r1 r2, t.insert s = some r1 ∧ r1.2.insert s = some r2 ∧
      r2.1.2 = false ∧ r2.2.size = r1.2.size ∧ r2.2 = r1.2 := by
  have hinv := h.inv
  have h1 := insert_eq hinv s
  have hinv1 := Inv_insert hinv h1
  have hwf := insertNode_WF (ensureRoot_WF hinv) s
  have hw : (insertNode t.ensureRoot s).1.isWordAt s = true := by
    rw [insertNode_isWordAt]; simp
  generalize hsz : (if t.ensureRoot.isWordAt s = true then t.mSize else t.mSize + 1) = sz
    at h1 hinv1
  have h2 : (⟨some (insertNode t.ensureRoot s).1, sz⟩ : ternary_search_tree Ch).insert s =
      some ((cursorAt s, !(insertNode t.ensureRoot s).1.isWordAt s),
        ⟨some (insertNode (insertNode t.ensureRoot s).1 s).1,
          if (insertNode t.ensureRoot s).1.isWordAt s then sz else sz + 1⟩) :=
    insert_eq hinv1 s
  rw [hw, insertNode_of_isWordAt hwf hw] at h2
  exact ⟨_, _, h1, h2, rfl, rfl, rfl⟩

theorem C7_insert_twice_witness :
    Reachable sampleTree ∧
      ∃ r1 r2, sampleTree.insert [2, 5] = some r1 ∧ r1.2.insert [2, 5] = some r2 ∧
        r2.1.2 = false ∧ r2.2.size = r1.2.size ∧ r2.2 = r1.2 :=
  ⟨sampleTree_reachable, C7_insert_twice sampleTree [2, 5] sampleTree_reachable⟩

/-- C8: on every reachable tree, `insert(s)` reports `inserted = true` exactly
when `s` was not a member before the call, in which case `size()` grows by
exactly one (and otherwise `size()` is unchanged); in both cases the returned
cursor dereferences to `s` and equals `find(s)` on the resulting tree. -/
theorem C8_insert_result (t : ternary_search_tree Ch) (s : List Ch) (h : Reachable t) :
    ∃ r, t.insert s = some r ∧
      (r.1.2 = true ↔ ¬ t.contains s) ∧
      (r.1.2 = true → r.2.size = t.size + 1) ∧
      (r.1.2 = false → r.2.size = t.size) ∧
      r.1.1.star = s ∧
      ∃ it, r.2.find s = some it ∧ r.1.1.eq it = true := by
  have hinv := h.inv
  have hwf := insertNode_WF (ensureRoot_WF hinv) s
  refine ⟨_, insert_eq hinv s, ?_, ?_, ?_, rfl, cursorAt s, ?_, ?_⟩
  · rw [← ensureRoot_isWordAt hinv s]
    simp
  · intro hf
    simp only [Bool.not_eq_true', ] at hf
    simp [ternary_search_tree.size, hf]
  · intro hf
    simp only [Bool.not_eq_false'] at hf
    simp [ternary_search_tree.size, hf]
  · rw [find_eq (t := ⟨some (insertNode t.ensureRoot s).1, _⟩) rfl hwf, insertNode_isWordAt]
    simp
  · simp [const_iterator.eq]

theorem C8_insert_result_witness :
    Reachable sampleTree ∧
      ∃ r, sampleTree.insert [2, 5] = some r ∧
        (r.1.2 = true ↔ ¬ sampleTree.contains [2, 5]) ∧
        (r.1.2 = true → r.2.size = sampleTree.size + 1) ∧
        (r.1.2 = false → r.2.size = sampleTree.size) ∧
        r.1.1.star = [2, 5] ∧
        ∃ it, r.2.find [2, 5] = some it ∧ r.1.1.eq it = true :=
  ⟨sampleTree_reachable, C8_insert_result sampleTree [2, 5] sampleTree_reachable⟩

end InsertClaims

/-! ## The smallest-child descent -/

section DescentLemmas

variable {Ch : Type} [LinearOrder Ch]

/-- Below a node whose first child is `(k, ch)`, every word that is not the
node itself is at least `k :: rel`, where `rel` is the least word below `ch`. -/
theorem first_child_least {n : Node Ch} (hl : n.Local) {k : Ch} {ch : Node Ch}
    {rest : List (Ch × Node Ch)} (he : n.mEqual = (k, ch) :: rest) {rel : List Ch}
    (hrel : ∀ w, ch.isWordAt w = true → rel ≤ w) {a : Ch} {as : List Ch}
    (hw : n.isWordAt (a :: as) = true) : k :: rel ≤ a :: as := by
  rw [Node.isWordAt_cons] at hw
  cases hf : mapFind n.mEqual a with
  | none => simp [hf] at hw
  | some x =>
    simp only [hf] at hw
    have hs := hl.1
    rw [he] at hs hf
    have hle : k ≤ a := mapFind_head_le hs hf
    rcases lt_or_eq_of_le hle with hlt | heq
    · exact str_le_cons_iff.mpr (Or.inl hlt)
    · subst heq
      simp only [mapFind, if_true, Option.some.injEq] at hf
      subst hf
      exact str_le_cons_iff.mpr (Or.inr ⟨rfl, hrel as hw⟩)

theorem firstWordLoop_mk (l : Ch) (w : Bool) (eq : List (Ch × Node Ch)) (p : List Ch) :
    firstWordLoop (Node.mk l w eq) p =
      if w then some p
      else
        match eq with
        | [] => none
        | (k, ch) :: _ => firstWordLoop ch (p ++ [k]) := by
  cases w <;> cases eq <;> rfl

theorem descendLoop_mk (l : Ch) (w : Bool) (eq : List (Ch × Node Ch)) (back : List Ch)
    (tr : List (List Ch)) (s : List Ch) :
    descendLoop (Node.mk l w eq) back tr s =
      if w then some (tr, s)
      else
        match eq with
        | [] => none
        | (k, ch) :: _ => descendLoop ch (back ++ [k]) (tr ++ [back ++ [k]]) (s ++ [k]) := by
  cases w <;> cases eq <;> rfl

theorem firstWord_spec (n : Node Ch) : n.WF → n.isDead = false → ∀ p : List Ch,
    ∃ rel, firstWordLoop n p = some (p ++ rel) ∧
      descendLoop n p p.inits p = some ((p ++ rel).inits, p ++ rel) ∧
      n.isWordAt rel = true ∧ ∀ w, n.isWordAt w = true → rel ≤ w := by
  induction n using Node.induct with
  | h l w eq ih =>
    intro hwf hdead p
    cases w with
    | true =>
      refine ⟨[], ?_, ?_, ?_, ?_⟩
      · simp [firstWordLoop_mk]
      · simp [descendLoop_mk]
      · simp [Node.isWordAt_nil]
      · intro w _; exact List.nil_le
    | false =>
      cases eq with
      | nil => simp [Node.isDead] at hdead
      | cons a rest =>
        obtain ⟨k, ch⟩ := a
        have hf : mapFind (Node.mk l false ((k, ch) :: rest)).mEqual k = some ch := by
          simp [mapFind]
        have hchwf : ch.WF := hwf.child hf
        have hchdead : ch.isDead = false := (hwf.local.2 k ch hf).2
        obtain ⟨rel, h1, h2, h3, h4⟩ :=
          ih k ch (List.mem_cons_self _ _) hchwf hchdead (p ++ [k])
        refine ⟨k :: rel, ?_, ?_, ?_, ?_⟩
        · simp only [firstWordLoop_mk, Bool.false_eq_true, if_false]
          rw [h1]; simp
        · simp only [descendLoop_mk, Bool.false_eq_true, if_false]
          rw [← inits_snoc, h2]; simp
        · rw [Node.isWordAt_cons, hf]; exact h3
        · intro w hw
          cases w with
          | nil => simp [Node.isWordAt_nil] at hw
          | cons a as => exact first_child_least hwf.local rfl h4 hw

/-- All nodes below the root of a tree that satisfies the invariant can be
descended from: the descent from the node at address `p` ends at the least
word that extends `p`. -/
theorem descent_at {root : Node Ch} (hwf : root.WF) {p : List Ch} {n : Node Ch}
    (hd : root.deref p = some n) (hdead : n.isDead = false) :
    ∃ r, firstWordLoop n p = some r ∧ descendLoop n p p.inits p = some (r.inits, r) ∧
      root.isWordAt r = true ∧ (∃ y, r = p ++ y) ∧
      ∀ w, root.isWordAt w = true → ((∃ y, w = p ++ y) ∨ ∀ x, p ++ x < w) → r ≤ w := by
  obtain ⟨rel, h1, h2, h3, h4⟩ := firstWord_spec n (hwf.deref hd) hdead p
  refine ⟨p ++ rel, h1, h2, ?_, ⟨rel, rfl⟩, ?_⟩
  · rw [Node.isWordAt_append, hd]; exact h3
  · intro w hw hcase
    rcases hcase with ⟨y, rfl⟩ | hlt
    · rw [Node.isWordAt_append, hd] at hw
      exact str_append_le_append.mpr (h4 y hw)
    · exact le_of_lt (hlt rel)

theorem Node.isDead_of_deref {root : Node Ch} (hwf : root.WF) (hroot : root.isDead = false)
    {p : List Ch} {n : Node Ch} (hd : root.deref p = some n) : n.isDead = false := by
  induction p using List.reverseRecOn with
  | nil =>
    rw [Node.deref_nil] at hd
    cases hd
    exact hroot
  | append_singleton q c _ =>
    rw [Node.deref_snoc] at hd
    cases hq : root.deref q with
    | none => simp [hq] at hd
    | some m =>
      simp only [hq, Option.some_bind] at hd
      exact ((hwf q m hq).2 c n hd).2

end DescentLemmas

/-! ## Climbing to the next sibling -/

section ClimbLemmas

variable {Ch : Type} [LinearOrder Ch]

theorem str_not_cons_le_nil (a : Ch) (x : List Ch) : ¬ a :: x ≤ [] := by
  intro h
  exact absurd (lt_of_lt_of_le (str_nil_lt_cons a x) h) (lt_irrefl _)

/-- A string that is at least `q ++ m` either extends `q` by something at least
`m`, or is greater than every extension of `q`. -/
theorem str_le_split {q m : List Ch} {w : List Ch} (h : q ++ m ≤ w) :
    (∃ w1, w = q ++ w1 ∧ m ≤ w1) ∨ ∀ x, q ++ x < w := by
  induction q generalizing w with
  | nil => exact Or.inl ⟨w, rfl, h⟩
  | cons a q' ih =>
    cases w with
    | nil => exact absurd h (str_not_cons_le_nil _ _)
    | cons b w' =>
      rw [List.cons_append, str_le_cons_iff] at h
      rcases h with h | ⟨rfl, h⟩
      · exact Or.inr (fun x => str_lt_cons_iff.mpr (Or.inl h))
      · rcases ih h with ⟨w1, rfl, h1⟩ | h2
        · exact Or.inl ⟨w1, rfl, h1⟩
        · exact Or.inr (fun x => str_lt_cons_iff.mpr (Or.inr ⟨rfl, h2 x⟩))

theorem climb_nil (root : Node Ch) : climb root [] = none := rfl

theorem climb_snoc (root : Node Ch) (q : List Ch) (c : Ch) :
    climb root (q ++ [c]) =
      match root.deref q with
      | none => none
      | some n =>
        match mapUpperBound n.mEqual c with
        | some (k, _) => some (q ++ [k])
        | none => climb root q := by
  simp only [climb, List.reverse_append, List.reverse_cons, List.reverse_nil, List.nil_append,
    List.singleton_append, climbRev, List.reverse_reverse]

theorem Node.deref_init {root : Node Ch} {q : List Ch} {c : Ch} {n : Node Ch}
    (hd : root.deref (q ++ [c]) = some n) :
    ∃ nq, root.deref q = some nq ∧ mapFind nq.mEqual c = some n := by
  rw [Node.deref_snoc] at hd
  cases hq : root.deref q with
  | none => simp [hq] at hd
  | some nq => exact ⟨nq, rfl, by simpa [hq] using hd⟩

theorem Node.mapFind_of_isWordAt_cons {n : Node Ch} {b : Ch} {w : List Ch}
    (h : n.isWordAt (b :: w) = true) : ∃ x, mapFind n.mEqual b = some x := by
  rw [Node.isWordAt_cons] at h
  cases hf : mapFind n.mEqual b with
  | none => simp [hf] at h
  | some x => exact ⟨x, rfl⟩

/-- What the climb finds.  `B` is the set of strings searched for (all at least
`str`), `pos` an initial segment of `str` below which no word is in `B`. -/
theorem climb_spec {root : Node Ch} (hwf : root.WF) (str : List Ch) (B : List Ch → Prop)
    (hB : ∀ w, B w → str ≤ w) :
    ∀ (pos rest : List Ch), str = pos ++ rest →
      (∀ q c, pos = q ++ [c] → ∃ n, root.deref q = some n) →
      (∀ y, root.isWordAt (pos ++ y) = true → ¬ B (pos ++ y)) →
      match climb root pos with
      | none => ∀ w, root.isWordAt w = true → ¬ B w
      | some p => (∃ ch, root.deref p = some ch) ∧ (∀ x, str < p ++ x) ∧
          ∀ w, root.isWordAt w = true → B w → (∃ y, w = p ++ y) ∨ ∀ x, p ++ x < w := by
  intro pos
  induction pos using List.reverseRecOn with
  | nil =>
    intro rest _ _ hH
    rw [climb_nil]
    exact fun w hw => hH w hw
  | append_singleton q c ih =>
    intro rest hstr hex hH
    obtain ⟨nq, hq⟩ := hex q c rfl
    have hstr' : str = q ++ c :: rest := by rw [hstr]; simp
    -- every word in `B` that extends `q` continues with a key greater than `c`
    have key : ∀ y, root.isWordAt (q ++ y) = true → B (q ++ y) →
        ∃ b w2, y = b :: w2 ∧ c < b ∧ ∃ x, mapFind nq.mEqual b = some x := by
      intro y hy hBy
      have hle := hB _ hBy
      rw [hstr', str_append_le_append] at hle
      cases y with
      | nil => exact absurd hle (str_not_cons_le_nil _ _)
      | cons b w2 =>
        rw [Node.isWordAt_append, hq] at hy
        rcases str_le_cons_iff.mp hle with hlt | ⟨rfl, _⟩
        · exact ⟨b, w2, rfl, hlt, Node.mapFind_of_isWordAt_cons hy⟩
        · exfalso
          have hw : root.isWordAt ((q ++ [c]) ++ w2) = true := by
            rw [List.append_assoc, Node.isWordAt_append, hq]; exact hy
          refine hH w2 hw ?_
          rw [List.append_assoc]
          exact hBy
    rw [climb_snoc, hq]
    cases hub : mapUpperBound nq.mEqual c with
    | none =>
      simp only [hub]
      refine ih (c :: rest) hstr' ?_ ?_
      · intro q' c' hq'
        subst hq'
        obtain ⟨n', hn', _⟩ := Node.deref_init hq
        exact ⟨n', hn'⟩
      · intro y hy hBy
        obtain ⟨b, w2, _, hlt, x, hx⟩ := key y hy hBy
        exact absurd (mapUpperBound_none hub b x hx) (not_le.mpr hlt)
    | some kv =>
      obtain ⟨k, ch⟩ := kv
      simp only [hub]
      obtain ⟨hck, hfk, hleast⟩ := mapUpperBound_some (hwf q nq hq).1 hub
      refine ⟨⟨ch, ?_⟩, ?_, ?_⟩
      · rw [Node.deref_snoc, hq]; exact hfk
      · intro x
        rw [hstr', List.append_assoc, str_append_lt_append]
        exact str_lt_cons_iff.mpr (Or.inl hck)
      · intro w hw hBw
        have hle := hB w hBw
        rw [hstr'] at hle
        rcases str_le_split hle with ⟨w1, rfl, _⟩ | hall
        · obtain ⟨b, w2, rfl, hlt, x, hx⟩ := key w1 hw hBw
          rcases lt_or_eq_of_le (hleast b x hx hlt) with hkb | rfl
          · refine Or.inr (fun x' => ?_)
            rw [List.append_assoc, str_append_lt_append]
            exact str_lt_cons_iff.mpr (Or.inl hkb)
          · exact Or.inl ⟨w2, by simp⟩
        · refine Or.inr (fun x => ?_)
          rw [List.append_assoc]
          exact hall _

end ClimbLemmas

/-! ## The loops of `operator++` and `lower_bound` -/

section LoopLemmas

variable {Ch : Type} [LinearOrder Ch]

theorem inits_reverse_snoc (q : List Ch) (c : Ch) :
    (q ++ [c]).inits.reverse = (q ++ [c]) :: q.inits.reverse := by
  rw [inits_snoc]; simp

theorem inits_reverse_head (q : List Ch) : ∃ tl, q.inits.reverse = q :: tl := by
  induction q using List.reverseRecOn with
  | nil => exact ⟨[], rfl⟩
  | append_singleton q c _ => exact ⟨q.inits.reverse, inits_reverse_snoc q c⟩

theorem unwindLoop_one (t : ternary_search_tree Ch) (top : List Ch) (s : List Ch) :
    unwindLoop t [top] s =
      match t.deref top with
      | none => none
      | some _ => some ([], s, true) := by
  simp only [unwindLoop]

theorem unwindLoop_two (t : ternary_search_tree Ch) (top back : List Ch)
    (tl : List (List Ch)) (s : List Ch) :
    unwindLoop t (top :: back :: tl) s =
      match t.deref top with
      | none => none
      | some n =>
        match t.deref back with
        | none => none
        | some m =>
          match mapUpperBound m.mEqual n.mLetter with
          | some (k, _) => some ((back ++ [k]) :: back :: tl, s.dropLast ++ [k], false)
          | none => unwindLoop t (back :: tl) s.dropLast := by
  rw [unwindLoop]

theorem backtrackLoop_succ (t : ternary_search_tree Ch) (str curr : List Ch) (b : Nat) :
    backtrackLoop t str (some curr) (b + 1) =
      match t.deref curr, str.get? b with
      | some n, some c =>
        match mapUpperBound n.mEqual c with
        | some (k, _) =>
          match t.firstWordIn (some (curr ++ [k])) with
          | none => none
          | some w => const_iterator.make t w
        | none => backtrackLoop t str (mParent curr) b
      | _, _ => none := by
  rw [backtrackLoop]

theorem unwind_eq {t : ternary_search_tree Ch} {root : Node Ch} (hr : t.mRoot = some root)
    (hwf : root.WF) : ∀ (a : List Ch) (na : Node Ch), root.deref a = some na →
      unwindLoop t a.inits.reverse a =
        some (match climb root a with
          | none => ([], [], true)
          | some p => (p.inits.reverse, p, false)) := by
  intro a
  induction a using List.reverseRecOn with
  | nil =>
    intro na hd
    have e : ([] : List Ch).inits.reverse = [[]] := rfl
    rw [e, unwindLoop_one, ternary_search_tree.deref_of_root hr, hd, climb_nil]
  | append_singleton q c ih =>
    intro na hd
    obtain ⟨nq, hq, hf⟩ := Node.deref_init hd
    have hlet : na.mLetter = c := ((hwf q nq hq).2 c na hf).1
    obtain ⟨tl, htl⟩ := inits_reverse_head q
    rw [inits_reverse_snoc, htl, climb_snoc, hq, unwindLoop_two,
      ternary_search_tree.deref_of_root hr, ternary_search_tree.deref_of_root hr, hd, hq]
    simp only [hlet, List.dropLast_concat]
    cases hub : mapUpperBound nq.mEqual c with
    | none =>
      simp only [hub]
      rw [← htl]
      exact ih nq hq
    | some kv =>
      obtain ⟨k, ch⟩ := kv
      simp only [hub, inits_reverse_snoc, htl]

theorem get?_append_cons (a : List Ch) (c : Ch) (rest : List Ch) :
    (a ++ c :: rest).get? a.length = some c := by
  induction a with
  | nil => rfl
  | cons x xs ih => simpa using ih

theorem backtrack_eq {t : ternary_search_tree Ch} {root : Node Ch} (hr : t.mRoot = some root)
    (str : List Ch) : ∀ (a : List Ch) (c : Ch) (rest : List Ch) (na : Node Ch),
      str = a ++ c :: rest → root.deref a = some na →
      backtrackLoop t str (some a) (a.length + 1) =
        match climb root (a ++ [c]) with
        | none => some t.end_
        | some p =>
          match t.firstWordIn (some p) with
          | none => none
          | some w => const_iterator.make t w := by
  intro a
  induction a using List.reverseRecOn with
  | nil =>
    intro c rest na hstr hd
    have hg : str.get? 0 = some c := by rw [hstr]; rfl
    have hd' : root.deref [] = some root := Node.deref_nil root
    have hc := climb_snoc root [] c
    simp only [List.nil_append] at hc
    rw [List.nil_append, hc, hd', List.length_nil, Nat.zero_add, backtrackLoop_succ,
      ternary_search_tree.deref_of_root hr, hd', hg]
    cases hub : mapUpperBound root.mEqual c with
    | none => simp only [hub, mParent, if_true, backtrackLoop, climb_nil]
    | some kv =>
      obtain ⟨k, ch⟩ := kv
      simp only [hub, List.nil_append]
  | append_singleton q c' ih =>
    intro c rest na hstr hd
    obtain ⟨nq, hq, _⟩ := Node.deref_init hd
    have hg : str.get? (q ++ [c']).length = some c := by
      rw [hstr]; exact get?_append_cons _ _ _
    rw [climb_snoc, hd, backtrackLoop_succ, ternary_search_tree.deref_of_root hr, hd, hg]
    cases hub : mapUpperBound na.mEqual c with
    | none =>
      have hp : mParent (q ++ [c']) = some q := by simp [mParent]
      have hl : (q ++ [c']).length = q.length + 1 := by simp
      simp only [hub, hp]
      rw [hl]
      exact ih c' (c :: rest) nq (by rw [hstr]; simp) hq
    | some kv =>
      obtain ⟨k, ch⟩ := kv
      simp only [hub]

/-- The descent started at an existing node: the final loop of `operator++`
and `firstWordIn` both reach the least word below the node. -/
theorem descend_eq {t : ternary_search_tree Ch} {root : Node Ch} (hr : t.mRoot = some root)
    (hwf : root.WF) (hroot : root.isDead = false) {p : List Ch} {n : Node Ch}
    (hd : root.deref p = some n) :
    ∃ r, descend t p.inits p = some (cursorAt r) ∧
      (match t.firstWordIn (some p) with
        | none => none
        | some w => const_iterator.make t w) = some (cursorAt r) ∧
      root.isWordAt r = true ∧ (∃ y, r = p ++ y) ∧
      ∀ w, root.isWordAt w = true → ((∃ y, w = p ++ y) ∨ ∀ x, p ++ x < w) → r ≤ w := by
  obtain ⟨r, h1, h2, h3, h4, h5⟩ := descent_at hwf hd (Node.isDead_of_deref hwf hroot hd)
  obtain ⟨m, hm, _⟩ := Node.deref_of_isWordAt (p := r) (q := []) (by simpa using h3)
  refine ⟨r, ?_, ?_, h3, h4, h5⟩
  · simp [descend, getLast?_inits, ternary_search_tree.deref_of_root hr, hd, h2, cursorAt]
  · simp [ternary_search_tree.firstWordIn, ternary_search_tree.deref_of_root hr, hd, h1,
      make_some hr hwf hm]

end LoopLemmas

/-! ## `operator++`, `begin`, `lower_bound` and `upper_bound` on a well-formed tree -/

section CursorLemmas

variable {Ch : Type} [LinearOrder Ch]

theorem increment_spec {t : ternary_search_tree Ch} {root : Node Ch}
    (hr : t.mRoot = some root) (hwf : root.WF) (hroot : root.isDead = false) {m : List Ch}
    (hm : root.isWordAt m = true) :
    ∃ it, t.increment (cursorAt m) = some it ∧
      ((it = t.end_ ∧ ∀ w, root.isWordAt w = true → ¬ m < w) ∨
        ∃ r, it = cursorAt r ∧ root.isWordAt r = true ∧ m < r ∧
          ∀ w, root.isWordAt w = true → m < w → r ≤ w) := by
  obtain ⟨n, hd, _⟩ := Node.deref_of_isWordAt (p := m) (q := []) (by simpa using hm)
  have hinc : t.increment (cursorAt m) =
      match n.mEqual with
      | (k, _) :: _ => descend t (m.inits ++ [m ++ [k]]) (m ++ [k])
      | [] =>
        match unwindLoop t m.inits.reverse m with
        | none => none
        | some (tr, s, true) => some ⟨tr.reverse, s⟩
        | some (tr, s, false) => descend t tr.reverse s := by
    simp only [ternary_search_tree.increment, cursorAt, getLast?_inits,
      ternary_search_tree.deref_of_root hr, hd]
  rw [hinc]
  cases he : n.mEqual with
  | cons kv rest =>
    obtain ⟨k, ch⟩ := kv
    simp only
    have hf : mapFind n.mEqual k = some ch := by rw [he]; simp [mapFind]
    have hdk : root.deref (m ++ [k]) = some ch := by rw [Node.deref_snoc, hd]; exact hf
    obtain ⟨r, h1, _, h3, ⟨y, hy⟩, h5⟩ := descend_eq hr hwf hroot hdk
    rw [← inits_snoc, h1]
    refine ⟨_, rfl, Or.inr ⟨r, rfl, h3, ?_, ?_⟩⟩
    · rw [hy, List.append_assoc]; exact str_lt_append_cons _ _ _
    · intro w hw hlt
      refine h5 w hw ?_
      have hle : m ++ [] ≤ w := by simpa using le_of_lt hlt
      rcases str_le_split hle with ⟨w1, rfl, _⟩ | hall
      · cases w1 with
        | nil => simp at hlt
        | cons b w2 =>
          rw [Node.isWordAt_append, hd] at hw
          obtain ⟨x, hx⟩ := Node.mapFind_of_isWordAt_cons hw
          have hs := (hwf m n hd).1
          rw [he] at hs hx
          rcases lt_or_eq_of_le (mapFind_head_le hs hx) with hkb | rfl
          · refine Or.inr (fun x' => ?_)
            rw [List.append_assoc, str_append_lt_append]
            exact str_lt_cons_iff.mpr (Or.inl hkb)
          · exact Or.inl ⟨w2, by simp⟩
      · refine Or.inr (fun x => ?_)
        rw [List.append_assoc]
        exact hall _
  | nil =>
    simp only
    rw [unwind_eq hr hwf m n hd]
    have hcl := climb_spec hwf m (fun w => m < w) (fun w hw => le_of_lt hw) m []
      (by simp)
      (by
        intro q c hq
        subst hq
        obtain ⟨nq, hnq, _⟩ := Node.deref_init hd
        exact ⟨nq, hnq⟩)
      (by
        intro y hy hlt
        rw [Node.isWordAt_append, hd] at hy
        cases y with
        | nil => simp at hlt
        | cons b w2 =>
          obtain ⟨x, hx⟩ := Node.mapFind_of_isWordAt_cons hy
          rw [he] at hx
          simp [mapFind] at hx)
    cases hc : climb root m with
    | none =>
      rw [hc] at hcl
      simp only at hcl ⊢
      exact ⟨_, rfl, Or.inl ⟨rfl, hcl⟩⟩
    | some p =>
      rw [hc] at hcl
      simp only [List.reverse_reverse] at hcl ⊢
      obtain ⟨⟨ch, hdp⟩, ha, hb⟩ := hcl
      obtain ⟨r, h1, _, h3, ⟨y, hy⟩, h5⟩ := descend_eq hr hwf hroot hdp
      rw [h1]
      refine ⟨_, rfl, Or.inr ⟨r, rfl, h3, ?_, ?_⟩⟩
      · rw [hy]; exact ha y
      · intro w hw hlt
        exact h5 w hw (hb w hw hlt)

theorem begin_spec {t : ternary_search_tree Ch} {root : Node Ch}
    (hr : t.mRoot = some root) (hwf : root.WF) (hroot : root.isDead = false) :
    ∃ r, t.begin = some (cursorAt r) ∧ root.isWordAt r = true ∧
      ∀ w, root.isWordAt w = true → r ≤ w := by
  obtain ⟨r, _, h2, h3, _, h5⟩ := descend_eq hr hwf hroot (Node.deref_nil root)
  refine ⟨r, ?_, h3, fun w hw => h5 w hw (Or.inl ⟨w, rfl⟩)⟩
  simp only [ternary_search_tree.begin, ternary_search_tree.rootPtr, hr]
  exact h2

theorem begin_of_no_root {t : ternary_search_tree Ch} (hr : t.mRoot = none) :
    t.begin = some t.end_ := by
  simp only [ternary_search_tree.begin, ternary_search_tree.rootPtr, hr,
    ternary_search_tree.firstWordIn]
  rfl

theorem backtrackPasses_of_lt {i : Nat} (h : i < 2 ^ 31) : backtrackPasses i = i + 1 := by
  unfold backtrackPasses
  have e : i % 2 ^ 32 = i := Nat.mod_eq_of_lt (by omega)
  rw [e, if_pos h]

theorem backtrackPasses_le (i : Nat) : backtrackPasses i ≤ i + 1 := by
  unfold backtrackPasses
  have e : i % 2 ^ 32 ≤ i := Nat.mod_le _ _
  split <;> omega

theorem lowerBoundLoop_spec {t : ternary_search_tree Ch} {root : Node Ch}
    (hr : t.mRoot = some root) (hwf : root.WF) (hroot : root.isDead = false)
    (str : List Ch)
    (hlen : ∀ p c, p ++ [c] <+: str → (∃ n, root.deref p = some n) →
      root.deref (p ++ [c]) = none → p.length < 2 ^ 31) :
    ∀ (rest curr : List Ch) (n : Node Ch), str = curr ++ rest →
      root.deref curr = some n →
      ∃ it, lowerBoundLoop t str curr curr.length rest = some it ∧
        ((it = t.end_ ∧ ∀ w, root.isWordAt w = true → ¬ str ≤ w) ∨
          ∃ r, it = cursorAt r ∧ root.isWordAt r = true ∧ str ≤ r ∧
            ∀ w, root.isWordAt w = true → str ≤ w → r ≤ w) := by
  intro rest
  induction rest with
  | nil =>
    intro curr n hstr hd
    simp only [List.append_nil] at hstr
    subst hstr
    obtain ⟨r, _, h2, h3, ⟨y, hy⟩, h5⟩ := descend_eq hr hwf hroot hd
    simp only [lowerBoundLoop]
    refine ⟨_, h2, Or.inr ⟨r, rfl, h3, ?_, ?_⟩⟩
    · rw [hy]
      have := (str_append_le_append (p := str) (x := []) (y := y)).mpr List.nil_le
      simpa using this
    · intro w hw hle
      refine h5 w hw ?_
      have hle' : str ++ [] ≤ w := by simpa using hle
      rcases str_le_split hle' with ⟨w1, rfl, _⟩ | hall
      · exact Or.inl ⟨w1, rfl⟩
      · exact Or.inr hall
  | cons c rest' ih =>
    intro curr n hstr hd
    simp only [lowerBoundLoop, ternary_search_tree.deref_of_root hr, hd]
    cases hf : mapFind n.mEqual c with
    | some ch =>
      simp only
      have hdc : root.deref (curr ++ [c]) = some ch := by
        rw [Node.deref_snoc, hd]; exact hf
      have := ih (curr ++ [c]) ch (by rw [hstr]; simp) hdc
      simpa using this
    | none =>
      simp only
      have hnone : root.deref (curr ++ [c]) = none := by
        rw [Node.deref_snoc, hd]; exact hf
      have hshort : curr.length < 2 ^ 31 :=
        hlen curr c ⟨rest', by rw [hstr]; simp⟩ ⟨n, hd⟩ hnone
      rw [backtrackPasses_of_lt hshort, backtrack_eq hr str curr c rest' n hstr hd]
      have hcl := climb_spec hwf str (fun w => str ≤ w) (fun w hw => hw)
        (curr ++ [c]) rest' (by rw [hstr]; simp)
        (by
          intro q c' hq
          obtain ⟨rfl, _⟩ := List.append_inj' hq rfl
          exact ⟨n, hd⟩)
        (by
          intro y hy _
          rw [Node.isWordAt_append, hnone] at hy
          cases hy)
      cases hc : climb root (curr ++ [c]) with
      | none =>
        rw [hc] at hcl
        simp only at hcl ⊢
        exact ⟨_, rfl, Or.inl ⟨rfl, hcl⟩⟩
      | some p =>
        rw [hc] at hcl
        simp only at hcl ⊢
        obtain ⟨⟨ch, hdp⟩, ha, hb⟩ := hcl
        obtain ⟨r, _, h2, h3, ⟨y, hy⟩, h5⟩ := descend_eq hr hwf hroot hdp
        refine ⟨_, h2, Or.inr ⟨r, rfl, h3, ?_, ?_⟩⟩
        · rw [hy]; exact le_of_lt (ha y)
        · intro w hw hle
          exact h5 w hw (hb w hw hle)

theorem lower_bound_spec {t : ternary_search_tree Ch} {root : Node Ch}
    (hr : t.mRoot = some root) (hwf : root.WF) (hroot : root.isDead = false)
    (str : List Ch)
    (hlen : ∀ p c, p ++ [c] <+: str → (∃ n, root.deref p = some n) →
      root.deref (p ++ [c]) = none → p.length < 2 ^ 31) :
    ∃ it, t.lower_bound str = some it ∧
      ((it = t.end_ ∧ ∀ w, root.isWordAt w = true → ¬ str ≤ w) ∨
        ∃ r, it = cursorAt r ∧ root.isWordAt r = true ∧ str ≤ r ∧
          ∀ w, root.isWordAt w = true → str ≤ w → r ≤ w) := by
  simp only [ternary_search_tree.lower_bound, hr]
  by_cases he : str = []
  · subst he
    simp only [if_true]
    obtain ⟨r, h1, h2, h3⟩ := begin_spec hr hwf hroot
    exact ⟨_, h1, Or.inr ⟨r, rfl, h2, List.nil_le, fun w hw _ => h3 w hw⟩⟩
  · simp only [he, if_false]
    exact lowerBoundLoop_spec hr hwf hroot str hlen str [] root rfl (Node.deref_nil root)

theorem upper_bound_spec {t : ternary_search_tree Ch} {root : Node Ch}
    (hr : t.mRoot = some root) (hwf : root.WF) (hroot : root.isDead = false)
    (str : List Ch)
    (hlen : ∀ p c, p ++ [c] <+: str → (∃ n, root.deref p = some n) →
      root.deref (p ++ [c]) = none → p.length < 2 ^ 31) :
    ∃ it, t.upper_bound str = some it ∧
      ((it = t.end_ ∧ ∀ w, root.isWordAt w = true → ¬ str < w) ∨
        ∃ r, it = cursorAt r ∧ root.isWordAt r = true ∧ str < r ∧
          ∀ w, root.isWordAt w = true → str < w → r ≤ w) := by
  obtain ⟨it, hlb, hcase⟩ := lower_bound_spec hr hwf hroot str hlen
  simp only [ternary_search_tree.upper_bound, hlb]
  rcases hcase with ⟨rfl, hnone⟩ | ⟨r, rfl, hw, hle, hleast⟩
  · simp only [end_eq_end, if_true]
    exact ⟨_, rfl, Or.inl ⟨rfl, fun w hw hlt => hnone w hw (le_of_lt hlt)⟩⟩
  · simp only [cursorAt_ne_end, Bool.false_eq_true, if_false]
    by_cases he : r = str
    · subst he
      have hs : (cursorAt r).star = r := rfl
      simp only [hs, if_true]
      exact increment_spec hr hwf hroot hw
    · have hs : (cursorAt r).star = r := rfl
      simp only [hs, he, if_false]
      refine ⟨_, rfl, Or.inr ⟨r, rfl, hw, lt_of_le_of_ne hle (Ne.symm he), ?_⟩⟩
      intro w hw' hlt
      exact hleast w hw' (le_of_lt hlt)

/-- The backtracking loop returns whenever it makes no more passes than the
node it starts at has ancestors (itself included) and the string has
characters; its result is `end()` or the cursor of a word. -/
theorem backtrackLoop_total {t : ternary_search_tree Ch} {root : Node Ch}
    (hr : t.mRoot = some root) (hwf : root.WF) (hroot : root.isDead = false)
    (str : List Ch) : ∀ (b : Nat) (curr : List Ch) (n : Node Ch), root.deref curr = some n →
      b ≤ curr.length + 1 → b ≤ str.length →
      ∃ it, backtrackLoop t str (some curr) b = some it ∧
        (it = t.end_ ∨ ∃ r, it = cursorAt r ∧ root.isWordAt r = true) := by
  intro b
  induction b with
  | zero =>
    intro curr n _ _ _
    exact ⟨_, by rw [backtrackLoop], Or.inl rfl⟩
  | succ b ih =>
    intro curr n hd hb hs
    obtain ⟨c, hc⟩ : ∃ c, str.get? b = some c := by
      have hlt : b < str.length := by omega
      exact ⟨str.get ⟨b, hlt⟩, List.get?_eq_get hlt⟩
    rw [backtrackLoop_succ, ternary_search_tree.deref_of_root hr, hd, hc]
    cases hub : mapUpperBound n.mEqual c with
    | none =>
      simp only [hub]
      rcases List.eq_nil_or_concat curr with e | ⟨q, x, e⟩
      · subst e
        have hb0 : b = 0 := by simpa using hb
        subst hb0
        refine ⟨_, ?_, Or.inl rfl⟩
        simp only [mParent, if_true]
        rw [backtrackLoop]
      · rw [List.concat_eq_append] at e
        subst e
        obtain ⟨nq, hq, _⟩ := Node.deref_init hd
        have hp : mParent (q ++ [x]) = some q := by simp [mParent]
        rw [hp]
        refine ih q nq hq ?_ (by omega)
        have hl : (q ++ [x]).length = q.length + 1 := by simp
        omega
    | some kv =>
      obtain ⟨k, ch⟩ := kv
      simp only [hub]
      obtain ⟨_, hfk, _⟩ := mapUpperBound_some (hwf curr n hd).1 hub
      have hdk : root.deref (curr ++ [k]) = some ch := by
        rw [Node.deref_snoc, hd]; exact hfk
      obtain ⟨r, _, h2, h3, _, _⟩ := descend_eq hr hwf hroot hdk
      exact ⟨_, h2, Or.inr ⟨r, rfl, h3⟩⟩

/-- The main loop of `lower_bound` returns for every string, with `end()` or
the cursor of a word. -/
theorem lowerBoundLoop_total {t : ternary_search_tree Ch} {root : Node Ch}
    (hr : t.mRoot = some root) (hwf : root.WF) (hroot : root.isDead = false)
    (str : List Ch) : ∀ (rest curr : List Ch) (n : Node Ch), str = curr ++ rest →
      root.deref curr = some n →
      ∃ it, lowerBoundLoop t str curr curr.length rest = some it ∧
        (it = t.end_ ∨ ∃ r, it = cursorAt r ∧ root.isWordAt r = true) := by
  intro rest
  induction rest with
  | nil =>
    intro curr n _ hd
    obtain ⟨r, _, h2, h3, _, _⟩ := descend_eq hr hwf hroot hd
    simp only [lowerBoundLoop]
    exact ⟨_, h2, Or.inr ⟨r, rfl, h3⟩⟩
  | cons c rest' ih =>
    intro curr n hstr hd
    simp only [lowerBoundLoop, ternary_search_tree.deref_of_root hr, hd]
    cases hf : mapFind n.mEqual c with
    | some ch =>
      simp only
      have hdc : root.deref (curr ++ [c]) = some ch := by
        rw [Node.deref_snoc, hd]; exact hf
      have := ih (curr ++ [c]) ch (by rw [hstr]; simp) hdc
      simpa using this
    | none =>
      simp only
      refine backtrackLoop_total hr hwf hroot str _ curr n hd (backtrackPasses_le _) ?_
      have h1 := backtrackPasses_le curr.length
      have h2 : curr.length + 1 ≤ str.length := by rw [hstr]; simp
      omega

/-- The call `lower_bound(str)` returns for every string, with `end()` or the
cursor of a word. -/
theorem lower_bound_total {t : ternary_search_tree Ch} {root : Node Ch}
    (hr : t.mRoot = some root) (hwf : root.WF) (hroot : root.isDead = false)
    (str : List Ch) :
    ∃ it, t.lower_bound str = some it ∧
      (it = t.end_ ∨ ∃ r, it = cursorAt r ∧ root.isWordAt r = true) := by
  simp only [ternary_search_tree.lower_bound, hr]
  by_cases he : str = []
  · subst he
    simp only [if_true]
    obtain ⟨r, h1, h2, _⟩ := begin_spec hr hwf hroot
    exact ⟨_, h1, Or.inr ⟨r, rfl, h2⟩⟩
  · simp only [he, if_false]
    exact lowerBoundLoop_total hr hwf hroot str str [] root rfl (Node.deref_nil root)

/-- The main loop of `lower_bound` on a string that follows a path of the tree
and then leaves it: the backtracking loop is entered at the last node of the
path, with the number of passes that the conversion of the index allows. -/
theorem lowerBoundLoop_walk {t : ternary_search_tree Ch} {root : Node Ch}
    (hr : t.mRoot = some root) (str : List Ch) (c : Ch) (rest : List Ch) :
    ∀ (pre curr : List Ch) (n : Node Ch), root.deref (curr ++ pre) = some n →
      mapFind n.mEqual c = none →
      lowerBoundLoop t str curr curr.length (pre ++ c :: rest) =
        backtrackLoop t str (some (curr ++ pre)) (backtrackPasses (curr ++ pre).length) := by
  intro pre
  induction pre with
  | nil =>
    intro curr n hd hf
    simp only [List.append_nil] at hd
    simp only [List.append_nil, List.nil_append, lowerBoundLoop,
      ternary_search_tree.deref_of_root hr, hd, hf]
  | cons x pre' ih =>
    intro curr n hd hf
    have e : curr ++ x :: pre' = (curr ++ [x]) ++ pre' := by simp
    have hd2 : root.deref ((curr ++ [x]) ++ pre') = some n := by rw [← e]; exact hd
    obtain ⟨m, hm⟩ : ∃ m, root.deref (curr ++ [x]) = some m := by
      rw [Node.deref_append] at hd2
      cases hm : root.deref (curr ++ [x]) with
      | none => simp [hm] at hd2
      | some m => exact ⟨m, rfl⟩
    obtain ⟨mc, hmc, hfx⟩ := Node.deref_init hm
    have hstep := ih (curr ++ [x]) n hd2 hf
    have hl : (curr ++ [x]).length = curr.length + 1 := by simp
    rw [hl] at hstep
    rw [e]
    simp only [List.cons_append, lowerBoundLoop, ternary_search_tree.deref_of_root hr, hmc, hfx]
    exact hstep

/-- A string of at most `2^31` characters leaves the tree, if at all, at an
index that fits the `int` of the backtracking loop. -/
theorem walk_bound_of_short {root : Node Ch} {str : List Ch} (h : str.length ≤ 2 ^ 31) :
    ∀ p c, p ++ [c] <+: str → (∃ n, root.deref p = some n) →
      root.deref (p ++ [c]) = none → p.length < 2 ^ 31 := by
  intro p c hp _ _
  have := hp.length_le
  simp only [List.length_append, List.length_singleton] at this
  omega

/-- The path of a word never leaves the tree. -/
theorem walk_bound_of_word {root : Node Ch} {str : List Ch} (h : root.isWordAt str = true) :
    ∀ p c, p ++ [c] <+: str → (∃ n, root.deref p = some n) →
      root.deref (p ++ [c]) = none → p.length < 2 ^ 31 := by
  rintro p c ⟨y, rfl⟩ _ hnone
  obtain ⟨m, hm, _⟩ := Node.deref_of_isWordAt h
  rw [hm] at hnone
  cases hnone

end CursorLemmas

/-! ## Traversal -/

section TraversalLemmas

variable {Ch : Type} [LinearOrder Ch]

theorem Inv.root {t : ternary_search_tree Ch} (h : t.Inv) {root : Node Ch}
    (hr : t.mRoot = some root) :
    root.WF ∧ root.isDead = false ∧ t.mSize = root.countTerminal := by
  unfold ternary_search_tree.Inv at h
  rw [hr] at h
  exact h

theorem Inv.no_root {t : ternary_search_tree Ch} (h : t.Inv) (hr : t.mRoot = none) :
    t.mSize = 0 := by
  unfold ternary_search_tree.Inv at h
  rw [hr] at h
  exact h

theorem traverseLoop_end (t : ternary_search_tree Ch) (n : Nat) :
    traverseLoop t n (some t.end_) = some [] := by
  cases n <;> simp [traverseLoop, end_eq_end]

theorem traverseLoop_succ (t : ternary_search_tree Ch) (n : Nat) (m : List Ch) :
    traverseLoop t (n + 1) (some (cursorAt m)) =
      match traverseLoop t n (t.increment (cursorAt m)) with
      | none => none
      | some l => some (m :: l) := by
  simp only [traverseLoop, cursorAt_ne_end, Bool.false_eq_true, if_false]
  rfl

theorem traverseLoop_from {t : ternary_search_tree Ch} {root : Node Ch}
    (hr : t.mRoot = some root) (hwf : root.WF) (hroot : root.isDead = false) :
    ∀ (l2 l1 : List (List Ch)) (m : List Ch) (n : Nat), root.words = l1 ++ m :: l2 →
      l2.length + 1 ≤ n → traverseLoop t n (some (cursorAt m)) = some (m :: l2) := by
  intro l2
  induction l2 with
  | nil =>
    intro l1 m n hwords hn
    obtain ⟨n', rfl⟩ : ∃ n', n = n' + 1 := ⟨n - 1, by omega⟩
    have hsorted := Node.words_sorted root hwf
    rw [hwords, List.pairwise_append] at hsorted
    have hm : root.isWordAt m = true := by
      rw [← Node.mem_words_iff hwf, hwords]; simp
    rw [traverseLoop_succ]
    obtain ⟨it, hinc, hcase⟩ := increment_spec hr hwf hroot hm
    rw [hinc]
    rcases hcase with ⟨rfl, _⟩ | ⟨r, rfl, hrw, hlt, _⟩
    · rw [traverseLoop_end]
    · exfalso
      rw [← Node.mem_words_iff hwf, hwords] at hrw
      simp only [List.mem_append, List.mem_singleton] at hrw
      rcases hrw with hrw | hrw
      · exact absurd (lt_trans hlt (hsorted.2.2 r hrw m (by simp))) (lt_irrefl _)
      · rw [hrw] at hlt; exact absurd hlt (lt_irrefl _)
  | cons m' l2' ih =>
    intro l1 m n hwords hn
    obtain ⟨n', rfl⟩ : ∃ n', n = n' + 1 := ⟨n - 1, by simp at hn; omega⟩
    have hsorted := Node.words_sorted root hwf
    rw [hwords, List.pairwise_append] at hsorted
    obtain ⟨_, hs2, hs3⟩ := hsorted
    have hs2' := List.pairwise_cons.mp hs2
    have hs2'' := List.pairwise_cons.mp hs2'.2
    have hm : root.isWordAt m = true := by
      rw [← Node.mem_words_iff hwf, hwords]; simp
    have hm' : root.isWordAt m' = true := by
      rw [← Node.mem_words_iff hwf, hwords]; simp
    have hmm' : m < m' := hs2'.1 m' (by simp)
    rw [traverseLoop_succ]
    obtain ⟨it, hinc, hcase⟩ := increment_spec hr hwf hroot hm
    rw [hinc]
    rcases hcase with ⟨_, hnone⟩ | ⟨r, rfl, hrw, hlt, hleast⟩
    · exact absurd hmm' (hnone m' hm')
    · have hrm' : r = m' := by
        refine le_antisymm (hleast m' hm' hmm') ?_
        rw [← Node.mem_words_iff hwf, hwords] at hrw
        simp only [List.mem_append, List.mem_cons] at hrw
        rcases hrw with hrw | hrw | hrw | hrw
        · exact absurd (lt_trans hlt (hs3 r hrw m (by simp))) (lt_irrefl _)
        · rw [hrw] at hlt; exact absurd hlt (lt_irrefl _)
        · exact le_of_eq hrw.symm
        · exact le_of_lt (hs2''.1 r hrw)
      subst hrm'
      have hlen : l2'.length + 1 ≤ n' := by simp at hn; omega
      rw [ih (l1 ++ [m]) r n' (by rw [hwords]; simp) hlen]

theorem ternary_search_tree.words_of_root {t : ternary_search_tree Ch} {root : Node Ch}
    (hr : t.mRoot = some root) : t.words = root.words := by
  simp [ternary_search_tree.words, hr]

theorem ternary_search_tree.words_of_no_root {t : ternary_search_tree Ch}
    (hr : t.mRoot = none) : t.words = [] := by
  simp [ternary_search_tree.words, hr]

/-- The traversal from `begin()` to `end()` visits exactly the list of words. -/
theorem traverse_eq {t : ternary_search_tree Ch} (h : t.Inv) (n : Nat) (hn : t.size ≤ n) :
    t.traverse n = some t.words := by
  unfold ternary_search_tree.traverse
  cases hr : t.mRoot with
  | none =>
    rw [begin_of_no_root hr, traverseLoop_end, ternary_search_tree.words_of_no_root hr]
  | some root =>
    obtain ⟨hwf, hroot, hsize⟩ := Inv.root h hr
    obtain ⟨r, hb, hrw, hleast⟩ := begin_spec hr hwf hroot
    rw [hb, ternary_search_tree.words_of_root hr]
    have hmem := (Node.mem_words_iff hwf).mpr hrw
    have hsorted := Node.words_sorted root hwf
    have hlen : root.words.length ≤ n := by
      rw [← Node.countTerminal_eq, ← hsize]; exact hn
    cases hw : root.words with
    | nil => rw [hw] at hmem; cases hmem
    | cons w0 l =>
      rw [hw] at hmem hsorted hlen
      have hw0 : root.isWordAt w0 = true := by
        rw [← Node.mem_words_iff hwf, hw]; simp
      have e : r = w0 := by
        refine le_antisymm (hleast w0 hw0) ?_
        rcases List.mem_cons.mp hmem with hm | hm
        · exact le_of_eq hm.symm
        · exact le_of_lt ((List.pairwise_cons.mp hsorted).1 r hm)
      subst e
      exact traverseLoop_from hr hwf hroot l [] r n (by rw [hw]; rfl) (by simpa using hlen)

theorem mem_words_iff_contains {t : ternary_search_tree Ch} (h : t.Inv) (s : List Ch) :
    s ∈ t.words ↔ t.contains s := by
  cases hr : t.mRoot with
  | none =>
    rw [ternary_search_tree.words_of_no_root hr]
    constructor
    · intro hm; cases hm
    · intro hc; exact absurd hc (not_contains_of_no_root hr s)
  | some root =>
    obtain ⟨hwf, _, _⟩ := Inv.root h hr
    rw [ternary_search_tree.words_of_root hr, Node.mem_words_iff hwf, contains_iff hr hwf]

theorem words_sorted_of_inv {t : ternary_search_tree Ch} (h : t.Inv) :
    t.words.Pairwise (· < ·) := by
  cases hr : t.mRoot with
  | none => rw [ternary_search_tree.words_of_no_root hr]; exact List.Pairwise.nil
  | some root =>
    rw [ternary_search_tree.words_of_root hr]
    exact Node.words_sorted root (Inv.root h hr).1

theorem words_length_of_inv {t : ternary_search_tree Ch} (h : t.Inv) :
    t.words.length = t.size := by
  cases hr : t.mRoot with
  | none =>
    rw [ternary_search_tree.words_of_no_root hr]
    exact (Inv.no_root h hr).symm
  | some root =>
    rw [ternary_search_tree.words_of_root hr, ← Node.countTerminal_eq]
    exact (Inv.root h hr).2.2.symm

end TraversalLemmas

/-! ## Ordered traversal and range queries -/

section TraversalClaims

variable {Ch : Type} [LinearOrder Ch] [Inhabited Ch]

theorem insertAll_spec {t : ternary_search_tree Ch} (h : Reachable t) (strs : List (List Ch)) :
    ∃ t', insertAll t strs = some t' ∧ Reachable t' ∧
      ∀ s, t'.contains s ↔ (s ∈ strs ∨ t.contains s) := by
  induction strs generalizing t with
  | nil => exact ⟨t, rfl, h, by simp⟩
  | cons a rest ih =>
    have hi := insert_eq h.inv a
    obtain ⟨t', h1, h2, h3⟩ := ih (Reachable.insert h hi)
    refine ⟨t', ?_, h2, ?_⟩
    · simp only [insertAll, hi]
      exact h1
    · intro s
      rw [h3 s]
      have hwf := insertNode_WF (ensureRoot_WF h.inv) a
      rw [contains_iff (t := ⟨some (insertNode t.ensureRoot a).1, _⟩) rfl hwf,
        insertNode_isWordAt, ← ensureRoot_isWordAt h.inv s]
      simp only [List.mem_cons, Bool.or_eq_true, decide_eq_true_eq]
      tauto

/-- C2: for every finite sequence of inserted strings, the insertions return,
and iterating the resulting tree from `begin()` with `operator++` until `end()`
terminates (within `size()` steps) and yields the inserted strings in strictly
increasing lexicographic order, hence without duplicates. -/
theorem C2_traversal_strictly_increasing (strs : List (List Ch)) :
    ∃ t, insertAll (ternary_search_tree.empty : ternary_search_tree Ch) strs = some t ∧
      ∃ l, (∀ n, t.size ≤ n → t.traverse n = some l) ∧
        l.Pairwise (· < ·) ∧ l.Nodup ∧ ∀ s, s ∈ l ↔ s ∈ strs := by
  obtain ⟨t, h1, h2, h3⟩ := insertAll_spec (Reachable.empty : Reachable (ternary_search_tree.empty : ternary_search_tree Ch)) strs
  have hinv := h2.inv
  refine ⟨t, h1, t.words, fun n hn => traverse_eq hinv n hn, words_sorted_of_inv hinv,
    (words_sorted_of_inv hinv).imp (fun hlt => ne_of_lt hlt), ?_⟩
  intro s
  rw [mem_words_iff_contains hinv, h3]
  have : ¬ (ternary_search_tree.empty : ternary_search_tree Ch).contains s :=
    not_contains_of_no_root rfl s
  tauto

theorem occurs_once {l : List (List Ch)} (hnd : l.Nodup) {s : List Ch} (hs : s ∈ l) :
    (l.filter (fun x => decide (x = s))).length = 1 := by
  induction l with
  | nil => cases hs
  | cons a rest ih =>
    have hnd' := List.nodup_cons.mp hnd
    by_cases e : a = s
    · subst e
      have : rest.filter (fun x => decide (x = a)) = [] := by
        rw [List.filter_eq_nil_iff]
        intro x hx
        simp only [decide_eq_true_eq]
        intro hxa
        exact hnd'.1 (hxa ▸ hx)
      simp [List.filter_cons, this]
    · have hs' : s ∈ rest := by
        rcases List.mem_cons.mp hs with h | h
        · exact absurd h.symm e
        · exact h
      simp [List.filter_cons, e, ih hnd'.2 hs']

/-- C3: on every reachable tree the traversal from `begin()` to `end()`
terminates and delineates the full contents: a string occurs in it iff
`find` does not return `end()`, each member occurs exactly once, and the
number of strings yielded equals `size()`. -/
theorem C3_traversal_full_contents (t : ternary_search_tree Ch) (h : Reachable t) :
    ∃ l, (∀ n, t.size ≤ n → t.traverse n = some l) ∧
      (∀ s, s ∈ l ↔ t.contains s) ∧
      (∀ s, t.contains s → (l.filter (fun x => decide (x = s))).length = 1) ∧
      l.length = t.size := by
  have hinv := h.inv
  refine ⟨t.words, fun n hn => traverse_eq hinv n hn,
    fun s => mem_words_iff_contains hinv s, ?_, words_length_of_inv hinv⟩
  intro s hs
  have hnd : t.words.Nodup := (words_sorted_of_inv hinv).imp (fun hlt => ne_of_lt hlt)
  exact occurs_once hnd ((mem_words_iff_contains hinv s).mpr hs)

theorem C3_traversal_full_contents_witness :
    Reachable sampleTree ∧
      ∃ l, (∀ n, sampleTree.size ≤ n → sampleTree.traverse n = some l) ∧
        (∀ s, s ∈ l ↔ sampleTree.contains s) ∧
        (∀ s, sampleTree.contains s → (l.filter (fun x => decide (x = s))).length = 1) ∧
        l.length = sampleTree.size :=
  ⟨sampleTree_reachable, C3_traversal_full_contents sampleTree sampleTree_reachable⟩

/-- On every reachable tree and for every query `q` of at most `2^31`
characters, `lower_bound(q)` returns; it returns `end()` iff no member is at
least `q`, and otherwise the cursor of a member (the one `find` returns for
its dereference) that is the smallest member `m` with `q ≤ m` in lexicographic
order. -/
theorem lower_bound_of_short_query (t : ternary_search_tree Ch) (q : List Ch)
    (h : Reachable t) (hq : q.length ≤ 2 ^ 31) :
    ∃ it, t.lower_bound q = some it ∧
      (it.eq t.end_ = true ↔ ∀ m, t.contains m → ¬ q ≤ m) ∧
      (it.eq t.end_ = false →
        t.find it.star = some it ∧ q ≤ it.star ∧
          ∀ m, t.contains m → q ≤ m → it.star ≤ m) := by
  have hinv := h.inv
  cases hr : t.mRoot with
  | none =>
    refine ⟨t.end_, by simp [ternary_search_tree.lower_bound, hr], ?_, ?_⟩
    · simp only [end_eq_end, true_iff]
      intro m hm
      exact absurd hm (not_contains_of_no_root hr m)
    · intro hne
      simp [end_eq_end] at hne
  | some root =>
    obtain ⟨hwf, hroot, _⟩ := Inv.root hinv hr
    obtain ⟨it, hlb, hcase⟩ := lower_bound_spec hr hwf hroot q (walk_bound_of_short hq)
    refine ⟨it, hlb, ?_⟩
    rcases hcase with ⟨rfl, hnone⟩ | ⟨r, rfl, hrw, hle, hleast⟩
    · refine ⟨?_, ?_⟩
      · simp only [end_eq_end, true_iff]
        intro m hm
        exact hnone m ((contains_iff hr hwf m).mp hm)
      · intro hne
        simp [end_eq_end] at hne
    · refine ⟨?_, ?_⟩
      · simp only [cursorAt_ne_end, Bool.false_eq_true, false_iff]
        intro hall
        exact hall r ((contains_iff hr hwf r).mpr hrw) hle
      · intro _
        refine ⟨?_, hle, fun m hm hqm => hleast m ((contains_iff hr hwf m).mp hm) hqm⟩
        have hs : (cursorAt r).star = r := rfl
        rw [hs, find_eq hr hwf, hrw]
        rfl

/-- On every reachable tree and for every query `q` of at most `2^31`
characters, `upper_bound(q)` returns; it returns `end()` iff no member is
strictly greater than `q`, and otherwise the cursor of a member (the one `find`
returns for its dereference) that is the smallest member `m` with `q < m`. -/
theorem upper_bound_of_short_query (t : ternary_search_tree Ch) (q : List Ch)
    (h : Reachable t) (hq : q.length ≤ 2 ^ 31) :
    ∃ it, t.upper_bound q = some it ∧
      (it.eq t.end_ = true ↔ ∀ m, t.contains m → ¬ q < m) ∧
      (it.eq t.end_ = false →
        t.find it.star = some it ∧ q < it.star ∧
          ∀ m, t.contains m → q < m → it.star ≤ m) := by
  have hinv := h.inv
  cases hr : t.mRoot with
  | none =>
    refine ⟨t.end_, by simp [ternary_search_tree.upper_bound, ternary_search_tree.lower_bound,
      hr, end_eq_end], ?_, ?_⟩
    · simp only [end_eq_end, true_iff]
      intro m hm
      exact absurd hm (not_contains_of_no_root hr m)
    · intro hne
      simp [end_eq_end] at hne
  | some root =>
    obtain ⟨hwf, hroot, _⟩ := Inv.root hinv hr
    obtain ⟨it, hub, hcase⟩ := upper_bound_spec hr hwf hroot q (walk_bound_of_short hq)
    refine ⟨it, hub, ?_⟩
    rcases hcase with ⟨rfl, hnone⟩ | ⟨r, rfl, hrw, hlt, hleast⟩
    · refine ⟨?_, ?_⟩
      · simp only [end_eq_end, true_iff]
        intro m hm
        exact hnone m ((contains_iff hr hwf m).mp hm)
      · intro hne
        simp [end_eq_end] at hne
    · refine ⟨?_, ?_⟩
      · simp only [cursorAt_ne_end, Bool.false_eq_true, false_iff]
        intro hall
        exact hall r ((contains_iff hr hwf r).mpr hrw) hlt
      · intro _
        refine ⟨?_, hlt, fun m hm hqm => hleast m ((contains_iff hr hwf m).mp hm) hqm⟩
        have hs : (cursorAt r).star = r := rfl
        rw [hs, find_eq hr hwf, hrw]
        rfl

end TraversalClaims

/-! ## Erasure and cardinality -/

section EraseClaims

variable {Ch : Type} [LinearOrder Ch] [Inhabited Ch]

theorem erase_member {t : ternary_search_tree Ch} {root : Node Ch} (hr : t.mRoot = some root)
    (hinv : t.Inv) {s : List Ch} (hs : root.isWordAt s = true) :
    ∃ root', eraseNode root s = some root' ∧
      t.erase s = some (true, ⟨root', t.mSize - 1⟩) := by
  obtain ⟨hwf, hroot, _⟩ := Inv.root hinv hr
  obtain ⟨n, hd, _⟩ := Node.deref_of_isWordAt (p := s) (q := []) (by simpa using hs)
  obtain ⟨root', he⟩ := eraseNode_isSome hd
  obtain ⟨it, hinc, _⟩ := increment_spec hr hwf hroot hs
  refine ⟨root', he, ?_⟩
  have hea : t.eraseAt (cursorAt s) = some (it, ⟨root', t.mSize - 1⟩) := by
    unfold ternary_search_tree.eraseAt
    have hl : (cursorAt s).mTrace.getLast? = some s := getLast?_inits s
    simp only [hl, hinc, hr, hd, cleanupLoop_eq_eraseNode s root hwf ⟨n, hd⟩, he]
  simp only [ternary_search_tree.erase, find_eq hr hwf, hs, if_true, cursorAt_ne_end, hea,
    Bool.false_eq_true, if_false]

theorem erase_non_member {t : ternary_search_tree Ch} (hinv : t.Inv) {s : List Ch}
    (hs : ¬ t.contains s) : t.erase s = some (false, t) := by
  cases hr : t.mRoot with
  | none => simp [ternary_search_tree.erase, find_of_no_root hr, end_eq_end]
  | some root =>
    obtain ⟨hwf, _, _⟩ := Inv.root hinv hr
    rw [contains_iff hr hwf] at hs
    simp [ternary_search_tree.erase, find_eq hr hwf, hs, end_eq_end]

theorem size_pos_of_contains {t : ternary_search_tree Ch} (hinv : t.Inv) {s : List Ch}
    (hs : t.contains s) : 0 < t.mSize := by
  have hm := (mem_words_iff_contains hinv s).mpr hs
  have hl := words_length_of_inv hinv
  have : 0 < t.words.length := List.length_pos_of_mem hm
  unfold ternary_search_tree.size at hl
  omega

/-- How the members change when a member is erased. -/
theorem erase_member_spec {t : ternary_search_tree Ch} (hinv : t.Inv) {s : List Ch}
    (hs : t.contains s) :
    ∃ r, t.erase s = some (true, r) ∧ r.Inv ∧ r.mSize + 1 = t.mSize ∧
      ∀ u, r.contains u ↔ (t.contains u ∧ u ≠ s) := by
  cases hr : t.mRoot with
  | none => exact absurd hs (not_contains_of_no_root hr s)
  | some root =>
    obtain ⟨hwf, hroot, _⟩ := Inv.root hinv hr
    have hw := (contains_iff hr hwf s).mp hs
    obtain ⟨root', he, hes⟩ := erase_member hr hinv hw
    have hinv' := Inv_eraseNode hr hinv hw he
    have hpos := size_pos_of_contains hinv hs
    refine ⟨_, hes, hinv', by simp only; omega, ?_⟩
    obtain ⟨h1, h2⟩ := eraseNode_spec hwf he
    intro u
    rw [contains_iff hr hwf u]
    cases root' with
    | none =>
      constructor
      · intro hc; exact absurd hc (not_contains_of_no_root rfl u)
      · rintro ⟨hu, hne⟩; exact absurd (h1 rfl u hu) hne
    | some n' =>
      obtain ⟨hwf', _, _, hmem⟩ := h2 n' rfl
      rw [contains_iff (t := ⟨some n', t.mSize - 1⟩) rfl hwf' u, hmem u]
      simp

/-- C6: on every reachable tree and for every member `s`, `erase(s)` returns
`true`; afterwards `find(s)` returns `end()`, and every other string `u` is a
member after the erase iff it was one before, in which case `find(u)` returns
a cursor different from `end()` that dereferences to `u`. -/
theorem C6_erase_removes_only_key (t : ternary_search_tree Ch) (s : List Ch)
    (h : Reachable t) (hs : t.contains s) :
    ∃ r, t.erase s = some (true, r) ∧ r.find s = some r.end_ ∧
      ∀ u, u ≠ s → ((r.contains u ↔ t.contains u) ∧
        (t.contains u → ∃ it, r.find u = some it ∧ it.eq r.end_ = false ∧ it.star = u)) := by
  obtain ⟨r, he, hinv', _, hmem⟩ := erase_member_spec h.inv hs
  have hns : ¬ r.contains s := by rw [hmem s]; simp
  refine ⟨r, he, ?_, ?_⟩
  · cases hr : r.mRoot with
    | none => exact find_of_no_root hr s
    | some n' =>
      obtain ⟨hwf', _, _⟩ := Inv.root hinv' hr
      rw [contains_iff hr hwf'] at hns
      rw [find_eq hr hwf']
      simp [hns]
  · intro u hu
    have hiff : r.contains u ↔ t.contains u := by rw [hmem u]; simp [hu]
    refine ⟨hiff, ?_⟩
    intro hc
    have hc' := hiff.mpr hc
    cases hr : r.mRoot with
    | none => exact absurd hc' (not_contains_of_no_root hr u)
    | some n' =>
      obtain ⟨hwf', _, _⟩ := Inv.root hinv' hr
      rw [contains_iff hr hwf'] at hc'
      refine ⟨cursorAt u, ?_, cursorAt_ne_end _ _, rfl⟩
      rw [find_eq hr hwf']
      simp [hc']

theorem sampleTree_contains : sampleTree.contains [2] :=
  ⟨cursorAt [2], rfl, rfl⟩

theorem C6_erase_removes_only_key_witness :
    Reachable sampleTree ∧ sampleTree.contains [2] ∧
      ∃ r, sampleTree.erase [2] = some (true, r) ∧ r.find [2] = some r.end_ ∧
        ∀ u, u ≠ [2] → ((r.contains u ↔ sampleTree.contains u) ∧
          (sampleTree.contains u →
            ∃ it, r.find u = some it ∧ it.eq r.end_ = false ∧ it.star = u)) :=
  ⟨sampleTree_reachable, sampleTree_contains,
    C6_erase_removes_only_key sampleTree [2] sampleTree_reachable sampleTree_contains⟩

/-- C9: on every reachable tree and for every key `k`, `erase(k)` returns, and
it returns `true` iff `k` was a member before the call; when it returns `true`
`size()` has decreased by exactly one, and when it returns `false` the tree is
left unchanged (same nodes, same size). -/
theorem C9_erase_result (t : ternary_search_tree Ch) (k : List Ch) (h : Reachable t) :
    ∃ b r, t.erase k = some (b, r) ∧
      (b = true ↔ t.contains k) ∧
      (b = true → r.size + 1 = t.size) ∧
      (b = false → r = t) := by
  by_cases hk : t.contains k
  · obtain ⟨r, he, _, hsz, _⟩ := erase_member_spec h.inv hk
    exact ⟨true, r, he, by simp [hk], fun _ => hsz, by simp⟩
  · exact ⟨false, t, erase_non_member h.inv hk, by simp [hk], by simp, fun _ => rfl⟩

theorem C9_erase_result_witness :
    Reachable sampleTree ∧
      ∃ b r, sampleTree.erase [2] = some (b, r) ∧
        (b = true ↔ sampleTree.contains [2]) ∧
        (b = true → r.size + 1 = sampleTree.size) ∧
        (b = false → r = sampleTree) :=
  ⟨sampleTree_reachable, C9_erase_result sampleTree [2] sampleTree_reachable⟩

theorem countTerminal_eq_words_length (t : ternary_search_tree Ch) :
    t.countTerminal = t.words.length := by
  unfold ternary_search_tree.countTerminal ternary_search_tree.words
  cases t.mRoot with
  | none => rfl
  | some r => exact Node.countTerminal_eq r

theorem runOps_spec {t : ternary_search_tree Ch} (h : Reachable t) (ops : List (Op Ch)) :
    ∃ t', runOps t ops = some t' ∧ Reachable t' ∧
      t'.words.toFinset = liveStrings t.words.toFinset ops := by
  induction ops generalizing t with
  | nil => exact ⟨t, rfl, h, rfl⟩
  | cons op rest ih =>
    cases op with
    | insert s =>
      have hi := insert_eq h.inv s
      have hreach := Reachable.insert h hi
      obtain ⟨t', h1, h2, h3⟩ := ih hreach
      refine ⟨t', ?_, h2, ?_⟩
      · simp only [runOps, hi]; exact h1
      · rw [h3]
        simp only [liveStrings]
        congr 1
        ext u
        have hwf := insertNode_WF (ensureRoot_WF h.inv) s
        simp only [List.mem_toFinset, Finset.mem_insert, mem_words_iff_contains hreach.inv,
          mem_words_iff_contains h.inv]
        rw [contains_iff (t := ⟨some (insertNode t.ensureRoot s).1, _⟩) rfl hwf,
          insertNode_isWordAt, ← ensureRoot_isWordAt h.inv u]
        simp
    | erase s =>
      by_cases hs : t.contains s
      · obtain ⟨r, he, _, _, hmem⟩ := erase_member_spec h.inv hs
        have hreach : Reachable r := Reachable.erase h he
        obtain ⟨t', h1, h2, h3⟩ := ih hreach
        refine ⟨t', ?_, h2, ?_⟩
        · simp only [runOps, he]; exact h1
        · rw [h3]
          simp only [liveStrings]
          congr 1
          ext u
          simp only [List.mem_toFinset, Finset.mem_erase, mem_words_iff_contains hreach.inv,
            mem_words_iff_contains h.inv, hmem u]
          tauto
      · have he := erase_non_member h.inv hs
        obtain ⟨t', h1, h2, h3⟩ := ih h
        refine ⟨t', ?_, h2, ?_⟩
        · simp only [runOps, he]; exact h1
        · rw [h3]
          simp only [liveStrings]
          congr 1
          rw [Finset.erase_eq_of_not_mem]
          simpa [mem_words_iff_contains h.inv] using hs

/-- C10: after every sequence of `insert` and `erase` calls on the empty tree
(every call returns), `size()` equals the number of terminal nodes of the
tree, which equals the number of distinct strings inserted and not
subsequently erased. -/
theorem C10_size_counts_members (ops : List (Op Ch)) :
    ∃ t, runOps (ternary_search_tree.empty : ternary_search_tree Ch) ops = some t ∧
      t.size = t.countTerminal ∧ t.countTerminal = (liveStrings ∅ ops).card := by
  obtain ⟨t, h1, h2, h3⟩ := runOps_spec (Reachable.empty : Reachable (ternary_search_tree.empty : ternary_search_tree Ch)) ops
  have hinv := h2.inv
  have h3' : t.words.toFinset = liveStrings ∅ ops := h3
  refine ⟨t, h1, ?_, ?_⟩
  · rw [countTerminal_eq_words_length, words_length_of_inv hinv]
  · rw [countTerminal_eq_words_length, ← h3', List.toFinset_card_of_nodup]
    exact (words_sorted_of_inv hinv).imp (fun hlt => ne_of_lt hlt)

end EraseClaims

/-! ## Construction, swap and a worked example -/

section SmallClaims

variable {Ch : Type} [LinearOrder Ch]

/-- C20: a freshly constructed tree has no root, `size() == 0` and
`empty() == true`, `begin() == end()`, and `find(s)`, `lower_bound(s)` and
`upper_bound(s)` return `end()` for every string `s`, the empty string
included. -/
theorem C20_fresh_tree (s : List Ch) :
    (ternary_search_tree.empty : ternary_search_tree Ch).mRoot = none ∧
    (ternary_search_tree.empty : ternary_search_tree Ch).size = 0 ∧
    (ternary_search_tree.empty : ternary_search_tree Ch).isEmpty = true ∧
    (∃ b, (ternary_search_tree.empty : ternary_search_tree Ch).begin = some b ∧
      b.eq (ternary_search_tree.empty : ternary_search_tree Ch).end_ = true) ∧
    (ternary_search_tree.empty : ternary_search_tree Ch).find s =
      some (ternary_search_tree.empty : ternary_search_tree Ch).end_ ∧
    (ternary_search_tree.empty : ternary_search_tree Ch).lower_bound s =
      some (ternary_search_tree.empty : ternary_search_tree Ch).end_ ∧
    (ternary_search_tree.empty : ternary_search_tree Ch).upper_bound s =
      some (ternary_search_tree.empty : ternary_search_tree Ch).end_ := by
  refine ⟨rfl, rfl, rfl, ⟨_, begin_of_no_root rfl, end_eq_end _⟩, find_of_no_root rfl s, ?_, ?_⟩
  · simp [ternary_search_tree.lower_bound, ternary_search_tree.empty]
  · simp [ternary_search_tree.upper_bound, ternary_search_tree.lower_bound,
      ternary_search_tree.empty, end_eq_end]

/-- C18: `a.swap(b)` exchanges the contents of the two trees: afterwards `a`
has exactly the former root and size of `b` and `b` has those of `a`, and
swapping twice restores both trees. -/
theorem C18_swap_exchanges (a b : ternary_search_tree Ch) :
    (a.swap b).1.mRoot = b.mRoot ∧ (a.swap b).1.mSize = b.mSize ∧
    (a.swap b).2.mRoot = a.mRoot ∧ (a.swap b).2.mSize = a.mSize ∧
    a.swap b = (b, a) ∧
    (a.swap b).1.swap (a.swap b).2 = (a, b) :=
  ⟨rfl, rfl, rfl, rfl, rfl, rfl⟩

end SmallClaims

/-- C19: inserting "cat", "car", "card", "dog" into an empty tree gives
`size() == 4` and the iteration "car", "card", "cat", "dog";
`lower_bound("ca")` dereferences to "car"; `upper_bound("car")` dereferences to
"card"; `erase("car")` returns `true`, after which the iteration yields
"card", "cat", "dog" and `find("car")` is `end()`. -/
theorem C19_cat_car_card_dog :
    ∃ t, insertAll (ternary_search_tree.empty : ternary_search_tree Char)
        [['c', 'a', 't'], ['c', 'a', 'r'], ['c', 'a', 'r', 'd'], ['d', 'o', 'g']] = some t ∧
      t.size = 4 ∧
      t.traverse 4 =
        some [['c', 'a', 'r'], ['c', 'a', 'r', 'd'], ['c', 'a', 't'], ['d', 'o', 'g']] ∧
      (∃ lo, t.lower_bound ['c', 'a'] = some lo ∧ lo.eq t.end_ = false ∧
        lo.star = ['c', 'a', 'r']) ∧
      (∃ hi, t.upper_bound ['c', 'a', 'r'] = some hi ∧ hi.eq t.end_ = false ∧
        hi.star = ['c', 'a', 'r', 'd']) ∧
      ∃ u, t.erase ['c', 'a', 'r'] = some (true, u) ∧
        u.traverse 3 = some [['c', 'a', 'r', 'd'], ['c', 'a', 't'], ['d', 'o', 'g']] ∧
        u.find ['c', 'a', 'r'] = some u.end_ :=
  ⟨_, rfl, rfl, rfl, ⟨_, rfl, rfl, rfl⟩, ⟨_, rfl, rfl, rfl⟩, _, rfl, rfl, rfl⟩

/-! ## Cursors that designate members -/

section CursorClaims

variable {Ch : Type} [LinearOrder Ch] [Inhabited Ch]

/-- A cursor returned by `find` that is not `end()` is the cursor of a word. -/
theorem find_member {t : ternary_search_tree Ch} (hinv : t.Inv) {m : List Ch}
    {c : const_iterator Ch} (hc : t.find m = some c) (hne : c.eq t.end_ = false) :
    ∃ root, t.mRoot = some root ∧ root.isWordAt m = true ∧ c = cursorAt m := by
  cases hr : t.mRoot with
  | none =>
    rw [find_of_no_root hr] at hc
    cases hc
    simp [end_eq_end] at hne
  | some root =>
    obtain ⟨hwf, _, _⟩ := Inv.root hinv hr
    rw [find_eq hr hwf] at hc
    by_cases hw : root.isWordAt m = true
    · simp only [hw, if_true, Option.some.injEq] at hc
      exact ⟨root, rfl, hw, hc.symm⟩
    · simp only [hw, Bool.false_eq_true, if_false, Option.some.injEq] at hc
      subst hc
      simp [end_eq_end] at hne

/-- What `operator++` does to the cursor of a member, in terms of members. -/
theorem increment_member {t : ternary_search_tree Ch} (hinv : t.Inv) {m : List Ch}
    (hm : t.contains m) :
    ∃ c, t.increment (cursorAt m) = some c ∧
      ((c = t.end_ ∧ ∀ w, t.contains w → ¬ m < w) ∨
        ∃ r, c = cursorAt r ∧ t.contains r ∧ m < r ∧ ∀ w, t.contains w → m < w → r ≤ w) := by
  cases hr : t.mRoot with
  | none => exact absurd hm (not_contains_of_no_root hr m)
  | some root =>
    obtain ⟨hwf, hroot, _⟩ := Inv.root hinv hr
    obtain ⟨c, hinc, hcase⟩ := increment_spec hr hwf hroot ((contains_iff hr hwf m).mp hm)
    refine ⟨c, hinc, ?_⟩
    rcases hcase with ⟨he, hnone⟩ | ⟨r, he, hrw, hlt, hleast⟩
    · exact Or.inl ⟨he, fun w hw => hnone w ((contains_iff hr hwf w).mp hw)⟩
    · exact Or.inr ⟨r, he, (contains_iff hr hwf r).mpr hrw, hlt,
        fun w hw => hleast w ((contains_iff hr hwf w).mp hw)⟩

theorem find_of_contains {t : ternary_search_tree Ch} (hinv : t.Inv) {m : List Ch}
    (hm : t.contains m) : t.find m = some (cursorAt m) := by
  cases hr : t.mRoot with
  | none => exact absurd hm (not_contains_of_no_root hr m)
  | some root =>
    obtain ⟨hwf, _, _⟩ := Inv.root hinv hr
    rw [find_eq hr hwf, (contains_iff hr hwf m).mp hm]
    rfl

theorem contains_of_find {t : ternary_search_tree Ch} {m : List Ch} {c : const_iterator Ch}
    (hc : t.find m = some c) (hne : c.eq t.end_ = false) : t.contains m :=
  ⟨c, hc, hne⟩

/-- C11: on every reachable tree and for every cursor `c` that designates a
member `m` (the cursor `find(m)` returns), `operator++` returns; the result is
`end()` iff `m` is the largest member, and otherwise the cursor of the smallest
member strictly greater than `m`, which is its dereference. -/
theorem C11_increment_successor (t : ternary_search_tree Ch) (m : List Ch)
    (c : const_iterator Ch) (h : Reachable t) (hc : t.find m = some c)
    (hne : c.eq t.end_ = false) :
    ∃ c', t.increment c = some c' ∧
      (c'.eq t.end_ = true ↔ ∀ w, t.contains w → ¬ m < w) ∧
      (c'.eq t.end_ = false →
        t.find c'.star = some c' ∧ m < c'.star ∧
          ∀ w, t.contains w → m < w → c'.star ≤ w) := by
  have hinv := h.inv
  obtain ⟨root, _, _, rfl⟩ := find_member hinv hc hne
  obtain ⟨c', hinc, hcase⟩ := increment_member hinv (contains_of_find hc hne)
  refine ⟨c', hinc, ?_⟩
  rcases hcase with ⟨rfl, hnone⟩ | ⟨r, rfl, hr, hlt, hleast⟩
  · refine ⟨⟨fun _ => hnone, fun _ => end_eq_end _⟩, ?_⟩
    intro hf
    simp [end_eq_end] at hf
  · refine ⟨?_, ?_⟩
    · simp only [cursorAt_ne_end, Bool.false_eq_true, false_iff]
      intro hall
      exact hall r hr hlt
    · intro _
      exact ⟨find_of_contains hinv hr, hlt, hleast⟩

theorem sampleTree_find : sampleTree.find [2] = some (cursorAt [2]) := rfl

theorem C11_increment_successor_witness :
    Reachable sampleTree ∧ sampleTree.find [2] = some (cursorAt [2]) ∧
      (cursorAt [2]).eq sampleTree.end_ = false ∧
      ∃ c', sampleTree.increment (cursorAt [2]) = some c' ∧
        (c'.eq sampleTree.end_ = true ↔ ∀ w, sampleTree.contains w → ¬ [2] < w) ∧
        (c'.eq sampleTree.end_ = false →
          sampleTree.find c'.star = some c' ∧ [2] < c'.star ∧
            ∀ w, sampleTree.contains w → [2] < w → c'.star ≤ w) :=
  ⟨sampleTree_reachable, sampleTree_find, rfl,
    C11_increment_successor sampleTree [2] (cursorAt [2]) sampleTree_reachable
      sampleTree_find rfl⟩

theorem eraseAt_of_erase {t : ternary_search_tree Ch} {m : List Ch} {c : const_iterator Ch}
    (hc : t.find m = some c) (hne : c.eq t.end_ = false) {r : ternary_search_tree Ch}
    (he : t.erase m = some (true, r)) :
    ∃ next, t.eraseAt c = some (next, r) ∧ t.increment c = some next := by
  unfold ternary_search_tree.erase at he
  simp only [hc, hne, Bool.false_eq_true, if_false] at he
  cases hea : t.eraseAt c with
  | none => simp [hea] at he
  | some x =>
    simp only [hea, Option.some.injEq, Prod.mk.injEq, true_and] at he
    refine ⟨x.1, by rw [← he], ?_⟩
    unfold ternary_search_tree.eraseAt at hea
    cases hl : c.mTrace.getLast? with
    | none => simp [hl] at hea
    | some curr =>
      simp only [hl] at hea
      cases hinc : t.increment c with
      | none => simp [hinc] at hea
      | some next =>
        simp only [hinc] at hea
        cases hr : t.mRoot with
        | none => simp [hr] at hea
        | some root =>
          simp only [hr] at hea
          cases hd : root.deref curr with
          | none => simp [hd] at hea
          | some n =>
            simp only [hd] at hea
            cases hcl : cleanupLoop (root.update curr
                (fun n => Node.mk n.mLetter false n.mEqual)) curr.reverse with
            | none => simp [hcl] at hea
            | some root' =>
              simp only [hcl, Option.some.injEq] at hea
              rw [← hea]

theorem deref_of_contains {t : ternary_search_tree Ch} (hinv : t.Inv) {r : List Ch}
    (hr : t.contains r) {p : List Ch} (hp : p ∈ r.inits) : ∃ n, t.deref p = some n := by
  cases hroot : t.mRoot with
  | none => exact absurd hr (not_contains_of_no_root hroot r)
  | some root =>
    obtain ⟨hwf, _, _⟩ := Inv.root hinv hroot
    have hw := (contains_iff hroot hwf r).mp hr
    obtain ⟨q, rfl⟩ := (List.mem_inits p r).mp hp
    obtain ⟨n, hn, _⟩ := Node.deref_of_isWordAt hw
    exact ⟨n, by rw [ternary_search_tree.deref_of_root hroot]; exact hn⟩

/-- C12: on every reachable tree and for every cursor `c` that designates a
member `m`, `erase(c)` returns a cursor and the tree without `m`.  The cursor
is `end()` iff `m` was the largest member; otherwise, on the tree after the
erase, it is the cursor of the smallest remaining member greater than `m`
(the one `find` returns for its dereference).  Every node on its traversal
stack is still in the tree after the cleanup loop. -/
theorem C12_erase_returns_next (t : ternary_search_tree Ch) (m : List Ch)
    (c : const_iterator Ch) (h : Reachable t) (hc : t.find m = some c)
    (hne : c.eq t.end_ = false) :
    ∃ next u, t.eraseAt c = some (next, u) ∧
      (∀ w, u.contains w ↔ (t.contains w ∧ w ≠ m)) ∧
      (next.eq u.end_ = true ↔ ∀ w, t.contains w → ¬ m < w) ∧
      (next.eq u.end_ = false →
        u.find next.star = some next ∧ m < next.star ∧
          ∀ w, u.contains w → m < w → next.star ≤ w) ∧
      ∀ p, p ∈ next.mTrace → ∃ n, u.deref p = some n := by
  have hinv := h.inv
  have hm := contains_of_find hc hne
  obtain ⟨u, he, hinvu, _, hmem⟩ := erase_member_spec hinv hm
  obtain ⟨next, hea, hinc⟩ := eraseAt_of_erase hc hne he
  obtain ⟨root, _, _, rfl⟩ := find_member hinv hc hne
  obtain ⟨c', hinc', hcase⟩ := increment_member hinv hm
  rw [hinc] at hinc'
  cases hinc'
  refine ⟨next, u, hea, hmem, ?_⟩
  rcases hcase with ⟨rfl, hnone⟩ | ⟨r, rfl, hr, hlt, hleast⟩
  · refine ⟨?_, ?_, ?_⟩
    · exact ⟨fun _ => hnone, fun _ => rfl⟩
    · intro hf
      have e : t.end_.eq u.end_ = true := rfl
      rw [e] at hf
      cases hf
    · intro p hp
      simp [ternary_search_tree.end_] at hp
  · have hru : u.contains r := (hmem r).mpr ⟨hr, fun e => by rw [e] at hlt; exact lt_irrefl _ hlt⟩
    refine ⟨?_, ?_, ?_⟩
    · simp only [cursorAt_ne_end, Bool.false_eq_true, false_iff]
      intro hall
      exact hall r hr hlt
    · intro _
      exact ⟨find_of_contains hinvu hru, hlt,
        fun w hw hmw => hleast w ((hmem w).mp hw).1 hmw⟩
    · intro p hp
      exact deref_of_contains hinvu hru hp

theorem C12_erase_returns_next_witness :
    Reachable sampleTree ∧ sampleTree.find [2] = some (cursorAt [2]) ∧
      (cursorAt [2]).eq sampleTree.end_ = false ∧
      ∃ next u, sampleTree.eraseAt (cursorAt [2]) = some (next, u) ∧
        (∀ w, u.contains w ↔ (sampleTree.contains w ∧ w ≠ [2])) ∧
        (next.eq u.end_ = true ↔ ∀ w, sampleTree.contains w → ¬ [2] < w) ∧
        (next.eq u.end_ = false →
          u.find next.star = some next ∧ [2] < next.star ∧
            ∀ w, u.contains w → [2] < w → next.star ≤ w) ∧
        ∀ p, p ∈ next.mTrace → ∃ n, u.deref p = some n :=
  ⟨sampleTree_reachable, sampleTree_find, rfl,
    C12_erase_returns_next sampleTree [2] (cursorAt [2]) sampleTree_reachable
      sampleTree_find rfl⟩

theorem upper_bound_unfold {t : ternary_search_tree Ch} {s : List Ch}
    {lo : const_iterator Ch} (hlo : t.lower_bound s = some lo) :
    t.upper_bound s =
      if lo.eq t.end_ then some lo
      else if lo.star = s then t.increment lo
      else some lo := by
  simp only [ternary_search_tree.upper_bound, hlo]

/-- What `lower_bound` returns, in terms of members: `end()` or the cursor of
a member, which is `s` itself when `s` is a member. -/
theorem lower_bound_member {t : ternary_search_tree Ch} (hinv : t.Inv) (s : List Ch) :
    ∃ lo, t.lower_bound s = some lo ∧
      ((lo = t.end_ ∧ ¬ t.contains s) ∨
        ∃ r, lo = cursorAt r ∧ t.contains r ∧ (t.contains s → r = s)) := by
  cases hr : t.mRoot with
  | none =>
    refine ⟨t.end_, by simp [ternary_search_tree.lower_bound, hr], Or.inl ⟨rfl, ?_⟩⟩
    exact not_contains_of_no_root hr s
  | some root =>
    obtain ⟨hwf, hroot, _⟩ := Inv.root hinv hr
    by_cases hs : t.contains s
    · have hw := (contains_iff hr hwf s).mp hs
      obtain ⟨lo, hlb, hcase⟩ := lower_bound_spec hr hwf hroot s (walk_bound_of_word hw)
      refine ⟨lo, hlb, ?_⟩
      rcases hcase with ⟨_, hnone⟩ | ⟨r, he, hrw, hle, hleast⟩
      · exact absurd (le_refl s) (hnone s hw)
      · exact Or.inr ⟨r, he, (contains_iff hr hwf r).mpr hrw,
          fun _ => le_antisymm (hleast s hw (le_refl s)) hle⟩
    · obtain ⟨lo, hlb, hcase⟩ := lower_bound_total hr hwf hroot s
      refine ⟨lo, hlb, ?_⟩
      rcases hcase with he | ⟨r, he, hrw⟩
      · exact Or.inl ⟨he, hs⟩
      · exact Or.inr ⟨r, he, (contains_iff hr hwf r).mpr hrw, fun h => absurd h hs⟩

/-- C13: on every reachable tree and for every string `s`, `equal_range(s)`
returns the pair of `lower_bound(s)` and `upper_bound(s)`.  If `s` is a member
the range spans exactly `s`: the first cursor is the cursor of `s` and,
advanced once, equals the second.  If `s` is not a member the two cursors are
equal. -/
theorem C13_equal_range (t : ternary_search_tree Ch) (s : List Ch) (h : Reachable t) :
    ∃ lo hi, t.equal_range s = some (lo, hi) ∧
      t.lower_bound s = some lo ∧ t.upper_bound s = some hi ∧
      (t.contains s →
        t.find s = some lo ∧ lo.eq t.end_ = false ∧ lo.star = s ∧
          ∃ nx, t.increment lo = some nx ∧ nx.eq hi = true) ∧
      (¬ t.contains s → lo.eq hi = true) := by
  have hinv := h.inv
  obtain ⟨lo, hlb, hcase⟩ := lower_bound_member hinv s
  have hub := upper_bound_unfold hlb
  have hrefl : ∀ x : const_iterator Ch, x.eq x = true := fun x => by simp [const_iterator.eq]
  rcases hcase with ⟨rfl, hnone⟩ | ⟨r, rfl, hr, hmem⟩
  · simp only [end_eq_end, if_true] at hub
    refine ⟨t.end_, t.end_, by simp [ternary_search_tree.equal_range, hlb, hub], hlb, hub,
      ?_, fun _ => hrefl _⟩
    intro hs
    exact absurd hs hnone
  · have hs' : (cursorAt r).star = r := rfl
    simp only [cursorAt_ne_end, Bool.false_eq_true, if_false, hs'] at hub
    by_cases hrs : r = s
    · subst hrs
      simp only [if_true] at hub
      obtain ⟨nx, hnx, _⟩ := increment_member hinv hr
      rw [hnx] at hub
      refine ⟨cursorAt r, nx, by simp [ternary_search_tree.equal_range, hlb, hub], hlb, hub,
        ?_, fun hn => absurd hr hn⟩
      intro _
      exact ⟨find_of_contains hinv hr, cursorAt_ne_end _ _, rfl, nx, hnx, hrefl _⟩
    · simp only [hrs, if_false] at hub
      refine ⟨cursorAt r, cursorAt r, by simp [ternary_search_tree.equal_range, hlb, hub],
        hlb, hub, ?_, fun _ => hrefl _⟩
      intro hs
      exact absurd (hmem hs) hrs

theorem C13_equal_range_witness :
    Reachable sampleTree ∧
      ∃ lo hi, sampleTree.equal_range [2] = some (lo, hi) ∧
        sampleTree.lower_bound [2] = some lo ∧ sampleTree.upper_bound [2] = some hi ∧
        (sampleTree.contains [2] →
          sampleTree.find [2] = some lo ∧ lo.eq sampleTree.end_ = false ∧ lo.star = [2] ∧
            ∃ nx, sampleTree.increment lo = some nx ∧ nx.eq hi = true) ∧
        (¬ sampleTree.contains [2] → lo.eq hi = true) :=
  ⟨sampleTree_reachable, C13_equal_range sampleTree [2] sampleTree_reachable⟩

end CursorClaims

/-! ## The empty string -/

section EmptyString

variable {Ch : Type} [LinearOrder Ch] [Inhabited Ch]

/-- C14 (as stated, refuted): inserting the empty string into a freshly
constructed tree reports an insertion, makes the root terminal, makes
`find("")` return a cursor different from `end()` whose dereference is the
empty string, and raises `size()` from 0 to 1. -/
theorem C14_counterexample :
    ∃ u : ternary_search_tree Nat,
      (ternary_search_tree.empty : ternary_search_tree Nat).insert [] =
          some ((cursorAt [], true), u) ∧
        Reachable u ∧
        u.mRoot = some (Node.mk 0 true []) ∧
        (∃ root, u.mRoot = some root ∧ root.mIsWord = true) ∧
        u.find [] = some (cursorAt []) ∧
        (cursorAt [] : const_iterator Nat).eq u.end_ = false ∧
        (cursorAt [] : const_iterator Nat).star = [] ∧
        (ternary_search_tree.empty : ternary_search_tree Nat).size = 0 ∧
        u.size = 1 :=
  ⟨⟨some (Node.mk 0 true []), 1⟩, rfl,
    Reachable.insert (s := []) (r := ((cursorAt [], true), _)) Reachable.empty rfl,
    rfl, ⟨_, rfl, rfl⟩, rfl, rfl, rfl, rfl, rfl⟩

/-- C14 (amended): on every reachable tree the root node is terminal exactly
when the empty string is a member, and the empty string is stored like any
other string: `insert("")` returns, reports an insertion iff the empty string
was not a member, leaves the root terminal, makes `find("")` return a cursor
different from `end()` whose dereference is the empty string, and `size()`
grows by one when the empty string was not a member and is unchanged
otherwise. -/
theorem C14_empty_string_is_stored (t : ternary_search_tree Ch) (h : Reachable t) :
    (∀ root, t.mRoot = some root → (root.mIsWord = true ↔ t.contains [])) ∧
    ∃ c b u, t.insert [] = some ((c, b), u) ∧
      (b = true ↔ ¬ t.contains []) ∧
      (∃ root, u.mRoot = some root ∧ root.mIsWord = true) ∧
      u.find [] = some c ∧ c.eq u.end_ = false ∧ c.star = [] ∧
      (¬ t.contains [] → u.size = t.size + 1) ∧
      (t.contains [] → u.size = t.size) := by
  have hinv := h.inv
  have hwf := insertNode_WF (ensureRoot_WF hinv) ([] : List Ch)
  have hw : (insertNode t.ensureRoot ([] : List Ch)).1.isWordAt [] = true := by
    rw [insertNode_isWordAt]; simp
  refine ⟨?_, _, _, _, insert_eq hinv [], ?_, ⟨_, rfl, ?_⟩, ?_, cursorAt_ne_end _ _, rfl, ?_, ?_⟩
  · intro root hr
    obtain ⟨hwf0, _, _⟩ := Inv.root hinv hr
    rw [contains_iff hr hwf0, Node.isWordAt_nil]
  · rw [← ensureRoot_isWordAt hinv]
    simp
  · rw [← Node.isWordAt_nil]
    exact hw
  · rw [find_eq (t := ⟨some (insertNode t.ensureRoot []).1, _⟩) rfl hwf, hw]
    rfl
  · intro hn
    rw [← ensureRoot_isWordAt hinv] at hn
    simp [ternary_search_tree.size, hn]
  · intro hy
    rw [← ensureRoot_isWordAt hinv] at hy
    simp [ternary_search_tree.size, hy]

theorem C14_empty_string_is_stored_witness :
    Reachable sampleTree ∧
      (∀ root, sampleTree.mRoot = some root → (root.mIsWord = true ↔ sampleTree.contains [])) ∧
      ∃ c b u, sampleTree.insert [] = some ((c, b), u) ∧
        (b = true ↔ ¬ sampleTree.contains []) ∧
        (∃ root, u.mRoot = some root ∧ root.mIsWord = true) ∧
        u.find [] = some c ∧ c.eq u.end_ = false ∧ c.star = [] ∧
        (¬ sampleTree.contains [] → u.size = sampleTree.size + 1) ∧
        (sampleTree.contains [] → u.size = sampleTree.size) :=
  ⟨sampleTree_reachable, C14_empty_string_is_stored sampleTree sampleTree_reachable⟩

end EmptyString

/-! ## Comparing two trees -/

section Comparison

variable {Ch : Type} [LinearOrder Ch] [Inhabited Ch]

/-- The first element of a strictly increasing list is below every element. -/
theorem head_le_of_sorted {x : List Ch} {l : List (List Ch)}
    (hs : (x :: l).Pairwise (· < ·)) {w : List Ch} (hw : w ∈ x :: l) : x ≤ w := by
  rcases List.mem_cons.mp hw with rfl | hw
  · exact le_refl _
  · exact le_of_lt (List.rel_of_pairwise_cons hs hw)

theorem begin_words {t : ternary_search_tree Ch} (h : t.Inv) :
    t.begin = some (cursorOf t.words) := by
  cases hr : t.mRoot with
  | none =>
    rw [begin_of_no_root hr, ternary_search_tree.words_of_no_root hr]
    rfl
  | some root =>
    obtain ⟨hwf, hroot, _⟩ := Inv.root h hr
    obtain ⟨r, hb, hrw, hleast⟩ := begin_spec hr hwf hroot
    rw [hb, ternary_search_tree.words_of_root hr]
    have hmem := (Node.mem_words_iff hwf).mpr hrw
    have hsorted := Node.words_sorted root hwf
    cases hw : root.words with
    | nil => rw [hw] at hmem; cases hmem
    | cons x l =>
      rw [hw] at hmem hsorted
      have hx : root.isWordAt x = true := by
        rw [← Node.mem_words_iff hwf, hw]; simp
      have e : r = x := le_antisymm (hleast x hx) (head_le_of_sorted hsorted hmem)
      rw [e]
      rfl

theorem increment_words {t : ternary_search_tree Ch} (h : t.Inv) {l1 l2 : List (List Ch)}
    {m : List Ch} (hw : t.words = l1 ++ m :: l2) :
    t.increment (cursorAt m) = some (cursorOf l2) := by
  have hsorted := words_sorted_of_inv h
  rw [hw, List.pairwise_append] at hsorted
  obtain ⟨_, hs2, hs12⟩ := hsorted
  have hm : t.contains m := by
    rw [← mem_words_iff_contains h, hw]; simp
  obtain ⟨c, hinc, hcase⟩ := increment_member h hm
  rw [hinc]
  rcases hcase with ⟨rfl, hnone⟩ | ⟨r, rfl, hr, hlt, hleast⟩
  · cases l2 with
    | nil => rfl
    | cons x l =>
      have hx : t.contains x := by
        rw [← mem_words_iff_contains h, hw]; simp
      exact absurd (List.rel_of_pairwise_cons hs2 (List.mem_cons_self x l)) (hnone x hx)
  · have hrm : r ∈ l1 ++ m :: l2 := by
      rw [← hw, mem_words_iff_contains h]; exact hr
    have hr2 : r ∈ l2 := by
      rcases List.mem_append.mp hrm with h1 | h1
      · exact absurd (hs12 r h1 m (List.mem_cons_self m l2)) (not_lt_of_gt hlt)
      · rcases List.mem_cons.mp h1 with e | h1
        · rw [e] at hlt
          exact absurd hlt (lt_irrefl _)
        · exact h1
    cases l2 with
    | nil => cases hr2
    | cons x l =>
      have hx : t.contains x := by
        rw [← mem_words_iff_contains h, hw]; simp
      have hmx : m < x := List.rel_of_pairwise_cons hs2 (List.mem_cons_self x l)
      have e : r = x :=
        le_antisymm (hleast x hx hmx) (head_le_of_sorted (List.Pairwise.of_cons hs2) hr2)
      rw [e]
      rfl

theorem equalLoop_end (a b : ternary_search_tree Ch) (n : Nat) (i2 : const_iterator Ch) :
    equalLoop a b n (some a.end_) (some i2) = some true := by
  cases n <;> simp [equalLoop, end_eq_end]

theorem equalLoop_words {a b : ternary_search_tree Ch} (ha : a.Inv) (hb : b.Inv) :
    ∀ (l2 l1 k2 k1 : List (List Ch)) (n : Nat), a.words = l1 ++ l2 → b.words = k1 ++ k2 →
      l2.length = k2.length → l2.length ≤ n →
      equalLoop a b n (some (cursorOf l2)) (some (cursorOf k2)) = some (decide (l2 = k2)) := by
  intro l2
  induction l2 with
  | nil =>
    intro l1 k2 k1 n _ _ hlen _
    cases k2 with
    | nil => exact equalLoop_end a b n _
    | cons x k => cases hlen
  | cons m l ih =>
    intro l1 k2 k1 n hwa hwb hlen hn
    cases k2 with
    | nil => cases hlen
    | cons x k =>
      obtain ⟨n', rfl⟩ : ∃ n', n = n' + 1 := ⟨n - 1, by simp at hn; omega⟩
      have e1 : cursorOf (m :: l) = cursorAt m := rfl
      have e2 : cursorOf (x :: k) = cursorAt x := rfl
      have s1 : (cursorAt m).star = m := rfl
      have s2 : (cursorAt x).star = x := rfl
      simp only [e1, e2, equalLoop, cursorAt_ne_end, Bool.false_eq_true, if_false, s1, s2]
      by_cases hmx : m = x
      · subst hmx
        simp only [if_true, increment_words ha hwa, increment_words hb hwb]
        rw [ih (l1 ++ [m]) k (k1 ++ [m]) n' (by simpa using hwa) (by simpa using hwb)
          (by simpa using hlen) (by simp at hn; omega)]
        simp
      · simp [hmx]

/-- Two strictly increasing lists with the same elements are equal. -/
theorem sorted_ext {l k : List (List Ch)} (hl : l.Pairwise (· < ·)) (hk : k.Pairwise (· < ·))
    (h : ∀ s, s ∈ l ↔ s ∈ k) : l = k := by
  induction l generalizing k with
  | nil =>
    cases k with
    | nil => rfl
    | cons x k => exact absurd ((h x).mpr (List.mem_cons_self x k)) (List.not_mem_nil x)
  | cons m l ih =>
    cases k with
    | nil => exact absurd ((h m).mp (List.mem_cons_self m l)) (List.not_mem_nil m)
    | cons x k =>
      have hmx : m = x :=
        le_antisymm (head_le_of_sorted hl ((h x).mpr (List.mem_cons_self x k)))
          (head_le_of_sorted hk ((h m).mp (List.mem_cons_self m l)))
      subst hmx
      congr 1
      refine ih (List.Pairwise.of_cons hl) (List.Pairwise.of_cons hk) ?_
      intro s
      constructor
      · intro hs
        rcases List.mem_cons.mp ((h s).mp (List.mem_cons_of_mem m hs)) with e | h1
        · rw [e] at hs
          exact absurd (List.rel_of_pairwise_cons hl hs) (lt_irrefl _)
        · exact h1
      · intro hs
        rcases List.mem_cons.mp ((h s).mpr (List.mem_cons_of_mem m hs)) with e | h1
        · rw [e] at hs
          exact absurd (List.rel_of_pairwise_cons hk hs) (lt_irrefl _)
        · exact h1

theorem words_eq_iff {a b : ternary_search_tree Ch} (ha : a.Inv) (hb : b.Inv) :
    a.words = b.words ↔ ∀ s, a.contains s ↔ b.contains s := by
  constructor
  · intro e s
    rw [← mem_words_iff_contains ha, ← mem_words_iff_contains hb, e]
  · intro hall
    refine sorted_ext (words_sorted_of_inv ha) (words_sorted_of_inv hb) ?_
    intro s
    rw [mem_words_iff_contains ha, mem_words_iff_contains hb]
    exact hall s

theorem operator_eq_words {a b : ternary_search_tree Ch} (ha : a.Inv) (hb : b.Inv) (n : Nat)
    (hn : a.size ≤ n) : operator_eq n a b = some (decide (a.words = b.words)) := by
  unfold operator_eq
  by_cases hs : a.size = b.size
  · simp only [hs, if_true, begin_words ha, begin_words hb]
    refine equalLoop_words ha hb a.words [] b.words [] n rfl rfl ?_ ?_
    · rw [words_length_of_inv ha, words_length_of_inv hb, hs]
    · rw [words_length_of_inv ha]; exact hn
  · simp only [hs, if_false]
    have hne : a.words ≠ b.words := by
      intro e
      apply hs
      rw [← words_length_of_inv ha, ← words_length_of_inv hb, e]
    simp [hne]

/-- C15: for any two reachable trees `a` and `b`, `a == b` returns (the loop
of `std::equal` ends within `a.size()` passes), and it is true iff the trees
have exactly the same members: for every string `s`, `a.find(s) != a.end()` iff
`b.find(s) != b.end()`.  `a != b` returns the negation. -/
theorem C15_equality_is_same_members (a b : ternary_search_tree Ch) (n : Nat)
    (ha : Reachable a) (hb : Reachable b) (hn : a.size ≤ n) :
    ∃ r, operator_eq n a b = some r ∧
      (r = true ↔ ∀ s, a.contains s ↔ b.contains s) ∧
      operator_ne n a b = some (!r) := by
  have e := operator_eq_words ha.inv hb.inv n hn
  refine ⟨_, e, ?_, ?_⟩
  · rw [decide_eq_true_iff]
    exact words_eq_iff ha.inv hb.inv
  · simp only [operator_ne, e]

theorem C15_equality_is_same_members_witness :
    Reachable sampleTree ∧ Reachable sampleTree ∧ sampleTree.size ≤ 3 ∧
      ∃ r, operator_eq 3 sampleTree sampleTree = some r ∧
        (r = true ↔ ∀ s, sampleTree.contains s ↔ sampleTree.contains s) ∧
        operator_ne 3 sampleTree sampleTree = some (!r) :=
  ⟨sampleTree_reachable, sampleTree_reachable, by decide,
    C15_equality_is_same_members sampleTree sampleTree 3 sampleTree_reachable
      sampleTree_reachable (by decide)⟩

theorem lexLoop_words {a b : ternary_search_tree Ch} (ha : a.Inv) (hb : b.Inv) :
    ∀ (l2 l1 k2 k1 : List (List Ch)) (n : Nat), a.words = l1 ++ l2 → b.words = k1 ++ k2 →
      l2.length ≤ n →
      lexLoop a b n (some (cursorOf l2)) (some (cursorOf k2)) = some (decide (l2 < k2)) := by
  intro l2
  induction l2 with
  | nil =>
    intro l1 k2 k1 n _ _ _
    have e1 : (cursorOf ([] : List (List Ch))).eq a.end_ = true := rfl
    cases k2 with
    | nil =>
      have e2 : (cursorOf ([] : List (List Ch))).eq b.end_ = true := rfl
      cases n <;> simp [lexLoop, e1, e2]
    | cons x k =>
      have e2 : (cursorOf (x :: k)).eq b.end_ = false := cursorAt_ne_end b x
      have hlt : ([] : List (List Ch)) < x :: k := str_nil_lt_cons x k
      cases n <;> simp [lexLoop, e1, e2, hlt]
  | cons m l ih =>
    intro l1 k2 k1 n hwa hwb hn
    have e1 : (cursorOf (m :: l)).eq a.end_ = false := cursorAt_ne_end a m
    cases k2 with
    | nil =>
      have e2 : (cursorOf ([] : List (List Ch))).eq b.end_ = true := rfl
      have hlt : ¬ (m :: l < ([] : List (List Ch))) := str_not_lt_nil _
      cases n <;> simp [lexLoop, e1, e2, hlt]
    | cons x k =>
      obtain ⟨n', rfl⟩ : ∃ n', n = n' + 1 := ⟨n - 1, by simp at hn; omega⟩
      have e2 : (cursorOf (x :: k)).eq b.end_ = false := cursorAt_ne_end b x
      have c1 : cursorOf (m :: l) = cursorAt m := rfl
      have c2 : cursorOf (x :: k) = cursorAt x := rfl
      have s1 : (cursorAt m).star = m := rfl
      have s2 : (cursorAt x).star = x := rfl
      simp only [lexLoop, e1, e2, Bool.or_self, Bool.false_eq_true, if_false]
      simp only [c1, c2, s1, s2]
      by_cases h1 : m < x
      · have hlt : m :: l < x :: k := str_lt_cons_iff.mpr (Or.inl h1)
        simp [h1, hlt]
      · by_cases h2 : x < m
        · have hlt : ¬ (m :: l < x :: k) := by
            rw [str_lt_cons_iff]
            rintro (h3 | ⟨h3, _⟩)
            · exact h1 h3
            · rw [h3] at h2
              exact lt_irrefl _ h2
          simp [h1, h2, hlt]
        · have hmx : m = x := le_antisymm (not_lt.mp h2) (not_lt.mp h1)
          subst hmx
          simp only [h1, if_false, increment_words ha hwa, increment_words hb hwb]
          rw [ih (l1 ++ [m]) k (k1 ++ [m]) n' (by simpa using hwa) (by simpa using hwb)
            (by simp at hn; omega)]
          congr 1
          rw [decide_eq_decide, str_lt_cons_iff]
          simp

theorem operator_lt_words {a b : ternary_search_tree Ch} (ha : a.Inv) (hb : b.Inv) (n : Nat)
    (hn : a.size ≤ n) : operator_lt n a b = some (decide (a.words < b.words)) := by
  unfold operator_lt
  rw [begin_words ha, begin_words hb]
  refine lexLoop_words ha hb a.words [] b.words [] n rfl rfl ?_
  rw [words_length_of_inv ha]; exact hn

/-- C16: for any two reachable trees `a` and `b`, `a < b` returns and is the
lexicographic comparison of the two ascending sequences of members (the
sequences the traversals from `begin()` to `end()` visit); exactly one of
`a < b`, `a == b`, `b < a` holds; and `a <= b` is `!(b < a)`, `a > b` is
`b < a`, and `a >= b` is `!(a < b)`. -/
theorem C16_ordering_of_trees (a b : ternary_search_tree Ch) (n : Nat)
    (ha : Reachable a) (hb : Reachable b) (hna : a.size ≤ n) (hnb : b.size ≤ n) :
    ∃ la lb lt gt eq, a.traverse n = some la ∧ b.traverse n = some lb ∧
      operator_lt n a b = some lt ∧ operator_lt n b a = some gt ∧
      operator_eq n a b = some eq ∧
      (lt = true ↔ la < lb) ∧
      ((lt = true ∧ eq = false ∧ gt = false) ∨ (lt = false ∧ eq = true ∧ gt = false) ∨
        (lt = false ∧ eq = false ∧ gt = true)) ∧
      operator_le n a b = some (!gt) ∧ operator_gt n a b = some gt ∧
      operator_ge n a b = some (!lt) := by
  have h1 := operator_lt_words ha.inv hb.inv n hna
  have h2 := operator_lt_words hb.inv ha.inv n hnb
  have h3 := operator_eq_words ha.inv hb.inv n hna
  refine ⟨a.words, b.words, _, _, _, traverse_eq ha.inv n hna, traverse_eq hb.inv n hnb,
    h1, h2, h3, decide_eq_true_iff, ?_, ?_, ?_, ?_⟩
  · rcases lt_trichotomy a.words b.words with h | h | h
    · exact Or.inl ⟨decide_eq_true h, decide_eq_false (ne_of_lt h),
        decide_eq_false (not_lt_of_gt h)⟩
    · refine Or.inr (Or.inl ⟨decide_eq_false ?_, decide_eq_true h, decide_eq_false ?_⟩)
      · rw [h]; exact lt_irrefl _
      · rw [h]; exact lt_irrefl _
    · exact Or.inr (Or.inr ⟨decide_eq_false (not_lt_of_gt h),
        decide_eq_false (ne_of_gt h), decide_eq_true h⟩)
  · simp only [operator_le, h2]
  · simp only [operator_gt, h2]
  · simp only [operator_ge, h1]

theorem C16_ordering_of_trees_witness :
    Reachable sampleTree ∧ Reachable (ternary_search_tree.empty : ternary_search_tree Nat) ∧
      sampleTree.size ≤ 3 ∧ (ternary_search_tree.empty : ternary_search_tree Nat).size ≤ 3 ∧
      ∃ la lb lt gt eq, sampleTree.traverse 3 = some la ∧
        (ternary_search_tree.empty : ternary_search_tree Nat).traverse 3 = some lb ∧
        operator_lt 3 sampleTree ternary_search_tree.empty = some lt ∧
        operator_lt 3 ternary_search_tree.empty sampleTree = some gt ∧
        operator_eq 3 sampleTree ternary_search_tree.empty = some eq ∧
        (lt = true ↔ la < lb) ∧
        ((lt = true ∧ eq = false ∧ gt = false) ∨ (lt = false ∧ eq = true ∧ gt = false) ∨
          (lt = false ∧ eq = false ∧ gt = true)) ∧
        operator_le 3 sampleTree ternary_search_tree.empty = some (!gt) ∧
        operator_gt 3 sampleTree ternary_search_tree.empty = some gt ∧
        operator_ge 3 sampleTree ternary_search_tree.empty = some (!lt) :=
  ⟨sampleTree_reachable, Reachable.empty, by decide, by decide,
    C16_ordering_of_trees sampleTree ternary_search_tree.empty 3 sampleTree_reachable
      Reachable.empty (by decide) (by decide)⟩

end Comparison

/-! ## Copies -/

section CopyLemmas

variable {Ch : Type} [LinearOrder Ch]

theorem cloneTree_mk (l : Ch) (w : Bool) (eq : List (Ch × Node Ch)) :
    cloneTree (Node.mk l w eq) = Node.mk l w (cloneKids eq []) := by
  rw [cloneTree]

theorem cloneKids_nil (acc : List (Ch × Node Ch)) : cloneKids [] acc = acc := by
  rw [cloneKids]

theorem cloneKids_cons (k : Ch) (ch : Node Ch) (rest acc : List (Ch × Node Ch)) :
    cloneKids ((k, ch) :: rest) acc = cloneKids rest (mapAssign acc k (cloneTree ch)) := by
  rw [cloneKids]

/-- Assigning under a key above all keys of the map appends the entry. -/
theorem mapAssign_append_of_lt {V : Type} (m : List (Ch × V)) (k : Ch) (v : V)
    (h : ∀ x, x ∈ m → x.1 < k) : mapAssign m k v = m ++ [(k, v)] := by
  induction m with
  | nil => rfl
  | cons b rest ih =>
    obtain ⟨k', v'⟩ := b
    have h1 : k' < k := h (k', v') (List.mem_cons_self _ _)
    simp only [mapAssign, not_lt_of_gt h1, if_false, h1, if_true, List.cons_append]
    rw [ih (fun x hx => h x (List.mem_cons_of_mem _ hx))]

theorem cloneKids_of_sorted : ∀ (rest acc : List (Ch × Node Ch)), keysSorted (acc ++ rest) →
    (∀ k ch, (k, ch) ∈ rest → cloneTree ch = ch) → cloneKids rest acc = acc ++ rest := by
  intro rest
  induction rest with
  | nil => intro acc _ _; rw [cloneKids_nil]; simp
  | cons b rest ih =>
    intro acc hs hc
    obtain ⟨k, ch⟩ := b
    rw [cloneKids_cons, hc k ch (List.mem_cons_self _ _)]
    have hlt : ∀ x, x ∈ acc → x.1 < k := by
      intro x hx
      unfold keysSorted at hs
      rw [List.pairwise_append] at hs
      exact hs.2.2 x hx (k, ch) (List.mem_cons_self _ _)
    rw [mapAssign_append_of_lt acc k ch hlt]
    rw [ih (acc ++ [(k, ch)]) (by simpa using hs)
      (fun k' ch' hm => hc k' ch' (List.mem_cons_of_mem _ hm))]
    simp

/-- On a well-formed tree the clone is the tree itself: the same letters, flags
and children in the same order at every node. -/
theorem cloneTree_eq : ∀ (n : Node Ch), n.WF → cloneTree n = n := by
  intro n
  induction n using Node.induct with
  | h l w eq ih =>
    intro hwf
    rw [cloneTree_mk]
    congr 1
    have := cloneKids_of_sorted eq [] (by simpa using hwf.local.1)
      (fun k ch hm => ih k ch hm (hwf.child_mem (n := Node.mk l w eq) hm))
    simpa using this

theorem copy_eq {t : ternary_search_tree Ch} (h : t.Inv) : t.copy = t := by
  unfold ternary_search_tree.copy
  cases hr : t.mRoot with
  | none =>
    cases t
    simp only at hr
    simp [hr]
  | some r =>
    cases t
    simp only at hr
    simp [hr, cloneTree_eq r (Inv.root h hr).1]

theorem storeHolds_mk (lo : Nat) (h : List (Cell Ch)) (a : Nat) (p : Option Nat) (l : Ch)
    (w : Bool) (eq : List (Ch × Node Ch)) :
    storeHolds lo h a p (Node.mk l w eq) =
      match h[a]? with
      | none => false
      | some c =>
        decide (lo ≤ a) && decide (c.mLetter = l) && decide (c.mIsWord = w) &&
          decide (c.mParent = p) && storeHoldsKids lo h a c.mEqual eq := by
  rw [storeHolds]

theorem storeHolds_mk_iff (lo : Nat) (h : List (Cell Ch)) (a : Nat) (p : Option Nat) (l : Ch)
    (w : Bool) (eq : List (Ch × Node Ch)) :
    storeHolds lo h a p (Node.mk l w eq) = true ↔
      ∃ ps, h[a]? = some ⟨l, w, ps, p⟩ ∧ lo ≤ a ∧ storeHoldsKids lo h a ps eq = true := by
  rw [storeHolds_mk]
  cases hc : h[a]? with
  | none => simp
  | some c =>
    obtain ⟨l', w', ps', p'⟩ := c
    simp only [Bool.and_eq_true, decide_eq_true_eq, Option.some.injEq, Cell.mk.injEq]
    constructor
    · rintro ⟨⟨⟨⟨h1, h2⟩, h3⟩, h4⟩, h5⟩
      exact ⟨ps', ⟨h2, h3, rfl, h4⟩, h1, h5⟩
    · rintro ⟨ps, ⟨h2, h3, h6, h4⟩, h1, h5⟩
      subst h6
      exact ⟨⟨⟨⟨h1, h2⟩, h3⟩, h4⟩, h5⟩

theorem storeHoldsKids_nil (lo : Nat) (h : List (Cell Ch)) (a : Nat) :
    storeHoldsKids lo h a [] [] = true := by
  rw [storeHoldsKids]

theorem storeHoldsKids_cons_iff (lo : Nat) (h : List (Cell Ch)) (a : Nat)
    (ps : List (Ch × Nat)) (k : Ch) (n : Node Ch) (ns : List (Ch × Node Ch)) :
    storeHoldsKids lo h a ps ((k, n) :: ns) = true ↔
      ∃ x ps', ps = (k, x) :: ps' ∧ storeHolds lo h x (some a) n = true ∧
        storeHoldsKids lo h a ps' ns = true := by
  cases ps with
  | nil => simp [storeHoldsKids]
  | cons b ps' =>
    obtain ⟨k', x⟩ := b
    rw [storeHoldsKids]
    simp only [Bool.and_eq_true, decide_eq_true_eq, List.cons.injEq, Prod.mk.injEq]
    constructor
    · rintro ⟨⟨h1, h2⟩, h3⟩
      exact ⟨x, ps', ⟨⟨h1, rfl⟩, rfl⟩, h2, h3⟩
    · rintro ⟨x', ps'', ⟨⟨h1, h4⟩, h5⟩, h2, h3⟩
      subst h4 h5
      exact ⟨⟨h1, h2⟩, h3⟩

theorem storeHoldsKids_nil_iff (lo : Nat) (h : List (Cell Ch)) (a : Nat)
    (ps : List (Ch × Nat)) : storeHoldsKids lo h a ps [] = true ↔ ps = [] := by
  cases ps with
  | nil => simp [storeHoldsKids_nil]
  | cons b ps' => rw [storeHoldsKids]; simp

end CopyLemmas

/-! ## Cloning in the free store -/

section StoreLemmas

variable {Ch : Type} [LinearOrder Ch]

theorem storeHoldsKids_transfer {lo lo' : Nat} {h h' : List (Cell Ch)} (a : Nat) : ∀ (ns : List (Ch × Node Ch)) (ps : List (Ch × Nat)),
      (∀ k ch, (k, ch) ∈ ns → ∀ x q, storeHolds lo h x q ch = true →
        storeHolds lo' h' x q ch = true) →
      storeHoldsKids lo h a ps ns = true → storeHoldsKids lo' h' a ps ns = true := by
  intro ns
  induction ns with
  | nil =>
    intro ps _ hk
    rw [storeHoldsKids_nil_iff] at hk ⊢
    exact hk
  | cons b ns ih =>
    intro ps hc hk
    obtain ⟨k, n⟩ := b
    rw [storeHoldsKids_cons_iff] at hk ⊢
    obtain ⟨x, ps', e, h1, h2⟩ := hk
    exact ⟨x, ps', e, hc k n (List.mem_cons_self _ _) x _ h1,
      ih ps' (fun k' ch' hm => hc k' ch' (List.mem_cons_of_mem _ hm)) h2⟩

/-- A tree held at pointers `lo` or above is still held in every store that
has the same cells at those pointers. -/
theorem storeHolds_transfer {lo lo' : Nat} {h h' : List (Cell Ch)} (hlo : lo' ≤ lo)
    (hagree : ∀ i c, lo ≤ i → h[i]? = some c → h'[i]? = some c) :
    ∀ (n : Node Ch) (a : Nat) (p : Option Nat), storeHolds lo h a p n = true →
      storeHolds lo' h' a p n = true := by
  intro n
  induction n using Node.induct with
  | h l w eq ih =>
    intro a p hh
    rw [storeHolds_mk_iff] at hh ⊢
    obtain ⟨ps, h1, h2, h3⟩ := hh
    exact ⟨ps, hagree a _ h2 h1, le_trans hlo h2,
      storeHoldsKids_transfer a eq ps (fun k ch hm x q => ih k ch hm x q) h3⟩

theorem storeHolds_append {lo : Nat} {h : List (Cell Ch)} (e : List (Cell Ch)) {n : Node Ch}
    {a : Nat} {p : Option Nat} (hh : storeHolds lo h a p n = true) :
    storeHolds lo (h ++ e) a p n = true := by
  refine storeHolds_transfer (le_refl lo) ?_ n a p hh
  intro i c _ hi
  have hlt : i < h.length := by
    by_contra hge
    rw [List.getElem?_eq_none (not_lt.mp hge)] at hi
    cases hi
  rw [List.getElem?_append_left hlt]
  exact hi

/-- The child maps of a cell and of a node stay in step under the same
assignment. -/
theorem storeHoldsKids_mapAssign {lo : Nat} {h : List (Cell Ch)} {a : Nat} {k : Ch} {x : Nat}
    {n : Node Ch} (hn : storeHolds lo h x (some a) n = true) :
    ∀ (ns : List (Ch × Node Ch)) (ps : List (Ch × Nat)), storeHoldsKids lo h a ps ns = true →
      storeHoldsKids lo h a (mapAssign ps k x) (mapAssign ns k n) = true := by
  intro ns
  induction ns with
  | nil =>
    intro ps hk
    rw [storeHoldsKids_nil_iff] at hk
    subst hk
    simp only [mapAssign]
    rw [storeHoldsKids_cons_iff]
    exact ⟨x, [], rfl, hn, storeHoldsKids_nil _ _ _⟩
  | cons b ns ih =>
    intro ps hk
    obtain ⟨k', n'⟩ := b
    have hk0 := hk
    rw [storeHoldsKids_cons_iff] at hk
    obtain ⟨x', ps', rfl, h1, h2⟩ := hk
    simp only [mapAssign]
    by_cases c1 : k < k'
    · simp only [c1, if_true]
      rw [storeHoldsKids_cons_iff]
      exact ⟨x, _, rfl, hn, hk0⟩
    · by_cases c2 : k' < k
      · simp only [c1, c2, if_false, if_true]
        rw [storeHoldsKids_cons_iff]
        exact ⟨x', _, rfl, h1, ih ps' h2⟩
      · simp only [c1, c2, if_false]
        rw [storeHoldsKids_cons_iff]
        have e : k' = k := le_antisymm (not_lt.mp c1) (not_lt.mp c2)
        subst e
        exact ⟨x, _, rfl, hn, h2⟩

theorem assignChild_eq {h : List (Cell Ch)} {result : Nat} {c : Cell Ch}
    (hc : h[result]? = some c) (k : Ch) (p : Nat) :
    assignChild h result k p =
      some (h.set result ⟨c.mLetter, c.mIsWord, mapAssign c.mEqual k p, c.mParent⟩) := by
  simp only [assignChild, hc]

theorem cloneLoopOn_nil (clone : List (Cell Ch) → Nat → Option Nat →
    Option (Nat × List (Cell Ch))) (result : Nat) (h : List (Cell Ch)) :
    cloneLoopOn clone result [] h = some h := rfl

theorem cloneLoopOn_cons (clone : List (Cell Ch) → Nat → Option Nat →
    Option (Nat × List (Cell Ch))) (result : Nat) (k : Ch) (ch : Nat)
    (rest : List (Ch × Nat)) (h : List (Cell Ch)) :
    cloneLoopOn clone result ((k, ch) :: rest) h =
      match clone h ch (some result) with
      | none => none
      | some (p, h1) =>
        match assignChild h1 result k p with
        | none => none
        | some h2 => cloneLoopOn clone result rest h2 := rfl

theorem take_set_self {α : Type} (l : List α) (n : Nat) (a : α) :
    (l.set n a).take n = l.take n := by
  induction l generalizing n with
  | nil => simp
  | cons x xs ih =>
    cases n with
    | zero => simp
    | succ n => simp [List.set, ih]

theorem cloneLoopOn_spec (h0 : List (Cell Ch)) (a : Nat) {l : Ch} {w : Bool}
    {q : Option Nat} :
    ∀ (ns : List (Ch × Node Ch)) (ps : List (Ch × Nat)) (hc : List (Cell Ch))
      (accP : List (Ch × Nat)) (accN : List (Ch × Node Ch)),
      (∀ k ch, (k, ch) ∈ ns → CloneSpec ch) →
      storeHoldsKids 0 h0 a ps ns = true →
      hc.take h0.length = h0 →
      hc[h0.length]? = some ⟨l, w, accP, q⟩ →
      storeHoldsKids (h0.length + 1) hc h0.length accP accN = true →
      ∃ N h1 accP1,
        h1.take h0.length = h0 ∧
        h1[h0.length]? = some ⟨l, w, accP1, q⟩ ∧
        storeHoldsKids (h0.length + 1) h1 h0.length accP1 (cloneKids ns accN) = true ∧
        ∀ fuel, N ≤ fuel → cloneLoopOn (cloneTreeOn fuel) h0.length ps hc = some h1 := by
  intro ns
  induction ns with
  | nil =>
    intro ps hc accP accN _ hk htake hcell hacc
    rw [storeHoldsKids_nil_iff] at hk
    subst hk
    refine ⟨0, hc, accP, htake, hcell, ?_, fun fuel _ => cloneLoopOn_nil _ _ _⟩
    rw [cloneKids_nil]
    exact hacc
  | cons b ns ih =>
    intro ps hc accP accN hspec hk htake hcell hacc
    obtain ⟨k, ch⟩ := b
    rw [storeHoldsKids_cons_iff] at hk
    obtain ⟨x, ps', rfl, hx, hps⟩ := hk
    have hlen : h0.length < hc.length := by
      by_contra hge
      rw [List.getElem?_eq_none (not_lt.mp hge)] at hcell
      cases hcell
    have hsplit : hc = h0 ++ hc.drop h0.length := by
      conv => lhs; rw [← List.take_append_drop h0.length hc, htake]
    have hx' : storeHolds 0 hc x (some a) ch = true := by
      rw [hsplit]
      exact storeHolds_append _ hx
    obtain ⟨N1, e, hclone, hN1⟩ :=
      hspec k ch (List.mem_cons_self _ _) hc x (some a) (some h0.length) hx'
    have hcell2 : (hc ++ e)[h0.length]? = some ⟨l, w, accP, q⟩ := by
      rw [List.getElem?_append_left hlen]
      exact hcell
    obtain ⟨h2, hh2⟩ : ∃ h2, h2 = (hc ++ e).set h0.length
        ⟨l, w, mapAssign accP k hc.length, q⟩ := ⟨_, rfl⟩
    have hagree : ∀ i c, h0.length + 1 ≤ i → (hc ++ e)[i]? = some c → h2[i]? = some c := by
      intro i c hi hget
      rw [hh2, List.getElem?_set_ne (by omega)]
      exact hget
    have htake2 : h2.take h0.length = h0 := by
      rw [hh2, take_set_self, List.take_append_of_le_length (le_of_lt hlen)]
      exact htake
    have hcell3 : h2[h0.length]? = some ⟨l, w, mapAssign accP k hc.length, q⟩ := by
      rw [hh2, List.getElem?_set_self (by rw [List.length_append]; omega)]
    have hchild : storeHolds (h0.length + 1) h2 hc.length (some h0.length) (cloneTree ch) =
        true := by
      refine storeHolds_transfer (by omega) ?_ _ _ _ hclone
      intro i c hi hget
      exact hagree i c (by omega) hget
    have hacc1 : storeHoldsKids (h0.length + 1) h2 h0.length accP accN = true := by
      refine storeHoldsKids_transfer _ accN accP ?_ hacc
      intro k' ch' _ y q' hy
      refine storeHolds_transfer (le_refl _) ?_ _ _ _ hy
      intro i c hi hget
      refine hagree i c hi ?_
      have hlt : i < hc.length := by
        by_contra hge
        rw [List.getElem?_eq_none (not_lt.mp hge)] at hget
        cases hget
      rw [List.getElem?_append_left hlt]
      exact hget
    have hacc2 := storeHoldsKids_mapAssign (k := k) hchild accN accP hacc1
    obtain ⟨N2, h1, accP1, r1, r2, r3, hN2⟩ :=
      ih ps' h2 _ _ (fun k' ch' hm => hspec k' ch' (List.mem_cons_of_mem _ hm))
        hps htake2 hcell3 hacc2
    refine ⟨max N1 N2, h1, accP1, r1, r2, ?_, fun fuel hfuel => ?_⟩
    · rw [cloneKids_cons]
      exact r3
    · rw [cloneLoopOn_cons, hN1 fuel (le_trans (le_max_left _ _) hfuel)]
      simp only [assignChild_eq hcell2]
      rw [← hh2]
      exact hN2 fuel (le_trans (le_max_right _ _) hfuel)

theorem cloneTreeOn_succ (fuel : Nat) (h : List (Cell Ch)) (root : Nat) (parent : Option Nat) :
    cloneTreeOn (fuel + 1) h root parent =
      match h[root]? with
      | none => none
      | some c =>
        match cloneLoopOn (cloneTreeOn fuel) h.length c.mEqual
            (h ++ [⟨c.mLetter, c.mIsWord, [], parent⟩]) with
        | none => none
        | some h1 => some (h.length, h1) := rfl

/-- Cloning in the store returns a fresh pointer that holds the clone, in a
store that extends the old one. -/
theorem cloneTreeOn_spec : ∀ (n : Node Ch), CloneSpec n := by
  intro n
  induction n using Node.induct with
  | h l w eq ih =>
    intro h a p q hh
    rw [storeHolds_mk_iff] at hh
    obtain ⟨ps, hcell, _, hkids⟩ := hh
    have hnew : (h ++ [(⟨l, w, [], q⟩ : Cell Ch)])[h.length]? = some ⟨l, w, [], q⟩ := by
      simp
    obtain ⟨N, h1, accP1, r1, r2, r3, hN⟩ :=
      cloneLoopOn_spec h a eq ps (h ++ [⟨l, w, [], q⟩]) [] [] ih hkids
        (by simp) hnew (storeHoldsKids_nil _ _ _)
    refine ⟨N + 1, h1.drop h.length, ?_, ?_⟩
    · have e : h ++ h1.drop h.length = h1 := by
        conv => rhs; rw [← List.take_append_drop h.length h1, r1]
      rw [e, cloneTree_mk, storeHolds_mk_iff]
      refine ⟨accP1, r2, le_refl _, ?_⟩
      refine storeHoldsKids_transfer _ _ _ ?_ r3
      intro k ch _ x q' hx
      exact storeHolds_transfer (Nat.le_succ _) (fun i c _ hc => hc) _ _ _ hx
    · intro fuel hfuel
      obtain ⟨f, rfl⟩ : ∃ f, fuel = f + 1 := ⟨fuel - 1, by omega⟩
      have e : h ++ h1.drop h.length = h1 := by
        conv => rhs; rw [← List.take_append_drop h.length h1, r1]
      rw [cloneTreeOn_succ, hcell]
      simp only [hN f (by omega), e]

end StoreLemmas

section CopyClaims

variable {Ch : Type} [LinearOrder Ch] [Inhabited Ch]

theorem cloneRootOn_spec {ptr : Option Nat} {t : ternary_search_tree Ch} {h : List (Cell Ch)}
    (hs : storeHoldsRoot 0 h ptr t.mRoot = true) :
    ∃ N e ptr', (∀ fuel, N ≤ fuel → cloneRootOn fuel h ptr = some (ptr', h ++ e)) ∧
      storeHoldsRoot h.length (h ++ e) ptr' t.copy.mRoot = true ∧
      storeHoldsRoot 0 (h ++ e) ptr t.mRoot = true := by
  obtain ⟨root, sz⟩ := t
  cases ptr with
  | none =>
    cases root with
    | none => exact ⟨0, [], none, fun fuel _ => by simp [cloneRootOn], rfl, rfl⟩
    | some r => cases hs
  | some a =>
    cases root with
    | none => cases hs
    | some r =>
      have hs' : storeHolds 0 h a none r = true := hs
      obtain ⟨N, e, hcl, hN⟩ := cloneTreeOn_spec r h a none none hs'
      refine ⟨N, e, some h.length, fun fuel hfuel => ?_, hcl, storeHolds_append e hs'⟩
      simp only [cloneRootOn, hN fuel hfuel]

/-- C17: copy-constructing from a reachable tree `t`, or assigning `t` to any
tree `u`, gives a tree with the same `size()` whose root is a structural clone
of the root of `t` (as values the two are equal: the same letter, flag and
children in the same order at every node); the copy compares `==` to `t`,
iterates the same sequence and has the same members.  In the free store the
clone is built from new cells only: wherever the store holds the tree of `t`,
`cloneTree(t.mRoot, NULL)` returns, the store afterwards is the old one
extended by new cells, so that the tree of `t` is still held at its old
pointer, and every cell of the copy is one of the new cells; the two trees
share no node. -/
theorem C17_copy_is_independent_clone (t u : ternary_search_tree Ch) (n : Nat)
    (h : List (Cell Ch)) (ptr : Option Nat) (ht : Reachable t) (hn : t.size ≤ n)
    (hs : storeHoldsRoot 0 h ptr t.mRoot = true) :
    t.copy.size = t.size ∧ t.copy.mRoot = t.mRoot ∧ u.assign t = t.copy ∧
      operator_eq n t.copy t = some true ∧
      (∃ l, t.copy.traverse n = some l ∧ t.traverse n = some l) ∧
      (∀ s, t.copy.contains s ↔ t.contains s) ∧
      ∃ N e ptr', (∀ fuel, N ≤ fuel → cloneRootOn fuel h ptr = some (ptr', h ++ e)) ∧
        storeHoldsRoot h.length (h ++ e) ptr' t.copy.mRoot = true ∧
        storeHoldsRoot 0 (h ++ e) ptr t.mRoot = true := by
  have hinv := ht.inv
  have hc := copy_eq hinv
  refine ⟨by rw [hc], by rw [hc], rfl, ?_, ⟨t.words, ?_, traverse_eq hinv n hn⟩, ?_, ?_⟩
  · rw [hc, operator_eq_words hinv hinv n hn]
    simp
  · rw [hc]
    exact traverse_eq hinv n hn
  · intro s
    rw [hc]
  · exact cloneRootOn_spec hs

theorem C17_copy_is_independent_clone_witness :
    Reachable sampleTree ∧ sampleTree.size ≤ 3 ∧
      storeHoldsRoot 0 sampleStore (some 0) sampleTree.mRoot = true ∧
      (sampleTree.copy.size = sampleTree.size ∧ sampleTree.copy.mRoot = sampleTree.mRoot ∧
        (ternary_search_tree.empty : ternary_search_tree Nat).assign sampleTree =
          sampleTree.copy ∧
        operator_eq 3 sampleTree.copy sampleTree = some true ∧
        (∃ l, sampleTree.copy.traverse 3 = some l ∧ sampleTree.traverse 3 = some l) ∧
        (∀ s, sampleTree.copy.contains s ↔ sampleTree.contains s) ∧
        ∃ N e ptr',
          (∀ fuel, N ≤ fuel →
            cloneRootOn fuel sampleStore (some 0) = some (ptr', sampleStore ++ e)) ∧
          storeHoldsRoot sampleStore.length (sampleStore ++ e) ptr' sampleTree.copy.mRoot = true ∧
          storeHoldsRoot 0 (sampleStore ++ e) (some 0) sampleTree.mRoot = true) :=
  ⟨sampleTree_reachable, by decide, rfl,
    C17_copy_is_independent_clone sampleTree ternary_search_tree.empty 3 sampleStore (some 0)
      sampleTree_reachable (by decide) rfl⟩

/-- The clone of the sample store, run: four new cells at the pointers 4 to 7,
the old cells as they were. -/
theorem cloneRootOn_sample :
    cloneRootOn 3 sampleStore (some 0) =
      some (some 4, sampleStore ++
        [⟨0, false, [(2, 5), (3, 7)], none⟩, ⟨2, true, [(1, 6)], some 4⟩,
          ⟨1, true, [], some 5⟩, ⟨3, true, [], some 4⟩]) :=
  rfl

end CopyClaims

/-! ## Cursors across other insertions and erasures -/

section CursorStability

variable {Ch : Type} [LinearOrder Ch] [Inhabited Ch]

/-- On a tree that satisfies the invariant, the cursor of a member is the one
`find` returns, every node on its stack is in the tree, and `operator++` takes
it to the successor of the member. -/
theorem cursorAt_valid {u : ternary_search_tree Ch} (hinv : u.Inv) {m : List Ch}
    (hm : u.contains m) :
    (∀ p, p ∈ (cursorAt m).mTrace → ∃ n, u.deref p = some n) ∧
      u.find m = some (cursorAt m) ∧ (cursorAt m).eq u.end_ = false ∧
      (cursorAt m).star = m ∧
      ∃ c', u.increment (cursorAt m) = some c' ∧
        (c'.eq u.end_ = true ↔ ∀ w, u.contains w → ¬ m < w) ∧
        (c'.eq u.end_ = false →
          u.find c'.star = some c' ∧ m < c'.star ∧
            ∀ w, u.contains w → m < w → c'.star ≤ w) := by
  refine ⟨fun p hp => deref_of_contains hinv hm hp, find_of_contains hinv hm,
    cursorAt_ne_end _ _, rfl, ?_⟩
  obtain ⟨c', hinc, hcase⟩ := increment_member hinv hm
  refine ⟨c', hinc, ?_⟩
  rcases hcase with ⟨rfl, hnone⟩ | ⟨r, rfl, hr, hlt, hleast⟩
  · refine ⟨⟨fun _ => hnone, fun _ => end_eq_end _⟩, ?_⟩
    intro hf
    simp [end_eq_end] at hf
  · refine ⟨?_, ?_⟩
    · simp only [cursorAt_ne_end, Bool.false_eq_true, false_iff]
      intro hall
      exact hall r hr hlt
    · intro _
      exact ⟨find_of_contains hinv hr, hlt, hleast⟩

theorem insert_contains {t : ternary_search_tree Ch} (hinv : t.Inv) (s : List Ch)
    {r : (const_iterator Ch × Bool) × ternary_search_tree Ch} (hi : t.insert s = some r)
    (w : List Ch) : r.2.contains w ↔ (w = s ∨ t.contains w) := by
  have hwf := insertNode_WF (ensureRoot_WF hinv) s
  rw [insert_eq hinv] at hi
  cases hi
  rw [contains_iff (t := ⟨some (insertNode t.ensureRoot s).1, _⟩) rfl hwf, insertNode_isWordAt,
    ← ensureRoot_isWordAt hinv]
  simp

/-- C21: on every reachable tree, a cursor obtained from `find(m)` for a member
`m` remains valid across `erase(s)` for every other string `s` (a member or
not) and across `insert(s)` for every string `s`: on the tree afterwards every
node on its stack is still in the tree, it is the cursor `find(m)` returns, it
is not `end()`, it dereferences to `m`, and `operator++` takes it to the
successor of `m` among the members of the tree afterwards (to `end()` iff `m`
is the largest of them). -/
theorem C21_cursor_stays_valid (t : ternary_search_tree Ch) (s m : List Ch)
    (c : const_iterator Ch) (h : Reachable t) (hc : t.find m = some c)
    (hne : c.eq t.end_ = false) (hsm : s ≠ m) :
    (∃ b u, t.erase s = some (b, u) ∧
      (∀ p, p ∈ c.mTrace → ∃ n, u.deref p = some n) ∧
      u.find m = some c ∧ c.eq u.end_ = false ∧ c.star = m ∧
      ∃ c', u.increment c = some c' ∧
        (c'.eq u.end_ = true ↔ ∀ w, u.contains w → ¬ m < w) ∧
        (c'.eq u.end_ = false →
          u.find c'.star = some c' ∧ m < c'.star ∧
            ∀ w, u.contains w → m < w → c'.star ≤ w)) ∧
    ∀ s', ∃ r, t.insert s' = some r ∧
      (∀ p, p ∈ c.mTrace → ∃ n, r.2.deref p = some n) ∧
      r.2.find m = some c ∧ c.eq r.2.end_ = false ∧ c.star = m ∧
      ∃ c', r.2.increment c = some c' ∧
        (c'.eq r.2.end_ = true ↔ ∀ w, r.2.contains w → ¬ m < w) ∧
        (c'.eq r.2.end_ = false →
          r.2.find c'.star = some c' ∧ m < c'.star ∧
            ∀ w, r.2.contains w → m < w → c'.star ≤ w) := by
  have hinv := h.inv
  have hm := contains_of_find hc hne
  obtain ⟨root, _, _, rfl⟩ := find_member hinv hc hne
  refine ⟨?_, ?_⟩
  · by_cases hs : t.contains s
    · obtain ⟨u, he, hinvu, _, hmem⟩ := erase_member_spec hinv hs
      exact ⟨true, u, he, cursorAt_valid hinvu ((hmem m).mpr ⟨hm, fun e => hsm e.symm⟩)⟩
    · exact ⟨false, t, erase_non_member hinv hs, cursorAt_valid hinv hm⟩
  · intro s'
    have hi := insert_eq hinv s'
    refine ⟨_, hi, ?_⟩
    exact cursorAt_valid (Inv_insert hinv hi) ((insert_contains hinv s' hi m).mpr (Or.inr hm))

theorem C21_cursor_stays_valid_witness :
    Reachable sampleTree ∧ sampleTree.find [2] = some (cursorAt [2]) ∧
      (cursorAt [2]).eq sampleTree.end_ = false ∧ ([3] : List Nat) ≠ [2] ∧
      ((∃ b u, sampleTree.erase [3] = some (b, u) ∧
        (∀ p, p ∈ (cursorAt [2]).mTrace → ∃ n, u.deref p = some n) ∧
        u.find [2] = some (cursorAt [2]) ∧ (cursorAt [2]).eq u.end_ = false ∧
        (cursorAt [2]).star = [2] ∧
        ∃ c', u.increment (cursorAt [2]) = some c' ∧
          (c'.eq u.end_ = true ↔ ∀ w, u.contains w → ¬ [2] < w) ∧
          (c'.eq u.end_ = false →
            u.find c'.star = some c' ∧ [2] < c'.star ∧
              ∀ w, u.contains w → [2] < w → c'.star ≤ w)) ∧
      ∀ s', ∃ r, sampleTree.insert s' = some r ∧
        (∀ p, p ∈ (cursorAt [2]).mTrace → ∃ n, r.2.deref p = some n) ∧
        r.2.find [2] = some (cursorAt [2]) ∧ (cursorAt [2]).eq r.2.end_ = false ∧
        (cursorAt [2]).star = [2] ∧
        ∃ c', r.2.increment (cursorAt [2]) = some c' ∧
          (c'.eq r.2.end_ = true ↔ ∀ w, r.2.contains w → ¬ [2] < w) ∧
          (c'.eq r.2.end_ = false →
            r.2.find c'.star = some c' ∧ [2] < c'.star ∧
              ∀ w, r.2.contains w → [2] < w → c'.star ≤ w)) :=
  ⟨sampleTree_reachable, sampleTree_find, rfl, by decide,
    C21_cursor_stays_valid sampleTree [3] [2] (cursorAt [2]) sampleTree_reachable
      sampleTree_find rfl (by decide)⟩

end CursorStability

/-! ## Insertion when memory runs out -/

section AllocationFailure

variable {Ch : Type} [LinearOrder Ch]

theorem stepInto_isWordAt (c : Ch) (n : Node Ch) (w : List Ch) :
    (stepInto c n).isWordAt w = n.isWordAt w := by
  unfold stepInto
  cases hf : mapFind n.mEqual c with
  | some ch => rfl
  | none =>
    cases w with
    | nil => simp [Node.isWordAt_nil]
    | cons d ds =>
      rw [Node.isWordAt_cons, Node.isWordAt_cons]
      simp only [Node.mEqual_mk, mapFind_mapAssign]
      by_cases hd : d = c
      · subst hd
        simp [hf, Node.isWordAt_leaf]
      · simp [hd]

theorem Node.update_isWordAt (f : Node Ch → Node Ch)
    (hf : ∀ m w, (f m).isWordAt w = m.isWordAt w) (p : List Ch) :
    ∀ (n : Node Ch) (w : List Ch), (n.update p f).isWordAt w = n.isWordAt w := by
  induction p with
  | nil => intro n w; rw [Node.update_nil]; exact hf n w
  | cons c cs ih =>
    intro n w
    rw [Node.update_cons]
    cases hm : mapFind n.mEqual c with
    | none => simp
    | some ch =>
      simp only
      cases w with
      | nil => simp [Node.isWordAt_nil]
      | cons d ds =>
        rw [Node.isWordAt_cons, Node.isWordAt_cons]
        simp only [Node.mEqual_mk, mapFind_mapAssign]
        by_cases hd : d = c
        · subst hd
          simp [hm, ih]
        · simp [hd]

theorem insertLoop_isWordAt (rest : List Ch) (root : Node Ch) (curr w : List Ch) :
    (insertLoop root curr rest).1.isWordAt w = root.isWordAt w := by
  induction rest generalizing root curr with
  | nil => rfl
  | cons c rest ih =>
    simp only [insertLoop]
    rw [ih, Node.update_isWordAt _ (stepInto_isWordAt c)]

theorem insertLoop_append (pre rest : List Ch) (root : Node Ch) (curr : List Ch) :
    insertLoop root curr (pre ++ rest) =
      insertLoop (insertLoop root curr pre).1 (curr ++ pre) rest := by
  induction pre generalizing root curr with
  | nil => simp [insertLoop]
  | cons c pre ih =>
    rw [List.cons_append]
    simp only [insertLoop]
    rw [ih]
    simp

theorem insertLoop_deref_some (rest : List Ch) (root : Node Ch) (curr : List Ch) (n : Node Ch)
    (hd : root.deref curr = some n) :
    ∃ m, (insertLoop root curr rest).1.deref (curr ++ rest) = some m := by
  obtain ⟨m, hm, _⟩ := insertLoop_deref rest root curr n hd
  exact ⟨m, hm⟩

/-- The loop with a bound on the allocations either runs like the loop without
one, or stops at the first missing node for which no allocation is left. -/
theorem insertLoopAlloc_spec (rest : List Ch) : ∀ (allocs : Nat) (root : Node Ch)
    (curr : List Ch) (n : Node Ch), root.deref curr = some n →
    (insertLoopAlloc allocs root curr rest =
        some (InsertLoopEnd.done (insertLoop root curr rest).1 (insertLoop root curr rest).2)) ∨
      (allocs < rest.length ∧ ∃ pre c post m, rest = pre ++ c :: post ∧
        insertLoopAlloc allocs root curr rest =
          some (InsertLoopEnd.threw (insertLoop root curr pre).1 (curr ++ pre) c) ∧
        (insertLoop root curr pre).1.deref (curr ++ pre) = some m ∧
        mapFind m.mEqual c = none) := by
  induction rest with
  | nil => intro allocs root curr n _; exact Or.inl rfl
  | cons c rest ih =>
    intro allocs root curr n hd
    obtain ⟨n1, hd1⟩ := insertLoop_deref_some [c] root curr n hd
    simp only [insertLoop] at hd1
    have hstep : ∀ a, a ≤ allocs →
        (insertLoopAlloc a (root.update curr (stepInto c)) (curr ++ [c]) rest =
          some (InsertLoopEnd.done (insertLoop root curr (c :: rest)).1
            (insertLoop root curr (c :: rest)).2)) ∨
        (a < rest.length ∧ ∃ pre c' post m, c :: rest = (c :: pre) ++ c' :: post ∧
          insertLoopAlloc a (root.update curr (stepInto c)) (curr ++ [c]) rest =
            some (InsertLoopEnd.threw (insertLoop root curr (c :: pre)).1
              (curr ++ c :: pre) c') ∧
          (insertLoop root curr (c :: pre)).1.deref (curr ++ c :: pre) = some m ∧
          mapFind m.mEqual c' = none) := by
      intro a _
      rcases ih a (root.update curr (stepInto c)) (curr ++ [c]) n1 hd1 with h1 | h1
      · exact Or.inl h1
      · obtain ⟨hlt, pre, c', post, m, e, h2, h3, h4⟩ := h1
        refine Or.inr ⟨hlt, pre, c', post, m, by rw [e]; rfl, ?_, ?_, h4⟩
        · simpa [insertLoop] using h2
        · simpa [insertLoop] using h3
    simp only [insertLoopAlloc, hd]
    cases hf : mapFind n.mEqual c with
    | some ch =>
      simp only
      rcases hstep allocs (le_refl _) with h1 | ⟨hlt, pre, c', post, m, e, h2, h3, h4⟩
      · exact Or.inl h1
      · exact Or.inr ⟨by simp only [List.length_cons]; omega, c :: pre, c', post, m, e, h2,
          h3, h4⟩
    | none =>
      simp only
      cases allocs with
      | zero =>
        refine Or.inr ⟨by simp, [], c, rest, n, rfl, ?_, ?_, hf⟩
        · simp [insertLoop]
        · simpa [insertLoop] using hd
      | succ a =>
        simp only
        rcases hstep a (Nat.le_succ a) with h1 | ⟨hlt, pre, c', post, m, e, h2, h3, h4⟩
        · exact Or.inl h1
        · exact Or.inr ⟨by simp only [List.length_cons]; omega, c :: pre, c', post, m, e, h2,
            h3, h4⟩

theorem insertAlloc_of_root [Inhabited Ch] {t : ternary_search_tree Ch} (a allocs : Nat)
    (str : List Ch)
    (hstart : (match t.mRoot with
      | some r => some (r, allocs)
      | none =>
        match allocs with
        | 0 => none
        | a + 1 => some (Node.mk default false [], a)) = some (t.ensureRoot, a)) :
    (insertLoopAlloc a t.ensureRoot [] str =
        some (InsertLoopEnd.done (insertLoop t.ensureRoot [] str).1
          (insertLoop t.ensureRoot [] str).2) →
      t.insertAlloc allocs str = (t.insert str).map Except.ok) ∧
    ∀ root1 curr c, insertLoopAlloc a t.ensureRoot [] str =
        some (InsertLoopEnd.threw root1 curr c) →
      t.insertAlloc allocs str = some (Except.error ⟨some root1, t.mSize, some (curr, c)⟩) := by
  constructor
  · intro hl
    unfold ternary_search_tree.insertAlloc ternary_search_tree.insert
    simp only [hstart, hl]
    cases (insertLoop t.ensureRoot [] str).1.deref (insertLoop t.ensureRoot [] str).2 with
    | none => rfl
    | some n =>
      simp only
      by_cases hw : n.mIsWord = true
      · simp only [hw, if_true]
        cases const_iterator.make ⟨some (insertLoop t.ensureRoot [] str).1, t.mSize⟩
          (some (insertLoop t.ensureRoot [] str).2) <;> rfl
      · simp only [hw, Bool.false_eq_true, if_false]
        cases const_iterator.make
          ⟨some ((insertLoop t.ensureRoot [] str).1.update (insertLoop t.ensureRoot [] str).2
            (fun m => Node.mk m.mLetter true m.mEqual)), t.mSize + 1⟩
          (some (insertLoop t.ensureRoot [] str).2) <;> rfl
  · intro root1 curr c hl
    unfold ternary_search_tree.insertAlloc
    simp only [hstart, hl]

/-- C22 (as stated, refuted): on a freshly constructed tree, `insert` of the
string 1 2 during which the third allocation fails (the root and the node for 1
are allocated, the node for 2 is not) leaves a tree that is not the one before
the call: the root and the node for 1 stay in the tree, a half of the new
chain, and the entry for 2 in the child map of the node for 1 holds a null
pointer.  In that state `begin()` has undefined behaviour. -/
theorem C22_counterexample :
    (ternary_search_tree.empty : ternary_search_tree Nat).mRoot = none ∧
      (ternary_search_tree.empty : ternary_search_tree Nat).insertAlloc 2 [1, 2] =
        some (Except.error
          ⟨some (Node.mk 0 false [(1, Node.mk 1 false [])]), 0, some ([1], 2)⟩) ∧
      (⟨some (Node.mk 0 false [(1, Node.mk 1 false [])]), 0⟩ :
        ternary_search_tree Nat).begin = none :=
  ⟨rfl, rfl, rfl⟩

end AllocationFailure

section AllocationClaims

variable {Ch : Type} [LinearOrder Ch] [Inhabited Ch]

/-- C22 (amended): on every reachable tree, `insert(str)` during which only the
next `allocs` node allocations succeed either returns exactly what `insert`
returns (always so when `allocs` is more than the length of `str`), or is left
by the exception without any rollback: `size()` and the terminal flags are as
before, so no string has become or ceased to be a member, but the nodes
created along `str` before the failure stay in the tree and the map entry for
the character whose node could not be allocated holds a null pointer.  Only
when it is the root node that cannot be allocated is the tree left as it
was. -/
theorem C22_failed_insert_is_not_rolled_back (t : ternary_search_tree Ch) (allocs : Nat)
    (str : List Ch) (h : Reachable t) :
    (∃ r, t.insertAlloc allocs str = some (Except.ok r) ∧ t.insert str = some r) ∨
    (∃ st, t.insertAlloc allocs str = some (Except.error st) ∧ allocs < str.length + 1 ∧
      st.mSize = t.mSize ∧
      (∀ w, (∃ root, st.mRoot = some root ∧ root.isWordAt w = true) ↔ t.contains w) ∧
      ((st.mRoot = none ∧ t.mRoot = none ∧ st.nullEntry = none) ∨
        ∃ pre c post m, str = pre ++ c :: post ∧
          st.mRoot = some (insertLoop t.ensureRoot [] pre).1 ∧
          st.nullEntry = some (pre, c) ∧
          (insertLoop t.ensureRoot [] pre).1.deref pre = some m ∧
          mapFind m.mEqual c = none)) := by
  have hinv := h.inv
  have hmain : ∀ a, allocs ≤ a + 1 →
      (match t.mRoot with
        | some r => some (r, allocs)
        | none =>
          match allocs with
          | 0 => none
          | a + 1 => some (Node.mk default false [], a)) = some (t.ensureRoot, a) →
      (∃ r, t.insertAlloc allocs str = some (Except.ok r) ∧ t.insert str = some r) ∨
      (∃ st, t.insertAlloc allocs str = some (Except.error st) ∧ allocs < str.length + 1 ∧
        st.mSize = t.mSize ∧
        (∀ w, (∃ root, st.mRoot = some root ∧ root.isWordAt w = true) ↔ t.contains w) ∧
        ((st.mRoot = none ∧ t.mRoot = none ∧ st.nullEntry = none) ∨
          ∃ pre c post m, str = pre ++ c :: post ∧
            st.mRoot = some (insertLoop t.ensureRoot [] pre).1 ∧
            st.nullEntry = some (pre, c) ∧
            (insertLoop t.ensureRoot [] pre).1.deref pre = some m ∧
            mapFind m.mEqual c = none)) := by
    intro a ha hstart
    obtain ⟨h1, h2⟩ := insertAlloc_of_root a allocs str hstart
    rcases insertLoopAlloc_spec str a t.ensureRoot [] t.ensureRoot (Node.deref_nil _) with
      hl | ⟨hlt, pre, c, post, m, e, hl, hd, hf⟩
    · left
      refine ⟨_, ?_, insert_eq hinv str⟩
      rw [h1 hl, insert_eq hinv str]
      rfl
    · right
      refine ⟨_, h2 _ _ _ hl, by omega, rfl, ?_, Or.inr ⟨pre, c, post, m, e, rfl, rfl, ?_, hf⟩⟩
      · intro w
        simp only [Option.some.injEq, exists_eq_left', insertLoop_isWordAt]
        exact ensureRoot_isWordAt hinv w
      · simpa using hd
  cases hr : t.mRoot with
  | some r =>
    rw [← hr]
    apply hmain allocs (Nat.le_succ _)
    simp only [ternary_search_tree.ensureRoot, hr]
  | none =>
    cases allocs with
    | zero =>
      right
      refine ⟨⟨none, t.mSize, none⟩, ?_, by omega, rfl, ?_, Or.inl ⟨rfl, rfl, rfl⟩⟩
      · simp only [ternary_search_tree.insertAlloc, hr]
      · intro w
        constructor
        · rintro ⟨root, hroot, _⟩
          cases hroot
        · intro hw
          exact absurd hw (not_contains_of_no_root hr w)
    | succ a =>
      have := hmain a (le_refl _) (by simp only [ternary_search_tree.ensureRoot, hr])
      rw [hr] at this
      exact this

theorem C22_failed_insert_is_not_rolled_back_witness :
    Reachable sampleTree ∧
      ((∃ r, sampleTree.insertAlloc 1 [2, 5, 6] = some (Except.ok r) ∧
        sampleTree.insert [2, 5, 6] = some r) ∨
      (∃ st, sampleTree.insertAlloc 1 [2, 5, 6] = some (Except.error st) ∧
        1 < ([2, 5, 6] : List Nat).length + 1 ∧
        st.mSize = sampleTree.mSize ∧
        (∀ w, (∃ root, st.mRoot = some root ∧ root.isWordAt w = true) ↔
          sampleTree.contains w) ∧
        ((st.mRoot = none ∧ sampleTree.mRoot = none ∧ st.nullEntry = none) ∨
          ∃ pre c post m, [2, 5, 6] = pre ++ c :: post ∧
            st.mRoot = some (insertLoop sampleTree.ensureRoot [] pre).1 ∧
            st.nullEntry = some (pre, c) ∧
            (insertLoop sampleTree.ensureRoot [] pre).1.deref pre = some m ∧
            mapFind m.mEqual c = none))) :=
  ⟨sampleTree_reachable,
    C22_failed_insert_is_not_rolled_back sampleTree 1 [2, 5, 6] sampleTree_reachable⟩

end AllocationClaims

/-! ## The hash map -/

section HashMapLemmas

variable {Key T : Type}

theorem hash_map.Inv.length_pos {m : hash_map Key T} (h : m.Inv) : 0 < m.mBuckets.length :=
  List.length_pos.mpr h.1

end HashMapLemmas


section HashMapClaims

variable {Key T : Type}

/-- C30 as stated fails for large requests: with the `max_size()` of a vector
of 24-byte lists on a 64-bit machine (384307168202282325), the positive bucket
count `2^60` makes the constructor throw `std::length_error`, and no map is
produced. -/
theorem C30_counterexample :
    0 < 2 ^ 60 ∧
      (hash_map.construct 384307168202282325 (fun _ => true) (fun a b => decide (a = b))
          (2 ^ 60) (fun k => k) : Except std_exception (hash_map Nat Nat)) =
        Except.error std_exception.length_error :=
  ⟨by decide, by simp [hash_map.construct]⟩

/-- C30 (amended): the constructor throws `std::invalid_argument` iff the
requested number of buckets is 0; it throws `std::length_error` iff the request
exceeds the `max_size()` of the bucket vector, and `std::bad_alloc` iff the
request is positive, within `max_size()`, and the storage of the vector cannot
be allocated; for every other positive number of buckets it produces a map
with `size() == 0`, `empty()`, `bucket_count()` equal to the request, and no
key present. -/
theorem C30_hash_map_constructor (vecMax : Nat) (alloc : Nat → Bool)
    (equal : Key → Key → Bool) (hash : Key → Nat) (n : Nat) :
    ((hash_map.construct vecMax alloc equal n hash : Except std_exception (hash_map Key T)) =
        Except.error std_exception.invalid_argument ↔ n = 0) ∧
      ((hash_map.construct vecMax alloc equal n hash : Except std_exception (hash_map Key T)) =
        Except.error std_exception.length_error ↔ vecMax < n) ∧
      ((hash_map.construct vecMax alloc equal n hash : Except std_exception (hash_map Key T)) =
        Except.error std_exception.bad_alloc ↔ (0 < n ∧ n ≤ vecMax ∧ alloc n = false)) ∧
      (0 < n → n ≤ vecMax → alloc n = true →
        ∃ m : hash_map Key T, hash_map.construct vecMax alloc equal n hash = Except.ok m ∧
          m.size = 0 ∧ m.isEmpty = true ∧ m.bucket_count = n ∧ ∀ k, ¬ m.present k) := by
  unfold hash_map.construct
  by_cases h1 : vecMax < n
  · have hn : n ≠ 0 := by omega
    simp only [h1, if_true]
    refine ⟨?_, ?_, ?_, ?_⟩
    · simp [hn]
    · simp
    · constructor
      · intro h
        cases h
      · rintro ⟨_, h, _⟩
        omega
    · intro _ h
      omega
  · simp only [h1, if_false]
    by_cases hn : n = 0
    · subst hn
      simp
    · have hpos : 0 < n := Nat.pos_of_ne_zero hn
      have hle : n ≤ vecMax := by omega
      cases ha : alloc n with
      | false => simp [hn, hpos, hle]
      | true =>
        simp only [hn, ne_eq, not_false_eq_true, Bool.true_eq_false, and_false, if_false]
        refine ⟨by simp, by simp, by simp, fun _ _ _ => ?_⟩
        refine ⟨⟨List.replicate n [], 0, equal, hash⟩, rfl, rfl, rfl, ?_, ?_⟩
        · simp [hash_map.bucket_count]
        · rintro k ⟨b, e, hb, he, _⟩
          rw [List.mem_replicate] at hb
          rw [hb.2] at he
          cases he

theorem C30_hash_map_constructor_witness :
    0 < 3 ∧ 3 ≤ 384307168202282325 ∧ (fun _ : Nat => true) 3 = true ∧
      ((hash_map.construct 384307168202282325 (fun _ => true) (fun a b => decide (a = b)) 3
          (fun k => k) : Except std_exception (hash_map Nat Nat)) =
        Except.error std_exception.invalid_argument ↔ 3 = 0) ∧
      ∃ m : hash_map Nat Nat,
        hash_map.construct 384307168202282325 (fun _ => true) (fun a b => decide (a = b)) 3
          (fun k => k) = Except.ok m ∧
        m.size = 0 ∧ m.isEmpty = true ∧ m.bucket_count = 3 ∧ ∀ k, ¬ m.present k :=
  ⟨by decide, by decide, rfl,
    (C30_hash_map_constructor 384307168202282325 (fun _ => true) (fun a b => decide (a = b))
      (fun k => k) 3).1,
    (C30_hash_map_constructor 384307168202282325 (fun _ => true) (fun a b => decide (a = b))
      (fun k => k) 3).2.2.2 (by decide) (by decide) rfl⟩

end HashMapClaims

/-! ## The min-stack and the min-queue -/

section MinStackLemmas

variable {T : Type}

theorem getElem?_snoc_lt {α : Type} (l : List α) (a : α) {k : Nat} (h : k < l.length) :
    (l ++ [a])[k]? = l[k]? :=
  List.getElem?_append_left h

theorem getElem?_snoc_length {α : Type} (l : List α) (a : α) :
    (l ++ [a])[l.length]? = some a := by
  simp

theorem getElem?_lt_of_some {α : Type} {l : List α} {k : Nat} {a : α} (h : l[k]? = some a) :
    k < l.length := by
  by_contra hge
  rw [List.getElem?_eq_none (not_lt.mp hge)] at h
  cases h

theorem getLast?_eq_some_iff_getElem? {α : Type} (l : List α) (hl : l ≠ []) :
    ∃ a, l.getLast? = some a ∧ l[l.length - 1]? = some a := by
  have hpos : 0 < l.length := List.length_pos.mpr hl
  refine ⟨l[l.length - 1], ?_, List.getElem?_eq_getElem (by omega)⟩
  rw [List.getLast?_eq_getElem?, List.getElem?_eq_getElem (by omega)]

theorem StackInv_nil (c : T → T → Bool) : StackInv c ([] : List (T × Nat)) := by
  intro k e h
  simp at h

theorem StackInv_dropLast {c : T → T → Bool} {stk : List (T × Nat)} (h : StackInv c stk) :
    StackInv c stk.dropLast := by
  have hget : ∀ (j : Nat) (y : T × Nat), stk.dropLast[j]? = some y → stk[j]? = some y := by
    intro j y hj
    have hlt := getElem?_lt_of_some hj
    rw [List.length_dropLast] at hlt
    rw [List.dropLast_eq_take, List.getElem?_take_of_lt (by omega)] at hj
    exact hj
  intro k e hk
  have hklt := getElem?_lt_of_some hk
  rw [List.length_dropLast] at hklt
  obtain ⟨h1, x, h2, h3, h4⟩ := h k e (hget k e hk)
  refine ⟨h1, x, ?_, ?_, ?_⟩
  · rw [List.dropLast_eq_take, List.getElem?_take_of_lt (by omega)]
    exact h2
  · intro j y hj hy
    exact h3 j y hj (hget j y hy)
  · intro j y hj hy
    exact h4 j y hj (hget j y hy)

/-- What `min()` returns on a non-empty stack that satisfies the invariant. -/
theorem min_stack.stack_min_spec {s : min_stack T} (h : StackInv s.mComp s.mStack)
    (hne : s.mStack ≠ []) :
    ∃ e x, s.mStack.getLast? = some e ∧ e.2 < s.mStack.length ∧
      s.mStack[e.2]? = some x ∧ s.min = some x.1 ∧
      (∀ y, y ∈ s.mStack → s.mComp y.1 x.1 = false) ∧
      ∀ (j : Nat) (y : T × Nat), j < e.2 → s.mStack[j]? = some y → s.mComp x.1 y.1 = true := by
  obtain ⟨e, he, hk⟩ := getLast?_eq_some_iff_getElem? s.mStack hne
  obtain ⟨h1, x, h2, h3, h4⟩ := h _ e hk
  have hpos : 0 < s.mStack.length := List.length_pos.mpr hne
  refine ⟨e, x, he, by omega, h2, ?_, ?_, h4⟩
  · simp only [min_stack.min, he, h2]
  · intro y hy
    obtain ⟨j, hj⟩ := List.getElem?_of_mem hy
    have := getElem?_lt_of_some hj
    exact h3 j y (by omega) hj

/-- What `push` does on a stack that satisfies the invariant. -/
theorem min_stack.stack_push_spec {s : min_stack T} (hc : StrictWeakOrder s.mComp)
    (h : StackInv s.mComp s.mStack) (v : T) :
    ∃ i, s.push v = some ⟨s.mStack ++ [(v, i)], s.mComp⟩ ∧
      StackInv s.mComp (s.mStack ++ [(v, i)]) := by
  by_cases hne : s.mStack = []
  · refine ⟨0, by simp [min_stack.push, min_stack.isEmpty, hne], ?_⟩
    rw [hne]
    intro k e hk
    cases k with
    | zero =>
      simp only [List.nil_append, List.getElem?_cons_zero, Option.some.injEq] at hk
      subst hk
      refine ⟨le_refl _, (v, 0), by simp, ?_, ?_⟩
      · intro j y hj hy
        have : j = 0 := by omega
        subst this
        simp only [List.nil_append, List.getElem?_cons_zero, Option.some.injEq] at hy
        subst hy
        exact hc.irrefl v
      · intro j y hj
        simp at hj
    | succ k => simp at hk
  · obtain ⟨e0, x0, he0, hlt0, hx0, hmin0, hall0, hlow0⟩ := min_stack.stack_min_spec h hne
    have hemp : s.isEmpty = false := by
      simp only [min_stack.isEmpty, List.isEmpty_eq_false]
      exact hne
    refine ⟨if s.mComp v x0.1 then s.mStack.length else e0.2, ?_, ?_⟩
    · simp only [min_stack.push, hemp, Bool.false_eq_true, if_false, he0, hmin0]
    · intro k e hk
      have hklt := getElem?_lt_of_some hk
      rw [List.length_append, List.length_singleton] at hklt
      by_cases hkl : k < s.mStack.length
      · rw [getElem?_snoc_lt _ _ hkl] at hk
        obtain ⟨h1, x, h2, h3, h4⟩ := h k e hk
        refine ⟨h1, x, ?_, ?_, ?_⟩
        · rw [getElem?_snoc_lt _ _ (by omega)]
          exact h2
        · intro j y hj hy
          rw [getElem?_snoc_lt _ _ (by omega)] at hy
          exact h3 j y hj hy
        · intro j y hj hy
          rw [getElem?_snoc_lt _ _ (by omega)] at hy
          exact h4 j y hj hy
      · have hkeq : k = s.mStack.length := by omega
        subst hkeq
        rw [getElem?_snoc_length] at hk
        cases hk
        by_cases hcv : s.mComp v x0.1 = true
        · simp only [hcv, if_true]
          refine ⟨le_refl _, (v, s.mStack.length), getElem?_snoc_length _ _, ?_, ?_⟩
          · intro j y hj hy
            by_cases hjl : j < s.mStack.length
            · rw [getElem?_snoc_lt _ _ hjl] at hy
              have h1 := hall0 y (List.getElem?_mem hy)
              by_contra hn
              have h2 := hc.trans y.1 v x0.1 (by simpa using hn) hcv
              rw [h1] at h2
              cases h2
            · have hjeq : j = s.mStack.length := by omega
              subst hjeq
              rw [getElem?_snoc_length] at hy
              cases hy
              exact hc.irrefl v
          · intro j y hj hy
            rw [getElem?_snoc_lt _ _ hj] at hy
            have h1 := hall0 y (List.getElem?_mem hy)
            by_contra hn
            have h2 := hc.incomp v y.1 x0.1 (by simpa using hn) h1
            rw [hcv] at h2
            cases h2
        · simp only [hcv, Bool.false_eq_true, if_false]
          refine ⟨by show e0.2 ≤ s.mStack.length; omega, x0, ?_, ?_, ?_⟩
          · rw [getElem?_snoc_lt _ _ hlt0]
            exact hx0
          · intro j y hj hy
            by_cases hjl : j < s.mStack.length
            · rw [getElem?_snoc_lt _ _ hjl] at hy
              exact hall0 y (List.getElem?_mem hy)
            · have hjeq : j = s.mStack.length := by omega
              subst hjeq
              rw [getElem?_snoc_length] at hy
              cases hy
              simpa using hcv
          · intro j y hj hy
            rw [getElem?_snoc_lt _ _ (by have : j < e0.2 := hj; omega)] at hy
            exact hlow0 j y hj hy

theorem min_stack.stack_pop_spec {s : min_stack T} (hne : s.mStack ≠ []) :
    s.pop = some ⟨s.mStack.dropLast, s.mComp⟩ := by
  simp [min_stack.pop, hne]

theorem min_stack.top_spec {s : min_stack T} (hne : s.mStack ≠ []) :
    ∃ e, s.mStack.getLast? = some e ∧ s.top = some e.1 := by
  obtain ⟨e, he, _⟩ := getLast?_eq_some_iff_getElem? s.mStack hne
  exact ⟨e, he, by simp only [min_stack.top, he]⟩

end MinStackLemmas


section MinQueueLemmas

variable {T : Type}

theorem StackInv_closed {c : T → T → Bool} (hc : StrictWeakOrder c) :
    StackClosed c (StackInv c) := by
  refine ⟨StackInv_nil c, fun stk h => StackInv_dropLast h, ?_⟩
  intro stk v h
  exact min_stack.stack_push_spec (s := ⟨stk, c⟩) hc h v

theorem StackIdxInv_closed (c : T → T → Bool) :
    StackClosed c (StackIdxInv : List (T × Nat) → Prop) := by
  refine ⟨?_, ?_, ?_⟩
  · intro k e h
    simp at h
  · intro stk h k e hk
    have hlt := getElem?_lt_of_some hk
    rw [List.length_dropLast] at hlt
    rw [List.dropLast_eq_take, List.getElem?_take_of_lt (by omega)] at hk
    exact h k e hk
  · intro stk v h
    have hstep : ∀ i, i ≤ stk.length → StackIdxInv (stk ++ [(v, i)]) := by
      intro i hi k e hk
      have hklt := getElem?_lt_of_some hk
      rw [List.length_append, List.length_singleton] at hklt
      by_cases hkl : k < stk.length
      · rw [getElem?_snoc_lt _ _ hkl] at hk
        exact h k e hk
      · have hkeq : k = stk.length := by omega
        subst hkeq
        rw [getElem?_snoc_length] at hk
        cases hk
        exact hi
    by_cases hne : stk = []
    · subst hne
      exact ⟨0, by simp [min_stack.push, min_stack.isEmpty], hstep 0 (Nat.zero_le _)⟩
    · obtain ⟨e0, he0, hk0⟩ := getLast?_eq_some_iff_getElem? stk hne
      have hpos : 0 < stk.length := List.length_pos.mpr hne
      have hle := h _ e0 hk0
      have hlt : e0.2 < stk.length := by omega
      have hemp : (⟨stk, c⟩ : min_stack T).isEmpty = false := by
        simp only [min_stack.isEmpty, List.isEmpty_eq_false]
        exact hne
      refine ⟨if c v stk[e0.2].1 then stk.length else e0.2, ?_, hstep _ ?_⟩
      · simp only [min_stack.push, hemp, Bool.false_eq_true, if_false, he0, min_stack.min,
          List.getElem?_eq_getElem hlt]
      · split <;> omega

theorem min_stack.eta_stack (s : min_stack T) : (⟨s.mStack, s.mComp⟩ : min_stack T) = s := by
  cases s; rfl

theorem dropLast_append_getLast {α : Type} {l : List α} {a : α} (h : l.getLast? = some a) :
    l.dropLast ++ [a] = l := by
  exact List.dropLast_append_getLast? a h

/-- The loop of `moveIfNecessary` empties the new stack onto the old one. -/
theorem moveLoop_spec {c : T → T → Bool} {P : List (T × Nat) → Prop} (hP : StackClosed c P) :
    ∀ (n : Nat) (mNew mOld : min_stack T), mOld.mComp = c → P mOld.mStack →
      mNew.mStack.length ≤ n →
      ∃ stk, moveLoop n mNew mOld = some (⟨[], mNew.mComp⟩, ⟨stk, c⟩) ∧ P stk ∧
        stk.map Prod.fst = mOld.mStack.map Prod.fst ++ (mNew.mStack.map Prod.fst).reverse := by
  have hbase : ∀ (n : Nat) (mNew mOld : min_stack T), mOld.mComp = c → P mOld.mStack →
      mNew.mStack = [] →
      ∃ stk, moveLoop n mNew mOld = some (⟨[], mNew.mComp⟩, ⟨stk, c⟩) ∧ P stk ∧
        stk.map Prod.fst =
          mOld.mStack.map Prod.fst ++ (mNew.mStack.map Prod.fst).reverse := by
    intro n mNew mOld hco hp hnil
    have hemp : mNew.isEmpty = true := by simp [min_stack.isEmpty, hnil]
    have e1 : mNew = ⟨[], mNew.mComp⟩ := by rw [← hnil]
    have e2 : mOld = ⟨mOld.mStack, c⟩ := by rw [← hco]
    refine ⟨mOld.mStack, ?_, hp, by simp [hnil]⟩
    cases n with
    | zero =>
      simp only [moveLoop, hemp, if_true]
      exact congrArg some (Prod.ext e1 e2)
    | succ n =>
      simp only [moveLoop, hemp, if_true]
      exact congrArg some (Prod.ext e1 e2)
  intro n
  induction n with
  | zero =>
    intro mNew mOld hco hp hlen
    exact hbase 0 mNew mOld hco hp (List.length_eq_zero.mp (Nat.le_zero.mp hlen))
  | succ n ih =>
    intro mNew mOld hco hp hlen
    by_cases hnil : mNew.mStack = []
    · exact hbase (n + 1) mNew mOld hco hp hnil
    · have hemp : mNew.isEmpty = false := by
        simp only [min_stack.isEmpty, List.isEmpty_eq_false]
        exact hnil
      obtain ⟨e, he, htop⟩ := min_stack.top_spec hnil
      obtain ⟨i, hpush, hp1⟩ := hP.2.2 mOld.mStack e.1 hp
      rw [← hco, min_stack.eta_stack] at hpush
      have hsplit := dropLast_append_getLast he
      obtain ⟨stk, h1, h2, h3⟩ := ih ⟨mNew.mStack.dropLast, mNew.mComp⟩
        ⟨mOld.mStack ++ [(e.1, i)], mOld.mComp⟩ hco hp1
        (by simp only [List.length_dropLast]; omega)
      refine ⟨stk, ?_, h2, ?_⟩
      · simp only [moveLoop, hemp, Bool.false_eq_true, if_false, htop, hpush,
          min_stack.stack_pop_spec hnil]
        exact h1
      · rw [h3]
        conv => rhs; rw [← hsplit]
        simp

theorem min_queue.toList_nil_iff (q : min_queue T) :
    q.toList = [] ↔ q.mOld.mStack = [] ∧ q.mNew.mStack = [] := by
  simp [min_queue.toList]

theorem min_queue.size_eq (q : min_queue T) : q.size = q.toList.length := by
  simp [min_queue.size, min_stack.size, min_queue.toList]
  omega

theorem min_queue.isEmpty_eq (q : min_queue T) : q.isEmpty = q.toList.isEmpty := by
  simp only [min_queue.isEmpty, min_stack.isEmpty, min_queue.toList]
  cases q.mNew.mStack <;> cases q.mOld.mStack <;> simp

theorem min_queue.moveIfNecessary_spec {c : T → T → Bool} {P : List (T × Nat) → Prop}
    (hP : StackClosed c P) {q : min_queue T} (hq : QueueInv c P q) :
    ∃ q1, q.moveIfNecessary = some q1 ∧ QueueInv c P q1 ∧ q1.toList = q.toList ∧
      (q.toList ≠ [] → q1.mOld.mStack ≠ []) := by
  obtain ⟨h1, h2, h3, h4, h5⟩ := hq
  by_cases hold : q.mOld.mStack = []
  · have hemp : q.mOld.isEmpty = true := by simp [min_stack.isEmpty, hold]
    obtain ⟨stk, hm, hp, hvals⟩ := moveLoop_spec hP q.mNew.size q.mNew q.mOld h3 h5 (le_refl _)
    refine ⟨⟨⟨[], q.mNew.mComp⟩, ⟨stk, c⟩, q.mComp⟩, ?_, ⟨h1, h2, rfl, hP.1, hp⟩, ?_, ?_⟩
    · simp only [min_queue.moveIfNecessary, hemp, Bool.not_true, Bool.false_eq_true, if_false,
        hm]
    · simp only [min_queue.toList, List.map_append, List.map_reverse, hvals, hold]
      simp
    · intro hne hstk
      apply hne
      have hstk1 : stk = [] := hstk
      have := congrArg List.length hvals
      simp only [hstk1, hold, List.map_nil, List.length_nil, List.nil_append,
        List.length_reverse, List.length_map] at this
      rw [min_queue.toList_nil_iff]
      exact ⟨hold, List.length_eq_zero.mp this.symm⟩
  · have hemp : q.mOld.isEmpty = false := by
      simp only [min_stack.isEmpty, List.isEmpty_eq_false]
      exact hold
    refine ⟨q, ?_, ⟨h1, h2, h3, h4, h5⟩, rfl, fun _ => hold⟩
    simp only [min_queue.moveIfNecessary, hemp, Bool.not_false, if_true]

theorem min_queue.enqueue_spec {c : T → T → Bool} {P : List (T × Nat) → Prop}
    (hP : StackClosed c P) {q : min_queue T} (hq : QueueInv c P q) (v : T) :
    ∃ q1, q.enqueue v = some q1 ∧ QueueInv c P q1 ∧ q1.toList = q.toList ++ [v] := by
  obtain ⟨h1, h2, h3, h4, h5⟩ := hq
  obtain ⟨i, hpush, hp⟩ := hP.2.2 q.mNew.mStack v h4
  rw [← h2, min_stack.eta_stack] at hpush
  refine ⟨⟨⟨q.mNew.mStack ++ [(v, i)], q.mNew.mComp⟩, q.mOld, q.mComp⟩,
    by simp only [min_queue.enqueue, hpush], ⟨h1, h2, h3, hp, h5⟩, ?_⟩
  simp [min_queue.toList]

theorem toList_cons {q : min_queue T} {x : T} {rest : List T} (hl : q.toList = x :: rest)
    (hold : q.mOld.mStack ≠ []) :
    ∃ e, q.mOld.mStack.getLast? = some e ∧ e.1 = x ∧
      (q.mOld.mStack.dropLast.reverse ++ q.mNew.mStack).map Prod.fst = rest := by
  obtain ⟨e, he, _⟩ := getLast?_eq_some_iff_getElem? q.mOld.mStack hold
  have hsplit := dropLast_append_getLast he
  unfold min_queue.toList at hl
  rw [← hsplit] at hl
  simp only [List.reverse_append, List.reverse_cons, List.reverse_nil, List.nil_append,
    List.singleton_append, List.cons_append, List.map_cons, List.cons.injEq] at hl
  exact ⟨e, he, hl.1, hl.2⟩

theorem min_queue.front_spec {c : T → T → Bool} {P : List (T × Nat) → Prop}
    (hP : StackClosed c P) {q : min_queue T} (hq : QueueInv c P q) {x : T} {rest : List T}
    (hl : q.toList = x :: rest) :
    ∃ q1, q.front = some (x, q1) ∧ QueueInv c P q1 ∧ q1.toList = x :: rest := by
  obtain ⟨q1, hm, hq1, hl1, hne⟩ := min_queue.moveIfNecessary_spec hP hq
  have hold := hne (by rw [hl]; simp)
  rw [hl] at hl1
  obtain ⟨e, he, hex, _⟩ := toList_cons hl1 hold
  refine ⟨q1, ?_, hq1, hl1⟩
  simp only [min_queue.front, hm, min_stack.top, he, hex]

theorem min_queue.dequeue_spec {c : T → T → Bool} {P : List (T × Nat) → Prop}
    (hP : StackClosed c P) {q : min_queue T} (hq : QueueInv c P q) {x : T} {rest : List T}
    (hl : q.toList = x :: rest) :
    ∃ q1, q.dequeue = some q1 ∧ QueueInv c P q1 ∧ q1.toList = rest := by
  obtain ⟨q1, hm, hq1, hl1, hne⟩ := min_queue.moveIfNecessary_spec hP hq
  have hold := hne (by rw [hl]; simp)
  rw [hl] at hl1
  obtain ⟨e, he, hex, hrest⟩ := toList_cons hl1 hold
  obtain ⟨h1, h2, h3, h4, h5⟩ := hq1
  refine ⟨⟨q1.mNew, ⟨q1.mOld.mStack.dropLast, q1.mOld.mComp⟩, q1.mComp⟩, ?_,
    ⟨h1, h2, h3, h4, hP.2.1 _ h5⟩, hrest⟩
  simp only [min_queue.dequeue, hm, min_stack.stack_pop_spec hold]

theorem construct_QueueInv {c : T → T → Bool} {P : List (T × Nat) → Prop}
    (hP : StackClosed c P) : QueueInv c P (min_queue.construct c) :=
  ⟨rfl, rfl, rfl, hP.1, hP.1⟩

/-- A sequence of calls on a queue does what it does on the list of its
elements. -/
theorem runQueue_spec {c : T → T → Bool} {P : List (T × Nat) → Prop} (hP : StackClosed c P) :
    ∀ (ops : List (QueueOp T)) (q : min_queue T) (l : List T), QueueInv c P q →
      fifoModel q.toList ops = some l →
      ∃ q1, runQueue q ops = some q1 ∧ QueueInv c P q1 ∧ q1.toList = l := by
  intro ops
  induction ops with
  | nil =>
    intro q l hq hm
    simp only [fifoModel, Option.some.injEq] at hm
    exact ⟨q, rfl, hq, hm⟩
  | cons op ops ih =>
    intro q l hq hm
    cases op with
    | enqueue v =>
      obtain ⟨q1, h1, h2, h3⟩ := min_queue.enqueue_spec hP hq v
      simp only [fifoModel] at hm
      rw [← h3] at hm
      obtain ⟨q2, h4, h5, h6⟩ := ih q1 l h2 hm
      exact ⟨q2, by simp only [runQueue, h1, h4], h5, h6⟩
    | dequeue =>
      simp only [fifoModel] at hm
      cases hl : q.toList with
      | nil => simp [hl] at hm
      | cons x rest =>
        obtain ⟨q1, h1, h2, h3⟩ := min_queue.dequeue_spec hP hq hl
        simp only [hl, List.isEmpty_cons, Bool.false_eq_true, if_false, List.tail_cons] at hm
        rw [← h3] at hm
        obtain ⟨q2, h4, h5, h6⟩ := ih q1 l h2 hm
        exact ⟨q2, by simp only [runQueue, h1, h4], h5, h6⟩
    | front =>
      simp only [fifoModel] at hm
      cases hl : q.toList with
      | nil => simp [hl] at hm
      | cons x rest =>
        obtain ⟨q1, h1, h2, h3⟩ := min_queue.front_spec hP hq hl
        simp only [hl, List.isEmpty_cons, Bool.false_eq_true, if_false] at hm
        rw [← h3] at hm
        obtain ⟨q2, h4, h5, h6⟩ := ih q1 l h2 hm
        exact ⟨q2, by simp only [runQueue, h1, h4], h5, h6⟩

theorem fifoModel_length : ∀ (ops : List (QueueOp T)) (l l1 : List T),
    fifoModel l ops = some l1 →
      l1.length + countDequeue ops = l.length + countEnqueue ops := by
  intro ops
  induction ops with
  | nil =>
    intro l l1 hm
    simp only [fifoModel, Option.some.injEq] at hm
    simp [hm, countDequeue, countEnqueue]
  | cons op ops ih =>
    intro l l1 hm
    cases op with
    | enqueue v =>
      simp only [fifoModel] at hm
      have := ih _ _ hm
      simp only [List.length_append, List.length_singleton] at this
      simp only [countDequeue, countEnqueue]
      omega
    | dequeue =>
      simp only [fifoModel] at hm
      cases l with
      | nil => simp at hm
      | cons x rest =>
        simp only [List.isEmpty_cons, Bool.false_eq_true, if_false, List.tail_cons] at hm
        have := ih _ _ hm
        simp only [countDequeue, countEnqueue, List.length_cons]
        omega
    | front =>
      simp only [fifoModel] at hm
      cases l with
      | nil => simp at hm
      | cons x rest =>
        simp only [List.isEmpty_cons, Bool.false_eq_true, if_false] at hm
        have := ih _ _ hm
        simp only [countDequeue, countEnqueue]
        omega

end MinQueueLemmas


section MinQueueClaims

variable {T : Type}

/-- C23: the queue is first-in first-out.  For every comparator and every
sequence of `enqueue`, `dequeue` and `front` calls on a new queue in which
`dequeue` and `front` are only called on a non-empty queue (`l` is the list of
the elements enqueued and not yet dequeued, oldest first): all calls return,
`size()` is the number of `enqueue` calls minus the number of `dequeue` calls,
`front()` returns the oldest element, and `dequeue()` removes exactly that
element: afterwards `size()` is one less and `front()` returns the next
oldest element. -/
theorem C23_queue_is_fifo (c : T → T → Bool) (ops : List (QueueOp T)) (l : List T)
    (hm : fifoModel [] ops = some l) :
    ∃ q, runQueue (min_queue.construct c) ops = some q ∧
      q.size + countDequeue ops = countEnqueue ops ∧ q.size = l.length ∧
      q.isEmpty = l.isEmpty ∧
      ∀ x rest, l = x :: rest →
        (∃ q1, q.front = some (x, q1)) ∧
        ∃ q2, q.dequeue = some q2 ∧ q2.size = rest.length ∧
          ∀ y rest2, rest = y :: rest2 → ∃ q3, q2.front = some (y, q3) := by
  have hP := StackIdxInv_closed c
  obtain ⟨q, hr, hq, hl⟩ := runQueue_spec hP ops (min_queue.construct c) l
    (construct_QueueInv hP) hm
  have hlen := fifoModel_length ops [] l hm
  refine ⟨q, hr, ?_, ?_, ?_, ?_⟩
  · rw [min_queue.size_eq, hl]
    simpa using hlen
  · rw [min_queue.size_eq, hl]
  · rw [min_queue.isEmpty_eq, hl]
  · intro x rest hx
    rw [hx] at hl
    obtain ⟨q1, h1, _, _⟩ := min_queue.front_spec hP hq hl
    obtain ⟨q2, h2, hq2, hl2⟩ := min_queue.dequeue_spec hP hq hl
    refine ⟨⟨q1, h1⟩, q2, h2, by rw [min_queue.size_eq, hl2], ?_⟩
    intro y rest2 hy
    rw [hy] at hl2
    obtain ⟨q3, h3, _, _⟩ := min_queue.front_spec hP hq2 hl2
    exact ⟨q3, h3⟩

theorem C23_queue_is_fifo_witness :
    fifoModel ([] : List Nat)
        [QueueOp.enqueue 5, QueueOp.enqueue 3, QueueOp.dequeue, QueueOp.enqueue 7] =
        some [3, 7] ∧
      ∃ q, runQueue (min_queue.construct (fun a b : Nat => decide (a < b)))
          [QueueOp.enqueue 5, QueueOp.enqueue 3, QueueOp.dequeue, QueueOp.enqueue 7] = some q ∧
        q.size + countDequeue
            [QueueOp.enqueue 5, QueueOp.enqueue 3, QueueOp.dequeue, QueueOp.enqueue 7] =
          countEnqueue
            [QueueOp.enqueue 5, QueueOp.enqueue 3, QueueOp.dequeue, QueueOp.enqueue 7] ∧
        q.size = [3, 7].length ∧ q.isEmpty = [3, 7].isEmpty ∧
        ∀ x rest, [3, 7] = x :: rest →
          (∃ q1, q.front = some (x, q1)) ∧
          ∃ q2, q.dequeue = some q2 ∧ q2.size = rest.length ∧
            ∀ y rest2, rest = y :: rest2 → ∃ q3, q2.front = some (y, q3) :=
  ⟨rfl, C23_queue_is_fifo (fun a b : Nat => decide (a < b))
    [QueueOp.enqueue 5, QueueOp.enqueue 3, QueueOp.dequeue, QueueOp.enqueue 7] [3, 7] rfl⟩

theorem mem_map_fst_of_getElem? {stk : List (T × Nat)} {i : Nat} {x : T × Nat}
    (h : stk[i]? = some x) : x.1 ∈ stk.map Prod.fst :=
  List.mem_map_of_mem _ (List.getElem?_mem h)

/-- What `min()` of the queue returns when the two stacks satisfy their
invariant. -/
theorem min_queue.queue_min_spec {c : T → T → Bool} (hc : StrictWeakOrder c) {q : min_queue T}
    (hq : QueueInv c (StackInv c) q) (hne : q.toList ≠ []) :
    ∃ x, q.min = some x ∧ x ∈ q.toList ∧ ∀ y, y ∈ q.toList → c y x = false := by
  obtain ⟨h1, h2, h3, h4, h5⟩ := hq
  have hmem : ∀ y, y ∈ q.toList ↔
      (∃ e, e ∈ q.mOld.mStack ∧ e.1 = y) ∨ ∃ e, e ∈ q.mNew.mStack ∧ e.1 = y := by
    intro y
    simp only [min_queue.toList, List.map_append, List.map_reverse, List.mem_append,
      List.mem_reverse, List.mem_map]
  by_cases hnew : q.mNew.mStack = []
  · have hold : q.mOld.mStack ≠ [] := by
      intro ho
      exact hne ((min_queue.toList_nil_iff q).mpr ⟨ho, hnew⟩)
    rw [← h3] at h5
    obtain ⟨e, x, _, _, hx, hmin, hall, _⟩ := min_stack.stack_min_spec h5 hold
    rw [h3] at hall
    refine ⟨x.1, ?_, ?_, ?_⟩
    · simp [min_queue.min, min_stack.isEmpty, hnew, hmin]
    · exact (hmem _).mpr (Or.inl ⟨x, List.getElem?_mem hx, rfl⟩)
    · intro y hy
      rcases (hmem y).mp hy with ⟨e', he', rfl⟩ | ⟨e', he', rfl⟩
      · exact hall e' he'
      · rw [hnew] at he'
        cases he'
  · rw [← h2] at h4
    obtain ⟨en, xn, _, _, hxn, hminn, halln, _⟩ := min_stack.stack_min_spec h4 hnew
    rw [h2] at halln
    have hnewE : q.mNew.isEmpty = false := by
      simp only [min_stack.isEmpty, List.isEmpty_eq_false]
      exact hnew
    by_cases hold : q.mOld.mStack = []
    · refine ⟨xn.1, ?_, ?_, ?_⟩
      · have holdE : q.mOld.isEmpty = true := by simp [min_stack.isEmpty, hold]
        simp only [min_queue.min, hnewE, holdE, Bool.not_false, Bool.not_true, Bool.and_false,
          Bool.false_eq_true, if_false, if_true, hminn]
      · exact (hmem _).mpr (Or.inr ⟨xn, List.getElem?_mem hxn, rfl⟩)
      · intro y hy
        rcases (hmem y).mp hy with ⟨e', he', rfl⟩ | ⟨e', he', rfl⟩
        · rw [hold] at he'
          cases he'
        · exact halln e' he'
    · rw [← h3] at h5
      obtain ⟨eo, xo, _, _, hxo, hmino, hallo, _⟩ := min_stack.stack_min_spec h5 hold
      rw [h3] at hallo
      have holdE : q.mOld.isEmpty = false := by
        simp only [min_stack.isEmpty, List.isEmpty_eq_false]
        exact hold
      have hmin : q.min = some (if c xo.1 xn.1 then xo.1 else xn.1) := by
        simp only [min_queue.min, hnewE, holdE, Bool.not_false, Bool.and_self, if_true, hmino,
          hminn, h1]
      by_cases hcmp : c xo.1 xn.1 = true
      · refine ⟨xo.1, by rw [hmin]; simp [hcmp], ?_, ?_⟩
        · exact (hmem _).mpr (Or.inl ⟨xo, List.getElem?_mem hxo, rfl⟩)
        · intro y hy
          rcases (hmem y).mp hy with ⟨e', he', rfl⟩ | ⟨e', he', rfl⟩
          · exact hallo e' he'
          · have hn := halln e' he'
            by_contra hcon
            have := hc.trans e'.1 xo.1 xn.1 (by simpa using hcon) hcmp
            rw [hn] at this
            cases this
      · refine ⟨xn.1, by rw [hmin]; simp [hcmp], ?_, ?_⟩
        · exact (hmem _).mpr (Or.inr ⟨xn, List.getElem?_mem hxn, rfl⟩)
        · intro y hy
          rcases (hmem y).mp hy with ⟨e', he', rfl⟩ | ⟨e', he', rfl⟩
          · exact hc.incomp e'.1 xo.1 xn.1 (hallo e' he') (by simpa using hcmp)
          · exact halln e' he'

/-- C24: for every comparator that is a strict weak ordering and every
non-empty queue reached by `enqueue`, `dequeue` and `front` calls (`l` is the
list of its elements), `min()` returns an element that is in the queue and
than which no element of the queue is smaller. -/
theorem C24_queue_min (c : T → T → Bool) (ops : List (QueueOp T)) (l : List T)
    (hc : StrictWeakOrder c) (hm : fifoModel [] ops = some l) (hne : l ≠ []) :
    ∃ q x, runQueue (min_queue.construct c) ops = some q ∧ q.min = some x ∧ x ∈ l ∧
      ∀ y, y ∈ l → c y x = false := by
  have hP := StackInv_closed hc
  obtain ⟨q, hr, hq, hl⟩ := runQueue_spec hP ops (min_queue.construct c) l
    (construct_QueueInv hP) hm
  rw [← hl] at hne
  obtain ⟨x, h1, h2, h3⟩ := min_queue.queue_min_spec hc hq hne
  rw [hl] at h2 h3
  exact ⟨q, x, hr, h1, h2, h3⟩

theorem lt_strictWeakOrder : StrictWeakOrder (fun a b : Nat => decide (a < b)) :=
  ⟨fun a => by simp, fun a b d h1 h2 => by simp at *; omega,
    fun a b d h1 h2 => by simp at *; omega⟩

theorem C24_queue_min_witness :
    StrictWeakOrder (fun a b : Nat => decide (a < b)) ∧
      fifoModel ([] : List Nat)
        [QueueOp.enqueue 5, QueueOp.enqueue 3, QueueOp.dequeue, QueueOp.enqueue 7] =
        some [3, 7] ∧
      ([3, 7] : List Nat) ≠ [] ∧
      ∃ q x, runQueue (min_queue.construct (fun a b : Nat => decide (a < b)))
          [QueueOp.enqueue 5, QueueOp.enqueue 3, QueueOp.dequeue, QueueOp.enqueue 7] = some q ∧
        q.min = some x ∧ x ∈ [3, 7] ∧ ∀ y, y ∈ [3, 7] → decide (y < x) = false :=
  ⟨lt_strictWeakOrder, rfl, by decide,
    C24_queue_min (fun a b : Nat => decide (a < b))
      [QueueOp.enqueue 5, QueueOp.enqueue 3, QueueOp.dequeue, QueueOp.enqueue 7] [3, 7]
      lt_strictWeakOrder rfl (by decide)⟩

theorem byFirst_strictWeakOrder : StrictWeakOrder byFirst :=
  ⟨fun a => by simp [byFirst], fun a b d h1 h2 => by simp [byFirst] at *; omega,
    fun a b d h1 h2 => by simp [byFirst] at *; omega⟩

/-- C25 (the code at the failing input): with the comparator that orders pairs
by their first component, a strict weak ordering, the calls enqueue (5, 0),
enqueue (1, 1), dequeue, enqueue (1, 2) leave the queue (1, 1), (1, 2), whose
two elements are tied for the minimum; `min()` returns (1, 2), the younger of
the two, not the eldest.  The same happens when both tied elements are on the
old stack: after enqueue (5, 0), enqueue (1, 1), enqueue (1, 2), dequeue,
`min()` returns (1, 2) as well. -/
theorem C25_min_returns_younger_of_tied :
    StrictWeakOrder byFirst ∧
      byFirst (1, 1) (1, 2) = false ∧ byFirst (1, 2) (1, 1) = false ∧
      fifoModel ([] : List (Nat × Nat))
        [QueueOp.enqueue (5, 0), QueueOp.enqueue (1, 1), QueueOp.dequeue,
          QueueOp.enqueue (1, 2)] = some [(1, 1), (1, 2)] ∧
      (∃ q, runQueue (min_queue.construct byFirst)
          [QueueOp.enqueue (5, 0), QueueOp.enqueue (1, 1), QueueOp.dequeue,
            QueueOp.enqueue (1, 2)] = some q ∧ q.min = some (1, 2)) ∧
      fifoModel ([] : List (Nat × Nat))
        [QueueOp.enqueue (5, 0), QueueOp.enqueue (1, 1), QueueOp.enqueue (1, 2),
          QueueOp.dequeue] = some [(1, 1), (1, 2)] ∧
      ∃ q, runQueue (min_queue.construct byFirst)
          [QueueOp.enqueue (5, 0), QueueOp.enqueue (1, 1), QueueOp.enqueue (1, 2),
            QueueOp.dequeue] = some q ∧ q.min = some (1, 2) :=
  ⟨byFirst_strictWeakOrder, rfl, rfl, rfl, ⟨_, rfl, rfl⟩, rfl, ⟨_, rfl, rfl⟩⟩

end MinQueueClaims


section MinStackClaims

variable {T : Type}

/-- A sequence of calls on a stack does what it does on the list of its
elements, and keeps the invariant. -/
theorem runStack_spec {c : T → T → Bool} (hc : StrictWeakOrder c) :
    ∀ (ops : List (StackOp T)) (s : min_stack T) (l : List T), s.mComp = c →
      StackInv c s.mStack → stackModel (s.mStack.map Prod.fst) ops = some l →
      ∃ s1, runStack s ops = some s1 ∧ s1.mComp = c ∧ StackInv c s1.mStack ∧
        s1.mStack.map Prod.fst = l := by
  intro ops
  induction ops with
  | nil =>
    intro s l hco hinv hm
    simp only [stackModel, Option.some.injEq] at hm
    exact ⟨s, rfl, hco, hinv, hm⟩
  | cons op ops ih =>
    intro s l hco hinv hm
    cases op with
    | push v =>
      have hinv' : StackInv s.mComp s.mStack := by rw [hco]; exact hinv
      have hc' : StrictWeakOrder s.mComp := by rw [hco]; exact hc
      obtain ⟨i, hpush, hp⟩ := min_stack.stack_push_spec hc' hinv' v
      rw [hco] at hp
      simp only [stackModel] at hm
      obtain ⟨s1, h1, h2, h3, h4⟩ := ih ⟨s.mStack ++ [(v, i)], s.mComp⟩ l hco hp
        (by simpa using hm)
      exact ⟨s1, by simp only [runStack, hpush, h1], h2, h3, h4⟩
    | pop =>
      simp only [stackModel] at hm
      by_cases hne : s.mStack = []
      · simp [hne] at hm
      · have hne' : (s.mStack.map Prod.fst).isEmpty = false := by
          simp only [List.isEmpty_eq_false, ne_eq, List.map_eq_nil_iff]
          exact hne
        simp only [hne', Bool.false_eq_true, if_false] at hm
        obtain ⟨s1, h1, h2, h3, h4⟩ := ih ⟨s.mStack.dropLast, s.mComp⟩ l hco
          (StackInv_dropLast hinv) (by
            simp only [List.map_dropLast]
            exact hm)
        exact ⟨s1, by simp only [runStack, min_stack.stack_pop_spec hne, h1], h2, h3, h4⟩

/-- C26: for every comparator that is a strict weak ordering and every
non-empty stack reached by `push` and `pop` calls on a new stack (`pop` only
on a non-empty stack; `l` is the list of its elements, bottom first): the
index stored with the top entry is a valid position in the stack, `min()`
returns the element at that position, no element of the stack is smaller than
it, and every element below that position is greater than it, so that among
the elements tied for the minimum it is the lowest. -/
theorem C26_stack_min (c : T → T → Bool) (ops : List (StackOp T)) (l : List T)
    (hc : StrictWeakOrder c) (hm : stackModel [] ops = some l) (hne : l ≠ []) :
    ∃ s e x, runStack (min_stack.construct c) ops = some s ∧ s.size = l.length ∧
      s.mStack.getLast? = some e ∧ e.2 < s.size ∧ l[e.2]? = some x ∧ s.min = some x ∧
      (∀ y, y ∈ l → c y x = false) ∧
      ∀ (j : Nat) (y : T), j < e.2 → l[j]? = some y → c x y = true := by
  obtain ⟨s, hr, hco, hinv, hl⟩ := runStack_spec hc ops (min_stack.construct c) l rfl
    (StackInv_nil c) hm
  have hne' : s.mStack ≠ [] := by
    intro h
    rw [h] at hl
    exact hne hl.symm
  rw [← hco] at hinv
  obtain ⟨e, x, he, hlt, hx, hmin, hall, hlow⟩ := min_stack.stack_min_spec hinv hne'
  rw [hco] at hall hlow
  refine ⟨s, e, x.1, hr, ?_, he, hlt, ?_, hmin, ?_, ?_⟩
  · rw [← hl]
    simp [min_stack.size]
  · rw [← hl, List.getElem?_map, hx]
    rfl
  · intro y hy
    rw [← hl, List.mem_map] at hy
    obtain ⟨e', he', rfl⟩ := hy
    exact hall e' he'
  · intro j y hj hy
    rw [← hl, List.getElem?_map] at hy
    cases hsj : s.mStack[j]? with
    | none => simp [hsj] at hy
    | some e' =>
      simp only [hsj, Option.map_some', Option.some.injEq] at hy
      subst hy
      exact hlow j e' hj hsj

theorem C26_stack_min_witness :
    StrictWeakOrder byFirst ∧
      stackModel ([] : List (Nat × Nat))
        [StackOp.push (3, 0), StackOp.push (1, 1), StackOp.push (1, 2), StackOp.push (4, 3),
          StackOp.pop] = some [(3, 0), (1, 1), (1, 2)] ∧
      ([(3, 0), (1, 1), (1, 2)] : List (Nat × Nat)) ≠ [] ∧
      ∃ s e x, runStack (min_stack.construct byFirst)
          [StackOp.push (3, 0), StackOp.push (1, 1), StackOp.push (1, 2), StackOp.push (4, 3),
            StackOp.pop] = some s ∧
        s.size = [(3, 0), (1, 1), (1, 2)].length ∧
        s.mStack.getLast? = some e ∧ e.2 < s.size ∧
        [(3, 0), (1, 1), (1, 2)][e.2]? = some x ∧ s.min = some x ∧
        (∀ y, y ∈ [(3, 0), (1, 1), (1, 2)] → byFirst y x = false) ∧
        ∀ (j : Nat) (y : Nat × Nat), j < e.2 → [(3, 0), (1, 1), (1, 2)][j]? = some y →
          byFirst x y = true :=
  ⟨byFirst_strictWeakOrder, rfl, by decide,
    C26_stack_min byFirst
      [StackOp.push (3, 0), StackOp.push (1, 1), StackOp.push (1, 2), StackOp.push (4, 3),
        StackOp.pop] [(3, 0), (1, 1), (1, 2)] byFirst_strictWeakOrder rfl (by decide)⟩

end MinStackClaims

/-! ## The two-three heap: rows, parents and children -/

section HeapIndexLemmas

theorem rowIndexAt_nat (l : Nat) : rowIndexAt (l : Int) = kRowIndices[l]? := by
  simp [rowIndexAt]

theorem BranchingFactorForLevel_nat (l : Nat) :
    BranchingFactorForLevel (l : Int) = some (if l % 4 = 0 then 2 else 3) := by
  have h : ((l : Int) % 4 = 0) ↔ (l % 4 = 0) := by omega
  simp [BranchingFactorForLevel, h]

theorem InRow.level_le {l i : Nat} (h : InRow l i) : l ≤ 21 := by
  obtain ⟨r, r1, _, h2, _, _⟩ := h
  have := getElem?_lt_of_some h2
  simp [kRowIndices] at this
  omega

theorem InRow.lt_max {l i : Nat} (h : InRow l i) : i < 1611409329 := by
  have hl := h.level_le
  obtain ⟨r, r1, _, h2, _, h4⟩ := h
  interval_cases l <;> simp [kRowIndices] at h2 <;> omega

theorem kRowIndices_sorted : kRowIndices.Pairwise (· < ·) := by
  decide

theorem kRowIndices_mono {l l1 r r1 : Nat} (h : kRowIndices[l]? = some r)
    (h1 : kRowIndices[l1]? = some r1) (hl : l ≤ l1) : r ≤ r1 := by
  rcases Nat.eq_or_lt_of_le hl with e | hlt
  · subst e
    rw [h] at h1
    cases h1
    exact le_refl _
  · have hs := kRowIndices_sorted
    rw [List.pairwise_iff_getElem] at hs
    have a := getElem?_lt_of_some h
    have b := getElem?_lt_of_some h1
    have := hs l l1 a b hlt
    rw [List.getElem?_eq_getElem a] at h
    rw [List.getElem?_eq_getElem b] at h1
    cases h
    cases h1
    exact le_of_lt this

/-- An index lies in one row only. -/
theorem InRow.row_unique {l l1 i : Nat} (h : InRow l i) (h1 : InRow l1 i) : l = l1 := by
  obtain ⟨r, r1, a1, a2, a3, a4⟩ := h
  obtain ⟨s, s1, b1, b2, b3, b4⟩ := h1
  by_contra hne
  rcases Nat.lt_or_gt_of_ne hne with hlt | hlt
  · have := kRowIndices_mono a2 b1 hlt
    omega
  · have := kRowIndices_mono b2 a1 hlt
    omega

theorem exists_between : ∀ (L : List Nat) (r0 i : Nat), L.head? = some r0 → r0 ≤ i →
    (∀ rl, L.getLast? = some rl → i < rl) →
    ∃ l r r1, L[l]? = some r ∧ L[l + 1]? = some r1 ∧ r ≤ i ∧ i < r1 := by
  intro L
  induction L with
  | nil => intro r0 i h; simp at h
  | cons a rest ih =>
    intro r0 i h0 hle hlast
    simp only [List.head?_cons, Option.some.injEq] at h0
    subst h0
    cases rest with
    | nil =>
      have := hlast a (by simp)
      omega
    | cons b rest1 =>
      by_cases hb : i < b
      · exact ⟨0, a, b, by simp, by simp, hle, hb⟩
      · obtain ⟨l, r, r1, h1, h2, h3, h4⟩ := ih b i (by simp) (by omega) (by
          intro rl hrl
          apply hlast rl
          rw [List.getLast?_cons_cons]
          exact hrl)
        exact ⟨l + 1, r, r1, by simpa using h1, by simpa using h2, h3, h4⟩

/-- Every index below the sentinel lies in a row. -/
theorem exists_row {i : Nat} (h : i < 1611409329) : ∃ l, InRow l i := by
  obtain ⟨l, r, r1, h1, h2, h3, h4⟩ := exists_between kRowIndices 0 i rfl (Nat.zero_le _) (by
    intro rl hrl
    simp [kRowIndices] at hrl
    omega)
  exact ⟨l, r, r1, h1, h2, h3, h4⟩

theorem InRow_zero_iff (i : Nat) : InRow 0 i ↔ i = 0 := by
  constructor
  · rintro ⟨r, r1, h1, h2, h3, h4⟩
    simp [kRowIndices] at h1 h2
    omega
  · rintro rfl
    exact ⟨0, 1, rfl, rfl, le_refl _, by omega⟩

/-- The parent of an index of the row `l > 0` lies in the row `l - 1` and is
smaller: the subtraction in `ParentIndex` does not wrap. -/
theorem ParentIndex_spec {l i : Nat} (h : InRow l i) (hl : 1 ≤ l) :
    ∃ p, ParentIndex i l = some p ∧ InRow (l - 1) p ∧ p < i := by
  have hle := h.level_le
  obtain ⟨r, r1, h1, h2, h3, h4⟩ := h
  interval_cases l <;>
    simp [kRowIndices] at h1 h2 <;>
    subst h1 <;> subst h2 <;>
    simp [ParentIndex, rowIndexAt, BranchingFactorForLevel, kRowIndices, addSize, subSize,
      InRow] <;>
    omega

theorem subSize_eq {a b : Nat} (h : b ≤ a) (ha : a < 2 ^ 64) : subSize a b = a - b := by
  unfold subSize
  omega

theorem addSize_eq {a b : Nat} (h : a + b < 2 ^ 64) : addSize a b = a + b := by
  unfold addSize
  omega

theorem mulSize_eq {a b : Nat} (h : a * b < 2 ^ 64) : mulSize a b = a * b := by
  unfold mulSize
  exact Nat.mod_eq_of_lt h

theorem kRowIndices_le {l r : Nat} (h : kRowIndices[l]? = some r) : r ≤ 1611409329 := by
  have h22 : kRowIndices[22]? = some 1611409329 := rfl
  refine kRowIndices_mono h h22 ?_
  have := getElem?_lt_of_some h
  simp [kRowIndices] at this
  omega

/-- `ParentIndex` without the wrapping arithmetic. -/
theorem ParentIndex_eq {l i r rp : Nat} (h : kRowIndices[l + 1]? = some r)
    (hp : kRowIndices[l]? = some rp) (hr : r ≤ i) (hi : i < 1611409329) :
    ParentIndex i ((l + 1 : Nat) : Int) =
      some (rp + (i - r) / (if l % 4 = 0 then 2 else 3)) := by
  have h1 : rowIndexAt ((l + 1 : Nat) : Int) = some r := by rw [rowIndexAt_nat, h]
  have h2 : rowIndexAt (((l + 1 : Nat) : Int) - 1) = some rp := by
    have e : ((l + 1 : Nat) : Int) - 1 = (l : Int) := by omega
    rw [e, rowIndexAt_nat, hp]
  have h3 : BranchingFactorForLevel (((l + 1 : Nat) : Int) - 1) =
      some (if l % 4 = 0 then 2 else 3) := by
    have e : ((l + 1 : Nat) : Int) - 1 = (l : Int) := by omega
    rw [e, BranchingFactorForLevel_nat]
  have hpos : (0 : Int) < ((l + 1 : Nat) : Int) := by omega
  have hrp := kRowIndices_le hp
  simp only [ParentIndex, hpos, if_true, h1, h2, h3]
  rw [subSize_eq hr (by omega), addSize_eq]
  have : (i - r) / (if l % 4 = 0 then 2 else 3) ≤ i - r := Nat.div_le_self _ _
  omega

/-- `ChildrenOf` without the wrapping arithmetic. -/
theorem ChildrenOf_eq {l i r r1 : Nat} (h : kRowIndices[l]? = some r)
    (h1 : kRowIndices[l + 1]? = some r1) (hr : r ≤ i) (hi : i < 1611409329) :
    ChildrenOf i (l : Int) =
      some (r1 + (i - r) * (if l % 4 = 0 then 2 else 3),
        r1 + (i - r) * (if l % 4 = 0 then 2 else 3) + (if l % 4 = 0 then 2 else 3)) := by
  have g1 : rowIndexAt (l : Int) = some r := by rw [rowIndexAt_nat, h]
  have g2 : rowIndexAt ((l : Int) + 1) = some r1 := by
    have e : (l : Int) + 1 = ((l + 1 : Nat) : Int) := by omega
    rw [e, rowIndexAt_nat, h1]
  have hpos : (0 : Int) ≤ (l : Int) := by omega
  have hr1 := kRowIndices_le h1
  have hbf : (i - r) * (if l % 4 = 0 then 2 else 3) ≤ (i - r) * 3 :=
    Nat.mul_le_mul_left _ (by split <;> omega)
  have hbf2 : (if l % 4 = 0 then 2 else 3) ≤ 3 := by split <;> omega
  simp only [ChildrenOf, hpos, if_true, g1, g2, BranchingFactorForLevel_nat]
  rw [subSize_eq hr (by omega), mulSize_eq (by omega), addSize_eq (by omega),
    addSize_eq (by omega)]

/-- The range that `ChildrenOf` returns for an index of the row `l` starts
above the index and consists of the indices of the row `l + 1` whose parent the
index is; none of the sums and products in `ChildrenOf` wraps. -/
theorem ChildrenOf_spec {l i : Nat} (h : InRow l i) :
    ∃ f bf, ChildrenOf i l = some (f, f + bf) ∧ i < f ∧ 0 < bf ∧
      (∀ c, f ≤ c → c < f + bf → c < 1611409329 →
        InRow (l + 1) c ∧ ParentIndex c ((l + 1 : Nat) : Int) = some i) ∧
      ∀ c, InRow (l + 1) c → ParentIndex c ((l + 1 : Nat) : Int) = some i →
        f ≤ c ∧ c < f + bf := by
  have hle := h.level_le
  have hi := h.lt_max
  obtain ⟨r, r1, h1, h2, h3, h4⟩ := h
  refine ⟨r1 + (i - r) * (if l % 4 = 0 then 2 else 3), if l % 4 = 0 then 2 else 3,
    ChildrenOf_eq h1 h2 h3 hi, ?_, ?_, ?_, ?_⟩
  · interval_cases l <;>
      simp [kRowIndices] at h1 h2 <;>
      subst h1 <;> subst h2 <;>
      simp <;>
      omega
  · split <;> omega
  · intro c hc1 hc2 hc3
    have hc4 : r1 ≤ c := by omega
    rw [ParentIndex_eq h2 h1 hc4 hc3]
    interval_cases l <;>
      simp [kRowIndices] at h1 h2 <;>
      subst h1 <;> subst h2 <;>
      simp at hc1 hc2 <;>
      simp [kRowIndices, InRow] <;>
      omega
  · intro c hr hp
    have hc3 := hr.lt_max
    obtain ⟨s, s1, g1, g2, g3, g4⟩ := hr
    rw [h2] at g1
    cases g1
    rw [ParentIndex_eq h2 h1 g3 hc3] at hp
    simp only [Option.some.injEq] at hp
    interval_cases l <;>
      simp [kRowIndices] at h1 h2 <;>
      subst h1 <;> subst h2 <;>
      simp at hp <;>
      simp <;>
      omega

end HeapIndexLemmas


section HeapParentLemmas

theorem IsParent.lt {p i : Nat} (h : IsParent p i) : p < i := by
  obtain ⟨l, hl, hr, hp⟩ := h
  obtain ⟨p1, h1, _, h3⟩ := ParentIndex_spec hr hl
  rw [hp] at h1
  cases h1
  exact h3

theorem IsParent.parent_unique {p p1 i : Nat} (h : IsParent p i) (h1 : IsParent p1 i) : p = p1 := by
  obtain ⟨l, _, hr, hp⟩ := h
  obtain ⟨l1, _, hr1, hp1⟩ := h1
  have e := hr.row_unique hr1
  subst e
  rw [hp] at hp1
  cases hp1
  rfl

/-- Every index but 0 has a parent, which lies in the row before. -/
theorem exists_parent {l i : Nat} (h : InRow l i) (hi : 0 < i) :
    ∃ p, IsParent p i ∧ InRow (l - 1) p ∧ 1 ≤ l := by
  have hl : 1 ≤ l := by
    by_contra hn
    have e : l = 0 := by omega
    subst e
    have := (InRow_zero_iff i).mp h
    omega
  obtain ⟨p, h1, h2, _⟩ := ParentIndex_spec h hl
  exact ⟨p, ⟨l, hl, h, h1⟩, h2, hl⟩

/-- The children of an index of the row `l` are the indices in the range that
`ChildrenOf` returns. -/
theorem IsParent_iff_range {l p : Nat} (h : InRow l p) {f bf : Nat}
    (hc : ChildrenOf p l = some (f, f + bf)) (c : Nat) :
    IsParent p c ↔ (f ≤ c ∧ c < f + bf ∧ c < 1611409329) := by
  obtain ⟨f1, bf1, h1, _, _, h4, h5⟩ := ChildrenOf_spec h
  rw [hc] at h1
  simp only [Option.some.injEq, Prod.mk.injEq] at h1
  obtain ⟨e1, e2⟩ := h1
  subst e1
  have e3 : bf = bf1 := by omega
  subst e3
  constructor
  · rintro ⟨l1, hl1, hr1, hp1⟩
    obtain ⟨p1, g1, g2, _⟩ := ParentIndex_spec hr1 hl1
    rw [hp1] at g1
    cases g1
    have e := g2.row_unique h
    have e4 : l1 = l + 1 := by omega
    subst e4
    obtain ⟨a, b⟩ := h5 c hr1 hp1
    exact ⟨a, b, hr1.lt_max⟩
  · rintro ⟨a, b, d⟩
    obtain ⟨g1, g2⟩ := h4 c a b d
    exact ⟨l + 1, by omega, g1, g2⟩

theorem IsParent.row {l p c : Nat} (h : InRow l p) (hc : IsParent p c) : InRow (l + 1) c := by
  obtain ⟨l1, hl1, hr1, hp1⟩ := hc
  obtain ⟨p1, g1, g2, _⟩ := ParentIndex_spec hr1 hl1
  rw [hp1] at g1
  cases g1
  have e := g2.row_unique h
  have e4 : l1 = l + 1 := by omega
  subst e4
  exact hr1

end HeapParentLemmas

section HeapListLemmas

variable {T : Type}

theorem set_perm : ∀ (l : List T) (i : Nat) (a : T) (h : i < l.length),
    (a :: l).Perm (l[i] :: l.set i a) := by
  intro l
  induction l with
  | nil => intro i a h; simp at h
  | cons x xs ih =>
    intro i a h
    cases i with
    | zero => exact List.Perm.swap x a xs
    | succ i =>
      simp only [List.length_cons, Nat.add_lt_add_iff_right] at h
      have := ih i a h
      simp only [List.getElem_cons_succ, List.set_cons_succ]
      exact (List.Perm.swap x a xs).trans ((this.cons x).trans (List.Perm.swap _ _ _))

/-- What `std::swap` of two elements of the vector does. -/
theorem swapAt_spec {elems : List T} {i j : Nat} (hi : i < elems.length)
    (hj : j < elems.length) :
    ∃ e1, swapAt elems i j = some e1 ∧ e1.length = elems.length ∧ e1.Perm elems ∧
      e1[i]? = elems[j]? ∧ e1[j]? = elems[i]? ∧
      ∀ k, k ≠ i → k ≠ j → e1[k]? = elems[k]? := by
  refine ⟨(elems.set i elems[j]).set j elems[i], ?_, by simp, ?_, ?_, ?_, ?_⟩
  · simp only [swapAt, List.getElem?_eq_getElem hi, List.getElem?_eq_getElem hj]
  · have h1 := set_perm elems i elems[j] hi
    have hj1 : j < (elems.set i elems[j]).length := by simpa using hj
    have h2 := set_perm (elems.set i elems[j]) j elems[i] hj1
    have e : (elems.set i elems[j])[j] = elems[j] := by
      by_cases hij : i = j
      · subst hij
        simp
      · simp [List.getElem_set_ne hij]
    rw [e] at h2
    exact ((h1.trans h2).cons_inv).symm
  · by_cases hij : i = j
    · subst hij
      simp [List.getElem?_set_self, hi]
    · rw [List.getElem?_set_ne (Ne.symm hij), List.getElem?_set_self hi,
        List.getElem?_eq_getElem hj]
  · rw [List.getElem?_set_self (by simpa using hj), List.getElem?_eq_getElem hi]
  · intro k hki hkj
    rw [List.getElem?_set_ne (Ne.symm hkj), List.getElem?_set_ne (Ne.symm hki)]

end HeapListLemmas


section HeapLoopLemmas

variable {T : Type}

theorem StrictWeakOrder.asymm {c : T → T → Bool} (hc : StrictWeakOrder c) {a b : T}
    (h : c a b = true) : c b a = false := by
  by_contra hn
  have := hc.trans a b a h (by simpa using hn)
  rw [hc.irrefl a] at this
  cases this

theorem ParentIndex_of_IsParent {l p i : Nat} (h : InRow l i) (hp : IsParent p i) :
    ParentIndex i l = some p := by
  obtain ⟨l1, _, hr1, hp1⟩ := hp
  have e := hr1.row_unique h
  subst e
  exact hp1

/-- The loop of `push` returns a permutation of the vector, which is in heap
order when the vector was in heap order except at `index`. -/
theorem bubbleUp_spec (comp : T → T → Bool) : ∀ (fuel : Nat) (elems : List T) (index l : Nat),
    InRow l index → index < elems.length → index < fuel →
    ∃ e1, bubbleUp comp fuel elems index (l : Int) = some e1 ∧ e1.length = elems.length ∧
      e1.Perm elems ∧
      (StrictWeakOrder comp →
        (∀ p i a b, IsParent p i → i ≠ index → elems[p]? = some a → elems[i]? = some b →
          comp a b = false) →
        (∀ g c a b, IsParent g index → IsParent index c → elems[g]? = some a →
          elems[c]? = some b → comp a b = false) →
        HeapOrdered comp e1) := by
  intro fuel
  induction fuel with
  | zero => intro elems index l _ _ h; omega
  | succ fuel ih =>
    intro elems index l hrow hlen hfuel
    by_cases h0 : index = 0
    · refine ⟨elems, by simp [bubbleUp, h0], rfl, List.Perm.refl _, ?_⟩
      intro _ h1 _ p i a b hpi ha hb
      have := hpi.lt
      exact h1 p i a b hpi (by omega) ha hb
    · obtain ⟨p, hp, hprow, hl⟩ := exists_parent hrow (by omega)
      have hpi := ParentIndex_of_IsParent hrow hp
      have hplt := hp.lt
      have hpl : p < elems.length := by omega
      obtain ⟨a, ha⟩ : ∃ a, elems[p]? = some a := ⟨_, List.getElem?_eq_getElem hpl⟩
      obtain ⟨b, hb⟩ : ∃ b, elems[index]? = some b := ⟨_, List.getElem?_eq_getElem hlen⟩
      by_cases hcmp : comp a b = true
      · obtain ⟨e2, hsw, hlen2, hperm2, hg1, hg2, hg3⟩ := swapAt_spec hpl hlen
        rw [hb] at hg1
        rw [ha] at hg2
        have hcast : ((l : Int) - 1) = ((l - 1 : Nat) : Int) := by omega
        obtain ⟨e1, hbu, hlen1, hperm1, hord⟩ := ih e2 p (l - 1) hprow (by omega) (by omega)
        refine ⟨e1, ?_, by omega, hperm1.trans hperm2, ?_⟩
        · simp only [bubbleUp, h0, if_false, hpi, ha, hb, hcmp, Bool.not_true,
            Bool.false_eq_true, hsw, hcast]
          exact hbu
        · intro hc h1 h2
          apply hord hc
          · intro p1 i a1 b1 hpi1 hine ha1 hb1
            by_cases hii : i = index
            · subst hii
              have e := hpi1.parent_unique hp
              subst e
              rw [hg1] at ha1
              rw [hg2] at hb1
              cases ha1
              cases hb1
              exact hc.asymm hcmp
            · rw [hg3 i hine hii] at hb1
              by_cases hpp : p1 = p
              · subst hpp
                rw [hg1] at ha1
                cases ha1
                have h3 := h1 p1 i a b1 hpi1 hii ha hb1
                by_contra hn
                have := hc.trans a b b1 hcmp (by simpa using hn)
                rw [h3] at this
                cases this
              · by_cases hpx : p1 = index
                · subst hpx
                  rw [hg2] at ha1
                  cases ha1
                  exact h2 p i a b1 hp hpi1 ha hb1
                · rw [hg3 p1 hpp hpx] at ha1
                  exact h1 p1 i a1 b1 hpi1 hii ha1 hb1
          · intro g c a1 b1 hgp hpc ha1 hb1
            have hglt := hgp.lt
            rw [hg3 g (by omega) (by omega)] at ha1
            have h3 := h1 g p a1 a hgp (by omega) ha1 ha
            by_cases hci : c = index
            · subst hci
              rw [hg2] at hb1
              cases hb1
              exact h3
            · have hclt := hpc.lt
              rw [hg3 c (by omega) hci] at hb1
              exact hc.incomp a1 a b1 h3 (h1 p c a b1 hpc hci ha hb1)
      · refine ⟨elems, ?_, rfl, List.Perm.refl _, ?_⟩
        · simp only [bubbleUp, h0, if_false, hpi, ha, hb, hcmp, Bool.not_false, if_true]
        · intro _ h1 _ p1 i a1 b1 hpi1 ha1 hb1
          by_cases hii : i = index
          · subst hii
            have e := hpi1.parent_unique hp
            subst e
            rw [ha] at ha1
            rw [hb] at hb1
            cases ha1
            cases hb1
            simpa using hcmp
          · exact h1 p1 i a1 b1 hpi1 hii ha1 hb1

end HeapLoopLemmas


section HeapDownLemmas

variable {T : Type}

theorem maxElementLoop_spec (comp : T → T → Bool) (elems : List T) (first : Nat) :
    ∀ (n largest i : Nat), first ≤ largest → largest < i → i + n ≤ elems.length →
    ∃ m, maxElementLoop comp elems n largest i = some m ∧ first ≤ m ∧ m < i + n ∧
      (StrictWeakOrder comp →
        (∀ c a b, first ≤ c → c < i → elems[largest]? = some a → elems[c]? = some b →
          comp a b = false) →
        ∀ c a b, first ≤ c → c < i + n → elems[m]? = some a → elems[c]? = some b →
          comp a b = false) := by
  intro n
  induction n with
  | zero =>
    intro largest i h1 h2 h3
    exact ⟨largest, rfl, h1, by omega, fun _ h => by simpa using h⟩
  | succ n ih =>
    intro largest i h1 h2 h3
    obtain ⟨a, ha⟩ : ∃ a, elems[largest]? = some a :=
      ⟨_, List.getElem?_eq_getElem (by omega)⟩
    obtain ⟨b, hb⟩ : ∃ b, elems[i]? = some b := ⟨_, List.getElem?_eq_getElem (by omega)⟩
    by_cases hcmp : comp a b = true
    · obtain ⟨m, g1, g2, g3, g4⟩ := ih i (i + 1) (by omega) (by omega) (by omega)
      refine ⟨m, ?_, g2, by omega, ?_⟩
      · simp only [maxElementLoop, ha, hb, hcmp, if_true]
        exact g1
      · intro hc hall c a1 b1 hc1 hc2 ha1 hb1
        refine g4 hc ?_ c a1 b1 hc1 (by omega) ha1 hb1
        intro c2 a2 b2 hc3 hc4 ha2 hb2
        rw [hb] at ha2
        cases ha2
        by_cases hci : c2 = i
        · subst hci
          rw [hb] at hb2
          cases hb2
          exact hc.irrefl _
        · have h5 := hall c2 a b2 hc3 (by omega) ha hb2
          by_contra hn
          have := hc.trans a b b2 hcmp (by simpa using hn)
          rw [h5] at this
          cases this
    · obtain ⟨m, g1, g2, g3, g4⟩ := ih largest (i + 1) h1 (by omega) (by omega)
      refine ⟨m, ?_, g2, by omega, ?_⟩
      · simp only [maxElementLoop, ha, hb, hcmp, Bool.false_eq_true, if_false]
        exact g1
      · intro hc hall c a1 b1 hc1 hc2 ha1 hb1
        refine g4 hc ?_ c a1 b1 hc1 (by omega) ha1 hb1
        intro c2 a2 b2 hc3 hc4 ha2 hb2
        rw [ha] at ha2
        cases ha2
        by_cases hci : c2 = i
        · subst hci
          rw [hb] at hb2
          cases hb2
          simpa using hcmp
        · exact hall c2 a b2 hc3 (by omega) ha hb2

/-- On a non-empty range inside the vector `std::max_element` returns a
position of the range whose element is not smaller than any element of the
range. -/
theorem maxElement_spec (comp : T → T → Bool) (elems : List T) {first last : Nat}
    (h1 : first < last) (h2 : last ≤ elems.length) :
    ∃ m, maxElement comp elems first last = some m ∧ first ≤ m ∧ m < last ∧
      (StrictWeakOrder comp →
        ∀ c a b, first ≤ c → c < last → elems[m]? = some a → elems[c]? = some b →
          comp a b = false) := by
  obtain ⟨m, g1, g2, g3, g4⟩ := maxElementLoop_spec comp elems first (last - (first + 1)) first
    (first + 1) (le_refl _) (by omega) (by omega)
  have e : first + 1 + (last - (first + 1)) = last := by omega
  rw [e] at g3 g4
  refine ⟨m, ?_, g2, g3, ?_⟩
  · simp only [maxElement, Nat.ne_of_lt h1, if_false]
    exact g1
  · intro hc
    apply g4 hc
    intro c a b hc1 hc2 ha hb
    have e2 : c = first := by omega
    subst e2
    rw [ha] at hb
    cases hb
    exact hc.irrefl _

/-- The loop of `pop` returns a permutation of the vector, which is in heap
order when the vector was in heap order except between `index` and its
children. -/
theorem bubbleDown_spec (comp : T → T → Bool) : ∀ (fuel : Nat) (elems : List T)
    (index l : Nat), InRow l index → index < elems.length → elems.length ≤ kMaxSize →
    elems.length ≤ index + fuel →
    ∃ e1, bubbleDown comp fuel elems index (l : Int) = some e1 ∧ e1.length = elems.length ∧
      e1.Perm elems ∧
      (StrictWeakOrder comp →
        (∀ p i a b, IsParent p i → p ≠ index → elems[p]? = some a → elems[i]? = some b →
          comp a b = false) →
        (∀ g c a b, IsParent g index → IsParent index c → elems[g]? = some a →
          elems[c]? = some b → comp a b = false) →
        HeapOrdered comp e1) := by
  intro fuel
  induction fuel with
  | zero => intro elems index l _ h1 _ h2; omega
  | succ fuel ih =>
    intro elems index l hrow hlen hmax hfuel
    obtain ⟨f, bf, hco, hif, hbf, _, _⟩ := ChildrenOf_spec hrow
    have hrange := IsParent_iff_range hrow hco
    have hk : kMaxSize = 1611409328 := rfl
    by_cases hnone : elems.length ≤ f
    · refine ⟨elems, ?_, rfl, List.Perm.refl _, ?_⟩
      · simp only [bubbleDown, hlen, if_true, hco, hnone]
      · intro _ h1 _ p i a b hpi ha hb
        by_cases hp : p = index
        · subst hp
          have := (hrange i).mp hpi
          have := getElem?_lt_of_some hb
          omega
        · exact h1 p i a b hpi hp ha hb
    · have hf : f < min (f + bf) elems.length := by
        rw [Nat.lt_min]
        omega
      obtain ⟨m, hm, hm1, hm2, hmall⟩ := maxElement_spec comp elems hf (Nat.min_le_right _ _)
      rw [Nat.lt_min] at hm2
      have hpm : IsParent index m := (hrange m).mpr ⟨hm1, hm2.1, by omega⟩
      have hmrow := hpm.row hrow
      obtain ⟨a, ha⟩ : ∃ a, elems[index]? = some a := ⟨_, List.getElem?_eq_getElem hlen⟩
      obtain ⟨b, hb⟩ : ∃ b, elems[m]? = some b := ⟨_, List.getElem?_eq_getElem hm2.2⟩
      have hchild : StrictWeakOrder comp → ∀ i b1, IsParent index i → elems[i]? = some b1 →
          comp b b1 = false := by
        intro hc i b1 hpi hb1
        have h3 := (hrange i).mp hpi
        have h4 := getElem?_lt_of_some hb1
        exact hmall hc i b b1 h3.1 (by rw [Nat.lt_min]; omega) hb hb1
      by_cases hcmp : comp a b = true
      · obtain ⟨e2, hsw, hlen2, hperm2, hg1, hg2, hg3⟩ := swapAt_spec hlen hm2.2
        rw [hb] at hg1
        rw [ha] at hg2
        have hcast : ((l : Int) + 1) = ((l + 1 : Nat) : Int) := by omega
        obtain ⟨e1, hbd, hlen1, hperm1, hord⟩ := ih e2 m (l + 1) hmrow (by omega) (by omega)
          (by omega)
        refine ⟨e1, ?_, by omega, hperm1.trans hperm2, ?_⟩
        · simp only [bubbleDown, hlen, if_true, hco, hnone, if_false, hm, ha, hb, hcmp,
            Bool.not_true, Bool.false_eq_true, hsw, hcast]
          exact hbd
        · intro hc h1 h2
          apply hord hc
          · intro p i a1 b1 hpi hpne ha1 hb1
            have hpilt := hpi.lt
            by_cases hp : p = index
            · subst hp
              rw [hg1] at ha1
              cases ha1
              by_cases him : i = m
              · subst him
                rw [hg2] at hb1
                cases hb1
                exact hc.asymm hcmp
              · rw [hg3 i (by omega) him] at hb1
                exact hchild hc i b1 hpi hb1
            · rw [hg3 p hp hpne] at ha1
              by_cases hii : i = index
              · subst hii
                rw [hg1] at hb1
                cases hb1
                exact h2 p m a1 b hpi hpm ha1 hb
              · by_cases him : i = m
                · subst him
                  exact absurd (hpi.parent_unique hpm) hp
                · rw [hg3 i hii him] at hb1
                  exact h1 p i a1 b1 hpi hp ha1 hb1
          · intro g c a1 b1 hgm hmc ha1 hb1
            have e := hgm.parent_unique hpm
            subst e
            rw [hg1] at ha1
            cases ha1
            have h3 := hmc.lt
            have h4 := hpm.lt
            rw [hg3 c (by omega) (by omega)] at hb1
            exact h1 m c b b1 hmc (by omega) hb hb1
      · refine ⟨elems, ?_, rfl, List.Perm.refl _, ?_⟩
        · simp only [bubbleDown, hlen, if_true, hco, hnone, if_false, hm, ha, hb, hcmp,
            Bool.not_false]
        · intro hc h1 _ p i a1 b1 hpi ha1 hb1
          by_cases hp : p = index
          · subst hp
            rw [ha] at ha1
            cases ha1
            exact hc.incomp a b b1 (by simpa using hcmp) (hchild hc i b1 hpi hb1)
          · exact h1 p i a1 b1 hpi hp ha1 hb1

end HeapDownLemmas


section HeapOperationLemmas

variable {T : Type}

theorem kRowIndices_strict {l l1 r r1 : Nat} (h : kRowIndices[l]? = some r)
    (h1 : kRowIndices[l1]? = some r1) (hl : l < l1) : r < r1 := by
  have hs := kRowIndices_sorted
  rw [List.pairwise_iff_getElem] at hs
  have a := getElem?_lt_of_some h
  have b := getElem?_lt_of_some h1
  have := hs l l1 a b hl
  rw [List.getElem?_eq_getElem a] at h
  rw [List.getElem?_eq_getElem b] at h1
  cases h
  cases h1
  exact this

/-- The row of the index after the last index of the row `l`. -/
theorem InRow_succ {l n : Nat} (h : InRow l n) (hn : n + 1 < 1611409329) :
    (kRowIndices[l + 1]? = some (n + 1) ∧ InRow (l + 1) (n + 1)) ∨
      (kRowIndices[l + 1]? ≠ some (n + 1) ∧ InRow l (n + 1)) := by
  obtain ⟨r, r1, h1, h2, h3, h4⟩ := h
  by_cases e : r1 = n + 1
  · left
    subst e
    refine ⟨h2, ?_⟩
    obtain ⟨l1, s, s1, g1, g2, g3, g4⟩ := exists_row hn
    have e1 : l1 = l + 1 := by
      by_contra hne
      rcases Nat.lt_or_gt_of_ne hne with hlt | hlt
      · have := kRowIndices_mono g2 h2 (by omega)
        omega
      · have := kRowIndices_strict h2 g1 hlt
        omega
    subst e1
    exact ⟨s, s1, g1, g2, g3, g4⟩
  · right
    refine ⟨?_, r, r1, h1, h2, by omega, by omega⟩
    rw [h2]
    intro hc
    cases hc
    exact e rfl

/-- The row of the index before the first index of the row `l`. -/
theorem InRow_pred {l m : Nat} (h : InRow l m) (hm : 1 ≤ m) :
    (kRowIndices[l]? = some m ∧ 1 ≤ l ∧ InRow (l - 1) (m - 1)) ∨
      (kRowIndices[l]? ≠ some m ∧ InRow l (m - 1)) := by
  have hmax := h.lt_max
  obtain ⟨r, r1, h1, h2, h3, h4⟩ := h
  by_cases e : r = m
  · left
    subst e
    obtain ⟨l1, s, s1, g1, g2, g3, g4⟩ := exists_row (i := r - 1) (by omega)
    have e1 : l1 + 1 = l := by
      by_contra hne
      rcases Nat.lt_or_gt_of_ne hne with hlt | hlt
      · have := kRowIndices_strict g2 h1 hlt
        omega
      · have := kRowIndices_mono h1 g1 (by omega)
        omega
    subst e1
    exact ⟨h1, by omega, s, s1, g1, g2, g3, g4⟩
  · right
    refine ⟨?_, r, r1, h1, h2, by omega, by omega⟩
    rw [h1]
    intro hc
    cases hc
    exact e rfl

theorem HeapOrdered_nil (comp : T → T → Bool) : HeapOrdered comp ([] : List T) := by
  intro p i a b _ ha
  simp at ha

/-- In a vector in heap order the first element is not smaller than any
element. -/
theorem HeapOrdered.top_max {comp : T → T → Bool} (hc : StrictWeakOrder comp)
    {elems : List T} (ho : HeapOrdered comp elems) (hlen : elems.length ≤ kMaxSize) {x : T}
    (hx : elems[0]? = some x) : ∀ y, y ∈ elems → comp x y = false := by
  have hk : kMaxSize = 1611409328 := rfl
  have key : ∀ (l i : Nat) (y : T), InRow l i → elems[i]? = some y → comp x y = false := by
    intro l
    induction l with
    | zero =>
      intro i y hr hy
      have e := (InRow_zero_iff i).mp hr
      subst e
      rw [hx] at hy
      cases hy
      exact hc.irrefl _
    | succ l ih =>
      intro i y hr hy
      obtain ⟨p, hp1, hp2, hp3⟩ := ParentIndex_spec hr (by omega)
      have hil := getElem?_lt_of_some hy
      obtain ⟨a, ha⟩ : ∃ a, elems[p]? = some a := ⟨_, List.getElem?_eq_getElem (by omega)⟩
      have h1 := ih p a hp2 ha
      have h2 := ho p i a y ⟨l + 1, by omega, hr, hp1⟩ ha hy
      exact hc.incomp x a y h1 h2
  intro y hy
  obtain ⟨i, hi⟩ := List.getElem?_of_mem hy
  have hil := getElem?_lt_of_some hi
  obtain ⟨l, hl⟩ := exists_row (i := i) (by omega)
  exact key l i y hl hi

/-- What `push` does on a heap of the right shape that is not full. -/
theorem two_three_heap.heap_push_spec (vecMax : Nat) {h : two_three_heap T} (hs : h.Shape vecMax)
    (hlt : h.size < h.max_size vecMax) (v : T) :
    ∃ h1, h.push vecMax v = some (Except.ok h1) ∧ h1.Shape vecMax ∧ h1.mComp = h.mComp ∧
      h1.mElems.Perm (v :: h.mElems) ∧ h1.size = h.size + 1 ∧
      (StrictWeakOrder h.mComp → HeapOrdered h.mComp h.mElems →
        HeapOrdered h.mComp h1.mElems) := by
  have hk : kMaxSize = 1611409328 := rfl
  obtain ⟨hs1, hs2, hs3⟩ := hs
  simp only [two_three_heap.size, two_three_heap.max_size] at hlt hs1
  have hn : h.mElems.length < kMaxSize := lt_of_lt_of_le hlt (Nat.min_le_right _ _)
  have hlen : (h.mElems ++ [v]).length - 1 = h.mElems.length := by simp
  have hleaf : ∃ r l1, rowIndexAt (h.mLeafLevel + 1) = some r ∧
      (if h.mElems.length = r then h.mLeafLevel + 1 else h.mLeafLevel) = ((l1 : Nat) : Int) ∧
      InRow l1 h.mElems.length := by
    by_cases hne : h.mElems = []
    · refine ⟨0, 0, ?_, ?_, ?_⟩
      · rw [hs2 hne]
        rfl
      · rw [hs2 hne, hne]
        rfl
      · rw [hne]
        exact (InRow_zero_iff 0).mpr rfl
    · obtain ⟨l, hl, hrow⟩ := hs3 hne
      have hpos : 0 < h.mElems.length := List.length_pos.mpr hne
      have e : h.mElems.length - 1 + 1 = h.mElems.length := by omega
      obtain ⟨r, r1, g1, g2, g3, g4⟩ := hrow
      have hcast : h.mLeafLevel + 1 = ((l + 1 : Nat) : Int) := by omega
      refine ⟨r1, if h.mElems.length = r1 then l + 1 else l, ?_, ?_, ?_⟩
      · rw [hcast, rowIndexAt_nat, g2]
      · split <;> omega
      · rcases InRow_succ ⟨r, r1, g1, g2, g3, g4⟩ (by omega) with ⟨a1, a2⟩ | ⟨a1, a2⟩
        · rw [e] at a1 a2
          rw [g2] at a1
          cases a1
          simpa using a2
        · rw [e] at a1 a2
          rw [g2] at a1
          have : ¬ h.mElems.length = r1 := fun hc => a1 (by rw [hc])
          simpa [this] using a2
  obtain ⟨r, l1, hr, hl1, hrow1⟩ := hleaf
  obtain ⟨e1, hbu, hlen1, hperm1, hord⟩ := bubbleUp_spec h.mComp (h.mElems ++ [v]).length
    (h.mElems ++ [v]) h.mElems.length l1 hrow1 (by simp) (by simp)
  refine ⟨⟨e1, (l1 : Int), h.mComp⟩, ?_, ⟨?_, ?_, ?_⟩, rfl, ?_, ?_, ?_⟩
  · simp only [two_three_heap.push, two_three_heap.size, two_three_heap.max_size,
      Nat.ne_of_lt hlt, if_false, hr, hlen, hl1, hbu]
  · simp only [two_three_heap.max_size, hlen1, List.length_append, List.length_singleton]
    omega
  · intro he
    have := congrArg List.length he
    simp [hlen1] at this
  · intro _
    refine ⟨l1, rfl, ?_⟩
    simp only [hlen1, hlen]
    exact hrow1
  · exact hperm1.trans (List.perm_append_singleton v h.mElems)
  · simp [two_three_heap.size, hlen1]
  · intro hc ho
    apply hord hc
    · intro p i a b hpi hine ha hb
      have h1 := hpi.lt
      have h2 := getElem?_lt_of_some hb
      simp only [List.length_append, List.length_singleton] at h2
      rw [getElem?_snoc_lt _ _ (by omega)] at ha hb
      exact ho p i a b hpi ha hb
    · intro g c a b _ hpc _ hb
      have h1 := hpc.lt
      have h2 := getElem?_lt_of_some hb
      simp only [List.length_append, List.length_singleton] at h2
      omega

end HeapOperationLemmas


section HeapPopLemmas

variable {T : Type}

/-- What `pop` does on a non-empty heap of the right shape. -/
theorem two_three_heap.heap_pop_spec (vecMax : Nat) {h : two_three_heap T} (hs : h.Shape vecMax)
    (hne : h.mElems ≠ []) :
    ∃ x h1, h.top = some x ∧ h.pop = some h1 ∧ h1.Shape vecMax ∧ h1.mComp = h.mComp ∧
      h.mElems.Perm (x :: h1.mElems) ∧ h1.size + 1 = h.size ∧
      (StrictWeakOrder h.mComp → HeapOrdered h.mComp h.mElems →
        HeapOrdered h.mComp h1.mElems) := by
  have hk : kMaxSize = 1611409328 := rfl
  obtain ⟨hs1, _, hs3⟩ := hs
  simp only [two_three_heap.max_size] at hs1
  have hmax : h.mElems.length ≤ kMaxSize := le_trans hs1 (Nat.min_le_right _ _)
  have hvec : h.mElems.length ≤ vecMax := le_trans hs1 (Nat.min_le_left _ _)
  obtain ⟨l, hl, hrow⟩ := hs3 hne
  have hpos : 0 < h.mElems.length := List.length_pos.mpr hne
  obtain ⟨x, hx⟩ : ∃ x, h.mElems[0]? = some x := ⟨_, List.getElem?_eq_getElem hpos⟩
  have htop : h.top = some x := by
    simp only [two_three_heap.top, List.head?_eq_getElem?, hx]
  obtain ⟨e2, hsw, hlen2, hperm2, hg1, hg2, hg3⟩ :=
    swapAt_spec (i := 0) (j := h.mElems.length - 1) hpos (by omega : h.mElems.length - 1 < h.mElems.length)
  have hlast : e2.getLast? = some x := by
    rw [List.getLast?_eq_getElem?, hlen2, hg2, hx]
  have hsplit := dropLast_append_getLast hlast
  have hlen3 : e2.dropLast.length = h.mElems.length - 1 := by
    rw [List.length_dropLast, hlen2]
  have hperm3 : h.mElems.Perm (x :: e2.dropLast) := by
    refine hperm2.symm.trans ?_
    conv => lhs; rw [← hsplit]
    exact List.perm_append_singleton x e2.dropLast
  have hget : ∀ k, 0 < k → k < h.mElems.length - 1 → e2.dropLast[k]? = h.mElems[k]? := by
    intro k hk1 hk2
    rw [← hg3 k (by omega) (by omega)]
    conv => rhs; rw [← hsplit]
    rw [getElem?_snoc_lt _ _ (by omega)]
  by_cases hemp : e2.dropLast = []
  · refine ⟨x, ⟨e2.dropLast, -1, h.mComp⟩, htop, ?_, ⟨?_, fun _ => rfl, fun hn => absurd hemp hn⟩,
      rfl, hperm3, ?_, ?_⟩
    · simp only [two_three_heap.pop, hsw, hemp, List.isEmpty_nil, if_true]
    · simp [two_three_heap.max_size, hemp]
    · simp only [two_three_heap.size, hlen3]
      omega
    · intro _ _
      rw [hemp]
      exact HeapOrdered_nil _
  · have hm : 1 ≤ h.mElems.length - 1 := by
      have := List.length_pos.mpr hemp
      omega
    have hisE : e2.dropLast.isEmpty = false := by
      simp only [List.isEmpty_eq_false]
      exact hemp
    obtain ⟨r, hr⟩ : ∃ r, kRowIndices[l]? = some r := by
      obtain ⟨r, _, g1, _⟩ := hrow
      exact ⟨r, g1⟩
    have hleaf : ∃ l1 : Nat,
        (if r = e2.dropLast.length then h.mLeafLevel - 1 else h.mLeafLevel) = (l1 : Int) ∧
        InRow l1 (e2.dropLast.length - 1) := by
      rw [hlen3]
      rcases InRow_pred hrow hm with ⟨a1, a2, a3⟩ | ⟨a1, a2⟩
      · rw [hr] at a1
        cases a1
        exact ⟨l - 1, by simp only [if_true]; omega, a3⟩
      · rw [hr] at a1
        have : ¬ r = h.mElems.length - 1 := fun hc => a1 (by rw [hc])
        exact ⟨l, by simp only [this, if_false]; exact hl, a2⟩
    obtain ⟨l1, hl1, hrow1⟩ := hleaf
    obtain ⟨e1, hbd, hlen1, hperm1, hord⟩ := bubbleDown_spec h.mComp e2.dropLast.length
      e2.dropLast 0 0 ((InRow_zero_iff 0).mpr rfl) (by omega) (by omega) (by omega)
    refine ⟨x, ⟨e1, (l1 : Int), h.mComp⟩, htop, ?_, ⟨?_, ?_, ?_⟩, rfl, ?_, ?_, ?_⟩
    · have hri : rowIndexAt h.mLeafLevel = some r := by rw [hl, rowIndexAt_nat, hr]
      have hbd1 : bubbleDown h.mComp e2.dropLast.length e2.dropLast 0 0 = some e1 := hbd
      simp only [two_three_heap.pop, hsw, hisE, Bool.false_eq_true, if_false, hri, hbd1, hl1]
    · simp only [two_three_heap.max_size, hlen1, hlen3, Nat.le_min]
      omega
    · intro he
      have := congrArg List.length he
      simp only [hlen1, hlen3, List.length_nil] at this
      omega
    · intro _
      refine ⟨l1, rfl, ?_⟩
      simp only [hlen1]
      exact hrow1
    · exact hperm3.trans (hperm1.symm.cons x)
    · simp only [two_three_heap.size, hlen1, hlen3]
      omega
    · intro hc ho
      apply hord hc
      · intro p i a b hpi hp0 ha hb
        have h1 := hpi.lt
        have h2 := getElem?_lt_of_some hb
        rw [hlen3] at h2
        rw [hget p (by omega) (by omega)] at ha
        rw [hget i (by omega) (by omega)] at hb
        exact ho p i a b hpi ha hb
      · intro g c a b hg0 _ _ _
        have := hg0.lt
        omega

theorem two_three_heap.Reachable.heap_inv {vecMax : Nat} {comp : T → T → Bool}
    {h : two_three_heap T} (hr : two_three_heap.Reachable vecMax comp h) :
    h.Shape vecMax ∧ h.mComp = comp ∧ (StrictWeakOrder comp → HeapOrdered comp h.mElems) := by
  induction hr with
  | construct =>
    refine ⟨⟨?_, fun _ => rfl, fun hn => absurd rfl hn⟩, rfl, fun _ => HeapOrdered_nil _⟩
    simp [two_three_heap.construct]
  | @push h h1 v _ hp ih =>
    obtain ⟨hs, hc, ho⟩ := ih
    have hlt : h.size < h.max_size vecMax := by
      have hs1 := hs.1
      by_contra hn
      have e : h.size = h.max_size vecMax := by
        simp only [two_three_heap.size] at hn ⊢
        omega
      simp [two_three_heap.push, e] at hp
    obtain ⟨h2, g1, g2, g3, _, _, g6⟩ := two_three_heap.heap_push_spec vecMax hs hlt v
    rw [hp] at g1
    simp only [Option.some.injEq, Except.ok.injEq] at g1
    subst g1
    refine ⟨g2, g3.trans hc, ?_⟩
    intro hsw
    rw [← hc] at hsw ⊢
    exact g6 hsw (by rw [hc]; exact ho (by rw [← hc]; exact hsw))
  | @pop h h1 _ hp ih =>
    obtain ⟨hs, hc, ho⟩ := ih
    have hne : h.mElems ≠ [] := by
      intro he
      simp [two_three_heap.pop, swapAt, he] at hp
    obtain ⟨x, h2, _, g1, g2, g3, _, _, g6⟩ := two_three_heap.heap_pop_spec vecMax hs hne
    rw [hp] at g1
    simp only [Option.some.injEq] at g1
    subst g1
    refine ⟨g2, g3.trans hc, ?_⟩
    intro hsw
    rw [← hc] at hsw ⊢
    exact g6 hsw (by rw [hc]; exact ho (by rw [← hc]; exact hsw))

end HeapPopLemmas


section HeapClaims

variable {T : Type}

theorem sampleHeap_reachable :
    two_three_heap.Reachable 1000 (fun a b : Nat => decide (a < b)) sampleHeap := by
  have h1 : two_three_heap.Reachable 1000 (fun a b : Nat => decide (a < b))
      (⟨[5], 0, fun a b => decide (a < b)⟩ : two_three_heap Nat) :=
    two_three_heap.Reachable.push (v := 5) two_three_heap.Reachable.construct (by rfl)
  have h2 : two_three_heap.Reachable 1000 (fun a b : Nat => decide (a < b))
      (⟨[5, 3], 1, fun a b => decide (a < b)⟩ : two_three_heap Nat) :=
    two_three_heap.Reachable.push (v := 3) h1 (by rfl)
  exact two_three_heap.Reachable.push (v := 9) h2 (by rfl)

/-- C27: for every comparator that is a strict weak ordering and every heap
that the constructor, `push` (when it does not throw) and `pop` produce:
whenever the heap is not empty, `top()` returns one of the stored values, and
no stored value is greater than it under the comparator. -/
theorem C27_top_is_a_maximum (vecMax : Nat) (comp : T → T → Bool) (h : two_three_heap T)
    (hc : StrictWeakOrder comp) (hr : two_three_heap.Reachable vecMax comp h)
    (hne : h.isEmpty = false) :
    ∃ x, h.top = some x ∧ x ∈ h.mElems ∧ ∀ y, y ∈ h.mElems → comp x y = false := by
  obtain ⟨hs, _, ho⟩ := hr.heap_inv
  have hne1 : h.mElems ≠ [] := by
    simpa [two_three_heap.isEmpty] using hne
  have hpos : 0 < h.mElems.length := List.length_pos.mpr hne1
  obtain ⟨x, hx⟩ : ∃ x, h.mElems[0]? = some x := ⟨_, List.getElem?_eq_getElem hpos⟩
  have hmax : h.mElems.length ≤ kMaxSize := le_trans hs.1 (Nat.min_le_right _ _)
  refine ⟨x, ?_, List.getElem?_mem hx, (ho hc).top_max hc hmax hx⟩
  simp only [two_three_heap.top, List.head?_eq_getElem?, hx]

theorem C27_top_is_a_maximum_witness :
    StrictWeakOrder (fun a b : Nat => decide (a < b)) ∧
      two_three_heap.Reachable 1000 (fun a b : Nat => decide (a < b)) sampleHeap ∧
      sampleHeap.isEmpty = false ∧
      ∃ x, sampleHeap.top = some x ∧ x ∈ sampleHeap.mElems ∧
        ∀ y, y ∈ sampleHeap.mElems → decide (x < y) = false :=
  ⟨lt_strictWeakOrder, sampleHeap_reachable, rfl,
    C27_top_is_a_maximum 1000 (fun a b : Nat => decide (a < b)) sampleHeap lt_strictWeakOrder
      sampleHeap_reachable rfl⟩

/-- C28: for every heap that the constructor, `push` and `pop` produce (with any
comparator): on a non-empty heap `pop()` returns, the stored values before are
the value `top()` returned together with the stored values afterwards (one
occurrence of `top()` is removed and nothing else changes), `size()` decreases
by one, and with a strict weak ordering as comparator no stored value was
greater than the value removed; on a heap with `size() < max_size()`,
`push(v)` returns without throwing, the stored values afterwards are `v`
together with the stored values before, and `size()` increases by one. -/
theorem C28_pop_removes_top_push_adds (vecMax : Nat) (comp : T → T → Bool)
    (h : two_three_heap T) (v : T) (hr : two_three_heap.Reachable vecMax comp h) :
    (h.isEmpty = false →
      ∃ x h1, h.top = some x ∧ h.pop = some h1 ∧ h.mElems.Perm (x :: h1.mElems) ∧
        h1.size + 1 = h.size ∧
        (StrictWeakOrder comp → ∀ y, y ∈ h.mElems → comp x y = false)) ∧
    (h.size < h.max_size vecMax →
      ∃ h1, h.push vecMax v = some (Except.ok h1) ∧ h1.mElems.Perm (v :: h.mElems) ∧
        h1.size = h.size + 1) := by
  obtain ⟨hs, _, ho⟩ := hr.heap_inv
  constructor
  · intro hne
    have hne1 : h.mElems ≠ [] := by
      simpa [two_three_heap.isEmpty] using hne
    obtain ⟨x, h1, g1, g2, _, _, g5, g6, _⟩ := two_three_heap.heap_pop_spec vecMax hs hne1
    refine ⟨x, h1, g1, g2, g5, g6, ?_⟩
    intro hc
    have hmax : h.mElems.length ≤ kMaxSize := le_trans hs.1 (Nat.min_le_right _ _)
    have hx : h.mElems[0]? = some x := by
      simpa only [two_three_heap.top, List.head?_eq_getElem?] using g1
    exact (ho hc).top_max hc hmax hx
  · intro hlt
    obtain ⟨h1, g1, _, _, g4, g5, _⟩ := two_three_heap.heap_push_spec vecMax hs hlt v
    exact ⟨h1, g1, g4, g5⟩

theorem C28_pop_removes_top_push_adds_witness :
    two_three_heap.Reachable 1000 (fun a b : Nat => decide (a < b)) sampleHeap ∧
      sampleHeap.isEmpty = false ∧ sampleHeap.size < sampleHeap.max_size 1000 ∧
      (∃ x h1, sampleHeap.top = some x ∧ sampleHeap.pop = some h1 ∧
        sampleHeap.mElems.Perm (x :: h1.mElems) ∧ h1.size + 1 = sampleHeap.size ∧
        (StrictWeakOrder (fun a b : Nat => decide (a < b)) →
          ∀ y, y ∈ sampleHeap.mElems → decide (x < y) = false)) ∧
      ∃ h1, sampleHeap.push 1000 7 = some (Except.ok h1) ∧
        h1.mElems.Perm (7 :: sampleHeap.mElems) ∧ h1.size = sampleHeap.size + 1 :=
  ⟨sampleHeap_reachable, rfl, by decide,
    (C28_pop_removes_top_push_adds 1000 (fun a b : Nat => decide (a < b)) sampleHeap 7
      sampleHeap_reachable).1 rfl,
    (C28_pop_removes_top_push_adds 1000 (fun a b : Nat => decide (a < b)) sampleHeap 7
      sampleHeap_reachable).2 (by decide)⟩

/-- The sample heap, run: `pop` gives the heap 5, 3 and `push(7)` the heap
9, 7, 5, 3. -/
theorem sampleHeap_run :
    sampleHeap.pop = some ⟨[5, 3], 1, fun a b => decide (a < b)⟩ ∧
      sampleHeap.push 1000 7 =
        some (Except.ok ⟨[9, 7, 5, 3], 2, fun a b => decide (a < b)⟩) :=
  ⟨by rfl, by rfl⟩

end HeapClaims


/-! ## The shape of a tree is determined by its members -/

section CanonicalForm

variable {Ch : Type} [LinearOrder Ch]

theorem mapFind_tail_none {V : Type} {k : Ch} {v : V} {rest : List (Ch × V)}
    (hs : keysSorted ((k, v) :: rest)) : mapFind rest k = none := by
  cases hf : mapFind rest k with
  | none => rfl
  | some v2 =>
    have hm := mapFind_some_mem hf
    have := (List.pairwise_cons.mp hs).1 _ hm
    exact absurd this (lt_irrefl _)

/-- Two sorted maps with the same lookups are the same list. -/
theorem keysSorted_ext {V : Type} : ∀ {m m2 : List (Ch × V)}, keysSorted m → keysSorted m2 →
    (∀ k, mapFind m k = mapFind m2 k) → m = m2
  | [], [], _, _, _ => rfl
  | [], (k, v) :: r, _, _, h => by
    have := h k
    simp [mapFind] at this
  | (k, v) :: r, [], _, _, h => by
    have := h k
    simp [mapFind] at this
  | (k, v) :: r, (k2, v2) :: r2, hs, hs2, h => by
    have h1 : mapFind ((k2, v2) :: r2) k = some v := by rw [← h k]; simp [mapFind]
    have h2 : mapFind ((k, v) :: r) k2 = some v2 := by rw [h k2]; simp [mapFind]
    have e : k = k2 := le_antisymm (mapFind_head_le hs h2) (mapFind_head_le hs2 h1)
    subst e
    have ev : v = v2 := by
      have := h k
      simpa [mapFind] using this
    subst ev
    have er : r = r2 := by
      refine keysSorted_ext (keysSorted_tail hs) (keysSorted_tail hs2) (fun x => ?_)
      by_cases hx : x = k
      · subst hx
        rw [mapFind_tail_none hs, mapFind_tail_none hs2]
      · have := h x
        have hx2 : ¬ k = x := fun e => hx e.symm
        simpa [mapFind, hx2] using this
    rw [er]

/-- A well-formed node that is not a dead end has a word below it. -/
theorem Node.exists_word {n : Node Ch} (h : n.WF) (hd : n.isDead = false) :
    ∃ w, n.isWordAt w = true := by
  obtain ⟨rel, _, _, hw, _⟩ := firstWord_spec n h hd []
  exact ⟨rel, hw⟩

theorem Node.child_of_same_words {a b : Node Ch} (ha : a.WF) (hb : b.WF)
    (hw : ∀ w, a.isWordAt w = b.isWordAt w) {k : Ch} {ch : Node Ch}
    (hf : mapFind a.mEqual k = some ch) :
    ∃ ch2, mapFind b.mEqual k = some ch2 ∧ ch.mLetter = ch2.mLetter ∧
      ∀ w, ch.isWordAt w = ch2.isWordAt w := by
  obtain ⟨rel, hrel⟩ := Node.exists_word (ha.child hf) (ha.local.2 k ch hf).2
  have h1 : a.isWordAt (k :: rel) = true := by rw [Node.isWordAt_cons, hf]; exact hrel
  rw [hw, Node.isWordAt_cons] at h1
  cases hf2 : mapFind b.mEqual k with
  | none => rw [hf2] at h1; cases h1
  | some ch2 =>
    refine ⟨ch2, rfl, ?_, fun w => ?_⟩
    · rw [(ha.local.2 k ch hf).1, (hb.local.2 k ch2 hf2).1]
    · have := hw (k :: w)
      rw [Node.isWordAt_cons, Node.isWordAt_cons, hf, hf2] at this
      exact this

/-- Two well-formed nodes with the same letter and the same words below them
are the same tree. -/
theorem Node.eq_of_same_words : ∀ (n : Node Ch), n.WF → ∀ n2 : Node Ch, n2.WF →
    n.mLetter = n2.mLetter → (∀ w, n.isWordAt w = n2.isWordAt w) → n = n2 := by
  refine Node.induct ?_
  intro l w eq ih hwf n2 hwf2 hl hw
  cases n2 with
  | mk l2 w2 eq2 =>
    have e1 : l = l2 := hl
    have e2 : w = w2 := by
      have := hw []
      simpa [Node.isWordAt_nil] using this
    have e3 : eq = eq2 := by
      refine keysSorted_ext hwf.local.1 hwf2.local.1 (fun k => ?_)
      cases hf : mapFind eq k with
      | some ch =>
        obtain ⟨ch2, g1, g2, g3⟩ := Node.child_of_same_words hwf hwf2 hw hf
        have := ih k ch (mapFind_some_mem hf) (hwf.child hf) ch2 (hwf2.child g1) g2 g3
        rw [this]
        exact g1.symm
      | none =>
        cases hf2 : mapFind eq2 k with
        | none => rfl
        | some ch2 =>
          obtain ⟨ch, g1, _, _⟩ :=
            Node.child_of_same_words hwf2 hwf (fun w => (hw w).symm) hf2
          have g1b : mapFind eq k = some ch := g1
          rw [hf] at g1b
          cases g1b
    rw [e1, e2, e3]

/-- A node has the address `p` iff `p` is a prefix of a word of the tree. -/
theorem Node.deref_iff_prefix {root : Node Ch} (hwf : root.WF) (hroot : root.isDead = false)
    (p : List Ch) :
    (∃ n, root.deref p = some n) ↔ ∃ w, root.isWordAt w = true ∧ p <+: w := by
  constructor
  · rintro ⟨n, hd⟩
    obtain ⟨rel, hrel⟩ := Node.exists_word (hwf.deref hd) (Node.isDead_of_deref hwf hroot hd)
    refine ⟨p ++ rel, ?_, List.prefix_append _ _⟩
    rw [Node.isWordAt_append, hd]
    exact hrel
  · rintro ⟨w, hw, q, rfl⟩
    obtain ⟨m, hm, _⟩ := Node.deref_of_isWordAt hw
    exact ⟨m, hm⟩

theorem deref_iff_prefix_of_member {t : ternary_search_tree Ch} (hinv : t.Inv) (p : List Ch) :
    (∃ n, t.deref p = some n) ↔ ∃ w, t.contains w ∧ p <+: w := by
  cases hr : t.mRoot with
  | none =>
    constructor
    · rintro ⟨n, hd⟩
      simp [ternary_search_tree.deref, hr] at hd
    · rintro ⟨w, hw, _⟩
      exact absurd hw (not_contains_of_no_root hr w)
  | some root =>
    obtain ⟨hwf, hroot, _⟩ := Inv.root hinv hr
    have e : t.deref p = root.deref p := by simp [ternary_search_tree.deref, hr]
    rw [e, Node.deref_iff_prefix hwf hroot]
    constructor
    · rintro ⟨w, hw, hp⟩
      exact ⟨w, (contains_iff hr hwf w).mpr hw, hp⟩
    · rintro ⟨w, hw, hp⟩
      exact ⟨w, (contains_iff hr hwf w).mp hw, hp⟩

theorem no_dead_end {t : ternary_search_tree Ch} (hinv : t.Inv) {p : List Ch} {n : Node Ch}
    (hd : t.deref p = some n) : n.isDead = false := by
  cases hr : t.mRoot with
  | none => simp [ternary_search_tree.deref, hr] at hd
  | some root =>
    obtain ⟨hwf, hroot, _⟩ := Inv.root hinv hr
    have e : t.deref p = root.deref p := by simp [ternary_search_tree.deref, hr]
    rw [e] at hd
    exact Node.isDead_of_deref hwf hroot hd

theorem root_none_iff {t : ternary_search_tree Ch} (hinv : t.Inv) :
    t.mRoot = none ↔ ∀ w, ¬ t.contains w := by
  have h := deref_iff_prefix_of_member hinv []
  constructor
  · intro hr w
    exact not_contains_of_no_root hr w
  · intro hn
    cases hr : t.mRoot with
    | none => rfl
    | some root =>
      have : ∃ n, t.deref [] = some n := ⟨root, by simp [ternary_search_tree.deref, hr, Node.deref_nil]⟩
      obtain ⟨w, hw, _⟩ := h.mp this
      exact absurd hw (hn w)

end CanonicalForm


/-! ## Invariants of the reachable trees -/

section ShapeClaims

variable {Ch : Type} [LinearOrder Ch] [Inhabited Ch]

/-- C32: in every tree reachable from the empty tree by insert and erase no
node, the root included, is a dead end (not a word and without children).
`erase(s)` of a member `s` returns and keeps this: afterwards no node is a dead
end, the nodes left are exactly those on the path of a remaining member (the
nodes that led to `s` only have been removed), and the root is cleared iff `s`
was the only member. -/
theorem C32_no_dead_end_nodes (t : ternary_search_tree Ch) (h : Reachable t) :
    (∀ p n, t.deref p = some n → n.isDead = false) ∧
    ∀ s, t.contains s → ∃ r, t.erase s = some (true, r) ∧
      (∀ p n, r.deref p = some n → n.isDead = false) ∧
      (∀ p, (∃ n, r.deref p = some n) ↔ ∃ w, t.contains w ∧ w ≠ s ∧ p <+: w) ∧
      (r.mRoot = none ↔ ∀ w, t.contains w → w = s) := by
  have hinv := h.inv
  refine ⟨fun p n hd => no_dead_end hinv hd, fun s hs => ?_⟩
  obtain ⟨r, he, hrinv, _, hmem⟩ := erase_member_spec hinv hs
  refine ⟨r, he, fun p n hd => no_dead_end hrinv hd, fun p => ?_, ?_⟩
  · rw [deref_iff_prefix_of_member hrinv]
    constructor
    · rintro ⟨w, hw, hp⟩
      exact ⟨w, ((hmem w).mp hw).1, ((hmem w).mp hw).2, hp⟩
    · rintro ⟨w, hw, hne, hp⟩
      exact ⟨w, (hmem w).mpr ⟨hw, hne⟩, hp⟩
  · rw [root_none_iff hrinv]
    constructor
    · intro hn w hw
      by_contra hne
      exact hn w ((hmem w).mpr ⟨hw, hne⟩)
    · intro hall w hw
      exact ((hmem w).mp hw).2 (hall w ((hmem w).mp hw).1)

theorem C32_no_dead_end_nodes_witness :
    Reachable sampleTree ∧
    (∀ p n, sampleTree.deref p = some n → n.isDead = false) ∧
    ∀ s, sampleTree.contains s → ∃ r, sampleTree.erase s = some (true, r) ∧
      (∀ p n, r.deref p = some n → n.isDead = false) ∧
      (∀ p, (∃ n, r.deref p = some n) ↔ ∃ w, sampleTree.contains w ∧ w ≠ s ∧ p <+: w) ∧
      (r.mRoot = none ↔ ∀ w, sampleTree.contains w → w = s) :=
  ⟨sampleTree_reachable, C32_no_dead_end_nodes sampleTree sampleTree_reachable⟩

/-- C33: on every reachable tree and for every node of it (at the address
`p`), `firstWordIn` applied to the node and the final loop of `operator++`
run on the cursor whose top frame is the node both return: they never take the
first child of a node without children, and they stop at a node of the subtree
of the node (its address extends `p`) that is marked as a word. -/
theorem C33_descent_reaches_a_word (t : ternary_search_tree Ch) (p : List Ch) (n : Node Ch)
    (h : Reachable t) (hd : t.deref p = some n) :
    ∃ r, t.firstWordIn (some p) = some (some r) ∧
      descend t p.inits p = some (cursorAt r) ∧ p <+: r ∧
      ∃ m, t.deref r = some m ∧ m.mIsWord = true := by
  have hinv := h.inv
  cases hr : t.mRoot with
  | none => simp [ternary_search_tree.deref, hr] at hd
  | some root =>
    obtain ⟨hwf, hroot, _⟩ := Inv.root hinv hr
    have e : ∀ q, t.deref q = root.deref q := fun q => by simp [ternary_search_tree.deref, hr]
    rw [e] at hd
    have hdead := Node.isDead_of_deref hwf hroot hd
    obtain ⟨r, h1, h2, h3, ⟨y, hy⟩, _⟩ := descent_at hwf hd hdead
    have hfw : t.firstWordIn (some p) = some (some r) := by
      simp [ternary_search_tree.firstWordIn, e, hd, h1]
    have hdesc : descend t p.inits p = some (cursorAt r) := by
      have hl : p.inits.getLast? = some p := getLast?_inits p
      simp [descend, hl, e, hd, h2, cursorAt]
    refine ⟨r, hfw, hdesc, ⟨y, hy.symm⟩, ?_⟩
    have h4 : root.isWordAt (r ++ []) = true := by simpa using h3
    obtain ⟨m, hm, hmw⟩ := Node.deref_of_isWordAt h4
    refine ⟨m, by rw [e]; exact hm, ?_⟩
    simpa [Node.isWordAt_nil] using hmw

theorem C33_descent_reaches_a_word_witness :
    Reachable sampleTree ∧
      sampleTree.deref [2] = some (Node.mk 2 true [(1, Node.mk 1 true [])]) ∧
      ∃ r, sampleTree.firstWordIn (some [2]) = some (some r) ∧
        descend sampleTree ([2] : List Nat).inits [2] = some (cursorAt r) ∧ [2] <+: r ∧
        ∃ m, sampleTree.deref r = some m ∧ m.mIsWord = true :=
  ⟨sampleTree_reachable, rfl, C33_descent_reaches_a_word sampleTree [2] _ sampleTree_reachable rfl⟩

/-- C34: on every reachable tree, `insert(s)` returns and does not change
whether any other string `u` is a member (`find(u) != end()` afterwards iff
before); in particular a proper prefix of `s` that was not a member has a node
in the tree afterwards (it lies on the path of `s`) and `find` still returns
`end()` for it. -/
theorem C34_insert_keeps_other_members (t : ternary_search_tree Ch) (s : List Ch)
    (h : Reachable t) :
    ∃ r, t.insert s = some r ∧
      (∀ u, u ≠ s → (r.2.contains u ↔ t.contains u)) ∧
      ∀ p, p <+: s → p ≠ s → ¬ t.contains p →
        (∃ n, r.2.deref p = some n) ∧ r.2.find p = some r.2.end_ := by
  have hinv := h.inv
  have hi := insert_eq hinv s
  have hrinv := Inv_insert hinv hi
  have hmem := insert_contains hinv s hi
  refine ⟨_, hi, fun u hu => ?_, fun p hp hne hnot => ⟨?_, ?_⟩⟩
  · rw [hmem u]
    constructor
    · rintro (e | e)
      · exact absurd e hu
      · exact e
    · exact Or.inr
  · rw [deref_iff_prefix_of_member hrinv]
    exact ⟨s, (hmem s).mpr (Or.inl rfl), hp⟩
  · have hnc : ¬ ternary_search_tree.contains
        (⟨some (insertNode t.ensureRoot s).1,
          if t.ensureRoot.isWordAt s then t.mSize else t.mSize + 1⟩ : ternary_search_tree Ch) p := by
      rw [hmem p]
      rintro (e | e)
      · exact hne e
      · exact hnot e
    have hwf := insertNode_WF (ensureRoot_WF hinv) s
    rw [find_eq (t := ⟨some (insertNode t.ensureRoot s).1, _⟩) rfl hwf]
    rw [contains_iff (t := ⟨some (insertNode t.ensureRoot s).1, _⟩) rfl hwf] at hnc
    simp [hnc]

theorem C34_insert_keeps_other_members_witness :
    Reachable sampleTree ∧
      ∃ r, sampleTree.insert [3, 4, 5] = some r ∧
        (∀ u, u ≠ [3, 4, 5] → (r.2.contains u ↔ sampleTree.contains u)) ∧
        ∀ p, p <+: [3, 4, 5] → p ≠ [3, 4, 5] → ¬ sampleTree.contains p →
          (∃ n, r.2.deref p = some n) ∧ r.2.find p = some r.2.end_ :=
  ⟨sampleTree_reachable, C34_insert_keeps_other_members sampleTree [3, 4, 5] sampleTree_reachable⟩

/-- C35: in every reachable tree a node has the address `p` (the node is
reached from the root along the characters of `p`) iff `p` is a prefix of a
member; this holds for every `p`, the empty path of the root included. -/
theorem C35_node_iff_prefix_of_member (t : ternary_search_tree Ch) (p : List Ch)
    (h : Reachable t) :
    (∃ n, t.deref p = some n) ↔ ∃ w, t.contains w ∧ p <+: w :=
  deref_iff_prefix_of_member h.inv p

theorem C35_node_iff_prefix_of_member_witness :
    Reachable sampleTree ∧
      ((∃ n, sampleTree.deref [2, 1] = some n) ↔ ∃ w, sampleTree.contains w ∧ [2, 1] <+: w) :=
  ⟨sampleTree_reachable, C35_node_iff_prefix_of_member sampleTree [2, 1] sampleTree_reachable⟩

theorem eraseNode_insertNode {n : Node Ch} (hwf : n.WF) {s : List Ch}
    (hs : n.isWordAt s = false) :
    eraseNode (insertNode n s).1 s = some (if n.isDead then none else some n) := by
  have hwfi := insertNode_WF hwf s
  have hws : (insertNode n s).1.isWordAt (s ++ []) = true := by
    rw [List.append_nil, insertNode_isWordAt]
    simp
  obtain ⟨m, hm, _⟩ := Node.deref_of_isWordAt hws
  obtain ⟨r, hr⟩ := eraseNode_isSome hm
  obtain ⟨h1, h2⟩ := eraseNode_spec hwfi hr
  rw [hr]
  cases r with
  | none =>
    cases hdead : n.isDead with
    | true => rfl
    | false =>
      obtain ⟨w, hw⟩ := Node.exists_word hwf hdead
      have hw2 : (insertNode n s).1.isWordAt w = true := by
        rw [insertNode_isWordAt, hw]
        simp
      have e := h1 rfl w hw2
      subst e
      rw [hs] at hw
      cases hw
  | some n2 =>
    obtain ⟨g1, g2, g3, g4⟩ := h2 n2 rfl
    have hsame : ∀ w, n2.isWordAt w = n.isWordAt w := by
      intro w
      rw [g4, insertNode_isWordAt]
      by_cases e : w = s
      · subst e
        simp [hs]
      · simp [e]
    cases hdead : n.isDead with
    | true =>
      obtain ⟨w, hw⟩ := Node.exists_word g1 g3
      rw [hsame] at hw
      have hnw : n.isWordAt w = false := by
        cases n with
        | mk l wd eq =>
          simp [Node.isDead] at hdead
          obtain ⟨e1, e2⟩ := hdead
          subst e1
          subst e2
          exact Node.isWordAt_leaf l w
      rw [hnw] at hw
      cases hw
    | false =>
      have := Node.eq_of_same_words n2 g1 n hwf (by rw [g2, insertNode_mLetter]) hsame
      rw [this]
      rfl

/-- C36: on every reachable tree `t` and for every string `s` that is not a
member, `insert(s)` returns with `true`, and `erase(s)` on the result returns
with `true` and leaves exactly `t`: the same root pointer (null again if `t`
was empty), the same nodes with the same letters, flags and children, and the
same `size()`. -/
theorem C36_insert_then_erase_restores (t : ternary_search_tree Ch) (s : List Ch)
    (h : Reachable t) (hs : ¬ t.contains s) :
    ∃ r, t.insert s = some r ∧ r.1.2 = true ∧ r.2.erase s = some (true, t) := by
  have hinv := h.inv
  have hi := insert_eq hinv s
  have hrinv := Inv_insert hinv hi
  have hwfe := ensureRoot_WF hinv
  have hwf := insertNode_WF hwfe s
  have hnw : t.ensureRoot.isWordAt s = false := by
    cases hr : t.mRoot with
    | none =>
      simp only [ternary_search_tree.ensureRoot, hr]
      exact Node.isWordAt_leaf _ _
    | some root =>
      obtain ⟨hwfr, _, _⟩ := Inv.root hinv hr
      have := (contains_iff hr hwfr s).not.mp hs
      simp only [ternary_search_tree.ensureRoot, hr]
      simpa using this
  refine ⟨_, hi, by simp [hnw], ?_⟩
  have hws : (insertNode t.ensureRoot s).1.isWordAt s = true := by
    rw [insertNode_isWordAt]
    simp
  obtain ⟨root2, he1, he2⟩ := erase_member (t := ⟨some (insertNode t.ensureRoot s).1,
    if t.ensureRoot.isWordAt s then t.mSize else t.mSize + 1⟩) rfl hrinv hws
  rw [he2]
  rw [eraseNode_insertNode hwfe hnw] at he1
  simp only [Option.some.injEq] at he1
  subst he1
  simp only [hnw, Bool.false_eq_true, if_false, Nat.add_sub_cancel]
  cases hr : t.mRoot with
  | none =>
    have : t = ⟨none, t.mSize⟩ := by cases t; simp_all
    rw [this]
    simp [ternary_search_tree.ensureRoot, Node.isDead]
  | some root =>
    obtain ⟨_, hdead, _⟩ := Inv.root hinv hr
    have : t = ⟨some root, t.mSize⟩ := by cases t; simp_all
    rw [this]
    simp [ternary_search_tree.ensureRoot, hdead]

theorem C36_insert_then_erase_restores_witness :
    Reachable sampleTree ∧ ¬ sampleTree.contains [2, 1, 7] ∧
      ∃ r, sampleTree.insert [2, 1, 7] = some r ∧ r.1.2 = true ∧
        r.2.erase [2, 1, 7] = some (true, sampleTree) :=
  ⟨sampleTree_reachable, by rintro ⟨it, hf, hne⟩; cases hf; simp [const_iterator.eq, ternary_search_tree.end_] at hne,
    C36_insert_then_erase_restores sampleTree [2, 1, 7] sampleTree_reachable
      (by rintro ⟨it, hf, hne⟩; cases hf; simp [const_iterator.eq, ternary_search_tree.end_] at hne)⟩

theorem insertNode_comm {n : Node Ch} (hwf : n.WF) (s u : List Ch) :
    (insertNode (insertNode n s).1 u).1 = (insertNode (insertNode n u).1 s).1 := by
  refine Node.eq_of_same_words _ (insertNode_WF (insertNode_WF hwf s) u) _
    (insertNode_WF (insertNode_WF hwf u) s) ?_ (fun w => ?_)
  · simp only [insertNode_mLetter]
  · simp only [insertNode_isWordAt]
    cases decide (w = u) <;> cases decide (w = s) <;> rfl

/-- C37: on every reachable tree and for all strings `s` and `u`, the calls
`insert(s)` then `insert(u)` and the calls `insert(u)` then `insert(s)` all
return and leave the same tree: the same nodes with the same letters, flags
and children, and the same `size()`. -/
theorem C37_insertion_order_is_irrelevant (t : ternary_search_tree Ch) (s u : List Ch)
    (h : Reachable t) :
    ∃ a b c d, t.insert s = some a ∧ a.2.insert u = some b ∧
      t.insert u = some c ∧ c.2.insert s = some d ∧ b.2 = d.2 := by
  have hinv := h.inv
  have ha := insert_eq hinv s
  have hainv := Inv_insert hinv ha
  have hb := insert_eq hainv u
  have hbinv := Inv_insert hainv hb
  have hc := insert_eq hinv u
  have hcinv := Inv_insert hinv hc
  have hd := insert_eq hcinv s
  have hdinv := Inv_insert hcinv hd
  refine ⟨_, _, _, _, ha, hb, hc, hd, ?_⟩
  have hwfe := ensureRoot_WF hinv
  have e := insertNode_comm hwfe s u
  have hroot : ∀ {x y : ternary_search_tree Ch} {n : Node Ch}, x.Inv → y.Inv →
      x.mRoot = some n → y.mRoot = some n → x = y := by
    intro x y n hx hy hxr hyr
    obtain ⟨_, _, h1⟩ := Inv.root hx hxr
    obtain ⟨_, _, h2⟩ := Inv.root hy hyr
    cases x
    cases y
    simp_all
  refine hroot hbinv hdinv (n := (insertNode (insertNode t.ensureRoot s).1 u).1) rfl ?_
  rw [e]
  rfl

theorem C37_insertion_order_is_irrelevant_witness :
    Reachable sampleTree ∧
      ∃ a b c d, sampleTree.insert [2, 4] = some a ∧ a.2.insert [1] = some b ∧
        sampleTree.insert [1] = some c ∧ c.2.insert [2, 4] = some d ∧ b.2 = d.2 :=
  ⟨sampleTree_reachable,
    C37_insertion_order_is_irrelevant sampleTree [2, 4] [1] sampleTree_reachable⟩

/-- C38: in every reachable tree the root pointer is null iff `size()` is 0,
and `begin()` returns, with the result `end()` iff `size()` is 0; `erase(s)` of
the only member `s` leaves the tree of the default constructor (null root,
size 0). -/
theorem C38_root_absent_iff_empty (t : ternary_search_tree Ch) (h : Reachable t) :
    (t.mRoot = none ↔ t.size = 0) ∧
    (∃ b, t.begin = some b ∧ (b.eq t.end_ = true ↔ t.size = 0)) ∧
    ∀ s, t.contains s → t.size = 1 →
      t.erase s = some (true, ternary_search_tree.empty) := by
  have hinv := h.inv
  have key : ∀ {x : ternary_search_tree Ch}, x.Inv → (x.mRoot = none ↔ x.size = 0) := by
    intro x hx
    constructor
    · intro hr
      exact Inv.no_root hx hr
    · intro hz
      cases hr : x.mRoot with
      | none => rfl
      | some root =>
        obtain ⟨hwf, hdead, _⟩ := Inv.root hx hr
        obtain ⟨w, hw⟩ := Node.exists_word hwf hdead
        have := size_pos_of_contains hx ((contains_iff hr hwf w).mpr hw)
        have hz2 : x.mSize = 0 := hz
        omega
  refine ⟨key hinv, ?_, fun s hs h1 => ?_⟩
  · cases hr : t.mRoot with
    | none =>
      refine ⟨_, begin_of_no_root hr, ?_⟩
      have := (key hinv).mp hr
      simp [const_iterator.eq, this]
    | some root =>
      obtain ⟨hwf, hdead, _⟩ := Inv.root hinv hr
      obtain ⟨r, hb, hw, _⟩ := begin_spec hr hwf hdead
      refine ⟨_, hb, ?_⟩
      have hne := cursorAt_ne_end t r
      have hnz : ¬ t.size = 0 := fun hz => by
        have := (key hinv).mpr hz
        rw [hr] at this
        cases this
      simp [hne, hnz]
  · obtain ⟨r, he, hrinv, hsz, _⟩ := erase_member_spec hinv hs
    have hz : r.size = 0 := by
      have h2 : t.mSize = 1 := h1
      show r.mSize = 0
      omega
    have hrn := (key hrinv).mpr hz
    have : r = ternary_search_tree.empty := by
      cases r
      simp only [ternary_search_tree.empty]
      simp_all [ternary_search_tree.size]
    rw [he, this]

theorem C38_root_absent_iff_empty_witness :
    Reachable (⟨some (Node.mk 0 false [(2, Node.mk 2 true [])]), 1⟩ : ternary_search_tree Nat) ∧
      ternary_search_tree.erase
          (⟨some (Node.mk 0 false [(2, Node.mk 2 true [])]), 1⟩ : ternary_search_tree Nat) [2] =
        some (true, ternary_search_tree.empty) ∧
      ((sampleTree.mRoot = none ↔ sampleTree.size = 0) ∧
        (∃ b, sampleTree.begin = some b ∧
          (b.eq sampleTree.end_ = true ↔ sampleTree.size = 0)) ∧
        ∀ s, sampleTree.contains s → sampleTree.size = 1 →
          sampleTree.erase s = some (true, ternary_search_tree.empty)) := by
  have h1 : Reachable
      (⟨some (Node.mk 0 false [(2, Node.mk 2 true [])]), 1⟩ : ternary_search_tree Nat) :=
    Reachable.insert (s := [2]) (r := ((cursorAt [2], true), _)) Reachable.empty rfl
  exact ⟨h1, (C38_root_absent_iff_empty _ h1).2.2 [2] ⟨cursorAt [2], rfl, rfl⟩ rfl,
    C38_root_absent_iff_empty sampleTree sampleTree_reachable⟩

end ShapeClaims


/-! ## `ParentIndex` and `ChildrenOf` -/

section HeapIndexClaims

/-- `ParentIndex` without the wrapping arithmetic, for indices past the last
row as well. -/
theorem ParentIndex_eq_wide {l i r rp : Nat} (h : kRowIndices[l + 1]? = some r)
    (hp : kRowIndices[l]? = some rp) (hr : r ≤ i) (hi : i < 2 ^ 63) :
    ParentIndex i ((l + 1 : Nat) : Int) =
      some (rp + (i - r) / (if l % 4 = 0 then 2 else 3)) := by
  have h1 : rowIndexAt ((l + 1 : Nat) : Int) = some r := by rw [rowIndexAt_nat, h]
  have h2 : rowIndexAt (((l + 1 : Nat) : Int) - 1) = some rp := by
    have e : ((l + 1 : Nat) : Int) - 1 = (l : Int) := by omega
    rw [e, rowIndexAt_nat, hp]
  have h3 : BranchingFactorForLevel (((l + 1 : Nat) : Int) - 1) =
      some (if l % 4 = 0 then 2 else 3) := by
    have e : ((l + 1 : Nat) : Int) - 1 = (l : Int) := by omega
    rw [e, BranchingFactorForLevel_nat]
  have hpos : (0 : Int) < ((l + 1 : Nat) : Int) := by omega
  have hrp := kRowIndices_le hp
  simp only [ParentIndex, hpos, if_true, h1, h2, h3]
  rw [subSize_eq hr (by omega), addSize_eq]
  have : (i - r) / (if l % 4 = 0 then 2 else 3) ≤ i - r := Nat.div_le_self _ _
  omega

/-- C39 as stated fails for the last row: the index 693079281 is the first of
row 21, `ChildrenOf` returns the range from 1611409329 to 1611409332 for it,
and 1611409329 (`kRowIndices[22]`) lies in no row 22, because the table
`kRowIndices` ends with that entry. -/
theorem C39_counterexample :
    InRow 21 693079281 ∧ ChildrenOf 693079281 21 = some (1611409329, 1611409332) ∧
      kRowIndices[23]? = none ∧ ¬ InRow 22 1611409329 := by
  refine ⟨⟨693079281, 1611409329, rfl, rfl, le_refl _, by omega⟩, rfl, rfl, ?_⟩
  rintro ⟨r, r1, _, h2, _, _⟩
  cases h2

/-- C39 (amended): for every row `l` (0 to 21) and every index `i` in it,
`ChildrenOf(i, l)` returns a range of as many indices as the branching factor
of the row; `ParentIndex(c, l + 1)` is `i` for every index `c` of the range;
the range lies in row `l + 1` when `l` is at most 20, and from
`kRowIndices[22]` on (beyond `kMaxSize`) when `l` is 21; the ranges of two
different indices of the row are disjoint; and for `l` at most 20 every index
of row `l + 1` lies in the range of an index of row `l`. -/
theorem C39_children_and_parent_are_inverse (l i : Nat) (h : InRow l i) :
    ∃ f bf, ChildrenOf i l = some (f, f + bf) ∧ BranchingFactorForLevel l = some bf ∧
      (∀ c, f ≤ c → c < f + bf →
        ParentIndex c ((l + 1 : Nat) : Int) = some i ∧
          (l ≤ 20 → InRow (l + 1) c) ∧ (l = 21 → kMaxSize < c)) ∧
      (∀ j, InRow l j → j ≠ i →
        ∃ g, ChildrenOf j l = some (g, g + bf) ∧ (g + bf ≤ f ∨ f + bf ≤ g)) ∧
      ∀ c, InRow (l + 1) c →
        ∃ j g, InRow l j ∧ ChildrenOf j l = some (g, g + bf) ∧ g ≤ c ∧ c < g + bf := by
  have hle := h.level_le
  have hi := h.lt_max
  obtain ⟨r, r1, h1, h2, h3, h4⟩ := h
  refine ⟨r1 + (i - r) * (if l % 4 = 0 then 2 else 3), if l % 4 = 0 then 2 else 3,
    ChildrenOf_eq h1 h2 h3 hi, BranchingFactorForLevel_nat l, ?_, ?_, ?_⟩
  · intro c hc1 hc2
    have hc4 : r1 ≤ c := by
      have : r1 ≤ r1 + (i - r) * (if l % 4 = 0 then 2 else 3) := Nat.le_add_right _ _
      omega
    have hr1 := kRowIndices_le h2
    have hc3 : c < 2 ^ 63 := by
      have : (i - r) * (if l % 4 = 0 then 2 else 3) ≤ (i - r) * 3 :=
        Nat.mul_le_mul_left _ (by split <;> omega)
      have : (if l % 4 = 0 then 2 else 3) ≤ 3 := by split <;> omega
      omega
    rw [ParentIndex_eq_wide h2 h1 hc4 hc3]
    interval_cases l <;>
      simp [kRowIndices] at h1 h2 <;>
      subst h1 <;> subst h2 <;>
      simp at hc1 hc2 <;>
      simp [kRowIndices, InRow, kMaxSize] <;>
      omega
  · intro j hj hne
    have hj2 := hj.lt_max
    obtain ⟨s, s1, g1, g2, g3, g4⟩ := hj
    rw [h1] at g1
    cases g1
    rw [h2] at g2
    cases g2
    refine ⟨_, ChildrenOf_eq h1 h2 g3 hj2, ?_⟩
    by_cases h4 : l % 4 = 0
    · simp only [h4, if_true]
      omega
    · simp only [h4, if_false]
      omega
  · intro c hc
    obtain ⟨p, hp1, hp2, _⟩ := ParentIndex_spec hc (by omega)
    have hp3 : InRow l p := by simpa using hp2
    obtain ⟨f, bf, e1, _, _, _, e5⟩ := ChildrenOf_spec hp3
    obtain ⟨a, b⟩ := e5 c hc hp1
    have hp4 := hp3.lt_max
    obtain ⟨s, s1, g1, g2, g3, g4⟩ := hp3
    rw [ChildrenOf_eq g1 g2 g3 hp4] at e1
    simp only [Option.some.injEq, Prod.mk.injEq] at e1
    obtain ⟨e6, e7⟩ := e1
    have e8 : bf = if l % 4 = 0 then 2 else 3 := by omega
    subst e8
    exact ⟨p, f, ⟨s, s1, g1, g2, g3, g4⟩, by rw [ChildrenOf_eq g1 g2 g3 hp4, e6], a, b⟩

theorem C39_children_and_parent_are_inverse_witness :
    InRow 1 2 ∧
      ∃ f bf, ChildrenOf 2 (1 : Nat) = some (f, f + bf) ∧
        BranchingFactorForLevel (1 : Nat) = some bf ∧
        (∀ c, f ≤ c → c < f + bf →
          ParentIndex c ((1 + 1 : Nat) : Int) = some 2 ∧
            (1 ≤ 20 → InRow (1 + 1) c) ∧ (1 = 21 → kMaxSize < c)) ∧
        (∀ j, InRow 1 j → j ≠ 2 →
          ∃ g, ChildrenOf j (1 : Nat) = some (g, g + bf) ∧ (g + bf ≤ f ∨ f + bf ≤ g)) ∧
        ∀ c, InRow (1 + 1) c →
          ∃ j g, InRow 1 j ∧ ChildrenOf j (1 : Nat) = some (g, g + bf) ∧ g ≤ c ∧ c < g + bf :=
  ⟨⟨1, 3, rfl, rfl, by omega, by omega⟩,
    C39_children_and_parent_are_inverse 1 2 ⟨1, 3, rfl, rfl, by omega, by omega⟩⟩

end HeapIndexClaims


/-! ## `BoundedPQueue` -/

section BoundedPQLemmas

variable {P A T : Type}

theorem multimapInsert_perm (comp : P → P → Bool) (x : P × T) :
    ∀ l : List (P × T), (multimapInsert comp x l).Perm (x :: l)
  | [] => List.Perm.refl _
  | e :: rest => by
    simp only [multimapInsert]
    split
    · exact List.Perm.refl _
    · exact ((multimapInsert_perm comp x rest).cons e).trans (List.Perm.swap x e rest)

theorem multimapInsert_length (comp : P → P → Bool) (x : P × T) (l : List (P × T)) :
    (multimapInsert comp x l).length = l.length + 1 := by
  simpa using (multimapInsert_perm comp x l).length_eq

theorem multimapInsert_sorted {comp : P → P → Bool} (hc : StrictWeakOrder comp) (x : P × T) :
    ∀ l : List (P × T), l.Pairwise (fun a b => comp b.1 a.1 = false) →
      (multimapInsert comp x l).Pairwise (fun a b => comp b.1 a.1 = false)
  | [], _ => by simp [multimapInsert]
  | e :: rest, hs => by
    obtain ⟨h1, h2⟩ := List.pairwise_cons.mp hs
    simp only [multimapInsert]
    split
    · rename_i hlt
      refine List.pairwise_cons.mpr ⟨?_, hs⟩
      intro b hb
      rcases List.mem_cons.mp hb with rfl | hb
      · exact hc.asymm hlt
      · by_contra hn
        have h3 : comp b.1 x.1 = true := by simpa using hn
        have := hc.trans _ _ _ h3 hlt
        rw [h1 b hb] at this
        cases this
    · rename_i hlt
      refine List.pairwise_cons.mpr ⟨?_, multimapInsert_sorted hc x rest h2⟩
      intro b hb
      rcases List.mem_cons.mp ((multimapInsert_perm comp x rest).subset hb) with rfl | hb
      · simpa using hlt
      · exact h1 b hb

/-- In a sorted multimap no pair has a key greater than the key of the last
pair. -/
theorem last_is_greatest {comp : P → P → Bool} (hc : StrictWeakOrder comp) {l : List (P × T)}
    (hs : l.Pairwise (fun a b => comp b.1 a.1 = false)) {e : P × T}
    (hl : l.getLast? = some e) : ∀ a, a ∈ l → comp e.1 a.1 = false := by
  have e1 : l = l.dropLast ++ [e] := by
    have := List.dropLast_append_getLast? e hl
    exact this.symm
  intro a ha
  rw [e1] at ha hs
  rcases List.mem_append.mp ha with ha | ha
  · exact (List.pairwise_append.mp hs).2.2 a ha e (by simp)
  · have : a = e := by simpa using ha
    rw [this]
    exact hc.irrefl _

theorem bpq_key_comp_eq (conv : P → A) {q r : BoundedPQueue P A T} (h : r.comp = q.comp) :
    r.key_comp conv = q.key_comp conv := by
  funext a b
  simp only [BoundedPQueue.key_comp, h]

theorem bpq_enqueue_total (conv : P → A) (infinity : P) (q : BoundedPQueue P A T) (value : T)
    (priority : P) :
    ∃ r, q.enqueue conv infinity value priority = some r ∧ r.comp = q.comp ∧
      r.maximumSize = q.maximumSize ∧ (q.size ≤ q.maxSize → r.size ≤ r.maxSize) := by
  unfold BoundedPQueue.enqueue
  split
  · exact ⟨q, rfl, rfl, rfl, id⟩
  · simp only [BoundedPQueue.size, BoundedPQueue.maxSize, multimapInsert_length]
    split
    · have hne : multimapInsert (q.key_comp conv) (priority, value) q.elems ≠ [] := by
        intro h
        have := multimapInsert_length (q.key_comp conv) (priority, value) q.elems
        rw [h] at this
        simp at this
      obtain ⟨e, he⟩ : ∃ e,
          (multimapInsert (q.key_comp conv) (priority, value) q.elems).getLast? = some e := by
        cases hg : (multimapInsert (q.key_comp conv) (priority, value) q.elems).getLast? with
        | none => exact absurd (List.getLast?_eq_none_iff.mp hg) hne
        | some e => exact ⟨e, rfl⟩
      rw [he]
      refine ⟨_, rfl, rfl, rfl, ?_⟩
      intro h
      simp only [List.length_dropLast, multimapInsert_length]
      omega
    · refine ⟨_, rfl, rfl, rfl, ?_⟩
      intro _
      simp only [multimapInsert_length]
      omega

theorem bpq_reachable_bounded {conv : P → A} {infinity : P} {maxSize : Nat}
    {comp : A → A → Bool} {q : BoundedPQueue P A T}
    (h : BoundedPQueue.Reachable conv infinity maxSize comp q) :
    q.size ≤ q.maxSize ∧ q.maxSize = maxSize ∧ q.comp = comp := by
  induction h with
  | construct => exact ⟨Nat.zero_le _, rfl, rfl⟩
  | @enqueue q r value priority _ he ih =>
    obtain ⟨r2, h1, h2, h3, h4⟩ := bpq_enqueue_total conv infinity q value priority
    rw [he] at h1
    cases h1
    refine ⟨h4 ih.1, ?_, by rw [h2]; exact ih.2.2⟩
    show r.maximumSize = maxSize
    rw [h3]
    exact ih.2.1
  | @dequeueMin q r _ hd ih =>
    unfold BoundedPQueue.dequeueMin at hd
    split at hd
    · cases hd
    · rename_i e rest hq
      cases hd
      refine ⟨?_, ih.2.1, ih.2.2⟩
      have := ih.1
      simp only [BoundedPQueue.size, BoundedPQueue.maxSize, hq, List.length_cons] at this ⊢
      omega

theorem bpq_enqueue_sorted {conv : P → A} (infinity : P) {q r : BoundedPQueue P A T}
    (hc : StrictWeakOrder (q.key_comp conv)) (hs : q.Sorted conv)
    {value : T} {priority : P} (he : q.enqueue conv infinity value priority = some r) :
    r.Sorted conv := by
  obtain ⟨r2, h1, h2, _, _⟩ := bpq_enqueue_total conv infinity q value priority
  rw [he] at h1
  cases h1
  unfold BoundedPQueue.Sorted
  rw [bpq_key_comp_eq conv h2]
  unfold BoundedPQueue.enqueue at he
  split at he
  · cases he
    exact hs
  · have h1 := multimapInsert_sorted hc (priority, value) q.elems hs
    simp only at he
    split at he
    · split at he
      · cases he
      · cases he
        exact h1.sublist (List.dropLast_sublist _)
    · cases he
      exact h1

theorem bpq_strictWeakOrder {conv : P → A} {comp : A → A → Bool} {q : BoundedPQueue P A T}
    (hc : StrictWeakOrder (fun a b : P => comp (conv a) (conv b))) (hk : q.comp = comp) :
    StrictWeakOrder (q.key_comp conv) := by
  have e : q.key_comp conv = fun a b : P => comp (conv a) (conv b) := by
    funext a b
    simp only [BoundedPQueue.key_comp, hk]
  rw [e]
  exact hc

theorem bpq_reachable_sorted {conv : P → A} {infinity : P} {maxSize : Nat}
    {comp : A → A → Bool} (hc : StrictWeakOrder (fun a b : P => comp (conv a) (conv b)))
    {q : BoundedPQueue P A T} (h : BoundedPQueue.Reachable conv infinity maxSize comp q) :
    q.Sorted conv := by
  induction h with
  | construct => exact List.Pairwise.nil
  | enqueue value priority hq he ih =>
    exact bpq_enqueue_sorted infinity (bpq_strictWeakOrder hc (bpq_reachable_bounded hq).2.2) ih he
  | @dequeueMin q r _ hd ih =>
    unfold BoundedPQueue.dequeueMin at hd
    split at hd
    · cases hd
    · rename_i e rest hq
      cases hd
      have : q.elems.Pairwise (fun a b => q.key_comp conv b.1 a.1 = false) := ih
      rw [hq] at this
      exact (List.pairwise_cons.mp this).2

/-- Every queue produced by the constructor and calls of `enqueue` and
`dequeueMin` has `size() <= maxSize()`, whatever the comparator.  On such a
queue `enqueue` returns; below the maximum size it adds the pair; at the
maximum size, when the calls of the comparator on keys form a strict weak
ordering of the keys, the pairs kept are the old pairs and the new one without
one pair `removed` (possibly the new pair itself), and no old or new pair has
a key that compares greater than that of `removed`. -/
theorem bpq_enqueue_drops_greatest_key (conv : P → A) (infinity : P) (maxSize : Nat)
    (comp : A → A → Bool) (q : BoundedPQueue P A T)
    (h : BoundedPQueue.Reachable conv infinity maxSize comp q) :
    q.size ≤ q.maxSize ∧ q.maxSize = maxSize ∧
    ∀ value priority, ∃ r, q.enqueue conv infinity value priority = some r ∧
      r.size ≤ r.maxSize ∧ r.maxSize = maxSize ∧
      (q.size < q.maxSize → r.elems.Perm ((priority, value) :: q.elems)) ∧
      (StrictWeakOrder (fun a b : P => comp (conv a) (conv b)) → q.size = q.maxSize →
        r.size = q.size ∧
        ∃ removed, ((priority, value) :: q.elems).Perm (removed :: r.elems) ∧
          ∀ e, e ∈ (priority, value) :: q.elems →
            comp (conv removed.1) (conv e.1) = false) := by
  obtain ⟨hb, hm, hk⟩ := bpq_reachable_bounded h
  refine ⟨hb, hm, fun value priority => ?_⟩
  obtain ⟨r, he, _, h3, h4⟩ := bpq_enqueue_total conv infinity q value priority
  refine ⟨r, he, h4 hb, by show r.maximumSize = maxSize; rw [h3]; exact hm, ?_, ?_⟩
  · intro hlt
    have hne : ¬ q.elems.length = q.maximumSize := by
      have h1 : q.elems.length < q.maximumSize := hlt
      omega
    have hlen := multimapInsert_length (q.key_comp conv) (priority, value) q.elems
    have hnd : ¬ q.maximumSize <
        (multimapInsert (q.key_comp conv) (priority, value) q.elems).length := by
      have h1 : q.elems.length < q.maximumSize := hlt
      omega
    simp only [BoundedPQueue.enqueue, hne, decide_False, Bool.false_and, Bool.false_eq_true,
      if_false, BoundedPQueue.size, BoundedPQueue.maxSize, hnd] at he
    cases he
    exact multimapInsert_perm _ _ _
  · intro hc0 heq
    have hs := bpq_reachable_sorted hc0 h
    have hc := bpq_strictWeakOrder hc0 hk
    have hkc : ∀ a b, q.key_comp conv a b = comp (conv a) (conv b) := by
      intro a b
      simp only [BoundedPQueue.key_comp, hk]
    cases hw : q.key_comp conv (q.worst infinity) priority with
    | true =>
      have heq2 : q.elems.length = q.maximumSize := heq
      simp only [BoundedPQueue.enqueue, BoundedPQueue.size, BoundedPQueue.maxSize, heq2,
        decide_True, Bool.true_and, hw, if_true] at he
      cases he
      refine ⟨rfl, (priority, value), List.Perm.refl _, fun e hmem => ?_⟩
      rw [← hkc]
      rcases List.mem_cons.mp hmem with rfl | hmem
      · exact hc.irrefl _
      · obtain ⟨lst, hl⟩ : ∃ lst, q.elems.getLast? = some lst := by
          cases hg : q.elems.getLast? with
          | none =>
            rw [List.getLast?_eq_none_iff.mp hg] at hmem
            cases hmem
          | some lst => exact ⟨lst, rfl⟩
        have hwl : q.worst infinity = lst.1 := by simp [BoundedPQueue.worst, hl]
        have hgr := last_is_greatest hc hs hl e hmem
        rw [hwl] at hw
        by_contra hn
        have h5 : q.key_comp conv priority e.1 = true := by simpa using hn
        have := hc.trans _ _ _ hw h5
        rw [hgr] at this
        cases this
    | false =>
      have hlen := multimapInsert_length (q.key_comp conv) (priority, value) q.elems
      have hd : q.maximumSize <
          (multimapInsert (q.key_comp conv) (priority, value) q.elems).length := by
        have h1 : q.elems.length = q.maximumSize := heq
        omega
      have hne : multimapInsert (q.key_comp conv) (priority, value) q.elems ≠ [] := by
        intro h0
        rw [h0] at hlen
        simp at hlen
      obtain ⟨lst, hl⟩ : ∃ lst,
          (multimapInsert (q.key_comp conv) (priority, value) q.elems).getLast? = some lst := by
        cases hg : (multimapInsert (q.key_comp conv) (priority, value) q.elems).getLast? with
        | none => exact absurd (List.getLast?_eq_none_iff.mp hg) hne
        | some lst => exact ⟨lst, rfl⟩
      simp only [BoundedPQueue.enqueue, hw, Bool.and_false, Bool.false_eq_true, if_false,
        BoundedPQueue.size, BoundedPQueue.maxSize, hd, if_true, hl] at he
      cases he
      have hperm := multimapInsert_perm (q.key_comp conv) (priority, value) q.elems
      have hsplit := List.dropLast_append_getLast? lst hl
      refine ⟨?_, lst, ?_, fun e hmem => ?_⟩
      · simp only [BoundedPQueue.size, List.length_dropLast, hlen]
        omega
      · refine hperm.symm.trans ?_
        show (multimapInsert (q.key_comp conv) (priority, value) q.elems).Perm
          (lst :: (multimapInsert (q.key_comp conv) (priority, value) q.elems).dropLast)
        conv_lhs => rw [← hsplit]
        exact List.perm_append_singleton _ _
      · have hsi := multimapInsert_sorted hc (priority, value) q.elems hs
        have := last_is_greatest hc hsi hl e (hperm.symm.subset hmem)
        rw [hkc] at this
        exact this

theorem doubleToInt_values :
    doubleToInt (11 / 4) = 2 ∧ doubleToInt (9 / 4) = 2 ∧ doubleToInt (17 / 8) = 2 := by
  refine ⟨?_, ?_, ?_⟩ <;>
    · unfold doubleToInt
      norm_num
      rfl

/-- C31 (the code at the failing input): `BoundedPQueue<int> q(2)` with the
default comparator `std::less<int>`, which compares the priorities after
their conversion to `int`.  After `enqueue(7, 2.75)` and `enqueue(8, 2.25)` the
queue is full; `enqueue(9, 2.125)` then returns with the pairs of priority
2.75 and 2.25 in the queue: the pair deleted is the new one, whose priority
2.125 is the lowest of the three and not the highest. -/
theorem C31_default_comparator_drops_lowest (infinity : ℚ) :
    ∃ q1 q2 q3 : BoundedPQueue ℚ Int Int,
      (BoundedPQueue.construct 2 lessInt).enqueue doubleToInt infinity 7 (11 / 4) = some q1 ∧
      q1.enqueue doubleToInt infinity 8 (9 / 4) = some q2 ∧
      q2.size = q2.maxSize ∧
      q2.enqueue doubleToInt infinity 9 (17 / 8) = some q3 ∧
      q2.elems = [(11 / 4, 7), (9 / 4, 8)] ∧ q3.elems = [(11 / 4, 7), (9 / 4, 8)] ∧
      (17 / 8 : ℚ) < 9 / 4 ∧ (9 / 4 : ℚ) < 11 / 4 := by
  obtain ⟨e1, e2, e3⟩ := doubleToInt_values
  refine ⟨⟨[(11 / 4, 7)], lessInt, 2⟩, ⟨[(11 / 4, 7), (9 / 4, 8)], lessInt, 2⟩,
    ⟨[(11 / 4, 7), (9 / 4, 8)], lessInt, 2⟩, ?_, ?_, rfl, ?_, rfl, rfl, by norm_num, by norm_num⟩
  · simp [BoundedPQueue.enqueue, BoundedPQueue.construct, BoundedPQueue.size,
      BoundedPQueue.maxSize, multimapInsert]
  · simp [BoundedPQueue.enqueue, BoundedPQueue.size, BoundedPQueue.maxSize, multimapInsert,
      BoundedPQueue.key_comp, lessInt, e1, e2]
  · simp [BoundedPQueue.enqueue, BoundedPQueue.size, BoundedPQueue.maxSize, multimapInsert,
      BoundedPQueue.key_comp, BoundedPQueue.worst, lessInt, e1, e2, e3]

end BoundedPQLemmas


/-! ## `lower_bound` and `upper_bound` on a path of `2^31` characters -/

section LongQueries

variable {Ch : Type} [LinearOrder Ch] [Inhabited Ch]

/-- The tree that holds the single word `a ... a c` with `N` characters `a`,
searched for `a ... a b` with `b < c`: when the conversion of `N` to `int` is
negative, the backtracking loop of `lower_bound` makes no pass, and
`lower_bound` and `upper_bound` return `end()`, although the word of the tree
is greater than the query. -/
theorem lower_bound_long_path (N : Nat) (hN : backtrackPasses N = 0) (a b c : Ch)
    (hbc : b < c) :
    ∃ r, (ternary_search_tree.empty : ternary_search_tree Ch).insert
        (List.replicate N a ++ [c]) = some r ∧
      Reachable r.2 ∧ r.2.contains (List.replicate N a ++ [c]) ∧
      List.replicate N a ++ [b] < List.replicate N a ++ [c] ∧
      r.2.lower_bound (List.replicate N a ++ [b]) = some r.2.end_ ∧
      r.2.upper_bound (List.replicate N a ++ [b]) = some r.2.end_ := by
  have hinv0 : (ternary_search_tree.empty : ternary_search_tree Ch).Inv := rfl
  have hi := insert_eq hinv0 (List.replicate N a ++ [c])
  have hreach := Reachable.insert Reachable.empty hi
  have hwf := insertNode_WF (ensureRoot_WF hinv0) (List.replicate N a ++ [c])
  have hdead := insertNode_isDead (ternary_search_tree.empty : ternary_search_tree Ch).ensureRoot
    (List.replicate N a ++ [c])
  have hword : ∀ x, (insertNode (ternary_search_tree.empty : ternary_search_tree Ch).ensureRoot
      (List.replicate N a ++ [c])).1.isWordAt x = decide (x = List.replicate N a ++ [c]) := by
    intro x
    rw [insertNode_isWordAt]
    have : (ternary_search_tree.empty : ternary_search_tree Ch).ensureRoot.isWordAt x = false :=
      Node.isWordAt_leaf _ _
    rw [this]
    simp
  have hww := hword (List.replicate N a ++ [c])
  simp only [decide_True] at hww
  obtain ⟨m, hm, _⟩ := Node.deref_of_isWordAt hww
  have hf : mapFind m.mEqual b = none := by
    cases hf : mapFind m.mEqual b with
    | none => rfl
    | some ch =>
      have hd : (insertNode (ternary_search_tree.empty : ternary_search_tree Ch).ensureRoot
          (List.replicate N a ++ [c])).1.deref (List.replicate N a ++ [b]) = some ch := by
        rw [Node.deref_snoc, hm]
        exact hf
      obtain ⟨w, hw, y, hy⟩ := (Node.deref_iff_prefix hwf hdead _).mp ⟨ch, hd⟩
      rw [hword] at hw
      have e : w = List.replicate N a ++ [c] := by simpa using hw
      rw [e, List.append_assoc] at hy
      have e2 := List.append_cancel_left hy
      simp only [List.singleton_append, List.cons.injEq] at e2
      rw [e2.1] at hbc
      exact absurd hbc (lt_irrefl _)
  have hlt : List.replicate N a ++ [b] < List.replicate N a ++ [c] := by
    rw [str_append_lt_append, str_lt_cons_iff]
    exact Or.inl hbc
  have hlb : ternary_search_tree.lower_bound
      (⟨some (insertNode (ternary_search_tree.empty : ternary_search_tree Ch).ensureRoot
          (List.replicate N a ++ [c])).1,
        if (ternary_search_tree.empty : ternary_search_tree Ch).ensureRoot.isWordAt
            (List.replicate N a ++ [c]) then
          (ternary_search_tree.empty : ternary_search_tree Ch).mSize
        else (ternary_search_tree.empty : ternary_search_tree Ch).mSize + 1⟩ :
        ternary_search_tree Ch) (List.replicate N a ++ [b]) = some ⟨[], []⟩ := by
    have hne : List.replicate N a ++ [b] ≠ [] := by simp
    simp only [ternary_search_tree.lower_bound, hne, if_false]
    have hwalk := lowerBoundLoop_walk (t := ⟨some (insertNode
        (ternary_search_tree.empty : ternary_search_tree Ch).ensureRoot
          (List.replicate N a ++ [c])).1,
        if (ternary_search_tree.empty : ternary_search_tree Ch).ensureRoot.isWordAt
            (List.replicate N a ++ [c]) then
          (ternary_search_tree.empty : ternary_search_tree Ch).mSize
        else (ternary_search_tree.empty : ternary_search_tree Ch).mSize + 1⟩) rfl
      (List.replicate N a ++ [b]) b [] (List.replicate N a) [] m (by simpa using hm) hf
    simp only [List.nil_append, List.length_nil, List.length_replicate, hN] at hwalk
    rw [hwalk, backtrackLoop]
    rfl
  refine ⟨_, hi, hreach, ?_, hlt, hlb, ?_⟩
  · exact (contains_iff (t := ⟨some _, _⟩) rfl hwf _).mpr hww
  · simp only [ternary_search_tree.upper_bound, hlb]
    rfl

/-- C4 (the code at the failing input): the tree that holds the single word
of `2^31` characters `a` followed by `c` is reachable, and the query of `2^31`
characters `a` followed by `b` is smaller than that word; `lower_bound` on the
query returns `end()`, where the smallest member at least as large as the
query is that word. -/
theorem C4_lower_bound_long_query_returns_end :
    ∃ r, (ternary_search_tree.empty : ternary_search_tree Char).insert
        (List.replicate (2 ^ 31) 'a' ++ ['c']) = some r ∧
      Reachable r.2 ∧ r.2.contains (List.replicate (2 ^ 31) 'a' ++ ['c']) ∧
      List.replicate (2 ^ 31) 'a' ++ ['b'] < List.replicate (2 ^ 31) 'a' ++ ['c'] ∧
      r.2.lower_bound (List.replicate (2 ^ 31) 'a' ++ ['b']) = some r.2.end_ := by
  obtain ⟨r, h1, h2, h3, h4, h5, _⟩ :=
    lower_bound_long_path (2 ^ 31) (by decide) 'a' 'b' 'c' (by decide)
  exact ⟨r, h1, h2, h3, h4, h5⟩

/-- C5 (the code at the failing input): the tree that holds the single word
of `2^31` characters `m` followed by `z` is reachable, and the query of `2^31`
characters `m` followed by `y` is smaller than that word; `upper_bound` on the
query returns `end()`, where the smallest member greater than the query is
that word. -/
theorem C5_upper_bound_long_query_returns_end :
    ∃ r, (ternary_search_tree.empty : ternary_search_tree Char).insert
        (List.replicate (2 ^ 31) 'm' ++ ['z']) = some r ∧
      Reachable r.2 ∧ r.2.contains (List.replicate (2 ^ 31) 'm' ++ ['z']) ∧
      List.replicate (2 ^ 31) 'm' ++ ['y'] < List.replicate (2 ^ 31) 'm' ++ ['z'] ∧
      r.2.upper_bound (List.replicate (2 ^ 31) 'm' ++ ['y']) = some r.2.end_ := by
  obtain ⟨r, h1, h2, h3, h4, _, h6⟩ :=
    lower_bound_long_path (2 ^ 31) (by decide) 'm' 'y' 'z' (by decide)
  exact ⟨r, h1, h2, h3, h4, h6⟩

end LongQueries

end util
